import Mathlib

/-!
# Shortest-path engine of the Cartesian CEGAR planner

A shallow embedding of `src/search/cegar/shortest_paths.cc` and theorems about it,
followed by `compute_sum_h` of `src/search/cost_saturation/utils.cc` and
`build_patterns_naive` of `src/search/pdbs/pattern_collection_generator_systematic.cc`.

Conventions of the embedding.

* The C++ type `Cost` (`uint64_t`) is `Nat`, every arithmetic result reduced
  modulo `2 ^ 64`.
* External costs are the C++ `int`: an integer; `static_cast<int>` of a 64-bit
  value keeps the low 32 bits in two's complement.
* State and operator ids are natural numbers.  The default-constructed
  `Transition()` (both fields `UNDEFINED`) is `none` in the `shortest_path`
  vector, a constructed `Transition(op, target)` is `some ⟨op, target⟩`.
* `assert` is compiled in or out by `NDEBUG`; every function takes the flag
  `assertions` (true: assertions compiled in) and aborts with the source line of
  the failing assertion.
* A `while` loop takes a fuel argument; running out of fuel is the outcome
  `timeout`, which is no outcome of the program.
* Reading a vector outside its bounds is undefined in C++; the embedding reads a
  default there, and where the program would go on with an undefined transition
  the outcome is `ub`.
-/

namespace cegar

/-- Outcome of running a piece of the program. -/
inductive Run (α : Type) where
  | ok (a : α)
  | abort (line : Nat)
  | ub
  | timeout
  deriving DecidableEq, Repr

/-- Sequencing of outcomes. -/
def Run.bind {α β : Type} (r : Run α) (k : α → Run β) : Run β :=
  match r with
  | .ok a => k a
  | .abort l => .abort l
  | .ub => .ub
  | .timeout => .timeout

/-- A `for` loop over `xs` whose body may abort. -/
def Run.foldl {σ α : Type} (f : σ → α → Run σ) : σ → List α → Run σ
  | s, [] => .ok s
  | s, a :: as => (f s a).bind (fun s1 => Run.foldl f s1 as)

/-- The C `assert(cond)` at source line `line`, followed by `k`. -/
def check {α : Type} (assertions cond : Bool) (line : Nat) (k : Run α) : Run α :=
  if assertions && !cond then .abort line else k

/-- Modulus of the 64-bit unsigned arithmetic. -/
def WORD : Nat := 2 ^ 64

/-- `numeric_limits<Nat>::max()` (line 15). -/
def INF_COSTS : Nat := 2 ^ 64 - 1

/-- `numeric_limits<Nat>::max() - 1` (line 16). -/
def DIRTY : Nat := 2 ^ 64 - 2

/-- The 32-bit infinity `numeric_limits<int>::max()`. -/
def INF : Int := 2 ^ 31 - 1

/-- Unsigned 64-bit addition. -/
def add64 (a b : Nat) : Nat := (a + b) % 2 ^ 64

/-- `static_cast<int>(x)` for a 64-bit unsigned `x`. -/
def toInt32 (x : Nat) : Int :=
  if x % 2 ^ 32 < 2 ^ 31 then ((x % 2 ^ 32 : Nat) : Int) else ((x % 2 ^ 32 : Nat) : Int) - 2 ^ 32

/-- `static_cast<uint64_t>(c)` for an `int` `c`. -/
def toUInt64 (c : Int) : Nat := (c % 2 ^ 64).toNat

/-- The member initialiser of line 20: does some cost equal zero. -/
def has_zero_cost (costs : List Int) : Bool := costs.any (fun c => c == 0)

/-- `ShortestPaths::convert_to_32_bit_cost` (lines 51-60). -/
def convert_to_32_bit_cost (assertions task_has_zero_costs : Bool) (cost : Nat) : Run Int :=
  check assertions (cost != DIRTY) 52 <|
    if cost == INF_COSTS then .ok INF
    else if task_has_zero_costs then .ok (toInt32 (cost / 2 ^ 32))
    else .ok (toInt32 cost)

/-- `ShortestPaths::convert_to_64_bit_cost` (lines 62-75). -/
def convert_to_64_bit_cost (assertions task_has_zero_costs : Bool) (cost : Int) : Run Nat :=
  check assertions (decide (cost ≥ 0)) 63 <|
    if cost == INF then .ok INF_COSTS
    else if task_has_zero_costs then
      if cost == 0 then .ok 1
      else .ok ((toUInt64 cost * 2 ^ 32) % 2 ^ 64)
    else .ok (toUInt64 cost)

/-- A transition `(op_id, target_id)` of the abstract transition system. -/
structure Transition where
  op_id : Nat
  target_id : Nat
  deriving DecidableEq, Repr

/-- The type `Transitions` of the source: a vector of transitions. -/
abbrev Transitions := List Transition

/-- Modelled from the spec: the queue class of `open_queue` and `candidate_queue`
is not part of the sources at hand; the spec describes a min-heap of
`(cost, vertex)` entries with `clear`, `push`, `pop`, `empty`, where several
entries of one vertex may coexist. The entries are kept in a list. -/
abbrev HeapQueue := List (Nat × Nat)

/-- Modelled from the spec: `push(cost, v)` adds one entry. -/
def HeapQueue.push (q : HeapQueue) (key : Nat) (value : Nat) : HeapQueue :=
  q ++ [(key, value)]

/-- Modelled from the spec: `pop()` removes and returns an entry of minimum
cost (the oldest one among equals here); `none` on the empty queue. -/
def HeapQueue.pop : HeapQueue → Option ((Nat × Nat) × HeapQueue)
  | [] => none
  | x :: xs =>
    match HeapQueue.pop xs with
    | none => some (x, [])
    | some (y, rest) => if x.1 ≤ y.1 then some (x, xs) else some (y, x :: rest)

/-- The data members of `ShortestPaths` (the logging flag `debug` has no effect
on the computation and is left out). -/
structure ShortestPaths where
  task_has_zero_costs : Bool
  operator_costs : List Nat
  candidate_queue : HeapQueue
  open_queue : HeapQueue
  goal_distances : List Nat
  dirty_candidate : List Bool
  dirty_states : List Nat
  shortest_path : List (Option Transition)
  deriving DecidableEq, Repr

/-- `std::vector::resize(n, d)`. -/
def resize {α : Type} (xs : List α) (n : Nat) (d : α) : List α :=
  xs.take n ++ List.replicate (n - xs.length) d

/-- The constructor `ShortestPaths::ShortestPaths` (lines 18-49). -/
def ShortestPaths.new (assertions : Bool) (costs : List Int) : Run ShortestPaths :=
  let task_has_zero_costs := has_zero_cost costs
  (Run.foldl (fun (acc : List Nat) (cost : Int) =>
      (convert_to_64_bit_cost assertions task_has_zero_costs cost).bind
        (fun c => .ok (acc ++ [c]))) [] costs).bind
    (fun operator_costs => .ok
      { task_has_zero_costs := task_has_zero_costs
        operator_costs := operator_costs
        candidate_queue := []
        open_queue := []
        goal_distances := []
        dirty_candidate := []
        dirty_states := []
        shortest_path := [] })

/-- The `while` loop of `extract_solution_from_shortest_path_tree` (lines 86-95). -/
def extract_loop (assertions : Bool) (sp : ShortestPaths) (goals : List Nat) :
    Nat → Nat → List Transition → Run (List Transition)
  | 0, _, _ => .timeout
  | fuel + 1, current_state, solution =>
    if goals.contains current_state then .ok solution
    else
      check assertions (decide (current_state < sp.shortest_path.length)) 87 <|
      match sp.shortest_path.getD current_state none with
      | none => check assertions false 89 .ub
      | some t =>
        check assertions (t.target_id != current_state) 91 <|
        check assertions (decide (sp.goal_distances.getD t.target_id 0
            ≤ sp.goal_distances.getD current_state 0)) 92 <|
        extract_loop assertions sp goals fuel t.target_id (solution ++ [t])

/-- `ShortestPaths::extract_solution_from_shortest_path_tree` (lines 77-97);
`none` is the null pointer. The engine state is only read. -/
def extract_solution_from_shortest_path_tree (assertions : Bool) (sp : ShortestPaths)
    (init_id : Nat) (goals : List Nat) (fuel : Nat) : Run (Option (List Transition)) :=
  if sp.goal_distances.getD init_id 0 == INF_COSTS then .ok none
  else
    check assertions (!goals.contains init_id) 85 <|
    (extract_loop assertions sp goals fuel init_id []).bind (fun s => .ok (some s))

/-- `ShortestPaths::mark_dirty` (lines 99-108). -/
def mark_dirty (assertions : Bool) (sp : ShortestPaths) (state : Nat) : Run ShortestPaths :=
  let sp1 := { sp with
    goal_distances := sp.goal_distances.set state DIRTY
    shortest_path := sp.shortest_path.set state none }
  check assertions (!sp1.dirty_states.contains state) 106 <|
  .ok { sp1 with dirty_states := sp1.dirty_states ++ [state] }

/-- `ShortestPaths::mark_orphaned_predecessors` (lines 110-122); the recursion
depth is bounded by the fuel. -/
def mark_orphaned_predecessors (assertions : Bool) (in_ : List Transitions) :
    Nat → ShortestPaths → Nat → Run ShortestPaths
  | 0, _, _ => .timeout
  | fuel + 1, sp, state =>
    (mark_dirty assertions sp state).bind fun sp1 =>
    Run.foldl (fun (sp2 : ShortestPaths) (t : Transition) =>
        let prev := t.target_id
        check assertions (prev != state) 115 <|
        if sp2.goal_distances.getD prev 0 != DIRTY &&
            (sp2.shortest_path.getD prev none).map Transition.target_id == some state then
          mark_orphaned_predecessors assertions in_ fuel sp2 prev
        else .ok sp2)
      sp1 (in_.getD state [])

/-- Body of the inner loop of lines 175-183: redirect the tree arc of the source
`u` of one incoming transition of `state`. -/
def redirect_step (v state : Nat) (sp : ShortestPaths) (incoming : Transition) : ShortestPaths :=
  let u := incoming.target_id
  let op := incoming.op_id
  match sp.shortest_path.getD u none with
  | none => sp
  | some arc =>
    if arc.target_id == v &&
        sp.operator_costs.getD op 0 == sp.operator_costs.getD arc.op_id 0 then
      { sp with shortest_path := sp.shortest_path.set u (some ⟨op, state⟩) }
    else sp

/-- The loop of lines 174-184 over `{v1, v2}`. -/
def redirect_arcs (in_ : List Transitions) (v v1 v2 : Nat) (sp : ShortestPaths) : ShortestPaths :=
  [v1, v2].foldl (fun sp1 state => (in_.getD state []).foldl (redirect_step v state) sp1) sp

/-- The test of lines 221-225 on one outgoing transition of `state`. -/
def can_reconnect (sp : ShortestPaths) (state : Nat) (t : Transition) : Bool :=
  let succ := t.target_id
  let op_id := t.op_id
  sp.goal_distances.getD succ 0 != DIRTY &&
  sp.goal_distances.getD succ 0 != INF_COSTS &&
  sp.operator_costs.getD op_id 0 != INF_COSTS &&
  add64 (sp.goal_distances.getD succ 0) (sp.operator_costs.getD op_id 0)
    == sp.goal_distances.getD state 0

/-- Body of the loop of lines 236-247: enqueue one tree child of a state that
has just been marked dirty. -/
def push_candidate (state : Nat) (sp : ShortestPaths) (t : Transition) : ShortestPaths :=
  let prev := t.target_id
  if !sp.dirty_candidate.getD prev false &&
      sp.goal_distances.getD prev 0 != DIRTY &&
      (sp.shortest_path.getD prev none).map Transition.target_id == some state then
    { sp with
      dirty_candidate := sp.dirty_candidate.set prev true
      candidate_queue := sp.candidate_queue.push (sp.goal_distances.getD prev 0) prev }
  else sp

/-- The `while` loop of lines 207-250 over the candidate queue. -/
def candidate_loop (assertions : Bool) (in_ out : List Transitions) :
    Nat → ShortestPaths → Run ShortestPaths
  | 0, _ => .timeout
  | fuel + 1, sp =>
    match sp.candidate_queue.pop with
    | none => .ok sp
    | some ((_, state), q) =>
      let sp1 := { sp with candidate_queue := q }
      check assertions (sp1.dirty_candidate.getD state false) 213 <|
      check assertions (sp1.goal_distances.getD state 0 != INF_COSTS) 214 <|
      check assertions (sp1.goal_distances.getD state 0 != DIRTY) 215 <|
      match (out.getD state []).find? (can_reconnect sp1 state) with
      | some t =>
        candidate_loop assertions in_ out fuel
          { sp1 with
            shortest_path := sp1.shortest_path.set state (some ⟨t.op_id, t.target_id⟩)
            dirty_candidate := sp1.dirty_candidate.set state false }
      | none =>
        (mark_dirty assertions sp1 state).bind fun sp2 =>
        let sp3 := (in_.getD state []).foldl (push_candidate state) sp2
        candidate_loop assertions in_ out fuel
          { sp3 with dirty_candidate := sp3.dirty_candidate.set state false }

/-- Body of the inner loop of lines 287-300: one outgoing transition of the dirty
state `state`, with the running minimum `min_dist`. -/
def seed_step (assertions : Bool) (state : Nat) (acc : Nat × ShortestPaths) (t : Transition) :
    Run (Nat × ShortestPaths) :=
  let min_dist := acc.1
  let sp := acc.2
  let succ := t.target_id
  let op_id := t.op_id
  if sp.goal_distances.getD succ 0 != DIRTY then
    let succ_dist := sp.goal_distances.getD succ 0
    let cost := sp.operator_costs.getD op_id 0
    check assertions (cost != INF_COSTS) 293 <|
    let new_dist := if cost != INF_COSTS && succ_dist != INF_COSTS
      then add64 cost succ_dist else INF_COSTS
    if new_dist < min_dist then
      .ok (new_dist, { sp with shortest_path := sp.shortest_path.set state (some ⟨op_id, succ⟩) })
    else .ok (min_dist, sp)
  else .ok (min_dist, sp)

/-- Body of the loop of lines 283-307 for one dirty state. -/
def seed_state (assertions : Bool) (out : List Transitions) (sp : ShortestPaths) (state : Nat) :
    Run ShortestPaths :=
  check assertions (sp.goal_distances.getD state 0 == DIRTY) 285 <|
  (Run.foldl (seed_step assertions state) (INF_COSTS, sp) (out.getD state [])).bind fun acc =>
  let min_dist := acc.1
  let sp1 := { acc.2 with goal_distances := acc.2.goal_distances.set state min_dist }
  if min_dist != INF_COSTS then
    .ok { sp1 with open_queue := sp1.open_queue.push min_dist state }
  else .ok sp1

/-- Body of the inner loop of lines 317-329: relax one incoming transition of the
popped `state` with key `g`. -/
def orphan_relax (assertions : Bool) (g : Nat) (state : Nat) (sp : ShortestPaths)
    (t : Transition) : Run ShortestPaths :=
  let succ := t.target_id
  let op_id := t.op_id
  let cost := sp.operator_costs.getD op_id 0
  check assertions (cost != INF_COSTS) 321 <|
  let succ_g := add64 cost g
  if sp.goal_distances.getD succ 0 == DIRTY || succ_g < sp.goal_distances.getD succ 0 then
    .ok { sp with
      goal_distances := sp.goal_distances.set succ succ_g
      shortest_path := sp.shortest_path.set succ (some ⟨op_id, state⟩)
      open_queue := sp.open_queue.push succ_g succ }
  else .ok sp

/-- The `while` loop of lines 308-330 over the open queue. -/
def orphan_loop (assertions : Bool) (in_ : List Transitions) :
    Nat → ShortestPaths → Run ShortestPaths
  | 0, _ => .timeout
  | fuel + 1, sp =>
    match sp.open_queue.pop with
    | none => .ok sp
    | some ((g, state), q) =>
      let sp1 := { sp with open_queue := q }
      check assertions (sp1.goal_distances.getD state 0 != DIRTY) 312 <|
      if g > sp1.goal_distances.getD state 0 then orphan_loop assertions in_ fuel sp1
      else
        check assertions (g == sp1.goal_distances.getD state 0) 315 <|
        check assertions (g != INF_COSTS) 316 <|
        (Run.foldl (orphan_relax assertions g state) sp1 (in_.getD state [])).bind fun sp2 =>
        orphan_loop assertions in_ fuel sp2

/-- The debug block of lines 264-268: every state with distance `DIRTY` occurs
exactly once in `dirty_states`. -/
def dirty_states_consistent (sp : ShortestPaths) (num_states : Nat) : Bool :=
  (List.range num_states).all fun i =>
    sp.goal_distances.getD i 0 != DIRTY || sp.dirty_states.count i == 1

/-- Lines 139-141: the vectors are resized to the new number of states and
`dirty_states` is cleared. -/
def split_init (sp : ShortestPaths) (num_states : Nat) : ShortestPaths :=
  { sp with
    shortest_path := resize sp.shortest_path num_states none
    goal_distances := resize sp.goal_distances num_states 0
    dirty_states := [] }

/-- Lines 164 and 169: `v1` and `v2` get the goal distance of `v`, and `v2` gets
the tree arc of `v`. -/
def split_copy (sp : ShortestPaths) (v v1 v2 : Nat) : ShortestPaths :=
  let h := sp.goal_distances.getD v 0
  let sp1 := { sp with goal_distances := (sp.goal_distances.set v2 h).set v1 h }
  { sp1 with shortest_path := sp1.shortest_path.set v2 (sp1.shortest_path.getD v none) }

/-- Lines 203-205: `v1` becomes the first candidate. -/
def candidate_init (sp : ShortestPaths) (num_states v1 : Nat) : ShortestPaths :=
  let sp1 := { sp with
    dirty_candidate := (resize sp.dirty_candidate num_states false).set v1 true }
  { sp1 with candidate_queue := sp1.candidate_queue.push (sp1.goal_distances.getD v1 0) v1 }

/-- `ShortestPaths::dijkstra_from_orphans` (lines 124-331). -/
def dijkstra_from_orphans (assertions : Bool) (sp : ShortestPaths) (in_ out : List Transitions)
    (v v1 v2 : Nat) (filter_orphans : Bool) (fuel : Nat) : Run ShortestPaths :=
  check assertions (in_.length == out.length) 137 <|
  let num_states := in_.length
  let sp0 := split_init sp num_states
  let old_arc := sp0.shortest_path.getD v none
  let v1_settled := (out.getD v1 []).any fun t => some t == old_arc
  let v2_settled := (out.getD v2 []).any fun t => some t == old_arc
  check assertions (xor v1_settled v2_settled) 159 <|
  check assertions v2_settled 160 <|
  let sp3 := redirect_arcs in_ v v1 v2 (split_copy sp0 v v1 v2)
  (if filter_orphans then
    check assertions sp3.candidate_queue.isEmpty 200 <|
    check assertions (!sp3.dirty_candidate.contains true) 201 <|
    candidate_loop assertions in_ out fuel (candidate_init sp3 num_states v1)
  else
    mark_orphaned_predecessors assertions in_ fuel sp3 v1).bind fun sp6 =>
  check assertions (decide (sp6.dirty_states.length < in_.length)) 261 <|
  check assertions (dirty_states_consistent sp6 num_states) 266 <|
  let sp7 := { sp6 with open_queue := [] }
  (Run.foldl (seed_state assertions out) sp7 sp7.dirty_states).bind fun sp8 =>
  orphan_loop assertions in_ fuel sp8

/-- Body of the inner loop of lines 356-365: relax one incoming transition of
the popped `state_id` whose distance is `g`. -/
def full_relax (g : Nat) (state_id : Nat) (sp : ShortestPaths) (t : Transition) : ShortestPaths :=
  let succ_id := t.target_id
  let op_id := t.op_id
  let op_cost := sp.operator_costs.getD op_id 0
  let succ_g := if op_cost == INF_COSTS then INF_COSTS else add64 g op_cost
  if succ_g < sp.goal_distances.getD succ_id 0 then
    { sp with
      goal_distances := sp.goal_distances.set succ_id succ_g
      shortest_path := sp.shortest_path.set succ_id (some ⟨op_id, state_id⟩)
      open_queue := sp.open_queue.push succ_g succ_id }
  else sp

/-- The `while` loop of lines 345-367. -/
def full_loop (assertions : Bool) (in_ : List Transitions) :
    Nat → ShortestPaths → Run ShortestPaths
  | 0, _ => .timeout
  | fuel + 1, sp =>
    match sp.open_queue.pop with
    | none => .ok sp
    | some ((old_g, state_id), q) =>
      let sp1 := { sp with open_queue := q }
      let g := sp1.goal_distances.getD state_id 0
      check assertions (decide (g < INF_COSTS)) 351 <|
      check assertions (decide (g ≤ old_g)) 352 <|
      if g < old_g then full_loop assertions in_ fuel sp1
      else
        check assertions (decide (state_id < in_.length)) 355 <|
        full_loop assertions in_ fuel ((in_.getD state_id []).foldl (full_relax g state_id) sp1)

/-- Body of the loop of lines 339-344 for one goal state. -/
def init_goal (sp : ShortestPaths) (goal : Nat) : ShortestPaths :=
  { sp with
    goal_distances := sp.goal_distances.set goal 0
    shortest_path := sp.shortest_path.set goal none
    open_queue := sp.open_queue.push 0 goal }

/-- `ShortestPaths::full_dijkstra` (lines 333-368); `goals` lists the goal set in
its iteration order. -/
def full_dijkstra (assertions : Bool) (sp : ShortestPaths) (in_ : List Transitions)
    (goals : List Nat) (fuel : Nat) : Run ShortestPaths :=
  let sp1 := { sp with
    open_queue := []
    shortest_path := resize sp.shortest_path in_.length none
    goal_distances := List.replicate in_.length INF_COSTS }
  full_loop assertions in_ fuel (goals.foldl init_goal sp1)

/-! ## Specification vocabulary and scenario data -/

/-- Sum of the external costs of the operators of a transition sequence. -/
def solution_cost (costs : List Int) (sol : List Transition) : Int :=
  (sol.map fun t => costs.getD t.op_id 0).sum

/-- Sum of the internal (64-bit) costs of the operators of a transition sequence. -/
def solution_cost64 (sp : ShortestPaths) (sol : List Transition) : Nat :=
  (sol.map fun t => sp.operator_costs.getD t.op_id 0).sum

/-- The sequence `sol` follows the tree arcs from `u`. -/
def IsTreeWalk (sp : ShortestPaths) (out : List Transitions) (goals : List Nat) :
    Nat → List Transition → Prop
  | _, [] => True
  | u, t :: rest =>
    u ∉ goals ∧ sp.shortest_path.getD u none = some t ∧ t ∈ out.getD u [] ∧
      IsTreeWalk sp out goals t.target_id rest

/-- The state reached from `u` by the transition sequence. -/
def walk_end : Nat → List Transition → Nat
  | u, [] => u
  | _, t :: rest => walk_end t.target_id rest

/-- The engine state is a shortest-path tree of the graph `out` with goal set
`goals`: distances are 64-bit values, goal states have distance 0, and every
non-goal state with a distance other than `INF_COSTS` has a tree arc that is one
of its outgoing transitions, leads to a state of the graph and satisfies the
cost equation (without wrap-around). -/
structure TreeValid (sp : ShortestPaths) (out : List Transitions) (goals : List Nat) : Prop where
  word : ∀ u, sp.goal_distances.getD u 0 < 2 ^ 64
  goal_zero : ∀ g ∈ goals, sp.goal_distances.getD g 0 = 0
  arc : ∀ u, u < sp.goal_distances.length → u ∉ goals →
    sp.goal_distances.getD u 0 ≠ INF_COSTS →
    ∃ t, sp.shortest_path.getD u none = some t ∧ t ∈ out.getD u [] ∧
      t.target_id < sp.goal_distances.length ∧
      sp.goal_distances.getD u 0
        = sp.goal_distances.getD t.target_id 0 + sp.operator_costs.getD t.op_id 0

/-- The states visited by a walk, the start included. -/
def walk_states : Nat → List Transition → List Nat
  | u, [] => [u]
  | u, t :: rest => u :: walk_states t.target_id rest

/-- Backward adjacency of the chain `0 -op0-> 1 -op1-> 2` (scenario S2). -/
def chain_in : List Transitions := [[], [⟨0, 0⟩], [⟨1, 1⟩]]

/-- Forward adjacency of the chain `0 -op0-> 1 -op1-> 2`. -/
def chain_out : List Transitions := [[⟨0, 1⟩], [⟨1, 2⟩], []]

/-- The engine state after `full_dijkstra` on the chain with goal 2, for a cost
table `[c0, c1]` without zero. -/
def chain_state (c0 c1 : Nat) : ShortestPaths :=
  ⟨false, [c0, c1], [], [], [c0 + c1, c1, 0], [], [], [some ⟨0, 1⟩, some ⟨1, 2⟩, none]⟩

/-- Backward adjacency of scenario S3 after the split of state 1 into 1 and 3. -/
def split_in : List Transitions := [[], [⟨0, 0⟩], [⟨1, 3⟩], [⟨0, 0⟩]]

/-- Forward adjacency of scenario S3 after the split of state 1 into 1 and 3. -/
def split_out : List Transitions := [[⟨0, 1⟩, ⟨0, 3⟩], [], [], [⟨1, 2⟩]]

/-- The engine state in which `dijkstra_from_orphans` returns in scenario S3. -/
def split_state : ShortestPaths :=
  ⟨false, [3, 4], [], [], [7, INF_COSTS, 0, 4], [false, false, false, false], [1],
    [some ⟨0, 3⟩, none, none, some ⟨1, 2⟩]⟩

/-- `GoalWalk in_ goals u ops`: the operators `ops` label a path from `u` to a
goal state in the graph whose backward adjacency is `in_` (the transition
`⟨op, u⟩` in `in_[s]` is the arc from `u` to `s` labelled `op`). -/
inductive GoalWalk (in_ : List Transitions) (goals : List Nat) : Nat → List Nat → Prop where
  | goal {g : Nat} : g ∈ goals → GoalWalk in_ goals g []
  | step {s u op : Nat} {ops : List Nat} : GoalWalk in_ goals s ops →
      (⟨op, u⟩ : Transition) ∈ in_.getD s [] → GoalWalk in_ goals u (op :: ops)

/-- Sum of the internal costs of a list of operators (no wrap-around). -/
def walk_cost64 (ocs : List Nat) (ops : List Nat) : Nat :=
  (ops.map fun op => ocs.getD op 0).sum

/-- No operator of the list has the internal cost `INF_COSTS`. -/
def FiniteOps (ocs : List Nat) (ops : List Nat) : Prop :=
  ∀ op ∈ ops, ocs.getD op 0 ≠ INF_COSTS

/-- The distance of `x` is finite and no path of finite-cost operators from `x`
to a goal is cheaper. -/
def Settled (in_ : List Transitions) (goals : List Nat) (sp : ShortestPaths) (x : Nat) : Prop :=
  sp.goal_distances.getD x 0 ≠ INF_COSTS ∧
  ∀ ops, GoalWalk in_ goals x ops → FiniteOps sp.operator_costs ops →
    sp.goal_distances.getD x 0 ≤ walk_cost64 sp.operator_costs ops

/-- Invariant of the main loop of `full_dijkstra`; `exc u t` excepts the incoming
transitions of the state that is being expanded and are not relaxed yet. -/
structure FullInv (in_ : List Transitions) (goals : List Nat) (ocs : List Nat)
    (exc : Nat → Transition → Prop) (sp : ShortestPaths) : Prop where
  len : sp.goal_distances.length = in_.length
  plen : sp.shortest_path.length = in_.length
  costs : sp.operator_costs = ocs
  word : ∀ u, sp.goal_distances.getD u 0 ≤ INF_COSTS
  sound : ∀ u, u < in_.length → sp.goal_distances.getD u 0 ≠ INF_COSTS →
    ∃ ops, GoalWalk in_ goals u ops ∧ FiniteOps ocs ops ∧
      walk_cost64 ocs ops = sp.goal_distances.getD u 0
  queue : ∀ k u, (k, u) ∈ sp.open_queue →
    u < in_.length ∧ sp.goal_distances.getD u 0 ≤ k ∧ k < INF_COSTS
  closed : ∀ u, u < in_.length → sp.goal_distances.getD u 0 ≠ INF_COSTS →
    (sp.goal_distances.getD u 0, u) ∈ sp.open_queue ∨
    ∀ t ∈ in_.getD u [], ¬ exc u t → ocs.getD t.op_id 0 ≠ INF_COSTS →
      sp.goal_distances.getD t.target_id 0 ≤ sp.goal_distances.getD u 0 + ocs.getD t.op_id 0
  goal : ∀ g ∈ goals, sp.goal_distances.getD g 0 = 0
  tree : ∀ u, u < in_.length → u ∉ goals → sp.goal_distances.getD u 0 ≠ INF_COSTS →
    ∃ t, sp.shortest_path.getD u none = some t ∧ t.target_id < in_.length ∧
      (⟨t.op_id, u⟩ : Transition) ∈ in_.getD t.target_id [] ∧
      ocs.getD t.op_id 0 ≠ INF_COSTS ∧
      sp.goal_distances.getD u 0 = sp.goal_distances.getD t.target_id 0 + ocs.getD t.op_id 0 ∧
      Settled in_ goals sp t.target_id

/-- Well-formedness of a backward adjacency and a goal set: the sources of the
transitions and the goal states are states of the graph. -/
structure GraphOk (in_ : List Transitions) (goals : List Nat) : Prop where
  src : ∀ s t, t ∈ in_.getD s [] → t.target_id < in_.length
  goals_lt : ∀ g ∈ goals, g < in_.length

/-- No overflow: every state that reaches a goal by finite-cost operators does so
by a path of cost below `bound`, and `bound` plus the finite cost of an operator
on an arc of the graph stays below `INF_COSTS`. -/
structure NoOverflow (in_ : List Transitions) (goals : List Nat) (ocs : List Nat)
    (bound : Nat) : Prop where
  path : ∀ u ops, GoalWalk in_ goals u ops → FiniteOps ocs ops →
    ∃ ops1, GoalWalk in_ goals u ops1 ∧ FiniteOps ocs ops1 ∧ walk_cost64 ocs ops1 < bound
  cost : ∀ s t, t ∈ in_.getD s [] → ocs.getD t.op_id 0 ≠ INF_COSTS →
    bound + ocs.getD t.op_id 0 < INF_COSTS
  lt : bound < INF_COSTS

/-- Termination measure of the Dijkstra loops. -/
def loop_measure (sp : ShortestPaths) : Nat :=
  2 * sp.goal_distances.sum + sp.open_queue.length

/-- The members of the engine that the Dijkstra loops do not touch. -/
structure Frame (sp sp1 : ShortestPaths) : Prop where
  zero : sp1.task_has_zero_costs = sp.task_has_zero_costs
  costs : sp1.operator_costs = sp.operator_costs
  cq : sp1.candidate_queue = sp.candidate_queue
  dc : sp1.dirty_candidate = sp.dirty_candidate
  ds : sp1.dirty_states = sp.dirty_states

/-- The state in which `full_dijkstra` enters its main loop. -/
def full_start (sp : ShortestPaths) (in_ : List Transitions) (goals : List Nat) : ShortestPaths :=
  goals.foldl init_goal
    { sp with
      open_queue := []
      shortest_path := resize sp.shortest_path in_.length none
      goal_distances := List.replicate in_.length INF_COSTS }

/-- What `full_dijkstra` establishes. -/
structure FullPost (in_ : List Transitions) (goals : List Nat) (sp1 : ShortestPaths) : Prop where
  inv : FullInv in_ goals sp1.operator_costs (fun _ _ => False) sp1
  empty : sp1.open_queue = []
  optimal : ∀ u ops, GoalWalk in_ goals u ops → FiniteOps sp1.operator_costs ops →
    sp1.goal_distances.getD u 0 ≤ walk_cost64 sp1.operator_costs ops

/-- Sum of the external costs of a list of operators. -/
def walk_cost (costs : List Int) (ops : List Nat) : Int :=
  (ops.map fun op => costs.getD op 0).sum

/-- Every operator of the list has an external cost other than `INF`. -/
def FinitePath (costs : List Int) (ops : List Nat) : Prop :=
  ∀ op ∈ ops, costs.getD op 0 ≠ INF

/-- The proviso of the decoding: every path of finite-cost operators to a goal
can be replaced by one from the same state that costs no more, has fewer than
`2 ^ 32` operators and an external cost below `INF`. -/
def ShortCheapPaths (costs : List Int) (in_ : List Transitions) (goals : List Nat) : Prop :=
  ∀ u ops, GoalWalk in_ goals u ops → FinitePath costs ops →
    ∃ ops1, GoalWalk in_ goals u ops1 ∧ FinitePath costs ops1 ∧
      walk_cost costs ops1 ≤ walk_cost costs ops ∧ ops1.length < 2 ^ 32 ∧
      walk_cost costs ops1 < INF

/-- The decoded goal distance of every state `u` is the minimum external cost of
a path of finite-cost operators from `u` to a goal, and `INF` if there is no such
path. -/
def DecodedMin (assertions : Bool) (costs : List Int) (in_ : List Transitions)
    (goals : List Nat) (sp1 : ShortestPaths) : Prop :=
  ∀ u, u < in_.length →
    ((¬ ∃ ops, GoalWalk in_ goals u ops ∧ FinitePath costs ops) →
      convert_to_32_bit_cost assertions sp1.task_has_zero_costs
        (sp1.goal_distances.getD u 0) = .ok INF) ∧
    (∀ ops, GoalWalk in_ goals u ops → FinitePath costs ops →
      ∃ ops1, GoalWalk in_ goals u ops1 ∧ FinitePath costs ops1 ∧
        convert_to_32_bit_cost assertions sp1.task_has_zero_costs
          (sp1.goal_distances.getD u 0) = .ok (walk_cost costs ops1) ∧
        walk_cost costs ops1 ≤ walk_cost costs ops)

/-- The state of the graph before the split that a state of the graph after the
split comes from: the new state `v2` comes from `v`. -/
def split_origin (v v2 x : Nat) : Nat := if x = v2 then v else x

/-- The forward adjacency `out` and the backward adjacency `in_` list the same
arcs. -/
structure Consistent (in_ out : List Transitions) : Prop where
  len : in_.length = out.length
  fwd : ∀ u t, t ∈ out.getD u [] → (⟨t.op_id, u⟩ : Transition) ∈ in_.getD t.target_id []
  bwd : ∀ s t, t ∈ in_.getD s [] → (⟨t.op_id, s⟩ : Transition) ∈ out.getD t.target_id []

/-- The engine state is a shortest-path tree with perfect goal distances for the
graph with backward adjacency `in_`: the vectors have the size of the graph, the
scratch buffers are empty, no distance is `DIRTY`, goal states have distance 0 and
no tree arc, states of distance `INF_COSTS` have no tree arc, every other state
has a tree arc that is an arc of the graph and satisfies the cost equation, no
path to a goal is cheaper than the stored distance, and finite distances are
below `bound`. -/
structure TreeOk (sp : ShortestPaths) (in_ : List Transitions) (goals : List Nat)
    (bound : Nat) : Prop where
  dist_len : sp.goal_distances.length = in_.length
  path_len : sp.shortest_path.length = in_.length
  cq : sp.candidate_queue = []
  dc : sp.dirty_candidate.contains true = false
  word : ∀ u, sp.goal_distances.getD u 0 ≤ INF_COSTS
  nodirty : ∀ u, sp.goal_distances.getD u 0 ≠ DIRTY
  goal : ∀ g ∈ goals, g < in_.length ∧ sp.goal_distances.getD g 0 = 0 ∧
    sp.shortest_path.getD g none = none
  inf : ∀ u, u < in_.length → sp.goal_distances.getD u 0 = INF_COSTS →
    sp.shortest_path.getD u none = none
  tree : ∀ u, u < in_.length → u ∉ goals → sp.goal_distances.getD u 0 ≠ INF_COSTS →
    ∃ t, sp.shortest_path.getD u none = some t ∧ t.target_id < in_.length ∧
      (⟨t.op_id, u⟩ : Transition) ∈ in_.getD t.target_id [] ∧
      sp.goal_distances.getD u 0
        = sp.goal_distances.getD t.target_id 0 + sp.operator_costs.getD t.op_id 0
  optimal : ∀ u ops, GoalWalk in_ goals u ops → FiniteOps sp.operator_costs ops →
    sp.goal_distances.getD u 0 ≤ walk_cost64 sp.operator_costs ops
  below : ∀ u, u < in_.length → sp.goal_distances.getD u 0 ≠ INF_COSTS →
    sp.goal_distances.getD u 0 < bound

/-- The preconditions of `dijkstra_from_orphans` on the split of `v` into
`v1 = v` and the new state `v2`: `in0` is the backward adjacency before the split,
`in_` and `out` describe the graph after it. -/
structure SplitOk (sp : ShortestPaths) (in0 in_ out : List Transitions) (goals : List Nat)
    (v v2 bound cmax : Nat) : Prop where
  old_len : in0.length = v2
  new_len : in_.length = v2 + 1
  v_lt : v < v2
  v_goal : v ∉ goals
  src : ∀ s t, t ∈ in_.getD s [] → t.target_id < in_.length
  noloop : ∀ s t, t ∈ in_.getD s [] → t.target_id ≠ s
  cons : Consistent in_ out
  arc_old : ∀ s t, t ∈ in_.getD s [] →
    split_origin v v2 t.target_id = split_origin v v2 s ∨
    (⟨t.op_id, split_origin v v2 t.target_id⟩ : Transition)
      ∈ in0.getD (split_origin v v2 s) []
  arc_kept : ∀ s u op, (⟨op, u⟩ : Transition) ∈ in0.getD s [] → s ≠ v → u ≠ v →
    (⟨op, u⟩ : Transition) ∈ in_.getD s []
  arc_split : ∀ u op, (⟨op, u⟩ : Transition) ∈ in0.getD v [] → u ≠ v →
    (⟨op, u⟩ : Transition) ∈ in_.getD v [] ∨ (⟨op, u⟩ : Transition) ∈ in_.getD v2 []
  inherit : ∃ t, sp.shortest_path.getD v none = some t ∧ t ∈ out.getD v2 [] ∧
    t ∉ out.getD v []
  pos : ∀ s t, t ∈ in_.getD s [] → 1 ≤ sp.operator_costs.getD t.op_id 0
  fin : ∀ s t, t ∈ in_.getD s [] → sp.operator_costs.getD t.op_id 0 ≤ cmax
  path : ∀ u ops, GoalWalk in_ goals u ops →
    ∃ ops1, GoalWalk in_ goals u ops1 ∧ walk_cost64 sp.operator_costs ops1 < bound
  room : bound + (v2 + 2) * cmax < DIRTY

/-- The state after lines 139-184 of `dijkstra_from_orphans`. -/
def split_start (sp : ShortestPaths) (in_ : List Transitions) (v v2 : Nat) : ShortestPaths :=
  redirect_arcs in_ v v v2 (split_copy (split_init sp in_.length) v v v2)

/-- What lines 139-184 establish: the distances are those of the origins, and
every state but `v` has a tree arc in the new graph. -/
structure AfterRedirect (sp sp3 : ShortestPaths) (in_ : List Transitions) (goals : List Nat)
    (v v2 : Nat) : Prop where
  zero : sp3.task_has_zero_costs = sp.task_has_zero_costs
  costs : sp3.operator_costs = sp.operator_costs
  cq : sp3.candidate_queue = sp.candidate_queue
  oq : sp3.open_queue = sp.open_queue
  dc : sp3.dirty_candidate = sp.dirty_candidate
  ds : sp3.dirty_states = []
  dist_len : sp3.goal_distances.length = in_.length
  path_len : sp3.shortest_path.length = in_.length
  dist : ∀ u, u < in_.length →
    sp3.goal_distances.getD u 0 = sp.goal_distances.getD (split_origin v v2 u) 0
  goal : ∀ g ∈ goals, sp3.shortest_path.getD g none = none
  inf : ∀ u, u < in_.length → sp3.goal_distances.getD u 0 = INF_COSTS →
    sp3.shortest_path.getD u none = none
  tree : ∀ u, u < in_.length → u ∉ goals → sp3.goal_distances.getD u 0 ≠ INF_COSTS → u ≠ v →
    ∃ t, sp3.shortest_path.getD u none = some t ∧ t.target_id < in_.length ∧
      (⟨t.op_id, u⟩ : Transition) ∈ in_.getD t.target_id [] ∧
      sp3.goal_distances.getD u 0
        = sp3.goal_distances.getD t.target_id 0 + sp3.operator_costs.getD t.op_id 0

/-- The tree arc `p` of `u` is a redirection of the tree arc `pA` into `v`: an arc
of the new graph from `u` to `v` or `v2` whose operator costs as much. -/
def Redirected (ocs : List Nat) (in_ : List Transitions) (v v2 : Nat)
    (pA p : Option Transition) (u : Nat) : Prop :=
  ∃ t0 op x, pA = some t0 ∧ t0.target_id = v ∧ p = some ⟨op, x⟩ ∧ (x = v ∨ x = v2) ∧
    (⟨op, u⟩ : Transition) ∈ in_.getD x [] ∧ ocs.getD op 0 = ocs.getD t0.op_id 0

/-- Invariant of the loops of lines 174-184, relative to the state `spA` in which
they start. -/
structure RedirectInv (spA sp : ShortestPaths) (in_ : List Transitions) (v v2 : Nat) : Prop where
  zero : sp.task_has_zero_costs = spA.task_has_zero_costs
  costs : sp.operator_costs = spA.operator_costs
  cq : sp.candidate_queue = spA.candidate_queue
  oq : sp.open_queue = spA.open_queue
  gd : sp.goal_distances = spA.goal_distances
  dc : sp.dirty_candidate = spA.dirty_candidate
  ds : sp.dirty_states = spA.dirty_states
  len : sp.shortest_path.length = spA.shortest_path.length
  form : ∀ u, sp.shortest_path.getD u none = spA.shortest_path.getD u none ∨
    Redirected spA.operator_costs in_ v v2 (spA.shortest_path.getD u none)
      (sp.shortest_path.getD u none) u

/-- Invariant of the marking of orphans (lines 191-254), relative to the state
`sp3` in which it starts. -/
structure MarkBase (sp3 sp : ShortestPaths) (in_ : List Transitions) (goals : List Nat) : Prop where
  zero : sp.task_has_zero_costs = sp3.task_has_zero_costs
  costs : sp.operator_costs = sp3.operator_costs
  oq : sp.open_queue = sp3.open_queue
  dist_len : sp.goal_distances.length = in_.length
  path_len : sp.shortest_path.length = in_.length
  ds_nodup : sp.dirty_states.Nodup
  ds_iff : ∀ u, u ∈ sp.dirty_states ↔ (u < in_.length ∧ sp.goal_distances.getD u 0 = DIRTY)
  keep : ∀ u, sp.goal_distances.getD u 0 ≠ DIRTY →
    sp.goal_distances.getD u 0 = sp3.goal_distances.getD u 0
  goal : ∀ g ∈ goals, sp.goal_distances.getD g 0 ≠ DIRTY ∧ sp.shortest_path.getD g none = none
  inf : ∀ u, u < in_.length → sp.goal_distances.getD u 0 = INF_COSTS →
    sp.shortest_path.getD u none = none
  dirty_none : ∀ u, u < in_.length → sp.goal_distances.getD u 0 = DIRTY →
    sp.shortest_path.getD u none = none

/-- Invariant of `mark_orphaned_predecessors`: states that are not dirty keep
their tree arc. -/
structure DfsInv (sp3 sp : ShortestPaths) (in_ : List Transitions) (goals : List Nat) : Prop where
  base : MarkBase sp3 sp in_ goals
  cq : sp.candidate_queue = sp3.candidate_queue
  dc : sp.dirty_candidate = sp3.dirty_candidate
  keep_path : ∀ u, sp.goal_distances.getD u 0 ≠ DIRTY →
    sp.shortest_path.getD u none = sp3.shortest_path.getD u none

/-- Every source of an arc into `x` is dirty or had a tree arc that does not lead
to `x`. -/
def PrevDone (sp3 sp : ShortestPaths) (in_ : List Transitions) (x : Nat) : Prop :=
  ∀ t ∈ in_.getD x [], sp.goal_distances.getD t.target_id 0 = DIRTY ∨
    ∀ t1, sp3.shortest_path.getD t.target_id none = some t1 → t1.target_id ≠ x

/-- What the marking of orphans (lines 191-254) establishes: the states that are
not dirty keep their distance and have a tree arc to a state that is not dirty. -/
structure AfterMark (sp3 sp : ShortestPaths) (in_ : List Transitions) (goals : List Nat) : Prop where
  base : MarkBase sp3 sp in_ goals
  cq : sp.candidate_queue = []
  dc : sp.dirty_candidate.contains true = false
  tree : ∀ u, u < in_.length → u ∉ goals → sp.goal_distances.getD u 0 ≠ INF_COSTS →
    sp.goal_distances.getD u 0 ≠ DIRTY →
    ∃ t, sp.shortest_path.getD u none = some t ∧ t.target_id < in_.length ∧
      (⟨t.op_id, u⟩ : Transition) ∈ in_.getD t.target_id [] ∧
      sp.goal_distances.getD t.target_id 0 ≠ DIRTY ∧
      sp.goal_distances.getD u 0
        = sp.goal_distances.getD t.target_id 0 + sp.operator_costs.getD t.op_id 0

/-- Invariant of the candidate loop (lines 207-250); `exc` is the state that has
just been marked dirty and whose tree children are being enqueued. -/
structure CandInv (sp3 sp : ShortestPaths) (in_ : List Transitions) (goals : List Nat)
    (exc : Option Nat) : Prop where
  base : MarkBase sp3 sp in_ goals
  dc_len : sp.dirty_candidate.length = in_.length
  q_nodup : (sp.candidate_queue.map Prod.snd).Nodup
  flag : ∀ u, some u ≠ exc →
    (sp.dirty_candidate.getD u false = true ↔ ∃ k, (k, u) ∈ sp.candidate_queue)
  exc_ok : ∀ s, exc = some s → sp.dirty_candidate.getD s false = true ∧
    sp.goal_distances.getD s 0 = DIRTY ∧ ∀ k, (k, s) ∉ sp.candidate_queue
  cand : ∀ k u, (k, u) ∈ sp.candidate_queue → u < in_.length ∧
    sp.goal_distances.getD u 0 ≠ DIRTY ∧ sp.goal_distances.getD u 0 ≠ INF_COSTS ∧ u ∉ goals
  tree : ∀ u, u < in_.length → u ∉ goals → sp.goal_distances.getD u 0 ≠ INF_COSTS →
    sp.goal_distances.getD u 0 ≠ DIRTY → sp.dirty_candidate.getD u false = false →
    ∃ t, sp.shortest_path.getD u none = some t ∧ t.target_id < in_.length ∧
      (⟨t.op_id, u⟩ : Transition) ∈ in_.getD t.target_id [] ∧
      (sp.goal_distances.getD t.target_id 0 ≠ DIRTY ∨ some t.target_id = exc) ∧
      sp3.goal_distances.getD u 0
        = sp3.goal_distances.getD t.target_id 0 + sp3.operator_costs.getD t.op_id 0

/-- Termination measure of the candidate loop. -/
def cand_measure (n : Nat) (sp : ShortestPaths) : Nat :=
  (n - sp.dirty_states.length) * (n + 1) + sp.candidate_queue.length

/-- The static facts about the graph after the split that the repair of the
distances (lines 281-330) relies on: the graph is well formed, the two
adjacencies list the same arcs, the operators on the arcs cost at most `cmax`,
every state that reaches a goal does so by a path cheaper than `bound`, and
`bound` plus `cmax` for every state and once more stays below `DIRTY`. -/
structure OrphCtx (in_ out : List Transitions) (goals : List Nat) (ocs : List Nat)
    (bound cmax : Nat) : Prop where
  graph : GraphOk in_ goals
  cons : Consistent in_ out
  fin : ∀ s t, t ∈ in_.getD s [] → ocs.getD t.op_id 0 ≤ cmax
  path : ∀ u ops, GoalWalk in_ goals u ops →
    ∃ ops1, GoalWalk in_ goals u ops1 ∧ walk_cost64 ocs ops1 < bound
  room : bound + (in_.length + 1) * cmax < DIRTY

/-- Invariant of the repair of the distances (lines 281-330). It is the invariant
of `full_dijkstra` with a weaker clause on the tree arcs: the arc of `u` leads to
a state whose distance plus the cost of the operator is at most the distance of
`u`, and either that state still has its key in the open queue, or the arc is
still to be relaxed (`exc`), or the cost equation holds and the state is
settled. States whose distance is `DIRTY` are not constrained. -/
structure OrphInv (in_ : List Transitions) (goals : List Nat) (ocs : List Nat)
    (exc : Nat → Transition → Prop) (sp : ShortestPaths) : Prop where
  len : sp.goal_distances.length = in_.length
  plen : sp.shortest_path.length = in_.length
  costs : sp.operator_costs = ocs
  word : ∀ u, sp.goal_distances.getD u 0 ≤ INF_COSTS
  sound : ∀ u, u < in_.length → sp.goal_distances.getD u 0 < DIRTY →
    ∃ ops, GoalWalk in_ goals u ops ∧ walk_cost64 ocs ops = sp.goal_distances.getD u 0
  queue : ∀ k u, (k, u) ∈ sp.open_queue →
    u < in_.length ∧ sp.goal_distances.getD u 0 ≤ k ∧ k < DIRTY
  closed : ∀ u, u < in_.length → sp.goal_distances.getD u 0 < DIRTY →
    (sp.goal_distances.getD u 0, u) ∈ sp.open_queue ∨
    ∀ t ∈ in_.getD u [], ¬ exc u t → sp.goal_distances.getD t.target_id 0 ≠ DIRTY →
      sp.goal_distances.getD t.target_id 0 ≤ sp.goal_distances.getD u 0 + ocs.getD t.op_id 0
  goal : ∀ g ∈ goals, sp.goal_distances.getD g 0 = 0 ∧ sp.shortest_path.getD g none = none
  inf : ∀ u, u < in_.length → sp.goal_distances.getD u 0 = INF_COSTS →
    sp.shortest_path.getD u none = none
  tree : ∀ u, u < in_.length → u ∉ goals → sp.goal_distances.getD u 0 < DIRTY →
    ∃ t, sp.shortest_path.getD u none = some t ∧ t.target_id < in_.length ∧
      (⟨t.op_id, u⟩ : Transition) ∈ in_.getD t.target_id [] ∧
      sp.goal_distances.getD t.target_id 0 + ocs.getD t.op_id 0 ≤ sp.goal_distances.getD u 0 ∧
      ((sp.goal_distances.getD t.target_id 0, t.target_id) ∈ sp.open_queue ∨
        exc t.target_id ⟨t.op_id, u⟩ ∨
        (sp.goal_distances.getD u 0
            = sp.goal_distances.getD t.target_id 0 + ocs.getD t.op_id 0 ∧
          Settled in_ goals sp t.target_id))

/-- Invariant of the loop of lines 283-307 over the dirty states `ds`, of which
the prefix `pre` has been given a new distance: the states of `pre` with a finite
distance are in the open queue, the other states that are not dirty are settled,
and the finite distances are below `bound + pre.length * cmax`. -/
structure SeedInv (in_ : List Transitions) (goals : List Nat) (ocs : List Nat)
    (bound cmax : Nat) (ds pre : List Nat) (sp0 sp : ShortestPaths) : Prop where
  inv : OrphInv in_ goals ocs (fun _ _ => False) sp
  frame : Frame sp0 sp
  dirty : ∀ u, sp.goal_distances.getD u 0 = DIRTY ↔ (u ∈ ds ∧ u ∉ pre)
  dirty_none : ∀ u, u < in_.length → sp.goal_distances.getD u 0 = DIRTY →
    sp.shortest_path.getD u none = none
  status : ∀ u, u < in_.length → sp.goal_distances.getD u 0 < DIRTY →
    (sp.goal_distances.getD u 0, u) ∈ sp.open_queue ∨ Settled in_ goals sp u
  below : ∀ u, u < in_.length → sp.goal_distances.getD u 0 < DIRTY →
    sp.goal_distances.getD u 0 < bound + pre.length * cmax
  qlen : sp.open_queue.length ≤ pre.length

/-- Fuel that suffices for `dijkstra_from_orphans` on a graph with `n` states. -/
def repair_fuel (n : Nat) : Nat := 2 * n * INF_COSTS + (n + 1) * (n + 1) + 1

/-- A finite sequence of valid splits: `SplitSeq a goals bound cmax sp0 in0 sp in1`
holds when the engine state `sp` and the graph `in1` result from the state `sp0`
and the graph `in0` by calls of `dijkstra_from_orphans`, each made under its
preconditions on the state and the graph that the previous call left, with
enough fuel, and each returning. -/
inductive SplitSeq (a : Bool) (goals : List Nat) (bound cmax : Nat) :
    ShortestPaths → List Transitions → ShortestPaths → List Transitions → Prop where
  | nil (sp : ShortestPaths) (in0 : List Transitions) : SplitSeq a goals bound cmax sp in0 sp in0
  | step {sp0 sp sp1 : ShortestPaths} {in0 in1 in_ out : List Transitions} {v v2 : Nat}
      {filter_orphans : Bool} {fuel : Nat} :
      SplitSeq a goals bound cmax sp0 in0 sp in1 →
      SplitOk sp in1 in_ out goals v v2 bound cmax →
      repair_fuel in_.length ≤ fuel →
      dijkstra_from_orphans a sp in_ out v v v2 filter_orphans fuel = .ok sp1 →
      SplitSeq a goals bound cmax sp0 in0 sp1 in_

/-- A call of `full_dijkstra` or of `dijkstra_from_orphans` on the graph with
backward adjacency `in_` and forward adjacency `out`, made under its
preconditions and with enough fuel: `full_dijkstra` on a well-formed graph
without overflow, `dijkstra_from_orphans` on a shortest-path tree of the graph
before the split and a valid split. -/
inductive ValidCall (a : Bool) (in_ out : List Transitions) (goals : List Nat) :
    Run ShortestPaths → Prop where
  | full (sp : ShortestPaths) (bound fuel : Nat) :
      GraphOk in_ goals → NoOverflow in_ goals sp.operator_costs bound →
      loop_measure (full_start sp in_ goals) < fuel →
      ValidCall a in_ out goals (full_dijkstra a sp in_ goals fuel)
  | orphans (sp : ShortestPaths) (in0 : List Transitions) (v v2 bound cmax : Nat)
      (filter_orphans : Bool) (fuel : Nat) :
      TreeOk sp in0 goals bound → SplitOk sp in0 in_ out goals v v2 bound cmax →
      repair_fuel in_.length ≤ fuel →
      ValidCall a in_ out goals (dijkstra_from_orphans a sp in_ out v v v2 filter_orphans fuel)

/-- Backward adjacency of the graph on which the sums of `full_dijkstra` wrap
around: arcs `1 -> 0`, `2 -> 1`, `3 -> 2` and `2 -> 4` of operator 1 and the arc
`4 -> 2` of operator 0. -/
def wrap_in : List Transitions := [[⟨1, 1⟩], [⟨1, 2⟩], [⟨1, 3⟩, ⟨0, 4⟩], [], [⟨1, 2⟩]]

/-- Forward adjacency of the same graph. -/
def wrap_out : List Transitions := [[], [⟨1, 0⟩], [⟨1, 1⟩, ⟨1, 4⟩], [⟨1, 2⟩], [⟨0, 2⟩]]

/-- The engine that the constructor builds for the cost table `[0, 2147483646]`. -/
def wrap_state : ShortestPaths :=
  ⟨true, [1, 9223372028264841216], [], [], [], [], [], []⟩

/-- The state in which `full_dijkstra` returns on `wrap_in` with goal 0. -/
def wrap_result : ShortestPaths :=
  ⟨true, [1, 9223372028264841216], [], [],
    [0, 9223372028264841216, 9223372011084972033, 9223372011084972032, 9223372011084972034],
    [], [], [none, some ⟨1, 0⟩, some ⟨1, 4⟩, some ⟨1, 2⟩, some ⟨0, 2⟩]⟩

/-- The sum of a list of internal costs computed in unsigned 64-bit arithmetic,
one addition after the other. -/
def sum64 (xs : List Nat) : Nat := xs.foldl add64 0

/-- Backward adjacency of the line `3 -> 2 -> 1 -> 0`, every arc of operator 1. -/
def line_in : List Transitions := [[⟨1, 1⟩], [⟨1, 2⟩], [⟨1, 3⟩], []]

/-- The state in which `full_dijkstra` returns on `line_in` with goal 0 for the
cost table `[0, 2147483646]`. -/
def line_result : ShortestPaths :=
  ⟨true, [1, 9223372028264841216], [], [],
    [0, 9223372028264841216, 18446744056529682432, 9223372011084972032],
    [], [], [none, some ⟨1, 0⟩, some ⟨1, 1⟩, some ⟨1, 2⟩]⟩

/-- The state of `full_dijkstra` on `line_in` when state 2 is expanded: state 3
has no distance yet. -/
def line_mid : ShortestPaths :=
  ⟨true, [1, 9223372028264841216], [], [],
    [0, 9223372028264841216, 18446744056529682432, INF_COSTS],
    [], [], [none, some ⟨1, 0⟩, some ⟨1, 1⟩, none]⟩

/-- Backward adjacency of scenario S4: the chain `0 -> 1 -> 2` after the split of
state 1 into 1 and 3 in which the arc `1 -> 2` stays on state 1 and the arc from
0 leads to state 3 only. -/
def wrong_in : List Transitions := [[], [], [⟨1, 1⟩], [⟨0, 0⟩]]

/-- Forward adjacency of scenario S4. -/
def wrong_out : List Transitions := [[⟨0, 3⟩], [⟨1, 2⟩], [], []]

/-- Backward adjacency of scenario S5 before the split: states 0 and 1 with a
self-loop each. -/
def loops_in : List Transitions := [[⟨0, 0⟩], [⟨1, 1⟩]]

/-- Adjacency (backward and forward) of scenario S5 after the split of state 0
into 0 and 2: the self-loop of 0 becomes the four arcs among 0 and 2. -/
def loops_split : List Transitions := [[⟨0, 0⟩, ⟨0, 2⟩], [⟨1, 1⟩], [⟨0, 0⟩, ⟨0, 2⟩]]

/-- The engine state after `full_dijkstra` in scenario S5, for the cost table
`[1, 1]` and the goal 1. -/
def loops_state : ShortestPaths :=
  ⟨false, [1, 1], [], [], [INF_COSTS, 0], [], [], [none, none]⟩

/-- The engine state after `full_dijkstra` in scenario S6: cost table `[0, 1]`,
chain `0 -> 1 -> 2`, goal 2. -/
def zero_state : ShortestPaths :=
  ⟨true, [1, 4294967296], [], [], [4294967297, 4294967296, 0], [], [],
    [some ⟨0, 1⟩, some ⟨1, 2⟩, none]⟩

/-- The loop of lines 411-413 of `test_distances`: every goal distance converted
to a 32-bit cost. -/
def decoded_distances (assertions : Bool) (sp : ShortestPaths) : Run (List Int) :=
  Run.foldl (fun (acc : List Int) (dist : Nat) =>
      (convert_to_32_bit_cost assertions sp.task_has_zero_costs dist).bind
        (fun c => .ok (acc ++ [c]))) [] sp.goal_distances

/-- Invariant of the main loop of `full_dijkstra` that holds for every cost
table: the vectors have the size of the graph, the distances are 64-bit values,
the keys of the open queue are below `INF_COSTS` and bound the distance of their
state from above, and a state whose distance is `INF_COSTS` has the tree arc
`p0[u]` with which the loop started. -/
structure WeakInv (in_ : List Transitions) (p0 : List (Option Transition))
    (sp : ShortestPaths) : Prop where
  len : sp.goal_distances.length = in_.length
  plen : sp.shortest_path.length = in_.length
  word : ∀ u, sp.goal_distances.getD u 0 ≤ INF_COSTS
  queue : ∀ k u, (k, u) ∈ sp.open_queue →
    u < in_.length ∧ sp.goal_distances.getD u 0 ≤ k ∧ k < INF_COSTS
  keep : ∀ u, sp.goal_distances.getD u 0 = INF_COSTS →
    sp.shortest_path.getD u none = p0.getD u none

/-- Backward adjacency of the graph with three states and no arc. -/
def no_arcs : List Transitions := [[], [], []]

/-- Backward adjacency of a graph on which the order inside `in[1]` decides the
result of `full_dijkstra` when sums wrap around: arcs `1 -> 0`, `2 -> 1`,
`3 -> 1`, `4 -> 2` and `2 -> 3`, all of operator 1. -/
def tie_in : List Transitions := [[⟨1, 1⟩], [⟨1, 2⟩, ⟨1, 3⟩], [⟨1, 4⟩], [⟨1, 2⟩], []]

/-- The graph `tie_in` with the two transitions of `in[1]` in the other order. -/
def tie_in_swapped : List Transitions := [[⟨1, 1⟩], [⟨1, 3⟩, ⟨1, 2⟩], [⟨1, 4⟩], [⟨1, 2⟩], []]

/-- Backward adjacency after a split of state 1 of the chain `0 -> 1 -> 2` into 1
and 3 in which state 0 has an arc of operator 0 to both halves. -/
def both_in : List Transitions := [[], [⟨0, 0⟩], [⟨1, 3⟩], [⟨0, 0⟩]]

/-- The sum of lines 294-295: `INF_COSTS` when the operator cost or the distance
is `INF_COSTS`, their 64-bit sum otherwise. -/
def saturating_sum (cost succ_dist : Nat) : Nat :=
  if cost = INF_COSTS ∨ succ_dist = INF_COSTS then INF_COSTS else add64 cost succ_dist

/-- The candidates of the seeding scan of a dirty state: one saturating sum for
every transition of the list whose target is not `DIRTY`. -/
def seed_candidates (sp : ShortestPaths) (ts : List Transition) : List Nat :=
  (ts.filter fun t => sp.goal_distances.getD t.target_id 0 != DIRTY).map fun t =>
    saturating_sum (sp.operator_costs.getD t.op_id 0) (sp.goal_distances.getD t.target_id 0)

/-- Backward adjacency of scenario S3 with one more arc `1 -> 0` of operator 2. -/
def inf_in : List Transitions := [[⟨2, 1⟩], [⟨0, 0⟩], [⟨1, 3⟩], [⟨0, 0⟩]]

/-- Forward adjacency of scenario S3 with one more arc `1 -> 0` of operator 2. -/
def inf_out : List Transitions := [[⟨0, 1⟩, ⟨0, 3⟩], [⟨2, 0⟩], [], [⟨1, 2⟩]]

/-- Backward adjacency of the chain `0 -> 1 -> 2` with the arc `1 -> 0` of
operator 2. -/
def inf_chain_in : List Transitions := [[⟨2, 1⟩], [⟨0, 0⟩], [⟨1, 1⟩]]

/-- The engine state after `full_dijkstra` on `inf_chain_in` with goal 2, for the
cost table `[3, 4, INF]`. -/
def inf_state : ShortestPaths :=
  ⟨false, [3, 4, INF_COSTS], [], [], [7, 4, 0], [], [], [some ⟨0, 1⟩, some ⟨1, 2⟩, none]⟩

/-- The transition `t = (op, t')` of `out[s]` reconnects the candidate `s`: the
distance of `t'` is neither `DIRTY` nor `INF_COSTS`, the cost of `op` is not
`INF_COSTS`, and `goal_distances[t'] + operator_costs[op] == goal_distances[s]`
in 64-bit arithmetic. -/
def ReconnectArc (sp : ShortestPaths) (s : Nat) (t : Transition) : Prop :=
  sp.goal_distances.getD t.target_id 0 ≠ DIRTY ∧
  sp.goal_distances.getD t.target_id 0 ≠ INF_COSTS ∧
  sp.operator_costs.getD t.op_id 0 ≠ INF_COSTS ∧
  add64 (sp.goal_distances.getD t.target_id 0) (sp.operator_costs.getD t.op_id 0)
    = sp.goal_distances.getD s 0

/-- An engine state on the chain `0 -> 1 -> 2` in which state 1 is the only
candidate of the queue. -/
def candidate_state : ShortestPaths :=
  ⟨false, [3, 4], [(4, 1)], [], [7, 4, 0], [false, true, false], [],
    [some ⟨0, 1⟩, some ⟨1, 2⟩, none]⟩

/-- The parent chain of `u` in the tree of `sp` reaches `v1`: `u` is `v1`, or the
tree arc of `u` leads to a state whose parent chain reaches `v1`. -/
inductive ParentChain (sp : ShortestPaths) (v1 : Nat) : Nat → Prop where
  | root : ParentChain sp v1 v1
  | step {u : Nat} {t : Transition} : sp.shortest_path.getD u none = some t →
      ParentChain sp v1 t.target_id → ParentChain sp v1 u

/-- Invariant of `mark_orphaned_predecessors` started on `v1` in the state `sp0`
in which no state is dirty: the dirty states are listed once in `dirty_states`,
have no tree arc and a parent chain in `sp0` that reaches `v1`; the other states
are as in `sp0`. -/
structure DfsMark (sp0 sp : ShortestPaths) (in_ : List Transitions) (v1 : Nat) : Prop where
  zero : sp.task_has_zero_costs = sp0.task_has_zero_costs
  costs : sp.operator_costs = sp0.operator_costs
  oq : sp.open_queue = sp0.open_queue
  cq : sp.candidate_queue = sp0.candidate_queue
  dc : sp.dirty_candidate = sp0.dirty_candidate
  dist_len : sp.goal_distances.length = in_.length
  path_len : sp.shortest_path.length = in_.length
  ds_nodup : sp.dirty_states.Nodup
  ds_iff : ∀ u, u ∈ sp.dirty_states ↔ (u < in_.length ∧ sp.goal_distances.getD u 0 = DIRTY)
  keep : ∀ u, sp.goal_distances.getD u 0 ≠ DIRTY →
    sp.goal_distances.getD u 0 = sp0.goal_distances.getD u 0 ∧
    sp.shortest_path.getD u none = sp0.shortest_path.getD u none
  dirty_none : ∀ u, sp.goal_distances.getD u 0 = DIRTY → sp.shortest_path.getD u none = none
  reach : ∀ u, sp.goal_distances.getD u 0 = DIRTY → ParentChain sp0 v1 u

/-- No path from `u` to a goal is cheaper than the stored distance of `u`. -/
def NoCheaper (in_ : List Transitions) (goals : List Nat) (sp : ShortestPaths) (u : Nat) : Prop :=
  ∀ ops, GoalWalk in_ goals u ops →
    sp.goal_distances.getD u 0 ≤ walk_cost64 sp.operator_costs ops

/-- The state `u` has the same distance and the same tree arc in `sp1` as in `sp`. -/
def SameAt (sp sp1 : ShortestPaths) (u : Nat) : Prop :=
  sp1.goal_distances.getD u 0 = sp.goal_distances.getD u 0 ∧
  sp1.shortest_path.getD u none = sp.shortest_path.getD u none

/-- One iteration of the loop of lines 207-250 that pops the state `s` and leaves
the queue `q`: either some transition of `out[s]` passes the test of lines
221-225 and `s` is reconnected by the first one, or none does, `s` is marked
dirty and its tree children are enqueued; `sp1` is the state at the end of the
iteration. -/
def CandStep (a : Bool) (in_ out : List Transitions) (sp : ShortestPaths) (s : Nat)
    (q : HeapQueue) (sp1 : ShortestPaths) : Prop :=
  (∃ t, (out.getD s []).find? (can_reconnect { sp with candidate_queue := q } s) = some t ∧
    sp1 = { sp with
      candidate_queue := q
      shortest_path := sp.shortest_path.set s (some ⟨t.op_id, t.target_id⟩)
      dirty_candidate := sp.dirty_candidate.set s false }) ∨
  ((out.getD s []).find? (can_reconnect { sp with candidate_queue := q } s) = none ∧
    ∃ sp2, mark_dirty a { sp with candidate_queue := q } s = .ok sp2 ∧
      sp1 = { (in_.getD s []).foldl (push_candidate s) sp2 with
        dirty_candidate :=
          ((in_.getD s []).foldl (push_candidate s) sp2).dirty_candidate.set s false })

/-- The iterations of the loop of lines 207-250 as a list: for every iteration
the popped state, the candidate queue after the pop and the candidate queue at
the end of the iteration. The function follows `candidate_loop` step by step and
only records. -/
def candidate_trace (assertions : Bool) (in_ out : List Transitions) :
    Nat → ShortestPaths → List (Nat × HeapQueue × HeapQueue)
  | 0, _ => []
  | fuel + 1, sp =>
    match sp.candidate_queue.pop with
    | none => []
    | some ((_, state), q) =>
      let sp1 := { sp with candidate_queue := q }
      match (out.getD state []).find? (can_reconnect sp1 state) with
      | some t =>
        let sp2 := { sp1 with
          shortest_path := sp1.shortest_path.set state (some ⟨t.op_id, t.target_id⟩)
          dirty_candidate := sp1.dirty_candidate.set state false }
        (state, q, sp2.candidate_queue) :: candidate_trace assertions in_ out fuel sp2
      | none =>
        match mark_dirty assertions sp1 state with
        | .ok sp2 =>
          let sp3 := (in_.getD state []).foldl (push_candidate state) sp2
          let sp4 := { sp3 with dirty_candidate := sp3.dirty_candidate.set state false }
          (state, q, sp4.candidate_queue) :: candidate_trace assertions in_ out fuel sp4
        | _ => []

/-- The entry `x` of the candidate queue was pushed while the tree children of
the dirty state `s` were enqueued from the state `sp`: its key is the distance of
its state, which was no candidate, is not dirty and has a tree arc to `s`. -/
def PushedBy (sp : ShortestPaths) (s : Nat) (x : Nat × Nat) : Prop :=
  x.1 = sp.goal_distances.getD x.2 0 ∧ sp.dirty_candidate.getD x.2 false = false ∧
  sp.goal_distances.getD x.2 0 ≠ DIRTY ∧
  (sp.shortest_path.getD x.2 none).map Transition.target_id = some s

/-- Invariant of the candidate loop: a state whose parent chain in `sp3` does not
reach `v` has the distance and the tree arc of `sp3` and is not in the queue. -/
def Untouched (sp3 : ShortestPaths) (v : Nat) (sp : ShortestPaths) : Prop :=
  ∀ u, ¬ ParentChain sp3 v u → SameAt sp3 sp u ∧ ∀ k, (k, u) ∉ sp.candidate_queue

/-- Invariant of the candidate loop for the order of the pops; `log` lists the
iterations made so far (see `candidate_trace`), `sp3` is the state in which the
pass starts. The popped states have non-decreasing distance in `sp3`, no key of
the queue is below the distance of a popped state, every key is the distance in
`sp3` of its state, every entry that an iteration added to the queue has a
strictly greater distance than the state popped by that iteration, every dirty
state has been popped, has a distance other than `INF_COSTS` in `sp3` and no path
to a goal of cost at most that distance. -/
structure CandOrder (sp3 : ShortestPaths) (in_ : List Transitions) (goals : List Nat)
    (log : List (Nat × HeapQueue × HeapQueue)) (sp : ShortestPaths) : Prop where
  sorted : (log.map fun e => sp3.goal_distances.getD e.1 0).Pairwise (· ≤ ·)
  above : ∀ e ∈ log, ∀ x ∈ sp.candidate_queue, sp3.goal_distances.getD e.1 0 ≤ x.1
  keys : ∀ x ∈ sp.candidate_queue, x.1 = sp3.goal_distances.getD x.2 0
  pushed : ∀ e ∈ log, ∀ x ∈ e.2.2,
    x ∈ e.2.1 ∨ sp3.goal_distances.getD e.1 0 < sp3.goal_distances.getD x.2 0
  popped : ∀ u, u ∈ sp.dirty_states → ∃ e ∈ log, e.1 = u
  finite : ∀ u, sp.goal_distances.getD u 0 = DIRTY → sp3.goal_distances.getD u 0 ≠ INF_COSTS
  orphan : ∀ u, sp.goal_distances.getD u 0 = DIRTY → ∀ ops, GoalWalk in_ goals u ops →
    sp3.goal_distances.getD u 0 < walk_cost64 sp3.operator_costs ops

/-- Invariant of the main loop of `full_dijkstra` on the operators of cost
`INF_COSTS`, for every cost table: goal states have distance 0 and no tree arc,
the tree arc of a state whose distance is not `INF_COSTS` has an operator of
cost other than `INF_COSTS`, and every state of the graph whose distance is not
`INF_COSTS` has a path to a goal over such operators. -/
structure InfInv (in_ : List Transitions) (goals : List Nat) (ocs : List Nat)
    (sp : ShortestPaths) : Prop where
  costs : sp.operator_costs = ocs
  goal : ∀ g ∈ goals, sp.goal_distances.getD g 0 = 0 ∧ sp.shortest_path.getD g none = none
  arcs : ∀ u t, sp.shortest_path.getD u none = some t →
    sp.goal_distances.getD u 0 ≠ INF_COSTS → ocs.getD t.op_id 0 ≠ INF_COSTS
  reach : ∀ u, u < in_.length → sp.goal_distances.getD u 0 ≠ INF_COSTS →
    ∃ ops, GoalWalk in_ goals u ops ∧ FiniteOps ocs ops

/-- The entry that one relaxation of lines 317-329 adds to the list of the
changes of distance: nothing when the test of line 324 fails, and the relaxed
state with its distance before and after the assignment of line 325 when it
passes. -/
def relax_entry (g : Nat) (sp : ShortestPaths) (t : Transition) : List (Nat × Nat × Nat) :=
  let succ := t.target_id
  let succ_g := add64 (sp.operator_costs.getD t.op_id 0) g
  if sp.goal_distances.getD succ 0 == DIRTY || succ_g < sp.goal_distances.getD succ 0 then
    [(succ, sp.goal_distances.getD succ 0, succ_g)]
  else []

/-- The changes of distance made by the inner loop of lines 317-329 over the
transitions `ts`, in order; the function follows the loop with `orphan_relax`
and only records. -/
def orphan_relax_trace (assertions : Bool) (g state : Nat) :
    ShortestPaths → List Transition → List (Nat × Nat × Nat)
  | _, [] => []
  | sp, t :: ts =>
    relax_entry g sp t ++
      match orphan_relax assertions g state sp t with
      | .ok sp1 => orphan_relax_trace assertions g state sp1 ts
      | _ => []

/-- The changes of distance made by the loop of lines 308-330, in order: for
every relaxation that assigns a distance, the relaxed state, its distance before
and its distance after. The function follows `orphan_loop` step by step and only
records. -/
def orphan_trace (assertions : Bool) (in_ : List Transitions) :
    Nat → ShortestPaths → List (Nat × Nat × Nat)
  | 0, _ => []
  | fuel + 1, sp =>
    match sp.open_queue.pop with
    | none => []
    | some ((g, state), q) =>
      let sp1 := { sp with open_queue := q }
      if g > sp1.goal_distances.getD state 0 then orphan_trace assertions in_ fuel sp1
      else
        orphan_relax_trace assertions g state sp1 (in_.getD state []) ++
          match Run.foldl (orphan_relax assertions g state) sp1 (in_.getD state []) with
          | .ok sp2 => orphan_trace assertions in_ fuel sp2
          | _ => []

/-- Invariant of the candidate loop: no state has been popped twice, and no
state that has been popped is in the candidate queue. -/
def NoRepeat (log : List (Nat × HeapQueue × HeapQueue)) (sp : ShortestPaths) : Prop :=
  (log.map fun e => e.1).Nodup ∧ ∀ e ∈ log, ∀ x ∈ sp.candidate_queue, x.2 ≠ e.1

/-- Modelled from the spec: one round of the computation of `compute_distances`
(see there), which relaxes every transition: for every state `s` whose
distance is not `INF` and every transition `(op, target)` of `transitions[s]`,
the distance of `target` is lowered to the distance of `s` plus the cost of `op`
(`INF` if that cost is `INF`) when this is smaller. -/
def relax_round (transitions : List Transitions) (costs : List Int) (distances : List Int) :
    List Int :=
  (List.range transitions.length).foldl (fun d s =>
    (transitions.getD s []).foldl (fun d1 t =>
      let g := d1.getD s INF
      let op_cost := costs.getD t.op_id 0
      let succ_g := if g == INF || op_cost == INF then INF else g + op_cost
      if succ_g < d1.getD t.target_id INF then d1.set t.target_id succ_g else d1) d) distances

/-- Modelled from the spec: `compute_distances(transitions, costs, start_ids)` is
not part of the sources at hand; section 4.7 of the spec describes it as a fresh
computation of the distances over the current graph in 32-bit costs. The
distances from the states `start_ids` along the transitions are computed here by
as many rounds of relaxation of every transition as the graph has states; a
state that is not reached has the distance `INF`. -/
def compute_distances (transitions : List Transitions) (costs : List Int)
    (start_ids : List Nat) : List Int :=
  (List.range transitions.length).foldl (fun d _ => relax_round transitions costs d)
    (start_ids.foldl (fun d s => d.set s 0) (List.replicate transitions.length INF))

/-- Body of the loop of lines 387-406 of `test_distances` for the state `i`. -/
def distance_checks (assertions : Bool) (sp : ShortestPaths) (out : List Transitions)
    (goals : List Nat) (init_distances : List Int) (i : Nat) : Run Unit :=
  if sp.goal_distances.getD i 0 != INF_COSTS && init_distances.getD i 0 != INF &&
      !goals.contains i then
    match sp.shortest_path.getD i none with
    | none => check assertions false 398 (.ok ())
    | some t =>
      check assertions ((out.getD i []).count t == 1) 402 <|
      check assertions (sp.goal_distances.getD i 0
        == add64 (sp.operator_costs.getD t.op_id 0) (sp.goal_distances.getD t.target_id 0)) 403 <|
      .ok ()
  else .ok ()

/-- `ShortestPaths::test_distances` (lines 370-430); the call `ABORT` of line 425
is the outcome `abort 425`, with assertions compiled in or not. -/
def test_distances (assertions : Bool) (sp : ShortestPaths) (in_ out : List Transitions)
    (goals : List Nat) : Run Bool :=
  check assertions (sp.goal_distances.all fun d => d != DIRTY) 374 <|
  let num_states := in_.length
  (Run.foldl (fun (acc : List Int) (cost : Nat) =>
      (convert_to_32_bit_cost assertions sp.task_has_zero_costs cost).bind
        (fun c => .ok (acc ++ [c]))) [] sp.operator_costs).bind fun costs =>
  let init_distances := compute_distances out costs [0]
  (Run.foldl (fun (_ : Unit) (i : Nat) =>
      distance_checks assertions sp out goals init_distances i) ()
    (List.range num_states)).bind fun _ =>
  let goal_distances_32_bit := compute_distances in_ costs goals
  (decoded_distances assertions sp).bind fun goal_distances_32_bit_rounded_down =>
  (Run.foldl (fun (_ : Unit) (i : Nat) =>
      if goal_distances_32_bit_rounded_down.getD i 0 != goal_distances_32_bit.getD i 0 &&
          init_distances.getD i 0 != INF then .abort 425
      else .ok ()) () (List.range num_states)).bind fun _ =>
  .ok true

/-- Backward adjacency of the graph with the arcs `0 -> 2` (operator 0) and
`1 -> 2` (operator 1): state 1 is not reachable from state 0. -/
def fork_in : List Transitions := [[], [], [⟨0, 0⟩, ⟨1, 1⟩]]

/-- Forward adjacency of the graph with the arcs `0 -> 2` and `1 -> 2`. -/
def fork_out : List Transitions := [[⟨0, 2⟩], [⟨1, 2⟩], []]

/-- An engine state on the graph `fork_in` with the goal distances of the goal 2
and the cost table `[3, 4]`, in which state 1 has no tree arc. -/
def fork_state : ShortestPaths :=
  ⟨false, [3, 4], [], [], [3, 4, 0], [], [], [some ⟨0, 2⟩, none, none]⟩

/-- The loop of lines 21-34 of `cost_saturation::compute_sum_h`
(`src/search/cost_saturation/utils.cc`) and the lines 35-36 after it; the loop
index is represented by the remaining entries of the two vectors, `sum_h` is the
running sum. Overflow of the `int` addition of line 33 and a read outside a
vector are undefined in C++: the outcome `ub`. -/
def sum_h_loop (assertions : Bool) : List Int → List (List Int) → Int → Run Int
  | [], _, sum_h => check assertions (decide (sum_h ≥ 0)) 35 (.ok sum_h)
  | state_id :: ids, tables, sum_h =>
    if state_id == -1 then .ok INF
    else
      match tables with
      | [] => .ub
      | h_values :: rest =>
        if decide (0 ≤ state_id) && decide (state_id < h_values.length) then
          let value := h_values.getD state_id.toNat 0
          check assertions (decide (value ≥ 0)) 30 <|
          if value == INF then .ok INF
          else if decide (sum_h + value > INF) || decide (sum_h + value < -(2 ^ 31)) then .ub
          else sum_h_loop assertions ids rest (sum_h + value)
        else check assertions false 28 .ub

/-- `cost_saturation::compute_sum_h` (`src/search/cost_saturation/utils.cc`,
lines 16-37). -/
def compute_sum_h (assertions : Bool) (local_state_ids : List Int)
    (h_values_by_abstraction : List (List Int)) : Run Int :=
  check assertions (local_state_ids.length == h_values_by_abstraction.length) 20 <|
  sum_h_loop assertions local_state_ids h_values_by_abstraction 0

/-- The h values that the ids select from the tables: `none` for the id `-1`. -/
def looked_up (ids : List Int) (tables : List (List Int)) : List (Option Int) :=
  List.zipWith (fun id h => if id = -1 then none else some (h.getD id.toNat 0)) ids tables

/-- The entry is a pruned state (`none`) or the value `INF`. -/
def is_infinite (x : Option Int) : Bool := x == none || x == some INF

/-- The h values looked up before the first entry that is pruned or `INF` (all
of them if there is none): the values that the loop adds up. -/
def scanned_values (ids : List Int) (tables : List (List Int)) : List Int :=
  ((looked_up ids tables).takeWhile fun x => !is_infinite x).map fun x => x.getD 0

/-- Every id is `-1` or an index of its table, and the vectors are equally
long. -/
def IdsInBounds (ids : List Int) (tables : List (List Int)) : Prop :=
  List.Forall₂ (fun (id : Int) (h : List Int) => id = -1 ∨ (0 ≤ id ∧ id < h.length)) ids tables

/-- The loop of lines 270-281 of
`PatternCollectionGeneratorSystematic::build_patterns_naive`
(`src/search/pdbs/pattern_collection_generator_systematic.cc`) for one pattern
of `current_patterns` in round `i`, without a handler: the patterns
`current_pattern + [var]` for `var` from `max_var + 1` to `num_variables - 1`, in
the order in which they are pushed; `max_var` is `-1` in round 0 and the last
variable of the pattern otherwise. -/
def extend_pattern (num_variables i : Nat) (current_pattern : List Nat) : List (List Nat) :=
  let first_var := if i > 0 then current_pattern.getLastD 0 + 1 else 0
  (List.range' first_var (num_variables - first_var)).map fun var => current_pattern ++ [var]

/-- The rounds `i, i + 1, ...` of the loop of lines 264-285: `rounds` is the
number of rounds left, `next_patterns` collects the patterns pushed in the round,
which are appended to `patterns` in the same order. -/
def naive_rounds (num_variables : Nat) :
    Nat → Nat → List (List Nat) → List (List Nat) → List (List Nat)
  | 0, _, _, patterns => patterns
  | rounds + 1, i, current_patterns, patterns =>
    let next_patterns := current_patterns.flatMap (extend_pattern num_variables i)
    naive_rounds num_variables rounds (i + 1) next_patterns (patterns ++ next_patterns)

/-- `PatternCollectionGeneratorSystematic::build_patterns_naive` (lines 257-287)
without a handler: the value of `*patterns` on return, from its value on entry;
`current_patterns` starts as the collection that holds the empty pattern. -/
def build_patterns_naive (num_variables max_pattern_size : Nat) (patterns : List (List Nat)) :
    List (List Nat) :=
  naive_rounds num_variables max_pattern_size 0 [[]] patterns

/-- The pattern `p` is a strictly increasing sequence of `len` variables below
`n`. -/
def IsPattern (n len : Nat) (p : List Nat) : Prop :=
  p.length = len ∧ p.Pairwise (· < ·) ∧ ∀ x ∈ p, x < n

/-- The graph `wrap_in` with the two transitions of `in[2]` in the other order. -/
def wrap_in_swapped : List Transitions :=
  [[⟨1, 1⟩], [⟨1, 2⟩], [⟨0, 4⟩, ⟨1, 3⟩], [], [⟨1, 2⟩]]

/-- The contents of `open_queue` at the calls of `pop` of line 346, in the order
of the iterations of the loop of lines 345-367 (see `full_loop`) that starts in
the state `sp`. -/
def full_queues (in_ : List Transitions) : Nat → ShortestPaths → List HeapQueue
  | 0, _ => []
  | fuel + 1, sp =>
    match sp.open_queue.pop with
    | none => []
    | some ((old_g, state_id), q) =>
      let sp1 := { sp with open_queue := q }
      let g := sp1.goal_distances.getD state_id 0
      sp.open_queue ::
        (if g < old_g then full_queues in_ fuel sp1
        else full_queues in_ fuel ((in_.getD state_id []).foldl (full_relax g state_id) sp1))

/-- Backward adjacency of a graph with the goals 0 and 1: arcs `2 -> 0` of
operator 0 and `3 -> 0`, `3 -> 1`, `2 -> 1` of operator 1. -/
def fan_in : List Transitions := [[⟨0, 2⟩, ⟨1, 3⟩], [⟨1, 3⟩, ⟨1, 2⟩], [], []]

/-- The graph `fan_in` with the transitions of `in[0]` and of `in[1]` in the
other order. -/
def fan_in_swapped : List Transitions := [[⟨1, 3⟩, ⟨0, 2⟩], [⟨1, 2⟩, ⟨1, 3⟩], [], []]

/-- Forward adjacency of the graph `fan_in`. -/
def fan_out : List Transitions := [[], [], [⟨0, 0⟩, ⟨1, 1⟩], [⟨1, 0⟩, ⟨1, 1⟩]]

/-! ## Outcomes and assertions -/

theorem check_true {α : Type} (a : Bool) (line : Nat) (k : Run α) : check a true line k = k := by
  simp [check]

theorem check_off {α : Type} (c : Bool) (line : Nat) (k : Run α) : check false c line k = k := by
  simp [check]

theorem check_on_false {α : Type} (line : Nat) (k : Run α) :
    check true false line k = .abort line := by
  simp [check]

theorem Run.bind_eq_ok {α β : Type} {r : Run α} {k : α → Run β} {b : β}
    (h : r.bind k = .ok b) : ∃ a, r = .ok a ∧ k a = .ok b := by
  cases r <;> simp [Run.bind] at h
  exact ⟨_, rfl, h⟩

theorem check_eq_ok {α : Type} {a c : Bool} {line : Nat} {k : Run α} {x : α}
    (h : check a c line k = .ok x) : (a = true → c = true) ∧ k = .ok x := by
  unfold check at h
  cases a <;> cases c <;> simp at h ⊢ <;> exact h

/-! ## Nat encoding -/

theorem toUInt64_of_nonneg (c : Int) (h0 : 0 ≤ c) (h1 : c < 2 ^ 64) : toUInt64 c = c.toNat := by
  unfold toUInt64
  rw [Int.emod_eq_of_lt h0 h1]

theorem toInt32_of_lt (x : Nat) (h : x < 2 ^ 31) : toInt32 x = (x : Int) := by
  unfold toInt32
  have h2 : x % 2 ^ 32 = x := Nat.mod_eq_of_lt (by omega)
  rw [h2, if_pos h]

theorem new_task_has_zero_costs {assertions : Bool} {costs : List Int} {sp : ShortestPaths}
    (h : ShortestPaths.new assertions costs = .ok sp) :
    sp.task_has_zero_costs = has_zero_cost costs := by
  unfold ShortestPaths.new at h
  obtain ⟨ocs, -, h2⟩ := Run.bind_eq_ok h
  simp only [Run.ok.injEq] at h2
  rw [← h2]

theorem has_zero_cost_iff (costs : List Int) : has_zero_cost costs = true ↔ (0 : Int) ∈ costs := by
  simp [has_zero_cost]

/-- C9: decoding an encoded external cost `c` with `0 ≤ c < INF` gives `c` back,
whether or not the task has zero-cost operators; `INF` is encoded as `INF_COSTS`
and `INF_COSTS` is decoded as `INF`; no assertion of the two conversions fails. -/
theorem convert_round_trip (assertions task_has_zero_costs : Bool) (c : Int)
    (h0 : 0 ≤ c) (h1 : c < INF) :
    (convert_to_64_bit_cost assertions task_has_zero_costs c).bind
        (convert_to_32_bit_cost assertions task_has_zero_costs) = .ok c
    ∧ convert_to_64_bit_cost assertions task_has_zero_costs INF = .ok INF_COSTS
    ∧ convert_to_32_bit_cost assertions task_has_zero_costs INF_COSTS = .ok INF := by
  have hINF : INF = 2147483647 := by norm_num [INF]
  rw [hINF] at h1
  obtain ⟨n, rfl⟩ := Int.eq_ofNat_of_zero_le h0
  have hn : n < 2147483647 := by exact_mod_cast h1
  have hu : toUInt64 (n : Int) = n := by
    rw [toUInt64_of_nonneg _ h0 (by omega)]; simp
  refine ⟨?_, ?_, ?_⟩
  · have hne : ¬ ((n : Int) = INF) := by rw [hINF]; omega
    have hge : decide ((n : Int) ≥ 0) = true := by simp
    unfold convert_to_64_bit_cost
    rw [hge, check_true]
    simp only [beq_iff_eq, hne, if_false, hu]
    cases task_has_zero_costs
    · simp only [Bool.false_eq_true, if_false, Run.bind]
      unfold convert_to_32_bit_cost
      have h3 : (n != DIRTY) = true := by simp [DIRTY]; omega
      rw [h3, check_true]
      have h4 : ¬ (n = INF_COSTS) := by simp [INF_COSTS]; omega
      simp only [beq_iff_eq, h4, if_false, Bool.false_eq_true]
      rw [toInt32_of_lt _ (by omega)]
    · simp only [if_true]
      by_cases hz : (n : Int) = 0
      · have hn0 : n = 0 := by exact_mod_cast hz
        subst hn0
        simp [Run.bind, convert_to_32_bit_cost, check, DIRTY, INF_COSTS, toInt32]
      · have hn0 : n ≠ 0 := by intro h; apply hz; simp [h]
        simp only [hz, if_false, Run.bind]
        have h5 : n * 2 ^ 32 % 2 ^ 64 = n * 2 ^ 32 := Nat.mod_eq_of_lt (by omega)
        rw [h5]
        unfold convert_to_32_bit_cost
        have h3 : (n * 2 ^ 32 != DIRTY) = true := by
          have : n * 2 ^ 32 ≠ 2 ^ 64 - 2 := by omega
          simpa [DIRTY] using this
        rw [h3, check_true]
        have h4 : ¬ (n * 2 ^ 32 = INF_COSTS) := by
          have : n * 2 ^ 32 ≠ 2 ^ 64 - 1 := by omega
          simpa [INF_COSTS] using this
        simp only [beq_iff_eq, h4, if_false, if_true]
        rw [Nat.mul_div_cancel _ (by norm_num), toInt32_of_lt _ (by omega)]
  · simp [convert_to_64_bit_cost, check, INF]
  · simp [convert_to_32_bit_cost, check, INF_COSTS, DIRTY]

/-- Witness of C9 at the external cost 5 of a task with zero-cost operators. -/
theorem convert_round_trip_witness :
    ((convert_to_64_bit_cost true true 5).bind (convert_to_32_bit_cost true true) = .ok 5
    ∧ convert_to_64_bit_cost true true INF = .ok INF_COSTS
    ∧ convert_to_32_bit_cost true true INF_COSTS = .ok INF) :=
  convert_round_trip true true 5 (by decide) (by decide)

/-- C10 fails for the cost table `[1]`: the engine built from it has no zero-cost
operator and encodes the external cost 0 as 0. -/
theorem encode_zero_not_positive :
    (ShortestPaths.new true [1]).bind
      (fun sp => convert_to_64_bit_cost true sp.task_has_zero_costs 0) = .ok 0 := by
  decide

/-- C10 as amended: in an engine built from the table `costs`, the external cost 0
is encoded as 1 when the table contains a zero and as 0 when it does not. -/
theorem encode_zero (assertions : Bool) (costs : List Int) (sp : ShortestPaths)
    (hnew : ShortestPaths.new assertions costs = .ok sp) :
    convert_to_64_bit_cost assertions sp.task_has_zero_costs 0
      = .ok (if (0 : Int) ∈ costs then 1 else 0) := by
  rw [new_task_has_zero_costs hnew]
  by_cases h : (0 : Int) ∈ costs
  · rw [(has_zero_cost_iff costs).2 h, if_pos h]
    simp [convert_to_64_bit_cost, check, INF]
  · have h2 : has_zero_cost costs = false := by
      rw [← Bool.not_eq_true, has_zero_cost_iff]; exact h
    rw [h2, if_neg h]
    simp [convert_to_64_bit_cost, check, INF, toUInt64]

/-- Witness of the amended C10 at the cost table `[0, 1]`. -/
theorem encode_zero_witness :
    convert_to_64_bit_cost true true 0 = .ok (if (0 : Int) ∈ [(0 : Int), 1] then 1 else 0) :=
  encode_zero true [0, 1] ⟨true, [1, 4294967296], [], [], [], [], [], []⟩ (by decide)

/-! ## Solution extraction -/

/-- C7: the extraction returns the null pointer exactly when
`goal_distances[init_id]` is `INF_COSTS`; this holds for every engine state, with
assertions compiled in or not, so no assertion stands before that return; the
function only reads the engine state. -/
theorem extract_null_iff (assertions : Bool) (sp : ShortestPaths) (init_id : Nat)
    (goals : List Nat) (fuel : Nat) :
    extract_solution_from_shortest_path_tree assertions sp init_id goals fuel = .ok none
      ↔ sp.goal_distances.getD init_id 0 = INF_COSTS := by
  unfold extract_solution_from_shortest_path_tree
  by_cases h : sp.goal_distances.getD init_id 0 = INF_COSTS
  · simp only [beq_iff_eq, h, if_true]
  · simp only [beq_iff_eq, h, if_false, iff_false]
    intro hc
    obtain ⟨-, hc2⟩ := check_eq_ok hc
    obtain ⟨s, -, hs⟩ := Run.bind_eq_ok hc2
    simp at hs

/-- C8 fails with assertions compiled in: in scenario S1 (one state that is its
own goal, no operators) the extraction from the goal state aborts at the
assertion of line 85. -/
theorem extract_goal_source_aborts :
    ((ShortestPaths.new true []).bind fun sp0 =>
      (full_dijkstra true sp0 [[]] [0] 5).bind fun sp =>
        extract_solution_from_shortest_path_tree true sp 0 [0] 5) = .abort 85 := by
  decide

/-- C8 as amended: when `init_id` is a goal state with a distance other than
`INF_COSTS`, the extraction aborts at the assertion of line 85 when assertions
are compiled in, and returns the empty sequence when they are compiled out. -/
theorem extract_goal_source (sp : ShortestPaths) (init_id : Nat) (goals : List Nat) (fuel : Nat)
    (hgoal : init_id ∈ goals) (hfin : sp.goal_distances.getD init_id 0 ≠ INF_COSTS) :
    extract_solution_from_shortest_path_tree true sp init_id goals fuel = .abort 85
    ∧ extract_solution_from_shortest_path_tree false sp init_id goals (fuel + 1) = .ok (some []) := by
  have hc : goals.contains init_id = true := by simpa using hgoal
  constructor
  · unfold extract_solution_from_shortest_path_tree
    simp only [beq_iff_eq, hfin, if_false, hc, Bool.not_true, check_on_false]
  · unfold extract_solution_from_shortest_path_tree
    simp only [beq_iff_eq, hfin, if_false, check_off, extract_loop, hc, if_true, Run.bind]

/-- Witness of the amended C8 at the state of scenario S1. -/
theorem extract_goal_source_witness :
    extract_solution_from_shortest_path_tree true
        ⟨false, [], [], [], [0], [], [], [none]⟩ 0 [0] 5 = .abort 85
    ∧ extract_solution_from_shortest_path_tree false
        ⟨false, [], [], [], [0], [], [], [none]⟩ 0 [0] (5 + 1) = .ok (some []) :=
  extract_goal_source ⟨false, [], [], [], [0], [], [], [none]⟩ 0 [0] 5 (by decide) (by decide)

/-! ## The dirty set on return -/

theorem run_foldl_inv {σ α : Type} (P : σ → Prop) (f : σ → α → Run σ)
    (hf : ∀ s a s1, P s → f s a = .ok s1 → P s1) :
    ∀ {l : List α} {s s1 : σ}, Run.foldl f s l = .ok s1 → P s → P s1 := by
  intro l
  induction l with
  | nil =>
    intro s s1 h hs
    simp only [Run.foldl, Run.ok.injEq] at h
    exact h ▸ hs
  | cons a as ih =>
    intro s s1 h hs
    simp only [Run.foldl] at h
    obtain ⟨s2, h1, h2⟩ := Run.bind_eq_ok h
    exact ih h2 (hf s a s2 hs h1)

theorem list_foldl_inv {σ α : Type} (P : σ → Prop) (f : σ → α → σ)
    (hf : ∀ s a, P s → P (f s a)) : ∀ (l : List α) (s : σ), P s → P (l.foldl f s) := by
  intro l
  induction l with
  | nil => intro s hs; exact hs
  | cons a as ih => intro s hs; exact ih _ (hf s a hs)

theorem mark_dirty_dirty_states {a : Bool} {sp sp1 : ShortestPaths} {state : Nat}
    (h : mark_dirty a sp state = .ok sp1) : sp1.dirty_states = sp.dirty_states ++ [state] := by
  unfold mark_dirty check at h
  dsimp only at h
  split_ifs at h
  cases h
  rfl

theorem push_candidate_dirty_states (state : Nat) (sp : ShortestPaths) (t : Transition) :
    (push_candidate state sp t).dirty_states = sp.dirty_states := by
  unfold push_candidate
  dsimp only
  split_ifs <;> rfl

theorem push_candidates_dirty_states (state : Nat) (l : List Transition) (sp : ShortestPaths) :
    (l.foldl (push_candidate state) sp).dirty_states = sp.dirty_states :=
  list_foldl_inv (fun s => s.dirty_states = sp.dirty_states) (push_candidate state)
    (fun s t hs => by dsimp only at hs ⊢; rw [push_candidate_dirty_states]; exact hs) l sp rfl

theorem candidate_loop_dirty_prefix (a : Bool) (in_ out : List Transitions) :
    ∀ (fuel : Nat) (sp sp1 : ShortestPaths), candidate_loop a in_ out fuel sp = .ok sp1 →
      ∃ l, sp1.dirty_states = sp.dirty_states ++ l := by
  intro fuel
  induction fuel with
  | zero => intro sp sp1 h; simp [candidate_loop] at h
  | succ fuel ih =>
    intro sp sp1 h
    unfold candidate_loop at h
    split at h
    · simp only [Run.ok.injEq] at h
      exact ⟨[], by rw [← h]; simp⟩
    · rename_i k state q hpop
      replace h := (check_eq_ok h).2
      replace h := (check_eq_ok h).2
      replace h := (check_eq_ok h).2
      split at h
      · obtain ⟨l, hl⟩ := ih _ _ h
        exact ⟨l, hl⟩
      · obtain ⟨sp2, hm, h⟩ := Run.bind_eq_ok h
        obtain ⟨l, hl⟩ := ih _ _ h
        have hd := mark_dirty_dirty_states hm
        simp only [push_candidates_dirty_states] at hl
        rw [hd] at hl
        exact ⟨[state] ++ l, by rw [hl]; simp⟩

theorem mark_orphaned_dirty_prefix (a : Bool) (in_ : List Transitions) :
    ∀ (fuel : Nat) (sp sp1 : ShortestPaths) (state : Nat),
      mark_orphaned_predecessors a in_ fuel sp state = .ok sp1 →
      ∃ l, sp1.dirty_states = sp.dirty_states ++ state :: l := by
  intro fuel
  induction fuel with
  | zero => intro sp sp1 state h; simp [mark_orphaned_predecessors] at h
  | succ fuel ih =>
    intro sp sp1 state h
    unfold mark_orphaned_predecessors at h
    obtain ⟨sp2, hm, h⟩ := Run.bind_eq_ok h
    have hd := mark_dirty_dirty_states hm
    have key := run_foldl_inv 
      (fun s : ShortestPaths => ∃ l, s.dirty_states = sp.dirty_states ++ state :: l) _
      (by
        intro s t s1 hs hf
        obtain ⟨-, hf⟩ := check_eq_ok hf
        split at hf
        · obtain ⟨l, hl⟩ := hs
          obtain ⟨l2, hl2⟩ := ih _ _ _ hf
          exact ⟨l ++ t.target_id :: l2, by rw [hl2, hl]; simp⟩
        · simp only [Run.ok.injEq] at hf
          exact hf ▸ hs) h ⟨[], by rw [hd]⟩
    exact key

theorem seed_step_dirty_states {a : Bool} {state : Nat} {acc acc1 : Nat × ShortestPaths}
    {t : Transition} (h : seed_step a state acc t = .ok acc1) :
    acc1.2.dirty_states = acc.2.dirty_states := by
  unfold seed_step check at h
  dsimp only at h
  split_ifs at h <;> cases h <;> rfl

theorem seed_state_dirty_states {a : Bool} {out : List Transitions} {sp sp1 : ShortestPaths}
    {state : Nat} (h : seed_state a out sp state = .ok sp1) :
    sp1.dirty_states = sp.dirty_states := by
  unfold seed_state at h
  replace h := (check_eq_ok h).2
  obtain ⟨acc, hf, h⟩ := Run.bind_eq_ok h
  have := run_foldl_inv (fun s : Nat × ShortestPaths => s.2.dirty_states = sp.dirty_states) _
    (fun s t s1 hs hf => by dsimp only at hs ⊢; rw [seed_step_dirty_states hf]; exact hs) hf rfl
  dsimp only at h this
  split_ifs at h <;> cases h <;> exact this

theorem seed_states_dirty_states {a : Bool} {out : List Transitions} (l : List Nat)
    {sp sp1 : ShortestPaths} (h : Run.foldl (seed_state a out) sp l = .ok sp1) :
    sp1.dirty_states = sp.dirty_states :=
  run_foldl_inv (fun s : ShortestPaths => s.dirty_states = sp.dirty_states) _
    (fun s t s1 hs hf => by dsimp only at hs ⊢; rw [seed_state_dirty_states hf]; exact hs) h rfl

theorem orphan_relax_dirty_states {a : Bool} {g : Nat} {state : Nat} {sp sp1 : ShortestPaths}
    {t : Transition} (h : orphan_relax a g state sp t = .ok sp1) :
    sp1.dirty_states = sp.dirty_states := by
  unfold orphan_relax check at h
  dsimp only at h
  split_ifs at h <;> cases h <;> rfl

theorem orphan_loop_dirty_states (a : Bool) (in_ : List Transitions) :
    ∀ (fuel : Nat) (sp sp1 : ShortestPaths), orphan_loop a in_ fuel sp = .ok sp1 →
      sp1.dirty_states = sp.dirty_states := by
  intro fuel
  induction fuel with
  | zero => intro sp sp1 h; simp [orphan_loop] at h
  | succ fuel ih =>
    intro sp sp1 h
    unfold orphan_loop at h
    split at h
    · simp only [Run.ok.injEq] at h; rw [← h]
    · rename_i g state q hpop
      replace h := (check_eq_ok h).2
      split at h
      · have := ih _ _ h
        exact this
      · replace h := (check_eq_ok h).2
        replace h := (check_eq_ok h).2
        obtain ⟨sp2, hf, h⟩ := Run.bind_eq_ok h
        rw [ih _ _ h]
        have key := run_foldl_inv (fun s : ShortestPaths => s.dirty_states = sp.dirty_states)
          (orphan_relax a g state)
          (fun s t s1 hs hf => by dsimp only at hs ⊢; rw [orphan_relax_dirty_states hf]; exact hs)
          hf rfl
        exact key

theorem redirect_step_dirty_states (v state : Nat) (sp : ShortestPaths) (t : Transition) :
    (redirect_step v state sp t).dirty_states = sp.dirty_states := by
  unfold redirect_step
  dsimp only
  split
  · rfl
  · split_ifs <;> rfl

theorem redirect_arcs_dirty_states (in_ : List Transitions) (v v1 v2 : Nat) (sp : ShortestPaths) :
    (redirect_arcs in_ v v1 v2 sp).dirty_states = sp.dirty_states := by
  unfold redirect_arcs
  simp only [List.foldl]
  have h : ∀ (state : Nat) (l : List Transition) (s : ShortestPaths),
      (l.foldl (redirect_step v state) s).dirty_states = s.dirty_states := by
    intro state l s
    exact list_foldl_inv (fun s1 => s1.dirty_states = s.dirty_states) (redirect_step v state)
      (fun s1 t hs => by dsimp only at hs ⊢; rw [redirect_step_dirty_states]; exact hs) l s rfl
  rw [h, h]

theorem HeapQueue.pop_singleton (x : Nat × Nat) : HeapQueue.pop [x] = some (x, []) := rfl

/-- C5 fails in scenario S3 (costs `[3, 4]`, chain `0 -> 1 -> 2`, state 1 split
into 1 and 3, the arc to the goal staying on 3): the call marks state 1 dirty and
returns with `dirty_states = [1]`, for `filter_orphans` true and false. -/
theorem dirty_states_left_on_return :
    ((ShortestPaths.new true [3, 4]).bind fun sp0 =>
      (full_dijkstra true sp0 chain_in [2] 10).bind fun sp =>
        (dijkstra_from_orphans true sp split_in split_out 1 1 3 true 10).bind fun sp1 =>
            .ok sp1.dirty_states) = .ok [1]
    ∧ ((ShortestPaths.new true [3, 4]).bind fun sp0 =>
      (full_dijkstra true sp0 chain_in [2] 10).bind fun sp =>
        (dijkstra_from_orphans true sp split_in split_out 1 1 3 false 10).bind fun sp1 =>
            .ok sp1.dirty_states) = .ok [1] := by
  decide

theorem redirect_step_candidate_queue (v state : Nat) (sp : ShortestPaths) (t : Transition) :
    (redirect_step v state sp t).candidate_queue = sp.candidate_queue := by
  unfold redirect_step
  dsimp only
  split
  · rfl
  · split_ifs <;> rfl

theorem redirect_arcs_candidate_queue (in_ : List Transitions) (v v1 v2 : Nat)
    (sp : ShortestPaths) :
    (redirect_arcs in_ v v1 v2 sp).candidate_queue = sp.candidate_queue := by
  unfold redirect_arcs
  simp only [List.foldl]
  have h : ∀ (state : Nat) (l : List Transition) (s : ShortestPaths),
      (l.foldl (redirect_step v state) s).candidate_queue = s.candidate_queue := by
    intro state l s
    exact list_foldl_inv (fun s1 => s1.candidate_queue = s.candidate_queue)
      (redirect_step v state)
      (fun s1 t hs => by dsimp only at hs ⊢; rw [redirect_step_candidate_queue]; exact hs) l s rfl
  rw [h, h]

theorem can_reconnect_congr {sp sp1 : ShortestPaths}
    (hd : sp.goal_distances = sp1.goal_distances) (hc : sp.operator_costs = sp1.operator_costs) :
    can_reconnect sp = can_reconnect sp1 := by
  funext state t
  unfold can_reconnect
  rw [hd, hc]

/-- C5 as amended: `dirty_states` is cleared when the call starts and never on
return. When `dijkstra_from_orphans` returns, `dirty_states` begins with `v1` if
`filter_orphans` is false; if `filter_orphans` is true (and the candidate queue was
empty on entry) it is either empty or begins with `v1`, and it is empty exactly
when `v1` could be reconnected, that is when some outgoing transition of `v1`
passes the test of lines 221-225 in the state after the redirection of lines
174-184. -/
theorem dirty_states_on_return (assertions : Bool) (sp sp1 : ShortestPaths)
    (in_ out : List Transitions) (v v1 v2 : Nat) (filter_orphans : Bool) (fuel : Nat)
    (hq : sp.candidate_queue = [])
    (hret : dijkstra_from_orphans assertions sp in_ out v v1 v2 filter_orphans fuel = .ok sp1) :
    (filter_orphans = false → sp1.dirty_states.head? = some v1)
    ∧ (filter_orphans = true →
        (sp1.dirty_states = [] ∨ sp1.dirty_states.head? = some v1)
        ∧ (sp1.dirty_states = [] ↔
            ((out.getD v1 []).find? (can_reconnect
              (redirect_arcs in_ v v1 v2 (split_copy (split_init sp in_.length) v v1 v2))
              v1)).isSome)) := by
  unfold dijkstra_from_orphans at hret
  replace hret := (check_eq_ok hret).2
  dsimp only at hret
  replace hret := (check_eq_ok hret).2
  replace hret := (check_eq_ok hret).2
  obtain ⟨sp6, hC, hret⟩ := Run.bind_eq_ok hret
  replace hret := (check_eq_ok hret).2
  replace hret := (check_eq_ok hret).2
  obtain ⟨sp8, hseed, hret⟩ := Run.bind_eq_ok hret
  have h1 : sp1.dirty_states = sp6.dirty_states := by
    rw [orphan_loop_dirty_states _ _ _ _ _ hret, seed_states_dirty_states _ hseed]
  generalize hsp3 : redirect_arcs in_ v v1 v2
      (split_copy (split_init sp in_.length) v v1 v2) = sp3 at hC ⊢
  have h3 : sp3.dirty_states = [] := by
    rw [← hsp3, redirect_arcs_dirty_states]; rfl
  have h3q : sp3.candidate_queue = [] := by
    rw [← hsp3, redirect_arcs_candidate_queue]; exact hq
  constructor
  · intro hf
    subst hf
    simp only [Bool.false_eq_true, if_false] at hC
    obtain ⟨l, hl⟩ := mark_orphaned_dirty_prefix _ _ _ _ _ _ hC
    rw [h1, hl, h3]; rfl
  · intro hf
    subst hf
    simp only [if_true] at hC
    replace hC := (check_eq_ok hC).2
    replace hC := (check_eq_ok hC).2
    have hcq : (candidate_init sp3 in_.length v1).candidate_queue
        = [((candidate_init sp3 in_.length v1).goal_distances.getD v1 0, v1)] := by
      simp only [candidate_init, HeapQueue.push, h3q, List.nil_append]
    have hcd : (candidate_init sp3 in_.length v1).dirty_states = [] := h3
    have hgd : (candidate_init sp3 in_.length v1).goal_distances = sp3.goal_distances := rfl
    have hoc : (candidate_init sp3 in_.length v1).operator_costs = sp3.operator_costs := rfl
    generalize candidate_init sp3 in_.length v1 = spc at hC hcq hcd hgd hoc
    have hcr : ∀ q, can_reconnect { spc with candidate_queue := q } = can_reconnect sp3 :=
      fun q => can_reconnect_congr hgd hoc
    cases fuel with
    | zero => simp [candidate_loop] at hC
    | succ fuel =>
      unfold candidate_loop at hC
      rw [hcq, HeapQueue.pop_singleton] at hC
      dsimp only at hC
      replace hC := (check_eq_ok hC).2
      replace hC := (check_eq_ok hC).2
      replace hC := (check_eq_ok hC).2
      rw [hcr] at hC
      cases hfind : (out.getD v1 []).find? (can_reconnect sp3 v1) with
      | some t =>
        rw [hfind] at hC
        dsimp only at hC
        have hd6 : sp6.dirty_states = [] := by
          cases fuel with
          | zero => simp [candidate_loop] at hC
          | succ fuel =>
            unfold candidate_loop at hC
            simp only [HeapQueue.pop, Run.ok.injEq] at hC
            rw [← hC]; exact hcd
        rw [h1, hd6]
        simp
      | none =>
        rw [hfind] at hC
        dsimp only at hC
        obtain ⟨sp2, hm, hC⟩ := Run.bind_eq_ok hC
        obtain ⟨l, hl⟩ := candidate_loop_dirty_prefix _ _ _ _ _ _ hC
        have hd2 := mark_dirty_dirty_states hm
        simp only [push_candidates_dirty_states] at hl
        rw [hd2] at hl
        have : sp1.dirty_states = v1 :: l := by
          rw [h1, hl]; simp [hcd]
        rw [this]
        simp

/-- Witness of the amended C5 in scenario S3. -/
theorem dirty_states_on_return_witness :
    (true = false → split_state.dirty_states.head? = some 1)
    ∧ (true = true →
        (split_state.dirty_states = [] ∨ split_state.dirty_states.head? = some 1)
        ∧ (split_state.dirty_states = [] ↔
            ((split_out.getD 1 []).find? (can_reconnect
              (redirect_arcs split_in 1 1 3
                (split_copy (split_init (chain_state 3 4) split_in.length) 1 1 3))
              1)).isSome)) :=
  dirty_states_on_return true (chain_state 3 4) split_state split_in split_out 1 1 3 true 10
    rfl (by decide)

/-! ## Validity of the extracted solution -/

theorem new_fold_spec (a hz : Bool) : ∀ (costs : List Int) (acc res : List Nat),
    Run.foldl (fun (acc : List Nat) (cost : Int) =>
      (convert_to_64_bit_cost a hz cost).bind (fun c => .ok (acc ++ [c]))) acc costs = .ok res →
    res.length = acc.length + costs.length ∧
    (∀ i, i < acc.length → res.getD i 0 = acc.getD i 0) ∧
    ∀ i, i < costs.length →
      convert_to_64_bit_cost a hz (costs.getD i 0) = .ok (res.getD (acc.length + i) 0) := by
  intro costs
  induction costs with
  | nil =>
    intro acc res h
    simp only [Run.foldl, Run.ok.injEq] at h
    subst h
    simp
  | cons c cs ih =>
    intro acc res h
    simp only [Run.foldl] at h
    obtain ⟨acc1, h1, h2⟩ := Run.bind_eq_ok h
    obtain ⟨x, hx, h3⟩ := Run.bind_eq_ok h1
    simp only [Run.ok.injEq] at h3
    subst h3
    obtain ⟨hl, hpre, hpost⟩ := ih _ _ h2
    refine ⟨?_, ?_, ?_⟩
    · rw [hl]; simp; omega
    · intro i hi
      rw [hpre i (by simp; omega)]
      rw [List.getD_append _ _ _ _ hi]
    · intro i hi
      cases i with
      | zero =>
        have := hpre acc.length (by simp)
        simp only [List.getD_cons_zero, Nat.add_zero]
        rw [this, hx]
        simp [List.getD_append_right]
      | succ i =>
        have := hpost i (by simpa using hi)
        simp only [List.getD_cons_succ]
        rw [this]
        simp only [List.length_append, List.length_singleton]
        rw [Nat.add_assoc, Nat.add_comm 1 i]

theorem new_operator_costs {a : Bool} {costs : List Int} {sp : ShortestPaths}
    (h : ShortestPaths.new a costs = .ok sp) :
    sp.operator_costs.length = costs.length ∧
    ∀ i, i < costs.length →
      convert_to_64_bit_cost a (has_zero_cost costs) (costs.getD i 0)
        = .ok (sp.operator_costs.getD i 0) := by
  unfold ShortestPaths.new at h
  obtain ⟨ocs, h1, h2⟩ := Run.bind_eq_ok h
  simp only [Run.ok.injEq] at h2
  obtain ⟨hl, -, hpost⟩ := new_fold_spec _ _ _ _ _ h1
  rw [← h2]
  refine ⟨by simpa using hl, ?_⟩
  intro i hi
  have := hpost i hi
  simpa using this

theorem convert_to_64_value {a hz : Bool} {c : Int} {x : Nat}
    (h : convert_to_64_bit_cost a hz c = .ok x) (h0 : 0 ≤ c) (h1 : c ≤ INF) :
    (c = INF ∧ x = INF_COSTS) ∨
    (c < INF ∧ x ≠ INF_COSTS ∧ x < 2 ^ 63 ∧ (hz = false → (x : Int) = c) ∧
      (hz = true → (c = 0 ∧ x = 1) ∨ (0 < c ∧ (x : Int) = c * 2 ^ 32))) := by
  unfold convert_to_64_bit_cost at h
  replace h := (check_eq_ok h).2
  have hINF : INF = 2147483647 := by norm_num [INF]
  by_cases hc : c = INF
  · left
    simp only [hc, beq_self_eq_true, if_true, Run.ok.injEq] at h
    exact ⟨hc, h.symm⟩
  · right
    simp only [beq_iff_eq, hc, if_false] at h
    rw [hINF] at h1 hc
    obtain ⟨n, rfl⟩ := Int.eq_ofNat_of_zero_le h0
    have hn : n < 2147483647 := by omega
    have hu : toUInt64 (n : Int) = n := by
      rw [toUInt64_of_nonneg _ h0 (by omega)]; simp
    rw [hu] at h
    have hI : ∀ m : Nat, m < 2 ^ 63 → m ≠ INF_COSTS := by
      intro m hm; unfold INF_COSTS; omega
    refine ⟨by rw [hINF]; omega, ?_⟩
    cases hz
    · simp only [Bool.false_eq_true, if_false, Run.ok.injEq] at h
      subst h
      have hb : n < 2 ^ 63 := by omega
      refine ⟨hI _ hb, hb, fun _ => rfl, fun h => by simp at h⟩
    · simp only [if_true] at h
      by_cases hz0 : (n : Int) = 0
      · simp only [hz0, if_true, Run.ok.injEq] at h
        subst h
        have hb : 1 < 2 ^ 63 := by norm_num
        refine ⟨hI _ hb, hb, fun h => by simp at h, fun _ => Or.inl ⟨hz0, rfl⟩⟩
      · simp only [hz0, if_false, Run.ok.injEq] at h
        have h5 : n * 2 ^ 32 % 2 ^ 64 = n * 2 ^ 32 := Nat.mod_eq_of_lt (by omega)
        rw [h5] at h
        subst h
        have hb : n * 2 ^ 32 < 2 ^ 63 := by omega
        refine ⟨hI _ hb, hb, fun h => by simp at h, fun _ => Or.inr ⟨by omega, ?_⟩⟩
        push_cast
        ring

theorem nodup_length_le (l : List Nat) (n : Nat) (hnd : l.Nodup) (hlt : ∀ x ∈ l, x < n) :
    l.length ≤ n := by
  have h1 := List.toFinset_card_of_nodup hnd
  have h2 : l.toFinset ⊆ Finset.range n := by
    intro x hx
    simp only [List.mem_toFinset] at hx
    simp only [Finset.mem_range]
    exact hlt x hx
  have h3 := Finset.card_le_card h2
  simp only [Finset.card_range] at h3
  omega

theorem TreeValid.step {sp : ShortestPaths} {out : List Transitions} {goals : List Nat}
    (hv : TreeValid sp out goals) {u : Nat} {t : Transition}
    (hu : u < sp.goal_distances.length) (hg : u ∉ goals)
    (hfin : sp.goal_distances.getD u 0 ≠ INF_COSTS)
    (ht : sp.shortest_path.getD u none = some t) :
    t ∈ out.getD u [] ∧ t.target_id < sp.goal_distances.length ∧
    sp.goal_distances.getD u 0
      = sp.goal_distances.getD t.target_id 0 + sp.operator_costs.getD t.op_id 0 ∧
    sp.goal_distances.getD t.target_id 0 ≠ INF_COSTS ∧
    sp.operator_costs.getD t.op_id 0 ≠ INF_COSTS := by
  obtain ⟨t1, h1, h2, h3, h4⟩ := hv.arc u hu hg hfin
  rw [ht] at h1
  cases h1
  have hw := hv.word u
  refine ⟨h2, h3, h4, ?_, ?_⟩ <;>
  · intro hc
    have : sp.goal_distances.getD u 0 < 2 ^ 64 - 1 := by
      have : sp.goal_distances.getD u 0 ≠ 2 ^ 64 - 1 := hfin
      omega
    rw [h4, hc] at this
    unfold INF_COSTS at this
    omega

theorem extract_loop_spec (a : Bool) (sp : ShortestPaths) (out : List Transitions)
    (goals : List Nat) (hv : TreeValid sp out goals) :
    ∀ (fuel cur : Nat) (acc sol : List Transition),
      cur < sp.goal_distances.length → sp.goal_distances.getD cur 0 ≠ INF_COSTS →
      extract_loop a sp goals fuel cur acc = .ok sol →
      ∃ rest, sol = acc ++ rest ∧ walk_end cur rest ∈ goals ∧
        IsTreeWalk sp out goals cur rest := by
  intro fuel
  induction fuel with
  | zero => intro cur acc sol _ _ h; simp [extract_loop] at h
  | succ fuel ih =>
    intro cur acc sol hcur hfin h
    unfold extract_loop at h
    by_cases hg : goals.contains cur = true
    · simp only [hg, if_true, Run.ok.injEq] at h
      subst h
      refine ⟨[], by simp, ?_, trivial⟩
      simpa [walk_end] using hg
    · simp only [hg, if_false] at h
      replace h := (check_eq_ok h).2
      cases hsp : sp.shortest_path.getD cur none with
      | none =>
        rw [hsp] at h
        dsimp only at h
        unfold check at h
        split_ifs at h
      | some t =>
        rw [hsp] at h
        dsimp only at h
        replace h := (check_eq_ok h).2
        replace h := (check_eq_ok h).2
        have hg2 : cur ∉ goals := by simpa using hg
        obtain ⟨h1, h2, h3, h4, h5⟩ := hv.step hcur hg2 hfin hsp
        obtain ⟨rest, hsol, hend, hwalk⟩ := ih _ _ _ h2 h4 h
        refine ⟨t :: rest, by rw [hsol]; simp, hend, ?_⟩
        exact ⟨hg2, hsp, h1, hwalk⟩

theorem walk_valid {sp : ShortestPaths} {out : List Transitions} {goals : List Nat}
    (hv : TreeValid sp out goals)
    (hpos : ∀ u t, t ∈ out.getD u [] → 1 ≤ sp.operator_costs.getD t.op_id 0) :
    ∀ (rest : List Transition) (u : Nat), IsTreeWalk sp out goals u rest →
      u < sp.goal_distances.length → sp.goal_distances.getD u 0 ≠ INF_COSTS →
      sp.goal_distances.getD u 0
        = solution_cost64 sp rest + sp.goal_distances.getD (walk_end u rest) 0
      ∧ (∀ t ∈ rest, sp.operator_costs.getD t.op_id 0 ≠ INF_COSTS ∧ ∃ w, t ∈ out.getD w [])
      ∧ (∀ x ∈ walk_states u rest,
          x < sp.goal_distances.length ∧ sp.goal_distances.getD x 0 ≤ sp.goal_distances.getD u 0)
      ∧ (walk_states u rest).Nodup := by
  intro rest
  induction rest with
  | nil =>
    intro u _ hu _
    simp [solution_cost64, walk_end, walk_states, hu]
  | cons t rest ih =>
    intro u hw hu hfin
    obtain ⟨hg, hsp, hmem, hw2⟩ := hw
    obtain ⟨h1, h2, h3, h4, h5⟩ := hv.step hu hg hfin hsp
    obtain ⟨i1, i2, i3, i4⟩ := ih _ hw2 h2 h4
    have hp := hpos u t hmem
    refine ⟨?_, ?_, ?_, ?_⟩
    · simp only [solution_cost64, List.map_cons, List.sum_cons, walk_end] at i1 ⊢
      rw [h3, i1]; omega
    · intro t1 ht1
      rcases List.mem_cons.1 ht1 with h | h
      · subst h; exact ⟨h5, u, hmem⟩
      · exact i2 t1 h
    · intro x hx
      simp only [walk_states, List.mem_cons] at hx
      rcases hx with h | h
      · subst h; exact ⟨hu, le_refl _⟩
      · obtain ⟨j1, j2⟩ := i3 x h
        exact ⟨j1, by omega⟩
    · simp only [walk_states, List.nodup_cons]
      refine ⟨?_, i4⟩
      intro hx
      obtain ⟨-, j2⟩ := i3 u hx
      omega

theorem walk_states_length (u : Nat) (rest : List Transition) :
    (walk_states u rest).length = rest.length + 1 := by
  induction rest generalizing u with
  | nil => rfl
  | cons t rest ih => simp [walk_states, ih]

theorem solution_cost_encoded (hz : Bool) (costs : List Int) (sp : ShortestPaths)
    (sol : List Transition)
    (hrel : ∀ t ∈ sol, 0 ≤ costs.getD t.op_id 0 ∧
      (hz = false → (sp.operator_costs.getD t.op_id 0 : Int) = costs.getD t.op_id 0) ∧
      (hz = true → (costs.getD t.op_id 0 = 0 ∧ sp.operator_costs.getD t.op_id 0 = 1) ∨
        (0 < costs.getD t.op_id 0 ∧
          (sp.operator_costs.getD t.op_id 0 : Int) = costs.getD t.op_id 0 * 2 ^ 32))) :
    0 ≤ solution_cost costs sol ∧
    (hz = false → ((solution_cost64 sp sol : Nat) : Int) = solution_cost costs sol) ∧
    (hz = true → ∃ z : Nat, z ≤ sol.length ∧
      ((solution_cost64 sp sol : Nat) : Int) = solution_cost costs sol * 2 ^ 32 + z) := by
  induction sol with
  | nil =>
    simp [solution_cost, solution_cost64]
  | cons t rest ih =>
    obtain ⟨i0, i1, i2⟩ := ih (fun t1 ht1 => hrel t1 (List.mem_cons_of_mem _ ht1))
    obtain ⟨r0, r1, r2⟩ := hrel t (List.mem_cons_self _ _)
    simp only [solution_cost, solution_cost64, List.map_cons, List.sum_cons] at i0 i1 i2 ⊢
    refine ⟨by omega, ?_, ?_⟩
    · intro h
      have a1 := i1 h
      have a2 := r1 h
      rw [Nat.cast_add, a1, a2]
    · intro h
      obtain ⟨z, hz1, hz2⟩ := i2 h
      rcases r2 h with ⟨c0, c1⟩ | ⟨c0, c1⟩
      · refine ⟨z + 1, by simp; omega, ?_⟩
        rw [Nat.cast_add, hz2, c0, c1]
        push_cast
        ring
      · refine ⟨z, by simp; omega, ?_⟩
        rw [Nat.cast_add, hz2, c1]
        ring

theorem getD_mem_of_lt {α : Type} (l : List α) (i : Nat) (d : α) (h : i < l.length) :
    l.getD i d ∈ l := by
  rw [List.getD_eq_getElem _ _ h]
  exact List.getElem_mem h

/-- C6 as amended: for an engine built from the cost table `costs` (entries
between 0 and `INF`) whose state is a shortest-path tree of `out` with at most
`2 ^ 32` states, if the extraction returns a sequence then the sequence follows
the tree arcs from `init_id` (each one an outgoing transition of the state it
leaves), ends in a goal state, and, provided the sum of the external costs of
its operators is below `2 ^ 31`, that sum is the decoded goal distance of
`init_id`. -/
theorem extract_solution_valid (assertions a0 : Bool) (costs : List Int) (sp0 sp : ShortestPaths)
    (out : List Transitions) (goals : List Nat) (init_id fuel : Nat) (sol : List Transition)
    (hnew : ShortestPaths.new a0 costs = .ok sp0)
    (hcosts : ∀ c ∈ costs, 0 ≤ c ∧ c ≤ INF)
    (hoc : sp.operator_costs = sp0.operator_costs)
    (hzc : sp.task_has_zero_costs = sp0.task_has_zero_costs)
    (hops : ∀ u t, t ∈ out.getD u [] → t.op_id < costs.length)
    (hvalid : TreeValid sp out goals)
    (hinit : init_id < sp.goal_distances.length)
    (hn : sp.goal_distances.length ≤ 2 ^ 32)
    (hret : extract_solution_from_shortest_path_tree assertions sp init_id goals fuel
      = .ok (some sol)) :
    IsTreeWalk sp out goals init_id sol ∧ walk_end init_id sol ∈ goals ∧
    (solution_cost costs sol < 2 ^ 31 →
      convert_to_32_bit_cost assertions sp.task_has_zero_costs
        (sp.goal_distances.getD init_id 0) = .ok (solution_cost costs sol)) := by
  have hzc2 : sp.task_has_zero_costs = has_zero_cost costs := by
    rw [hzc]; exact new_task_has_zero_costs hnew
  obtain ⟨-, hconv⟩ := new_operator_costs hnew
  -- value of every operator cost
  have hval : ∀ op, op < costs.length →
      (costs.getD op 0 = INF ∧ sp.operator_costs.getD op 0 = INF_COSTS) ∨
      (costs.getD op 0 < INF ∧ sp.operator_costs.getD op 0 ≠ INF_COSTS ∧
        sp.operator_costs.getD op 0 < 2 ^ 63 ∧
        (sp.task_has_zero_costs = false →
          (sp.operator_costs.getD op 0 : Int) = costs.getD op 0) ∧
        (sp.task_has_zero_costs = true →
          (costs.getD op 0 = 0 ∧ sp.operator_costs.getD op 0 = 1) ∨
          (0 < costs.getD op 0 ∧
            (sp.operator_costs.getD op 0 : Int) = costs.getD op 0 * 2 ^ 32))) := by
    intro op hop
    have hc := hcosts _ (getD_mem_of_lt costs op 0 hop)
    have := convert_to_64_value (hconv op hop) hc.1 hc.2
    rw [hoc, hzc2]
    exact this
  have hpos : ∀ u t, t ∈ out.getD u [] → 1 ≤ sp.operator_costs.getD t.op_id 0 := by
    intro u t ht
    have hop := hops u t ht
    have hc := hcosts _ (getD_mem_of_lt costs t.op_id 0 hop)
    rcases hval t.op_id hop with ⟨-, h2⟩ | ⟨-, -, -, h4, h5⟩
    · rw [h2]; unfold INF_COSTS; omega
    · cases hz : sp.task_has_zero_costs with
      | false =>
        have h6 := h4 hz
        have h7 : costs.getD t.op_id 0 ≠ 0 := by
          intro h0
          have hm := getD_mem_of_lt costs t.op_id 0 hop
          rw [h0] at hm
          have := (has_zero_cost_iff costs).2 hm
          rw [← hzc2, hz] at this
          exact Bool.false_ne_true this
        omega
      | true =>
        rcases h5 hz with ⟨-, h6⟩ | ⟨h6, h7⟩
        · omega
        · have : (0 : Int) < (sp.operator_costs.getD t.op_id 0 : Int) := by
            rw [h7]; positivity
          omega
  -- the loop
  unfold extract_solution_from_shortest_path_tree at hret
  by_cases hfin : sp.goal_distances.getD init_id 0 = INF_COSTS
  · simp only [hfin, beq_self_eq_true, if_true, Run.ok.injEq, reduceCtorEq] at hret
  simp only [beq_iff_eq, hfin, if_false] at hret
  replace hret := (check_eq_ok hret).2
  obtain ⟨sol1, hloop, hret⟩ := Run.bind_eq_ok hret
  simp only [Run.ok.injEq, Option.some.injEq] at hret
  subst hret
  obtain ⟨rest, hsol, hend, hwalk⟩ := extract_loop_spec assertions sp out goals hvalid
    fuel init_id [] sol1 hinit hfin hloop
  simp only [List.nil_append] at hsol
  subst hsol
  refine ⟨hwalk, hend, ?_⟩
  intro hsum
  obtain ⟨w1, w2, w3, w4⟩ := walk_valid hvalid hpos sol1 init_id hwalk hinit hfin
  rw [hvalid.goal_zero _ hend, Nat.add_zero] at w1
  have hlen : sol1.length + 1 ≤ sp.goal_distances.length := by
    have := nodup_length_le _ _ w4 (fun x hx => (w3 x hx).1)
    rw [walk_states_length] at this
    exact this
  have hrel := solution_cost_encoded sp.task_has_zero_costs costs sp sol1 (by
    intro t ht
    obtain ⟨hne, w, hw⟩ := w2 t ht
    have hop := hops w t hw
    have hc := hcosts _ (getD_mem_of_lt costs t.op_id 0 hop)
    rcases hval t.op_id hop with ⟨-, h2⟩ | ⟨-, -, -, h4, h5⟩
    · exact absurd h2 hne
    · exact ⟨hc.1, h4, h5⟩)
  obtain ⟨e0, e1, e2⟩ := hrel
  rw [w1]
  unfold convert_to_32_bit_cost
  obtain ⟨S, hS⟩ := Int.eq_ofNat_of_zero_le e0
  rw [hS] at hsum e1 e2 ⊢
  have hS31 : S < 2 ^ 31 := by exact_mod_cast hsum
  cases hz : sp.task_has_zero_costs with
  | false =>
    have h1 := e1 hz
    have h2 : solution_cost64 sp sol1 = S := by exact_mod_cast h1
    rw [h2]
    have h3 : (S != DIRTY) = true := by
      have : S ≠ 2 ^ 64 - 2 := by omega
      simpa [DIRTY] using this
    have h4 : ¬ (S = INF_COSTS) := by unfold INF_COSTS; omega
    rw [h3, check_true]
    simp only [beq_iff_eq, h4, if_false, Bool.false_eq_true]
    rw [toInt32_of_lt _ hS31]
  | true =>
    obtain ⟨z, hz1, hz2⟩ := e2 hz
    have h2 : solution_cost64 sp sol1 = S * 2 ^ 32 + z := by exact_mod_cast hz2
    rw [h2]
    have hz3 : z < 2 ^ 32 := by omega
    have h3 : (S * 2 ^ 32 + z != DIRTY) = true := by
      have : S * 2 ^ 32 + z ≠ 2 ^ 64 - 2 := by omega
      simpa [DIRTY] using this
    have h4 : ¬ (S * 2 ^ 32 + z = INF_COSTS) := by unfold INF_COSTS; omega
    rw [h3, check_true]
    simp only [beq_iff_eq, h4, if_false, if_true]
    have h5 : (S * 2 ^ 32 + z) / 2 ^ 32 = S := by omega
    rw [h5, toInt32_of_lt _ hS31]

theorem chain_state_valid (c0 c1 : Nat) (h : c0 + c1 < 2 ^ 64) :
    TreeValid (chain_state c0 c1) chain_out [2] := by
  constructor
  · intro u
    rcases u with _ | _ | _ | u <;> simp [chain_state] <;> omega
  · intro g hg
    simp at hg
    subst hg
    simp [chain_state]
  · intro u hu hg hfin
    rcases u with _ | _ | _ | u
    · exact ⟨⟨0, 1⟩, by simp [chain_state, chain_out, Nat.add_comm]⟩
    · exact ⟨⟨1, 2⟩, by simp [chain_state, chain_out]⟩
    · simp at hg
    · simp only [chain_state, List.length_cons, List.length_nil] at hu
      omega

/-- C6 fails when the cost of the solution does not fit a 32-bit `int`: for the
cost table `[2 ^ 30, 2 ^ 30]` and the chain `0 -> 1 -> 2` with goal 2,
`full_dijkstra` leaves a shortest-path tree, the extraction from 0 returns both
transitions, their external costs sum to `2 ^ 31`, and the decoded goal distance
of 0 is `- 2 ^ 31`. -/
theorem extract_solution_cost_overflow :
    (ShortestPaths.new true [1073741824, 1073741824]).bind
        (fun sp0 => full_dijkstra true sp0 chain_in [2] 10)
      = .ok (chain_state 1073741824 1073741824)
    ∧ TreeValid (chain_state 1073741824 1073741824) chain_out [2]
    ∧ extract_solution_from_shortest_path_tree true (chain_state 1073741824 1073741824) 0 [2] 10
      = .ok (some [⟨0, 1⟩, ⟨1, 2⟩])
    ∧ solution_cost [1073741824, 1073741824] [⟨0, 1⟩, ⟨1, 2⟩] = 2147483648
    ∧ convert_to_32_bit_cost true false ((chain_state 1073741824 1073741824).goal_distances.getD 0 0)
      = .ok (-2147483648) := by
  refine ⟨by decide, chain_state_valid _ _ (by norm_num), by decide, by decide, by decide⟩

/-- Witness of the amended C6 on the chain of scenario S2 with costs `[5, 7]`. -/
theorem extract_solution_valid_witness :
    IsTreeWalk (chain_state 5 7) chain_out [2] 0 [⟨0, 1⟩, ⟨1, 2⟩]
    ∧ walk_end 0 [⟨0, 1⟩, ⟨1, 2⟩] ∈ [2]
    ∧ (solution_cost [5, 7] [⟨0, 1⟩, ⟨1, 2⟩] < 2 ^ 31 →
      convert_to_32_bit_cost true (chain_state 5 7).task_has_zero_costs
        ((chain_state 5 7).goal_distances.getD 0 0)
        = .ok (solution_cost [5, 7] [⟨0, 1⟩, ⟨1, 2⟩])) :=
  extract_solution_valid true true [5, 7] ⟨false, [5, 7], [], [], [], [], [], []⟩
    (chain_state 5 7) chain_out [2] 0 10 [⟨0, 1⟩, ⟨1, 2⟩]
    (by decide) (by simp [INF]) rfl rfl
    (by
      intro u t ht
      rcases u with _ | _ | _ | u <;> simp [chain_out] at ht <;> subst ht <;> simp)
    (chain_state_valid 5 7 (by norm_num)) (by simp [chain_state]) (by simp [chain_state])
    (by decide)

/-! ## Correctness of full_dijkstra -/

/-! ## Lists and queues -/

theorem getD_set_eq {α : Type} (l : List α) (i : Nat) (a d : α) (h : i < l.length) :
    (l.set i a).getD i d = a := by
  simp [List.getD_eq_getElem?_getD, List.getElem?_set, h]

theorem getD_set_ne {α : Type} (l : List α) (i j : Nat) (a d : α) (h : i ≠ j) :
    (l.set i a).getD j d = l.getD j d := by
  simp [List.getD_eq_getElem?_getD, List.getElem?_set, h]

theorem getD_set_le (l : List Nat) (i j a : Nat) (h : a ≤ l.getD i 0) :
    (l.set i a).getD j 0 ≤ l.getD j 0 := by
  by_cases hij : i = j
  · subst hij
    by_cases hi : i < l.length
    · rw [getD_set_eq _ _ _ _ hi]; exact h
    · rw [List.set_eq_of_length_le (by omega)]
  · rw [getD_set_ne _ _ _ _ _ hij]

theorem sum_set (l : List Nat) (i a : Nat) (h : i < l.length) :
    (l.set i a).sum + l.getD i 0 = l.sum + a := by
  induction l generalizing i with
  | nil => simp at h
  | cons x xs ih =>
    cases i with
    | zero => simp; omega
    | succ i =>
      simp only [List.set_cons_succ, List.sum_cons, List.getD_cons_succ]
      have := ih i (by simpa using h)
      omega

theorem HeapQueue.pop_eq_none {q : HeapQueue} : q.pop = none ↔ q = [] := by
  cases q with
  | nil => simp [HeapQueue.pop]
  | cons x xs =>
    simp only [HeapQueue.pop, reduceCtorEq, iff_false]
    split <;> [simp; (split <;> simp)]

theorem HeapQueue.pop_spec : ∀ {q : HeapQueue} {x : Nat × Nat} {r : HeapQueue},
    q.pop = some (x, r) →
    (∀ y, y ∈ q ↔ y = x ∨ y ∈ r) ∧ (∀ y ∈ q, x.1 ≤ y.1) ∧ r.length + 1 = q.length := by
  intro q
  induction q with
  | nil => intro x r h; simp [HeapQueue.pop] at h
  | cons a as ih =>
    intro x r h
    simp only [HeapQueue.pop] at h
    split at h
    · rename_i hn
      simp only [Option.some.injEq, Prod.mk.injEq] at h
      obtain ⟨rfl, rfl⟩ := h
      have := HeapQueue.pop_eq_none.1 hn
      subst this
      simp
    · rename_i y rest hs
      obtain ⟨i1, i2, i3⟩ := ih hs
      split at h
      · rename_i hle
        simp only [Option.some.injEq, Prod.mk.injEq] at h
        obtain ⟨rfl, rfl⟩ := h
        refine ⟨by simp, ?_, by simp⟩
        intro z hz
        rcases List.mem_cons.1 hz with h1 | h1
        · subst h1; exact le_refl _
        · exact le_trans hle (i2 z h1)
      · rename_i hle
        simp only [Option.some.injEq, Prod.mk.injEq] at h
        obtain ⟨rfl, rfl⟩ := h
        refine ⟨?_, ?_, by simp; omega⟩
        · intro z
          simp only [List.mem_cons, i1]
          tauto
        · intro z hz
          rcases List.mem_cons.1 hz with h1 | h1
          · subst h1; omega
          · exact i2 z h1

theorem HeapQueue.mem_push (q : HeapQueue) (k v : Nat) (y : Nat × Nat) :
    y ∈ q.push k v ↔ y ∈ q ∨ y = (k, v) := by
  simp [HeapQueue.push]

theorem HeapQueue.length_push (q : HeapQueue) (k v : Nat) :
    (q.push k v).length = q.length + 1 := by
  simp [HeapQueue.push]

/-! ## Walks to the goal -/

theorem GoalWalk.lt {in_ : List Transitions} {goals : List Nat} (hg : GraphOk in_ goals)
    {u : Nat} {ops : List Nat} (h : GoalWalk in_ goals u ops) : u < in_.length := by
  cases h with
  | goal hmem => exact hg.goals_lt _ hmem
  | step _ hmem => exact hg.src _ _ hmem

theorem walk_cost64_cons (ocs : List Nat) (op : Nat) (ops : List Nat) :
    walk_cost64 ocs (op :: ops) = ocs.getD op 0 + walk_cost64 ocs ops := by
  simp [walk_cost64]

theorem FiniteOps.cons {ocs : List Nat} {op : Nat} {ops : List Nat}
    (h1 : ocs.getD op 0 ≠ INF_COSTS) (h2 : FiniteOps ocs ops) : FiniteOps ocs (op :: ops) := by
  intro x hx
  rcases List.mem_cons.1 hx with h | h
  · subst h; exact h1
  · exact h2 x h

/-- The greedy property: a path cheaper than every key of the open queue is no
cheaper than the stored distance of its start. -/
theorem FullInv.below_queue {in_ : List Transitions} {goals : List Nat} {ocs : List Nat}
    {sp : ShortestPaths} (hg : GraphOk in_ goals)
    (hi : FullInv in_ goals ocs (fun _ _ => False) sp) :
    ∀ {u : Nat} {ops : List Nat}, GoalWalk in_ goals u ops → FiniteOps ocs ops →
      walk_cost64 ocs ops < INF_COSTS →
      (∀ k x, (k, x) ∈ sp.open_queue → walk_cost64 ocs ops < k) →
      sp.goal_distances.getD u 0 ≤ walk_cost64 ocs ops := by
  intro u ops hw
  induction hw with
  | goal hmem =>
    intro _ _ _
    rw [hi.goal _ hmem]
    exact Nat.zero_le _
  | @step s u op ops hw hmem ih =>
    intro hfin hlt hq
    rw [walk_cost64_cons] at hlt hq ⊢
    have hfin2 : FiniteOps ocs ops := fun x hx => hfin x (List.mem_cons_of_mem _ hx)
    have hc : ocs.getD op 0 ≠ INF_COSTS := hfin op (List.mem_cons_self _ _)
    have h1 := ih hfin2 (by omega) (fun k x hkx => by have := hq k x hkx; omega)
    have hs : s < in_.length := hw.lt hg
    have hne : sp.goal_distances.getD s 0 ≠ INF_COSTS := by omega
    rcases hi.closed s hs hne with h2 | h2
    · have := hq _ _ h2
      omega
    · have := h2 ⟨op, u⟩ hmem (fun h => h) hc
      simp only at this
      omega

theorem Settled.lt_bound {in_ : List Transitions} {goals : List Nat} {ocs : List Nat}
    {exc : Nat → Transition → Prop} {sp : ShortestPaths} {bound s : Nat}
    (hno : NoOverflow in_ goals ocs bound) (hi : FullInv in_ goals ocs exc sp)
    (hs : s < in_.length) (hset : Settled in_ goals sp s) :
    sp.goal_distances.getD s 0 < bound := by
  obtain ⟨ops, h1, h2, -⟩ := hi.sound s hs hset.1
  obtain ⟨ops1, h4, h5, h6⟩ := hno.path s ops h1 h2
  have := hset.2 ops1 h4 (by rw [hi.costs]; exact h5)
  rw [hi.costs] at this
  omega

theorem add64_eq {a b : Nat} (h : a + b < INF_COSTS) : add64 a b = a + b := by
  unfold add64
  unfold INF_COSTS at h
  exact Nat.mod_eq_of_lt (by omega)

theorem full_relax_inv {in_ : List Transitions} {goals : List Nat} {ocs : List Nat}
    {bound : Nat} (hg : GraphOk in_ goals) (hno : NoOverflow in_ goals ocs bound)
    {sp : ShortestPaths} {s g : Nat} {done : List Transition} {t : Transition}
    (hi : FullInv in_ goals ocs (fun u x => u = s ∧ x ∉ done) sp)
    (hgs : sp.goal_distances.getD s 0 = g) (hset : Settled in_ goals sp s)
    (hs : s < in_.length) (ht : t ∈ in_.getD s []) :
    FullInv in_ goals ocs (fun u x => u = s ∧ x ∉ done ++ [t]) (full_relax g s sp t) ∧
    (full_relax g s sp t).goal_distances.getD s 0 = g ∧
    Settled in_ goals (full_relax g s sp t) s ∧
    loop_measure (full_relax g s sp t) ≤ loop_measure sp := by
  have hoc := hi.costs
  subst hoc
  have hgB : g < bound := hgs ▸ hset.lt_bound hno hi hs
  have hw : t.target_id < in_.length := hg.src s t ht
  have hexc : ∀ u (x : Transition), ¬ (u = s ∧ x ∉ done ++ [t]) → x ≠ t → ¬ (u = s ∧ x ∉ done) := by
    intro u x h1 h2 h3
    apply h1
    refine ⟨h3.1, ?_⟩
    simp only [List.mem_append, List.mem_singleton, not_or]
    exact ⟨h3.2, h2⟩
  unfold full_relax
  dsimp only
  by_cases hc : sp.operator_costs.getD t.op_id 0 = INF_COSTS
  · -- an operator of infinite cost never relaxes
    have h1 : ¬ (INF_COSTS < sp.goal_distances.getD t.target_id 0) :=
      Nat.not_lt.2 (hi.word _)
    simp only [hc, beq_self_eq_true, if_true, h1, if_false]
    refine ⟨⟨hi.len, hi.plen, hi.costs, hi.word, hi.sound, hi.queue, ?_, hi.goal, hi.tree⟩,
      hgs, hset, le_refl _⟩
    intro u hu hfin
    rcases hi.closed u hu hfin with h | h
    · exact Or.inl h
    · right
      intro x hx hne hcx
      by_cases hxt : x = t
      · subst hxt; exact absurd hc hcx
      · exact h x hx (hexc u x hne hxt) hcx
  · have hsum : g + sp.operator_costs.getD t.op_id 0 < INF_COSTS := by
      have := hno.cost s t ht hc
      omega
    simp only [beq_iff_eq, hc, if_false, add64_eq hsum]
    by_cases hlt : g + sp.operator_costs.getD t.op_id 0 < sp.goal_distances.getD t.target_id 0
    · -- the distance of the source of `t` decreases
      simp only [hlt, if_true]
      have hwl : t.target_id < sp.goal_distances.length := by rw [hi.len]; exact hw
      have hwp : t.target_id < sp.shortest_path.length := by rw [hi.plen]; exact hw
      have hws : t.target_id ≠ s := by
        intro h
        rw [h, hgs] at hlt
        omega
      have hle : ∀ u, (sp.goal_distances.set t.target_id (g + sp.operator_costs.getD t.op_id 0)).getD u 0
          ≤ sp.goal_distances.getD u 0 :=
        fun u => getD_set_le _ _ _ _ (le_of_lt hlt)
      -- the new distance is the cost of a path
      obtain ⟨ops_s, hws1, hws2, hws3⟩ := hi.sound s hs hset.1
      have hwalk : GoalWalk in_ goals t.target_id (t.op_id :: ops_s) :=
        GoalWalk.step hws1 ht
      have hwfin : FiniteOps sp.operator_costs (t.op_id :: ops_s) := FiniteOps.cons hc hws2
      have hwcost : walk_cost64 sp.operator_costs (t.op_id :: ops_s) = g + sp.operator_costs.getD t.op_id 0 := by
        rw [walk_cost64_cons, hws3, hgs]; omega
      -- settled states keep their distance
      have hkeep : ∀ x, Settled in_ goals sp x → x ≠ t.target_id := by
        intro x hx hxt
        subst hxt
        have := hx.2 _ hwalk hwfin
        rw [hwcost] at this
        omega
      have hsettled : ∀ x, Settled in_ goals sp x →
          Settled in_ goals
            { sp with
              goal_distances := sp.goal_distances.set t.target_id (g + sp.operator_costs.getD t.op_id 0)
              shortest_path := sp.shortest_path.set t.target_id (some ⟨t.op_id, s⟩)
              open_queue := sp.open_queue.push (g + sp.operator_costs.getD t.op_id 0) t.target_id } x := by
        intro x hx
        have hne := hkeep x hx
        unfold Settled
        dsimp only
        rw [getD_set_ne _ _ _ _ _ (Ne.symm hne)]
        exact hx
      refine ⟨⟨?_, ?_, hi.costs, ?_, ?_, ?_, ?_, ?_, ?_⟩, ?_, hsettled s hset, ?_⟩
      · simp only [List.length_set]; exact hi.len
      · simp only [List.length_set]; exact hi.plen
      · intro u
        exact le_trans (hle u) (hi.word u)
      · -- sound
        intro u hu hfin
        dsimp only at hfin ⊢
        by_cases huw : t.target_id = u
        · subst huw
          rw [getD_set_eq _ _ _ _ hwl]
          exact ⟨_, hwalk, hwfin, hwcost⟩
        · rw [getD_set_ne _ _ _ _ _ huw] at hfin ⊢
          exact hi.sound u hu hfin
      · -- queue
        intro k u hk
        dsimp only at hk ⊢
        rcases (HeapQueue.mem_push _ _ _ _).1 hk with h | h
        · obtain ⟨h1, h2, h3⟩ := hi.queue k u h
          exact ⟨h1, le_trans (hle u) h2, h3⟩
        · simp only [Prod.mk.injEq] at h
          obtain ⟨rfl, rfl⟩ := h
          rw [getD_set_eq _ _ _ _ hwl]
          exact ⟨hw, le_refl _, hsum⟩
      · -- closed
        intro u hu hfin
        dsimp only at hfin ⊢
        by_cases huw : t.target_id = u
        · subst huw
          left
          rw [getD_set_eq _ _ _ _ hwl]
          exact (HeapQueue.mem_push _ _ _ _).2 (Or.inr rfl)
        · rw [getD_set_ne _ _ _ _ _ huw] at hfin ⊢
          rcases hi.closed u hu hfin with h | h
          · exact Or.inl ((HeapQueue.mem_push _ _ _ _).2 (Or.inl h))
          · right
            intro x hx hne hcx
            by_cases hxt : u = s ∧ x = t
            · obtain ⟨rfl, rfl⟩ := hxt
              rw [getD_set_eq _ _ _ _ hwl, hgs]
            · have hold : ¬ (u = s ∧ x ∉ done) := by
                intro h3
                apply hne
                refine ⟨h3.1, ?_⟩
                simp only [List.mem_append, List.mem_singleton, not_or]
                exact ⟨h3.2, fun h4 => hxt ⟨h3.1, h4⟩⟩
              exact le_trans (hle _) (h x hx hold hcx)
      · -- goal
        intro g0 hg0
        dsimp only
        have := hi.goal g0 hg0
        have hne : t.target_id ≠ g0 := by
          intro h
          rw [h, this] at hlt
          omega
        rw [getD_set_ne _ _ _ _ _ hne]
        exact this
      · -- tree
        intro u hu hng hfin
        dsimp only at hfin ⊢
        by_cases huw : t.target_id = u
        · subst huw
          rw [getD_set_eq _ _ _ _ hwp, getD_set_eq _ _ _ _ hwl]
          refine ⟨⟨t.op_id, s⟩, rfl, hs, ht, hc, ?_, hsettled s hset⟩
          dsimp only
          rw [getD_set_ne _ _ _ _ _ hws, hgs]
        · rw [getD_set_ne _ _ _ _ _ huw] at hfin ⊢
          rw [getD_set_ne _ _ _ _ _ huw]
          obtain ⟨t1, h1, h2, h3, h4, h5, h6⟩ := hi.tree u hu hng hfin
          refine ⟨t1, h1, h2, h3, h4, ?_, hsettled _ h6⟩
          rw [getD_set_ne _ _ _ _ _ (Ne.symm (hkeep _ h6))]
          exact h5
      · dsimp only
        rw [getD_set_ne _ _ _ _ _ hws]
        exact hgs
      · unfold loop_measure
        dsimp only
        have := sum_set sp.goal_distances t.target_id (g + sp.operator_costs.getD t.op_id 0) hwl
        rw [HeapQueue.length_push]
        omega
    · simp only [hlt, if_false]
      refine ⟨⟨hi.len, hi.plen, hi.costs, hi.word, hi.sound, hi.queue, ?_, hi.goal, hi.tree⟩,
        hgs, hset, le_refl _⟩
      intro u hu hfin
      rcases hi.closed u hu hfin with h | h
      · exact Or.inl h
      · right
        intro x hx hne hcx
        by_cases hxt : x = t
        · by_cases hus : u = s
          · subst hxt; subst hus
            rw [hgs]
            omega
          · exact h x hx (fun h3 => hus h3.1) hcx
        · exact h x hx (hexc u x hne hxt) hcx

theorem foldl_prefix_inv {σ α : Type} (P : List α → σ → Prop) (f : σ → α → σ) (l : List α)
    (hf : ∀ pre a s, a ∈ l → P pre s → P (pre ++ [a]) (f s a)) :
    ∀ s, P [] s → P l (l.foldl f s) := by
  have key : ∀ (suf pre : List α), pre ++ suf = l → ∀ s, P pre s → P l (suf.foldl f s) := by
    intro suf
    induction suf with
    | nil =>
      intro pre hpre s hs
      simp only [List.append_nil] at hpre
      subst hpre
      exact hs
    | cons a as ih =>
      intro pre hpre s hs
      simp only [List.foldl_cons]
      apply ih (pre ++ [a]) (by rw [← hpre]; simp)
      apply hf pre a s _ hs
      rw [← hpre]
      simp
  intro s hs
  exact key l [] rfl s hs

theorem Frame.refl (sp : ShortestPaths) : Frame sp sp := ⟨rfl, rfl, rfl, rfl, rfl⟩

theorem Frame.trans {a b c : ShortestPaths} (h1 : Frame a b) (h2 : Frame b c) : Frame a c :=
  ⟨h2.zero.trans h1.zero, h2.costs.trans h1.costs, h2.cq.trans h1.cq, h2.dc.trans h1.dc,
    h2.ds.trans h1.ds⟩

theorem full_relax_frame (g s : Nat) (sp : ShortestPaths) (t : Transition) :
    Frame sp (full_relax g s sp t) := by
  unfold full_relax
  dsimp only
  split_ifs <;> exact ⟨rfl, rfl, rfl, rfl, rfl⟩

theorem full_relax_fold {in_ : List Transitions} {goals : List Nat} {ocs : List Nat}
    {bound : Nat} (hg : GraphOk in_ goals) (hno : NoOverflow in_ goals ocs bound)
    {sp : ShortestPaths} {s g : Nat}
    (hi : FullInv in_ goals ocs (fun u _ => u = s) sp)
    (hgs : sp.goal_distances.getD s 0 = g) (hset : Settled in_ goals sp s)
    (hs : s < in_.length) :
    FullInv in_ goals ocs (fun _ _ => False)
      ((in_.getD s []).foldl (full_relax g s) sp) ∧
    loop_measure ((in_.getD s []).foldl (full_relax g s) sp) ≤ loop_measure sp ∧
    Frame sp ((in_.getD s []).foldl (full_relax g s) sp) := by
  have key := foldl_prefix_inv
    (fun (done : List Transition) (sp1 : ShortestPaths) =>
      FullInv in_ goals ocs (fun u x => u = s ∧ x ∉ done) sp1 ∧
      sp1.goal_distances.getD s 0 = g ∧ Settled in_ goals sp1 s ∧
      loop_measure sp1 ≤ loop_measure sp ∧ Frame sp sp1)
    (full_relax g s) (in_.getD s [])
    (by
      intro pre a sp1 ha ⟨h1, h2, h3, h4, h5⟩
      obtain ⟨k1, k2, k3, k4⟩ := full_relax_inv hg hno h1 h2 h3 hs ha
      exact ⟨k1, k2, k3, le_trans k4 h4, h5.trans (full_relax_frame _ _ _ _)⟩)
    sp
    ⟨⟨hi.len, hi.plen, hi.costs, hi.word, hi.sound, hi.queue,
      (fun u hu hfin => (hi.closed u hu hfin).imp id
        (fun h x hx hne hcx => h x hx (fun h3 => hne ⟨h3, by simp⟩) hcx)),
      hi.goal, hi.tree⟩, hgs, hset, le_refl _, Frame.refl _⟩
  obtain ⟨k1, -, -, k4, k5⟩ := key
  refine ⟨⟨k1.len, k1.plen, k1.costs, k1.word, k1.sound, k1.queue, ?_, k1.goal, k1.tree⟩, k4, k5⟩
  intro u hu hfin
  refine (k1.closed u hu hfin).imp id ?_
  intro h x hx _ hcx
  by_cases hus : u = s
  · subst hus
    exact h x hx (fun h3 => h3.2 hx) hcx
  · exact h x hx (fun h3 => hus h3.1) hcx

theorem full_loop_spec {in_ : List Transitions} {goals : List Nat} {ocs : List Nat}
    {bound : Nat} (hg : GraphOk in_ goals) (hno : NoOverflow in_ goals ocs bound) (a : Bool) :
    ∀ (fuel : Nat) (sp : ShortestPaths), FullInv in_ goals ocs (fun _ _ => False) sp →
      loop_measure sp < fuel →
      ∃ sp1, full_loop a in_ fuel sp = .ok sp1 ∧
        FullInv in_ goals ocs (fun _ _ => False) sp1 ∧ sp1.open_queue = [] ∧ Frame sp sp1 := by
  intro fuel
  induction fuel with
  | zero => intro sp _ h; omega
  | succ fuel ih =>
    intro sp hi hm
    unfold full_loop
    cases hpop : sp.open_queue.pop with
    | none =>
      exact ⟨sp, rfl, hi, HeapQueue.pop_eq_none.1 hpop, Frame.refl _⟩
    | some xr =>
      obtain ⟨⟨old_g, s⟩, q⟩ := xr
      obtain ⟨p1, p2, p3⟩ := HeapQueue.pop_spec hpop
      have hmem : (old_g, s) ∈ sp.open_queue := (p1 _).2 (Or.inl rfl)
      obtain ⟨hs, hle, hk⟩ := hi.queue _ _ hmem
      dsimp only
      have c1 : decide (sp.goal_distances.getD s 0 < INF_COSTS) = true := by
        simp only [decide_eq_true_eq]; omega
      have c2 : decide (sp.goal_distances.getD s 0 ≤ old_g) = true := by
        simp only [decide_eq_true_eq]; exact hle
      rw [c1, check_true, c2, check_true]
      have hm1 : loop_measure { sp with open_queue := q } + 1 = loop_measure sp := by
        unfold loop_measure
        dsimp only
        omega
      have hfr : Frame sp { sp with open_queue := q } := ⟨rfl, rfl, rfl, rfl, rfl⟩
      -- the invariant without the popped entry, the transitions into `s` excepted
      have hi1 : ∀ (exc : Nat → Transition → Prop),
          (sp.goal_distances.getD s 0 = old_g → ∀ x, exc s x) →
          FullInv in_ goals ocs exc { sp with open_queue := q } := by
        intro exc hexc
        refine ⟨hi.len, hi.plen, hi.costs, hi.word, hi.sound, ?_, ?_, hi.goal, hi.tree⟩
        · intro k u hku
          exact hi.queue k u ((p1 _).2 (Or.inr hku))
        · intro u hu hfin
          rcases hi.closed u hu hfin with h | h
          · rcases (p1 _).1 h with h2 | h2
            · simp only [Prod.mk.injEq] at h2
              obtain ⟨h3, rfl⟩ := h2
              right
              intro x _ hne
              exact absurd (hexc h3 x) hne
            · exact Or.inl h2
          · right
            intro x hx _ hcx
            exact h x hx (fun h3 => h3) hcx
      by_cases hlt : sp.goal_distances.getD s 0 < old_g
      · simp only [hlt, if_true]
        obtain ⟨sp1, r1, r2, r3, r4⟩ := ih { sp with open_queue := q }
          (hi1 (fun _ _ => False) (fun h => by omega)) (by omega)
        exact ⟨sp1, r1, r2, r3, hfr.trans r4⟩
      · simp only [hlt, if_false]
        have c3 : decide (s < in_.length) = true := by
          simp only [decide_eq_true_eq]; exact hs
        rw [c3, check_true]
        have hgs : sp.goal_distances.getD s 0 = old_g := by omega
        have hset : Settled in_ goals { sp with open_queue := q } s := by
          refine ⟨by dsimp only; omega, ?_⟩
          intro ops hw hfin
          dsimp only at hfin ⊢
          rw [hi.costs] at hfin ⊢
          by_cases hc : walk_cost64 ocs ops < old_g
          · exact hi.below_queue hg hw hfin (by omega)
              (fun k x hkx => lt_of_lt_of_le hc (p2 _ hkx))
          · omega
        obtain ⟨f1, f2, f3⟩ := full_relax_fold hg hno
          (hi1 (fun u _ => u = s) (fun _ _ => rfl)) rfl hset hs
        obtain ⟨sp1, r1, r2, r3, r4⟩ := ih _ f1 (by omega)
        exact ⟨sp1, r1, r2, r3, (hfr.trans f3).trans r4⟩

theorem length_resize {α : Type} (xs : List α) (n : Nat) (d : α) :
    (resize xs n d).length = n := by
  unfold resize
  simp only [List.length_append, List.length_take, List.length_replicate]
  omega

theorem getD_replicate (n i d : Nat) (h : i < n) : (List.replicate n d).getD i 0 = d := by
  simp [List.getD_eq_getElem?_getD, List.getElem?_replicate, h]

theorem full_dijkstra_eq (a : Bool) (sp : ShortestPaths) (in_ : List Transitions)
    (goals : List Nat) (fuel : Nat) :
    full_dijkstra a sp in_ goals fuel = full_loop a in_ fuel (full_start sp in_ goals) := rfl

theorem full_start_spec (sp : ShortestPaths) (in_ : List Transitions) (goals : List Nat)
    (hgl : ∀ g ∈ goals, g < in_.length) :
    (full_start sp in_ goals).goal_distances.length = in_.length ∧
    (full_start sp in_ goals).shortest_path.length = in_.length ∧
    Frame sp (full_start sp in_ goals) ∧
    (∀ u, u < in_.length → (full_start sp in_ goals).goal_distances.getD u 0
      = if u ∈ goals then 0 else INF_COSTS) ∧
    (∀ u, u ∈ goals → (full_start sp in_ goals).shortest_path.getD u none = none) ∧
    (∀ k u, (k, u) ∈ (full_start sp in_ goals).open_queue ↔ k = 0 ∧ u ∈ goals) := by
  unfold full_start
  have key := foldl_prefix_inv
    (fun (done : List Nat) (s : ShortestPaths) =>
      s.goal_distances.length = in_.length ∧ s.shortest_path.length = in_.length ∧
      Frame sp s ∧
      (∀ u, u < in_.length → s.goal_distances.getD u 0 = if u ∈ done then 0 else INF_COSTS) ∧
      (∀ u, u ∈ done → s.shortest_path.getD u none = none) ∧
      (∀ k u, (k, u) ∈ s.open_queue ↔ k = 0 ∧ u ∈ done))
    init_goal goals
    (by
      intro pre g s hgm ⟨h1, h2, h3, h4, h5, h6⟩
      have hgn := hgl g hgm
      unfold init_goal
      refine ⟨by simpa using h1, by simpa using h2, ⟨h3.zero, h3.costs, h3.cq, h3.dc, h3.ds⟩,
        ?_, ?_, ?_⟩
      · intro u hu
        dsimp only
        by_cases hgu : g = u
        · subst hgu
          rw [getD_set_eq _ _ _ _ (by omega)]
          simp
        · rw [getD_set_ne _ _ _ _ _ hgu, h4 u hu]
          have : u ∈ pre ++ [g] ↔ u ∈ pre := by
            simp only [List.mem_append, List.mem_singleton]
            constructor
            · rintro (h | h)
              · exact h
              · exact absurd h.symm hgu
            · exact Or.inl
          simp only [this]
      · intro u hu
        dsimp only
        by_cases hgu : g = u
        · subst hgu
          rw [getD_set_eq _ _ _ _ (by omega)]
        · rw [getD_set_ne _ _ _ _ _ hgu]
          apply h5
          simp only [List.mem_append, List.mem_singleton] at hu
          rcases hu with h | h
          · exact h
          · exact absurd h.symm hgu
      · intro k u
        dsimp only
        rw [HeapQueue.mem_push, h6]
        simp only [Prod.mk.injEq, List.mem_append, List.mem_singleton]
        constructor
        · rintro (⟨h, h7⟩ | ⟨h, h7⟩)
          · exact ⟨h, Or.inl h7⟩
          · exact ⟨h, Or.inr h7⟩
        · rintro ⟨h, h7 | h7⟩
          · exact Or.inl ⟨h, h7⟩
          · exact Or.inr ⟨h, h7⟩)
    { sp with
      open_queue := []
      shortest_path := resize sp.shortest_path in_.length none
      goal_distances := List.replicate in_.length INF_COSTS }
    ⟨by simp, length_resize _ _ _, ⟨rfl, rfl, rfl, rfl, rfl⟩,
      fun u hu => by
        dsimp only
        rw [getD_replicate _ _ _ hu]
        simp,
      fun u hu => by simp at hu,
      fun k u => by simp⟩
  exact key

theorem full_start_inv (sp : ShortestPaths) (in_ : List Transitions) (goals : List Nat)
    (hg : GraphOk in_ goals) :
    FullInv in_ goals sp.operator_costs (fun _ _ => False) (full_start sp in_ goals) := by
  obtain ⟨h1, h2, h3, h4, h5, h6⟩ := full_start_spec sp in_ goals hg.goals_lt
  have hfin : ∀ u, u < in_.length →
      (full_start sp in_ goals).goal_distances.getD u 0 ≠ INF_COSTS →
      u ∈ goals ∧ (full_start sp in_ goals).goal_distances.getD u 0 = 0 := by
    intro u hu hne
    rw [h4 u hu] at hne ⊢
    by_cases hug : u ∈ goals
    · simp [hug]
    · simp [hug] at hne
  refine ⟨h1, h2, h3.costs, ?_, ?_, ?_, ?_, ?_, ?_⟩
  · intro u
    by_cases hu : u < in_.length
    · rw [h4 u hu]
      split_ifs
      · exact Nat.zero_le _
      · exact le_refl _
    · rw [List.getD_eq_default _ _ (by omega)]
      exact Nat.zero_le _
  · intro u hu hne
    obtain ⟨i1, i2⟩ := hfin u hu hne
    exact ⟨[], GoalWalk.goal i1, fun op hop => by simp at hop, by rw [i2]; rfl⟩
  · intro k u hku
    obtain ⟨rfl, hug⟩ := (h6 k u).1 hku
    have hu := hg.goals_lt u hug
    refine ⟨hu, ?_, by unfold INF_COSTS; omega⟩
    rw [h4 u hu]
    simp [hug]
  · intro u hu hne
    obtain ⟨i1, i2⟩ := hfin u hu hne
    left
    rw [i2]
    exact (h6 0 u).2 ⟨rfl, i1⟩
  · intro g hgm
    rw [h4 g (hg.goals_lt g hgm)]
    simp [hgm]
  · intro u hu hng hne
    exact absurd (hfin u hu hne).1 hng

theorem full_dijkstra_spec (a : Bool) (sp : ShortestPaths) (in_ : List Transitions)
    (goals : List Nat) (bound : Nat) (hg : GraphOk in_ goals)
    (hno : NoOverflow in_ goals sp.operator_costs bound) (fuel : Nat)
    (hfuel : loop_measure (full_start sp in_ goals) < fuel) :
    ∃ sp1, full_dijkstra a sp in_ goals fuel = .ok sp1 ∧ FullPost in_ goals sp1 ∧
      Frame sp sp1 := by
  obtain ⟨-, -, h3, -⟩ := full_start_spec sp in_ goals hg.goals_lt
  obtain ⟨sp1, r1, r2, r3, r4⟩ := full_loop_spec hg hno a fuel _
    (full_start_inv sp in_ goals hg) hfuel
  have hc : sp1.operator_costs = sp.operator_costs := (h3.trans r4).costs
  refine ⟨sp1, by rw [full_dijkstra_eq]; exact r1, ⟨by rw [hc]; exact r2, r3, ?_⟩, h3.trans r4⟩
  intro u ops hw hfin
  rw [hc] at hfin ⊢
  by_cases hlt : walk_cost64 sp.operator_costs ops < INF_COSTS
  · exact r2.below_queue hg hw hfin hlt (fun k x hkx => by rw [r3] at hkx; simp at hkx)
  · exact le_trans (r2.word u) (by omega)

/-! ## Decoded distances -/

theorem engine_cost_value {a0 : Bool} {costs : List Int} {sp0 sp : ShortestPaths}
    (hnew : ShortestPaths.new a0 costs = .ok sp0)
    (hcosts : ∀ c ∈ costs, 0 ≤ c ∧ c ≤ INF)
    (hoc : sp.operator_costs = sp0.operator_costs)
    (hzc : sp.task_has_zero_costs = sp0.task_has_zero_costs) :
    ∀ op, op < costs.length →
      0 ≤ costs.getD op 0 ∧
      ((costs.getD op 0 = INF ∧ sp.operator_costs.getD op 0 = INF_COSTS) ∨
      (costs.getD op 0 < INF ∧ sp.operator_costs.getD op 0 ≠ INF_COSTS ∧
        sp.operator_costs.getD op 0 < 2 ^ 63 ∧
        (sp.task_has_zero_costs = false →
          (sp.operator_costs.getD op 0 : Int) = costs.getD op 0) ∧
        (sp.task_has_zero_costs = true →
          (costs.getD op 0 = 0 ∧ sp.operator_costs.getD op 0 = 1) ∨
          (0 < costs.getD op 0 ∧
            (sp.operator_costs.getD op 0 : Int) = costs.getD op 0 * 2 ^ 32)))) := by
  have hzc2 : sp.task_has_zero_costs = has_zero_cost costs := by
    rw [hzc]; exact new_task_has_zero_costs hnew
  obtain ⟨-, hconv⟩ := new_operator_costs hnew
  intro op hop
  have hc := hcosts _ (getD_mem_of_lt costs op 0 hop)
  have := convert_to_64_value (hconv op hop) hc.1 hc.2
  rw [hoc, hzc2]
  exact ⟨hc.1, this⟩

theorem walk_cost_encoded (hz : Bool) (costs : List Int) (ocs : List Nat) (ops : List Nat)
    (hrel : ∀ op ∈ ops, 0 ≤ costs.getD op 0 ∧
      (hz = false → (ocs.getD op 0 : Int) = costs.getD op 0) ∧
      (hz = true → (costs.getD op 0 = 0 ∧ ocs.getD op 0 = 1) ∨
        (0 < costs.getD op 0 ∧ (ocs.getD op 0 : Int) = costs.getD op 0 * 2 ^ 32))) :
    0 ≤ walk_cost costs ops ∧
    (hz = false → ((walk_cost64 ocs ops : Nat) : Int) = walk_cost costs ops) ∧
    (hz = true → ∃ z : Nat, z ≤ ops.length ∧
      ((walk_cost64 ocs ops : Nat) : Int) = walk_cost costs ops * 2 ^ 32 + z) := by
  induction ops with
  | nil =>
    simp [walk_cost, walk_cost64]
  | cons t rest ih =>
    obtain ⟨i0, i1, i2⟩ := ih (fun t1 ht1 => hrel t1 (List.mem_cons_of_mem _ ht1))
    obtain ⟨r0, r1, r2⟩ := hrel t (List.mem_cons_self _ _)
    simp only [walk_cost, walk_cost64, List.map_cons, List.sum_cons] at i0 i1 i2 ⊢
    refine ⟨by omega, ?_, ?_⟩
    · intro h
      rw [Nat.cast_add, i1 h, r1 h]
    · intro h
      obtain ⟨z, hz1, hz2⟩ := i2 h
      rcases r2 h with ⟨c0, c1⟩ | ⟨c0, c1⟩
      · refine ⟨z + 1, by simp; omega, ?_⟩
        rw [Nat.cast_add, hz2, c0, c1]
        push_cast
        ring
      · refine ⟨z, by simp; omega, ?_⟩
        rw [Nat.cast_add, hz2, c1]
        ring

theorem GoalWalk.ops_lt {in_ : List Transitions} {goals : List Nat} {m : Nat}
    (hops : ∀ s t, t ∈ in_.getD s [] → t.op_id < m) {u : Nat} {ops : List Nat}
    (h : GoalWalk in_ goals u ops) : ∀ op ∈ ops, op < m := by
  induction h with
  | goal _ => intro op hop; simp at hop
  | step _ hmem ih =>
    intro op hop
    rcases List.mem_cons.1 hop with h | h
    · subst h; exact hops _ _ hmem
    · exact ih op h

/-- C2: for an engine built from a table of external costs between 0 and `INF`,
a well-formed backward adjacency and goal set, and under the proviso that
cheapest paths have fewer than `2 ^ 32` operators and cost less than `INF`,
`full_dijkstra` returns (with enough fuel, and with no assertion failing), and
the decoded goal distance of every state is the minimum of the summed external
costs over the paths of finite-cost operators from the state to a goal, and `INF`
when there is no such path. -/
theorem full_dijkstra_decoded (assertions a0 : Bool) (costs : List Int)
    (sp0 sp : ShortestPaths) (in_ : List Transitions) (goals : List Nat)
    (hnew : ShortestPaths.new a0 costs = .ok sp0)
    (hcosts : ∀ c ∈ costs, 0 ≤ c ∧ c ≤ INF)
    (hoc : sp.operator_costs = sp0.operator_costs)
    (hzc : sp.task_has_zero_costs = sp0.task_has_zero_costs)
    (hg : GraphOk in_ goals)
    (hops : ∀ s t, t ∈ in_.getD s [] → t.op_id < costs.length)
    (hprov : ShortCheapPaths costs in_ goals) :
    ∃ fuel0, ∀ fuel, fuel0 ≤ fuel →
      ∃ sp1, full_dijkstra assertions sp in_ goals fuel = .ok sp1 ∧
        DecodedMin assertions costs in_ goals sp1 := by
  have hINF : INF = 2147483647 := by norm_num [INF]
  have hval := engine_cost_value hnew hcosts hoc hzc
  unfold ShortCheapPaths FinitePath at hprov
  unfold DecodedMin FinitePath
  -- finiteness of external and internal costs agree on walks
  have hfin_iff : ∀ u ops, GoalWalk in_ goals u ops →
      (FiniteOps sp.operator_costs ops ↔ ∀ op ∈ ops, costs.getD op 0 ≠ INF) := by
    intro u ops hw
    have hlt := hw.ops_lt hops
    constructor
    · intro h op hop
      rcases (hval op (hlt op hop)).2 with ⟨-, h2⟩ | ⟨h1, -⟩
      · exact absurd h2 (h op hop)
      · exact ne_of_lt h1
    · intro h op hop
      rcases (hval op (hlt op hop)).2 with ⟨h1, -⟩ | ⟨-, h2, -⟩
      · exact absurd h1 (h op hop)
      · exact h2
  -- relation of the two sums on finite walks
  have henc : ∀ u ops, GoalWalk in_ goals u ops → (∀ op ∈ ops, costs.getD op 0 ≠ INF) →
      0 ≤ walk_cost costs ops ∧
      (sp.task_has_zero_costs = false →
        ((walk_cost64 sp.operator_costs ops : Nat) : Int) = walk_cost costs ops) ∧
      (sp.task_has_zero_costs = true → ∃ z : Nat, z ≤ ops.length ∧
        ((walk_cost64 sp.operator_costs ops : Nat) : Int)
          = walk_cost costs ops * 2 ^ 32 + z) := by
    intro u ops hw hf
    have hlt := hw.ops_lt hops
    apply walk_cost_encoded
    intro op hop
    obtain ⟨h0, h1⟩ := hval op (hlt op hop)
    rcases h1 with ⟨h1, -⟩ | ⟨-, -, -, h4, h5⟩
    · exact absurd h1 (hf op hop)
    · exact ⟨h0, h4, h5⟩
  -- the bound on the distances
  obtain ⟨bound, hb⟩ : ∃ bound : Nat,
      bound = if sp.task_has_zero_costs = true then (2 ^ 31 - 1) * 2 ^ 32 else 2 ^ 31 - 1 :=
    ⟨_, rfl⟩
  have hno : NoOverflow in_ goals sp.operator_costs bound := by
    refine ⟨?_, ?_, ?_⟩
    · intro u ops hw hf
      obtain ⟨ops1, k1, k2, -, k4, k5⟩ := hprov u ops hw ((hfin_iff u ops hw).1 hf)
      refine ⟨ops1, k1, (hfin_iff u ops1 k1).2 k2, ?_⟩
      obtain ⟨e0, e1, e2⟩ := henc u ops1 k1 k2
      rw [hINF] at k5
      cases hz : sp.task_has_zero_costs with
      | false =>
        have := e1 hz
        simp only [hz, Bool.false_eq_true, if_false] at hb
        omega
      | true =>
        obtain ⟨z, z1, z2⟩ := e2 hz
        simp only [hz, if_true] at hb
        omega
    · intro _ t _ hc
      have hx : sp.operator_costs.getD t.op_id 0 < 2 ^ 63 := by
        by_cases hop : t.op_id < costs.length
        · rcases (hval t.op_id hop).2 with ⟨-, h2⟩ | ⟨-, -, h3, -⟩
          · exact absurd h2 hc
          · exact h3
        · have hl : sp.operator_costs.length = costs.length := by
            rw [hoc]; exact (new_operator_costs hnew).1
          rw [List.getD_eq_default _ _ (by omega)]
          norm_num
      unfold INF_COSTS
      split_ifs at hb <;> omega
    · unfold INF_COSTS
      split_ifs at hb <;> omega
  refine ⟨loop_measure (full_start sp in_ goals) + 1, ?_⟩
  intro fuel hfuel
  obtain ⟨sp1, r1, r2, r3⟩ := full_dijkstra_spec assertions sp in_ goals bound hg hno fuel
    (by omega)
  refine ⟨sp1, r1, ?_⟩
  have hc1 : sp1.operator_costs = sp.operator_costs := r3.costs
  have hz1 : sp1.task_has_zero_costs = sp.task_has_zero_costs := r3.zero
  have hinv := r2.inv
  rw [hc1] at hinv
  intro u hu
  constructor
  · intro hnone
    have hd : sp1.goal_distances.getD u 0 = INF_COSTS := by
      by_contra hne
      obtain ⟨ops, w1, w2, -⟩ := hinv.sound u hu hne
      exact hnone ⟨ops, w1, (hfin_iff u ops w1).1 w2⟩
    rw [hd]
    simp [convert_to_32_bit_cost, check, INF_COSTS, DIRTY]
  · intro ops hw hf
    -- the distance is below the bound
    obtain ⟨p, p1, p2, p3⟩ := hno.path u ops hw ((hfin_iff u ops hw).2 hf)
    have hopt := r2.optimal
    rw [hc1] at hopt
    have hdp := hopt u p p1 p2
    have hblt := hno.lt
    have hne : sp1.goal_distances.getD u 0 ≠ INF_COSTS := by omega
    obtain ⟨q, q1, q2, q3⟩ := hinv.sound u hu hne
    have q2e := (hfin_iff u q q1).1 q2
    refine ⟨q, q1, q2e, ?_, ?_⟩
    · -- decoding
      obtain ⟨e0, e1, e2⟩ := henc u q q1 q2e
      obtain ⟨S, hS⟩ := Int.eq_ofNat_of_zero_le e0
      rw [hS] at e1 e2 ⊢
      rw [hz1]
      unfold convert_to_32_bit_cost
      have hD : ∀ d : Nat, d < 2 ^ 63 → (d != DIRTY) = true ∧ ¬ (d = INF_COSTS) := by
        intro d hd
        refine ⟨?_, by unfold INF_COSTS; omega⟩
        have : d ≠ 2 ^ 64 - 2 := by omega
        simpa [DIRTY] using this
      cases hz : sp.task_has_zero_costs with
      | false =>
        simp only [hz, Bool.false_eq_true, if_false] at hb
        have h1 : walk_cost64 sp.operator_costs q = S := by exact_mod_cast e1 hz
        have h2 : sp1.goal_distances.getD u 0 = S := by rw [← q3, h1]
        rw [h2]
        obtain ⟨h3, h4⟩ := hD S (by omega)
        rw [h3, check_true]
        simp only [beq_iff_eq, h4, if_false, Bool.false_eq_true]
        rw [toInt32_of_lt _ (by omega)]
      | true =>
        simp only [hz, if_true] at hb
        obtain ⟨z, z1, z2⟩ := e2 hz
        have h1 : walk_cost64 sp.operator_costs q = S * 2 ^ 32 + z := by exact_mod_cast z2
        have h2 : sp1.goal_distances.getD u 0 = S * 2 ^ 32 + z := by rw [← q3, h1]
        -- a short walk that is no more expensive bounds `z`
        obtain ⟨q', k1, k2, k3, k4, k5⟩ := hprov u q q1 q2e
        obtain ⟨f0, -, f2⟩ := henc u q' k1 k2
        obtain ⟨z', z1', z2'⟩ := f2 hz
        have hdq := hopt u q' k1 ((hfin_iff u q' k1).2 k2)
        obtain ⟨S', hS'⟩ := Int.eq_ofNat_of_zero_le f0
        rw [hS'] at z2' k3
        rw [hS] at k3
        have h3 : walk_cost64 sp.operator_costs q' = S' * 2 ^ 32 + z' := by exact_mod_cast z2'
        have h4 : S' ≤ S := by exact_mod_cast k3
        have hzlt : z < 2 ^ 32 := by
          rw [h2, h3] at hdq
          by_contra hcon
          have : S' * 2 ^ 32 ≤ S * 2 ^ 32 := Nat.mul_le_mul_right _ h4
          omega
        have hSlt : S < 2 ^ 31 - 1 := by
          rw [h2] at hdp
          by_contra hcon
          have : (2 ^ 31 - 1) * 2 ^ 32 ≤ S * 2 ^ 32 := Nat.mul_le_mul_right _ (by omega)
          omega
        rw [h2]
        obtain ⟨h5, h6⟩ := hD (S * 2 ^ 32 + z) (by omega)
        rw [h5, check_true]
        simp only [beq_iff_eq, h6, if_false, if_true]
        have h7 : (S * 2 ^ 32 + z) / 2 ^ 32 = S := by omega
        rw [h7, toInt32_of_lt _ (by omega)]
    · -- minimality
      obtain ⟨e0, e1, e2⟩ := henc u q q1 q2e
      obtain ⟨p', k1, k2, k3, k4, k5⟩ := hprov u ops hw hf
      obtain ⟨f0, f1, f2⟩ := henc u p' k1 k2
      have hdq := hopt u p' k1 ((hfin_iff u p' k1).2 k2)
      rw [← q3] at hdq
      cases hz : sp.task_has_zero_costs with
      | false =>
        have := e1 hz
        have := f1 hz
        omega
      | true =>
        obtain ⟨z, z1, z2⟩ := e2 hz
        obtain ⟨z', z1', z2'⟩ := f2 hz
        obtain ⟨S, hS⟩ := Int.eq_ofNat_of_zero_le e0
        obtain ⟨S', hS'⟩ := Int.eq_ofNat_of_zero_le f0
        rw [hS] at z2 ⊢
        rw [hS'] at z2' k3
        have h1 : walk_cost64 sp.operator_costs q = S * 2 ^ 32 + z := by exact_mod_cast z2
        have h3 : walk_cost64 sp.operator_costs p' = S' * 2 ^ 32 + z' := by exact_mod_cast z2'
        rw [h1, h3] at hdq
        have h4 : S ≤ S' := by
          by_contra hcon
          have : (S' + 1) * 2 ^ 32 ≤ S * 2 ^ 32 := Nat.mul_le_mul_right _ (by omega)
          omega
        have : (S : Int) ≤ (S' : Int) := by exact_mod_cast h4
        omega

theorem chain_walks {u : Nat} {ops : List Nat} (h : GoalWalk chain_in [2] u ops) :
    (u = 2 ∧ ops = []) ∨ (u = 1 ∧ ops = [1]) ∨ (u = 0 ∧ ops = [0, 1]) := by
  induction h with
  | goal hmem =>
    simp at hmem
    exact Or.inl ⟨hmem, rfl⟩
  | @step s u op ops hw hmem ih =>
    rcases ih with ⟨rfl, rfl⟩ | ⟨rfl, rfl⟩ | ⟨rfl, rfl⟩
    · simp [chain_in] at hmem
      exact Or.inr (Or.inl ⟨hmem.2, by rw [hmem.1]⟩)
    · simp [chain_in] at hmem
      exact Or.inr (Or.inr ⟨hmem.2, by rw [hmem.1]⟩)
    · simp [chain_in] at hmem

theorem chain_graph_ok : GraphOk chain_in [2] := by
  constructor
  · intro s t ht
    rcases s with _ | _ | _ | s <;> simp [chain_in] at ht ⊢ <;> subst ht <;> simp
  · intro g hg
    simp at hg
    subst hg
    simp [chain_in]

theorem chain_short_cheap : ShortCheapPaths [5, 7] chain_in [2] := by
  intro u ops hw hf
  refine ⟨ops, hw, hf, le_refl _, ?_, ?_⟩
  · rcases chain_walks hw with ⟨-, rfl⟩ | ⟨-, rfl⟩ | ⟨-, rfl⟩ <;> simp
  · rcases chain_walks hw with ⟨-, rfl⟩ | ⟨-, rfl⟩ | ⟨-, rfl⟩ <;> simp [walk_cost, INF]

/-- Witness of C2 on the chain of scenario S2 with costs `[5, 7]`. -/
theorem full_dijkstra_decoded_witness :
    ∃ fuel0, ∀ fuel, fuel0 ≤ fuel →
      ∃ sp1, full_dijkstra true ⟨false, [5, 7], [], [], [], [], [], []⟩ chain_in [2] fuel = .ok sp1 ∧
        DecodedMin true [5, 7] chain_in [2] sp1 :=
  full_dijkstra_decoded true true [5, 7] ⟨false, [5, 7], [], [], [], [], [], []⟩
    ⟨false, [5, 7], [], [], [], [], [], []⟩ chain_in [2] (by decide) (by simp [INF]) rfl rfl
    chain_graph_ok
    (by
      intro s t ht
      rcases s with _ | _ | _ | s <;> simp [chain_in] at ht <;> subst ht <;> simp)
    chain_short_cheap

/-! ## The split of a state (lines 139-184) -/

theorem getD_resize_lt {α : Type} (xs : List α) (n i : Nat) (d e : α) (h : i < xs.length)
    (h2 : i < n) : (resize xs n d).getD i e = xs.getD i e := by
  unfold resize
  rw [List.getD_append _ _ _ _ (by simp; omega)]
  simp only [List.getD_eq_getElem?_getD, List.getElem?_take, h2, if_true]

theorem getD_resize_ge {α : Type} (xs : List α) (n i : Nat) (d e : α) (h : xs.length ≤ i)
    (h2 : i < n) : (resize xs n d).getD i e = d := by
  unfold resize
  have hl : (List.take n xs).length = xs.length := by simp; omega
  rw [List.getD_append_right _ _ _ _ (by omega)]
  simp only [List.getD_eq_getElem?_getD, List.getElem?_replicate]
  rw [if_pos (by omega)]
  rfl

theorem mem_getD_lt {α : Type} {l : List (List α)} {s : Nat} {x : α}
    (h : x ∈ l.getD s []) : s < l.length := by
  by_contra hc
  rw [List.getD_eq_default _ _ (by omega)] at h
  simp at h

theorem redirect_step_spec (v x : Nat) (sp : ShortestPaths) (t : Transition) :
    (redirect_step v x sp t).task_has_zero_costs = sp.task_has_zero_costs ∧
    (redirect_step v x sp t).operator_costs = sp.operator_costs ∧
    (redirect_step v x sp t).candidate_queue = sp.candidate_queue ∧
    (redirect_step v x sp t).open_queue = sp.open_queue ∧
    (redirect_step v x sp t).goal_distances = sp.goal_distances ∧
    (redirect_step v x sp t).dirty_candidate = sp.dirty_candidate ∧
    (redirect_step v x sp t).dirty_states = sp.dirty_states ∧
    (redirect_step v x sp t).shortest_path.length = sp.shortest_path.length ∧
    (∀ u, u ≠ t.target_id →
      (redirect_step v x sp t).shortest_path.getD u none = sp.shortest_path.getD u none) ∧
    ((redirect_step v x sp t).shortest_path.getD t.target_id none
        = sp.shortest_path.getD t.target_id none ∧
      (∀ arc, sp.shortest_path.getD t.target_id none = some arc →
        ¬ (arc.target_id = v ∧
          sp.operator_costs.getD t.op_id 0 = sp.operator_costs.getD arc.op_id 0))
     ∨
      (∃ arc, sp.shortest_path.getD t.target_id none = some arc ∧ arc.target_id = v ∧
        sp.operator_costs.getD t.op_id 0 = sp.operator_costs.getD arc.op_id 0 ∧
        (t.target_id < sp.shortest_path.length →
          (redirect_step v x sp t).shortest_path.getD t.target_id none
            = some ⟨t.op_id, x⟩))) := by
  unfold redirect_step
  dsimp only
  cases hsp : sp.shortest_path.getD t.target_id none with
  | none =>
    dsimp only
    refine ⟨rfl, rfl, rfl, rfl, rfl, rfl, rfl, rfl, fun _ _ => rfl, Or.inl ⟨hsp, ?_⟩⟩
    intro arc harc
    cases harc
  | some arc =>
    dsimp only
    by_cases hc : arc.target_id = v ∧
        sp.operator_costs.getD t.op_id 0 = sp.operator_costs.getD arc.op_id 0
    · have hb : (arc.target_id == v &&
          sp.operator_costs.getD t.op_id 0 == sp.operator_costs.getD arc.op_id 0) = true := by
        simp only [Bool.and_eq_true, beq_iff_eq]
        exact hc
      rw [if_pos hb]
      refine ⟨rfl, rfl, rfl, rfl, rfl, rfl, rfl, by simp, ?_, Or.inr ⟨arc, rfl, hc.1, hc.2, ?_⟩⟩
      · intro u hu
        exact getD_set_ne _ _ _ _ _ (Ne.symm hu)
      · intro hlt
        exact getD_set_eq _ _ _ _ hlt
    · have hb : ¬ ((arc.target_id == v &&
          sp.operator_costs.getD t.op_id 0 == sp.operator_costs.getD arc.op_id 0) = true) := by
        simp only [Bool.and_eq_true, beq_iff_eq]
        exact hc
      rw [if_neg hb]
      refine ⟨rfl, rfl, rfl, rfl, rfl, rfl, rfl, rfl, fun _ _ => rfl, Or.inl ⟨hsp, ?_⟩⟩
      intro arc1 harc
      cases harc
      exact hc

theorem redirect_step_keeps {spA sp : ShortestPaths} {in_ : List Transitions} {v v2 x u : Nat}
    {t : Transition} (hc : sp.operator_costs = spA.operator_costs)
    (hl : sp.shortest_path.length = spA.shortest_path.length) (hx : x = v ∨ x = v2)
    (ht : t ∈ in_.getD x []) (hlt : t.target_id < spA.shortest_path.length)
    (h : Redirected spA.operator_costs in_ v v2 (spA.shortest_path.getD u none)
      (sp.shortest_path.getD u none) u) :
    Redirected spA.operator_costs in_ v v2 (spA.shortest_path.getD u none)
      ((redirect_step v x sp t).shortest_path.getD u none) u := by
  obtain ⟨-, -, -, -, -, -, -, -, s9, s10⟩ := redirect_step_spec v x sp t
  by_cases hu : u = t.target_id
  · subst hu
    rcases s10 with ⟨h1, -⟩ | ⟨arc, h1, h2, h3, h4⟩
    · rw [h1]; exact h
    · have h5 := h4 (by rw [hl]; exact hlt)
      rw [hc] at h3
      obtain ⟨t0, op, x', k1, k2, k3, k4, k5, k6⟩ := h
      rw [h1] at k3
      cases k3
      rw [h5]
      exact ⟨t0, t.op_id, x, k1, k2, rfl, hx, ht, h3.trans k6⟩
  · rw [s9 u hu]; exact h

theorem redirect_step_inv {spA sp : ShortestPaths} {in_ : List Transitions} {v v2 x : Nat}
    {t : Transition} (hi : RedirectInv spA sp in_ v v2) (hx : x = v ∨ x = v2)
    (ht : t ∈ in_.getD x []) (hlt : t.target_id < spA.shortest_path.length) :
    RedirectInv spA (redirect_step v x sp t) in_ v v2 ∧
    (∀ t0, spA.shortest_path.getD t.target_id none = some t0 → t0.target_id = v →
      spA.operator_costs.getD t.op_id 0 = spA.operator_costs.getD t0.op_id 0 →
      Redirected spA.operator_costs in_ v v2 (spA.shortest_path.getD t.target_id none)
        ((redirect_step v x sp t).shortest_path.getD t.target_id none) t.target_id) := by
  obtain ⟨s1, s2, s3, s4, s5, s6, s7, s8, s9, s10⟩ := redirect_step_spec v x sp t
  have hform : ∀ u, (redirect_step v x sp t).shortest_path.getD u none
        = spA.shortest_path.getD u none ∨
      Redirected spA.operator_costs in_ v v2 (spA.shortest_path.getD u none)
        ((redirect_step v x sp t).shortest_path.getD u none) u := by
    intro u
    by_cases hu : u = t.target_id
    · subst hu
      rcases s10 with ⟨h1, -⟩ | ⟨arc, h1, h2, h3, h4⟩
      · rw [h1]; exact hi.form _
      · right
        have h5 := h4 (by rw [hi.len]; exact hlt)
        rw [hi.costs] at h3
        rcases hi.form t.target_id with h6 | ⟨t0, op, x', k1, k2, k3, k4, k5, k6⟩
        · rw [h1] at h6
          exact ⟨arc, t.op_id, x, h6.symm, h2, h5, hx, ht, h3⟩
        · rw [h1] at k3
          cases k3
          exact ⟨t0, t.op_id, x, k1, k2, h5, hx, ht, h3.trans k6⟩
    · rw [s9 u hu]; exact hi.form u
  refine ⟨⟨s1.trans hi.zero, s2.trans hi.costs, s3.trans hi.cq, s4.trans hi.oq, s5.trans hi.gd,
    s6.trans hi.dc, s7.trans hi.ds, s8.trans hi.len, hform⟩, ?_⟩
  intro t0 h0 h1 h2
  rcases s10 with ⟨k1, k2⟩ | ⟨arc, k1, k2, k3, k4⟩
  · rw [k1]
    rcases hi.form t.target_id with h6 | h6
    · exfalso
      rw [h0] at h6
      exact k2 t0 h6 ⟨h1, by rw [hi.costs]; exact h2⟩
    · exact h6
  · have k5 := k4 (by rw [hi.len]; exact hlt)
    rw [k5]
    exact ⟨t0, t.op_id, x, h0, h1, rfl, hx, ht, h2⟩

theorem redirect_fold {spA sp : ShortestPaths} {in_ : List Transitions} {v v2 x : Nat}
    (hi : RedirectInv spA sp in_ v v2) (hx : x = v ∨ x = v2)
    (hsrc : ∀ t ∈ in_.getD x [], t.target_id < spA.shortest_path.length) :
    RedirectInv spA ((in_.getD x []).foldl (redirect_step v x) sp) in_ v v2 ∧
    (∀ t ∈ in_.getD x [], ∀ t0,
      spA.shortest_path.getD t.target_id none = some t0 → t0.target_id = v →
      spA.operator_costs.getD t.op_id 0 = spA.operator_costs.getD t0.op_id 0 →
      Redirected spA.operator_costs in_ v v2 (spA.shortest_path.getD t.target_id none)
        (((in_.getD x []).foldl (redirect_step v x) sp).shortest_path.getD t.target_id none)
        t.target_id) := by
  have key := foldl_prefix_inv
    (fun (done : List Transition) (s : ShortestPaths) =>
      RedirectInv spA s in_ v v2 ∧
      (∀ t ∈ done, ∀ t0,
        spA.shortest_path.getD t.target_id none = some t0 → t0.target_id = v →
        spA.operator_costs.getD t.op_id 0 = spA.operator_costs.getD t0.op_id 0 →
        Redirected spA.operator_costs in_ v v2 (spA.shortest_path.getD t.target_id none)
          (s.shortest_path.getD t.target_id none) t.target_id))
    (redirect_step v x) (in_.getD x [])
    (by
      intro pre a s ha ⟨h1, h2⟩
      obtain ⟨k1, k2⟩ := redirect_step_inv h1 hx ha (hsrc a ha)
      refine ⟨k1, ?_⟩
      intro t ht t0 e1 e2 e3
      rcases List.mem_append.1 ht with h | h
      · -- a redirected arc stays redirected
        exact redirect_step_keeps h1.costs h1.len hx ha (hsrc a ha) (h2 t h t0 e1 e2 e3)
      · simp only [List.mem_singleton] at h
        subst h
        exact k2 t0 e1 e2 e3)
    sp ⟨hi, fun t ht => by simp at ht⟩
  exact key

theorem redirect_fold_keeps {spA sp : ShortestPaths} {in_ : List Transitions} {v v2 x u : Nat}
    (hi : RedirectInv spA sp in_ v v2) (hx : x = v ∨ x = v2)
    (hsrc : ∀ t ∈ in_.getD x [], t.target_id < spA.shortest_path.length)
    (h : Redirected spA.operator_costs in_ v v2 (spA.shortest_path.getD u none)
      (sp.shortest_path.getD u none) u) :
    Redirected spA.operator_costs in_ v v2 (spA.shortest_path.getD u none)
      (((in_.getD x []).foldl (redirect_step v x) sp).shortest_path.getD u none) u := by
  have key := foldl_prefix_inv
    (fun (_ : List Transition) (s : ShortestPaths) =>
      RedirectInv spA s in_ v v2 ∧
      Redirected spA.operator_costs in_ v v2 (spA.shortest_path.getD u none)
        (s.shortest_path.getD u none) u)
    (redirect_step v x) (in_.getD x [])
    (by
      intro pre a s ha ⟨h1, h2⟩
      exact ⟨(redirect_step_inv h1 hx ha (hsrc a ha)).1,
        redirect_step_keeps h1.costs h1.len hx ha (hsrc a ha) h2⟩)
    sp ⟨hi, h⟩
  exact key.2

theorem split_copy_spec (sp : ShortestPaths) (n v v2 : Nat)
    (hd : sp.goal_distances.length = v2) (hp : sp.shortest_path.length = v2)
    (hn : n = v2 + 1) (hv : v < v2) :
    (split_copy (split_init sp n) v v v2).task_has_zero_costs = sp.task_has_zero_costs ∧
    (split_copy (split_init sp n) v v v2).operator_costs = sp.operator_costs ∧
    (split_copy (split_init sp n) v v v2).candidate_queue = sp.candidate_queue ∧
    (split_copy (split_init sp n) v v v2).open_queue = sp.open_queue ∧
    (split_copy (split_init sp n) v v v2).dirty_candidate = sp.dirty_candidate ∧
    (split_copy (split_init sp n) v v v2).dirty_states = [] ∧
    (split_copy (split_init sp n) v v v2).goal_distances.length = n ∧
    (split_copy (split_init sp n) v v v2).shortest_path.length = n ∧
    (∀ u, u < n → (split_copy (split_init sp n) v v v2).goal_distances.getD u 0
      = sp.goal_distances.getD (split_origin v v2 u) 0) ∧
    (∀ u, u < n → (split_copy (split_init sp n) v v v2).shortest_path.getD u none
      = sp.shortest_path.getD (split_origin v v2 u) none) := by
  subst hn
  refine ⟨rfl, rfl, rfl, rfl, rfl, rfl, ?_, ?_, ?_, ?_⟩
  · simp [split_copy, split_init, length_resize]
  · simp [split_copy, split_init, length_resize]
  · intro u hu
    have hlen : (resize sp.goal_distances (v2 + 1) 0).length = v2 + 1 := length_resize _ _ _
    have hv0 : (resize sp.goal_distances (v2 + 1) 0).getD v 0 = sp.goal_distances.getD v 0 :=
      getD_resize_lt _ _ _ _ _ (by omega) (by omega)
    unfold split_copy split_init split_origin
    dsimp only
    rw [hv0]
    by_cases h1 : u = v
    · subst h1
      rw [getD_set_eq _ _ _ _ (by simp [hlen]; omega)]
      rw [if_neg (by omega)]
    · rw [getD_set_ne _ _ _ _ _ (Ne.symm h1)]
      by_cases h2 : u = v2
      · subst h2
        rw [getD_set_eq _ _ _ _ (by omega), if_pos rfl]
      · rw [getD_set_ne _ _ _ _ _ (Ne.symm h2), if_neg h2]
        exact getD_resize_lt _ _ _ _ _ (by omega) (by omega)
  · intro u hu
    have hlen : (resize sp.shortest_path (v2 + 1) none).length = v2 + 1 := length_resize _ _ _
    have hv0 : (resize sp.shortest_path (v2 + 1) none).getD v none
        = sp.shortest_path.getD v none :=
      getD_resize_lt _ _ _ _ _ (by omega) (by omega)
    unfold split_copy split_init split_origin
    dsimp only
    rw [hv0]
    by_cases h2 : u = v2
    · subst h2
      rw [getD_set_eq _ _ _ _ (by omega), if_pos rfl]
    · rw [getD_set_ne _ _ _ _ _ (Ne.symm h2), if_neg h2]
      exact getD_resize_lt _ _ _ _ _ (by omega) (by omega)

theorem split_origin_lt {v v2 u : Nat} (hv : v < v2) (hu : u < v2 + 1) :
    split_origin v v2 u < v2 := by
  unfold split_origin
  split_ifs <;> omega

theorem split_origin_of_lt {v v2 u : Nat} (hu : u < v2) : split_origin v v2 u = u := by
  unfold split_origin
  rw [if_neg (by omega)]

theorem split_start_spec {sp : ShortestPaths} {in0 in_ out : List Transitions}
    {goals : List Nat} {v v2 bound cmax : Nat}
    (ht : TreeOk sp in0 goals bound) (hs : SplitOk sp in0 in_ out goals v v2 bound cmax) :
    AfterRedirect sp (split_start sp in_ v v2) in_ goals v v2 := by
  have hn := hs.new_len
  have hv := hs.v_lt
  have hdl : sp.goal_distances.length = v2 := by rw [ht.dist_len, hs.old_len]
  have hpl : sp.shortest_path.length = v2 := by rw [ht.path_len, hs.old_len]
  obtain ⟨a1, a2, a3, a4, a5, a6, a7, a8, a9, a10⟩ := split_copy_spec sp in_.length v v2 hdl hpl hn hv
  generalize hA : split_copy (split_init sp in_.length) v v v2 = spA at a1 a2 a3 a4 a5 a6 a7 a8 a9 a10
  have hsrcA : ∀ x, ∀ t ∈ in_.getD x [], t.target_id < spA.shortest_path.length := by
    intro x t htx
    rw [a8]
    exact hs.src x t htx
  have hi0 : RedirectInv spA spA in_ v v2 :=
    ⟨rfl, rfl, rfl, rfl, rfl, rfl, rfl, rfl, fun _ => Or.inl rfl⟩
  obtain ⟨i1, c1⟩ := redirect_fold hi0 (Or.inl rfl) (hsrcA v)
  obtain ⟨i2, c2⟩ := redirect_fold i1 (Or.inr rfl) (hsrcA v2)
  have hstart : split_start sp in_ v v2
      = (in_.getD v2 []).foldl (redirect_step v v2)
          ((in_.getD v []).foldl (redirect_step v v) spA) := by
    unfold split_start redirect_arcs
    rw [hA]
    rfl
  rw [hstart]
  generalize hB : (in_.getD v2 []).foldl (redirect_step v v2)
      ((in_.getD v []).foldl (redirect_step v v) spA) = spB at i2 c2
  -- completeness of the first loop survives the second
  have c1' : ∀ t ∈ in_.getD v [], ∀ t0,
      spA.shortest_path.getD t.target_id none = some t0 → t0.target_id = v →
      spA.operator_costs.getD t.op_id 0 = spA.operator_costs.getD t0.op_id 0 →
      Redirected spA.operator_costs in_ v v2 (spA.shortest_path.getD t.target_id none)
        (spB.shortest_path.getD t.target_id none) t.target_id := by
    intro t htv t0 e1 e2 e3
    rw [← hB]
    exact redirect_fold_keeps i1 (Or.inr rfl) (hsrcA v2) (c1 t htv t0 e1 e2 e3)
  have hdist : ∀ u, u < in_.length →
      spB.goal_distances.getD u 0 = sp.goal_distances.getD (split_origin v v2 u) 0 := by
    intro u hu
    rw [i2.gd]
    exact a9 u hu
  -- the tree arc of `v` before the split
  obtain ⟨tv, hv1, hv2, hv3⟩ := hs.inherit
  have hvfin : sp.goal_distances.getD v 0 ≠ INF_COSTS := by
    intro hc
    have := ht.inf v (by rw [hs.old_len]; exact hv) hc
    rw [this] at hv1
    cases hv1
  obtain ⟨tv', w1, w2, w3, w4⟩ := ht.tree v (by rw [hs.old_len]; exact hv) hs.v_goal hvfin
  rw [hv1] at w1
  cases w1
  have hvarc : (⟨tv.op_id, v2⟩ : Transition) ∈ in_.getD tv.target_id [] := hs.cons.fwd v2 tv hv2
  have hvpos : 1 ≤ sp.operator_costs.getD tv.op_id 0 := hs.pos _ ⟨tv.op_id, v2⟩ hvarc
  have hvt : tv.target_id ≠ v := by
    intro hc
    rw [hc] at w4
    omega
  rw [hs.old_len] at w2
  -- an arc that is not a redirection is the old one
  have hkeep : ∀ u, u < in_.length →
      (∀ t0, sp.shortest_path.getD (split_origin v v2 u) none = some t0 → t0.target_id ≠ v) →
      spB.shortest_path.getD u none = sp.shortest_path.getD (split_origin v v2 u) none := by
    intro u hu hne
    rcases i2.form u with h | ⟨t0, op, x, k1, k2, -⟩
    · rw [h, a10 u hu]
    · rw [a10 u hu] at k1
      exact absurd k2 (hne t0 k1)
  refine ⟨i2.zero.trans a1, i2.costs.trans a2, i2.cq.trans a3, i2.oq.trans a4,
    i2.dc.trans a5, i2.ds.trans a6, by rw [i2.gd]; exact a7, by rw [i2.len]; exact a8,
    hdist, ?_, ?_, ?_⟩
  · -- goals
    intro g hg
    obtain ⟨g1, g2, g3⟩ := ht.goal g hg
    rw [hs.old_len] at g1
    have hgn : g < in_.length := by omega
    rw [hkeep g hgn (by
      intro t0 h0
      rw [split_origin_of_lt g1, g3] at h0
      cases h0)]
    rw [split_origin_of_lt g1, g3]
  · -- infinite distance
    intro u hu hinf
    rw [hdist u hu] at hinf
    have hlt : split_origin v v2 u < in0.length := by
      rw [hs.old_len]; exact split_origin_lt hv (by omega)
    have hnone := ht.inf _ hlt hinf
    rw [hkeep u hu (by
      intro t0 h0
      rw [hnone] at h0
      cases h0)]
    exact hnone
  · -- tree arcs
    intro u hu hng hfin hu_v
    rw [hdist u hu] at hfin ⊢
    rw [i2.costs, a2]
    by_cases hu2 : u = v2
    · -- the new state inherits the arc of `v`
      subst hu2
      have ho : split_origin v u u = v := by unfold split_origin; rw [if_pos rfl]
      rw [ho] at hfin ⊢
      rw [hkeep u hu (by
        intro t0 h0
        rw [ho, hv1] at h0
        cases h0
        exact hvt)]
      rw [ho, hv1]
      refine ⟨tv, rfl, by omega, hvarc, ?_⟩
      rw [hdist tv.target_id (by omega), split_origin_of_lt w2]
      exact w4
    · have hult : u < v2 := by omega
      have ho : split_origin v v2 u = u := split_origin_of_lt hult
      rw [ho] at hfin ⊢
      obtain ⟨t0, p1, p2, p3, p4⟩ := ht.tree u (by rw [hs.old_len]; exact hult) hng hfin
      rw [hs.old_len] at p2
      by_cases htv : t0.target_id = v
      · -- the arc led to `v`: it has been redirected
        rw [htv] at p3 p4
        have hred : Redirected spA.operator_costs in_ v v2 (spA.shortest_path.getD u none)
            (spB.shortest_path.getD u none) u := by
          have hA10 : spA.shortest_path.getD u none = some t0 := by
            rw [a10 u hu, ho]; exact p1
          rcases hs.arc_split u t0.op_id p3 hu_v with h | h
          · exact c1' ⟨t0.op_id, u⟩ h t0 hA10 htv rfl
          · exact c2 ⟨t0.op_id, u⟩ h t0 hA10 htv rfl
        obtain ⟨t1, op, x, k1, k2, k3, k4, k5, k6⟩ := hred
        rw [a10 u hu, ho, p1] at k1
        cases k1
        rw [a2] at k6
        refine ⟨⟨op, x⟩, k3, ?_, k5, ?_⟩
        · rcases k4 with h | h <;> (rw [h]; dsimp only; omega)
        · dsimp only
          rw [k6, p4]
          have hx : x < in_.length := by rcases k4 with h | h <;> omega
          rw [hdist x hx]
          have hox : split_origin v v2 x = v := by
            unfold split_origin
            rcases k4 with h | h
            · rw [h, if_neg (by omega)]
            · rw [h, if_pos rfl]
          rw [hox]
      · rw [hkeep u hu (by
          intro t1 h1
          rw [ho, p1] at h1
          cases h1
          exact htv)]
        rw [ho, p1]
        refine ⟨t0, rfl, by omega, hs.arc_kept _ _ _ p3 htv hu_v, ?_⟩
        rw [hdist t0.target_id (by omega), split_origin_of_lt p2]
        exact p4

/-! ## Marking the orphans by depth-first search -/

theorem MarkBase.ds_length {sp3 sp : ShortestPaths} {in_ : List Transitions} {goals : List Nat}
    (h : MarkBase sp3 sp in_ goals) : sp.dirty_states.length ≤ in_.length :=
  nodup_length_le _ _ h.ds_nodup (fun x hx => ((h.ds_iff x).1 hx).1)

theorem mark_dirty_spec (a : Bool) {sp3 sp : ShortestPaths} {in_ : List Transitions}
    {goals : List Nat} {s : Nat} (h : MarkBase sp3 sp in_ goals) (hs : s < in_.length)
    (hd : sp.goal_distances.getD s 0 ≠ DIRTY) (hg : s ∉ goals) :
    ∃ sp1, mark_dirty a sp s = .ok sp1 ∧ MarkBase sp3 sp1 in_ goals ∧
      sp1.goal_distances = sp.goal_distances.set s DIRTY ∧
      sp1.shortest_path = sp.shortest_path.set s none ∧
      sp1.dirty_states = sp.dirty_states ++ [s] ∧
      sp1.candidate_queue = sp.candidate_queue ∧
      sp1.dirty_candidate = sp.dirty_candidate ∧
      sp1.dirty_states.length ≤ in_.length := by
  have hnot : s ∉ sp.dirty_states := fun hc => hd ((h.ds_iff s).1 hc).2
  have hsd : s < sp.goal_distances.length := by rw [h.dist_len]; exact hs
  have hsp : s < sp.shortest_path.length := by rw [h.path_len]; exact hs
  have hc : (!(sp.dirty_states.contains s)) = true := by simpa using hnot
  refine ⟨{ sp with
      goal_distances := sp.goal_distances.set s DIRTY
      shortest_path := sp.shortest_path.set s none
      dirty_states := sp.dirty_states ++ [s] }, ?_, ?_, rfl, rfl, rfl, rfl, rfl, ?_⟩
  · unfold mark_dirty
    dsimp only
    rw [hc, check_true]
  · have hb : MarkBase sp3
        { sp with
          goal_distances := sp.goal_distances.set s DIRTY
          shortest_path := sp.shortest_path.set s none
          dirty_states := sp.dirty_states ++ [s] } in_ goals := by
      refine ⟨h.zero, h.costs, h.oq, by simpa using h.dist_len, by simpa using h.path_len,
        ?_, ?_, ?_, ?_, ?_, ?_⟩
      · exact List.Nodup.append h.ds_nodup (List.nodup_singleton s)
          (by simpa using hnot)
      · intro u
        dsimp only
        simp only [List.mem_append, List.mem_singleton]
        by_cases hus : s = u
        · subst hus
          rw [getD_set_eq _ _ _ _ hsd]
          constructor
          · intro _; exact ⟨hs, rfl⟩
          · intro _; exact Or.inr rfl
        · rw [getD_set_ne _ _ _ _ _ hus, h.ds_iff u]
          constructor
          · rintro (h1 | h1)
            · exact h1
            · exact absurd h1.symm hus
          · exact Or.inl
      · intro u hu
        dsimp only at hu ⊢
        by_cases hus : s = u
        · subst hus
          rw [getD_set_eq _ _ _ _ hsd] at hu
          exact absurd rfl hu
        · rw [getD_set_ne _ _ _ _ _ hus] at hu ⊢
          exact h.keep u hu
      · intro g hgm
        dsimp only
        have hne : s ≠ g := fun hc => hg (hc ▸ hgm)
        rw [getD_set_ne _ _ _ _ _ hne, getD_set_ne _ _ _ _ _ hne]
        exact h.goal g hgm
      · intro u hu hinf
        dsimp only at hinf ⊢
        by_cases hus : s = u
        · subst hus
          rw [getD_set_eq _ _ _ _ hsp]
        · rw [getD_set_ne _ _ _ _ _ hus] at hinf ⊢
          exact h.inf u hu hinf
      · intro u hu hdu
        dsimp only at hdu ⊢
        by_cases hus : s = u
        · subst hus
          rw [getD_set_eq _ _ _ _ hsp]
        · rw [getD_set_ne _ _ _ _ _ hus] at hdu ⊢
          exact h.dirty_none u hu hdu
    exact hb
  · have hnd : (sp.dirty_states ++ [s]).Nodup :=
      List.Nodup.append h.ds_nodup (List.nodup_singleton s) (by simpa using hnot)
    apply nodup_length_le _ _ hnd
    intro x hx
    rcases List.mem_append.1 hx with h1 | h1
    · exact ((h.ds_iff x).1 h1).1
    · simp only [List.mem_singleton] at h1
      rw [h1]; exact hs

theorem run_foldl_prefix {σ α : Type} (P : List α → σ → Prop) (f : σ → α → Run σ)
    (l : List α)
    (hf : ∀ pre a s, a ∈ l → P pre s → ∃ s1, f s a = .ok s1 ∧ P (pre ++ [a]) s1) :
    ∀ s, P [] s → ∃ s1, Run.foldl f s l = .ok s1 ∧ P l s1 := by
  have key : ∀ (suf pre : List α), pre ++ suf = l → ∀ s, P pre s →
      ∃ s1, Run.foldl f s suf = .ok s1 ∧ P l s1 := by
    intro suf
    induction suf with
    | nil =>
      intro pre hpre s hs
      simp only [List.append_nil] at hpre
      subst hpre
      exact ⟨s, rfl, hs⟩
    | cons a as ih =>
      intro pre hpre s hs
      obtain ⟨s1, h1, h2⟩ := hf pre a s (by rw [← hpre]; simp) hs
      obtain ⟨s2, h3, h4⟩ := ih (pre ++ [a]) (by rw [← hpre]; simp) s1 h2
      refine ⟨s2, ?_, h4⟩
      simp only [Run.foldl, h1, Run.bind]
      exact h3
  intro s hs
  exact key l [] rfl s hs

theorem mark_orphaned_spec (a : Bool) {sp3 : ShortestPaths} {in_ : List Transitions}
    {goals : List Nat}
    (hsrc : ∀ s t, t ∈ in_.getD s [] → t.target_id < in_.length)
    (hloop : ∀ s t, t ∈ in_.getD s [] → t.target_id ≠ s) :
    ∀ (fuel : Nat) (sp : ShortestPaths) (s : Nat), DfsInv sp3 sp in_ goals →
      s < in_.length → sp.goal_distances.getD s 0 ≠ DIRTY → s ∉ goals →
      in_.length - sp.dirty_states.length < fuel →
      ∃ sp1, mark_orphaned_predecessors a in_ fuel sp s = .ok sp1 ∧
        DfsInv sp3 sp1 in_ goals ∧ sp1.goal_distances.getD s 0 = DIRTY ∧
        (∀ u, sp.goal_distances.getD u 0 = DIRTY → sp1.goal_distances.getD u 0 = DIRTY) ∧
        (∀ x, sp1.goal_distances.getD x 0 = DIRTY → sp.goal_distances.getD x 0 ≠ DIRTY →
          PrevDone sp3 sp1 in_ x) := by
  intro fuel
  induction fuel with
  | zero => intro sp s _ _ _ _ h; omega
  | succ fuel ih =>
    intro sp s hi hs hd hg hfuel
    obtain ⟨sp1, m1, m2, m3, m4, m5, m6, m7, m8⟩ := mark_dirty_spec a hi.base hs hd hg
    have hsd : s < sp.goal_distances.length := by rw [hi.base.dist_len]; exact hs
    have hsp : s < sp.shortest_path.length := by rw [hi.base.path_len]; exact hs
    have hi1 : DfsInv sp3 sp1 in_ goals := by
      refine ⟨m2, m6.trans hi.cq, m7.trans hi.dc, ?_⟩
      intro u hu
      rw [m3] at hu
      rw [m4]
      by_cases hus : s = u
      · subst hus
        rw [getD_set_eq _ _ _ _ hsd] at hu
        exact absurd rfl hu
      · rw [getD_set_ne _ _ _ _ _ hus] at hu ⊢
        exact hi.keep_path u hu
    have hs1 : sp1.goal_distances.getD s 0 = DIRTY := by
      rw [m3, getD_set_eq _ _ _ _ hsd]
    have hmono1 : ∀ u, sp.goal_distances.getD u 0 = DIRTY →
        sp1.goal_distances.getD u 0 = DIRTY := by
      intro u hu
      rw [m3]
      by_cases hus : s = u
      · subst hus; exact absurd hu hd
      · rw [getD_set_ne _ _ _ _ _ hus]; exact hu
    have hnew1 : ∀ x, x ≠ s → sp1.goal_distances.getD x 0 = DIRTY →
        sp.goal_distances.getD x 0 = DIRTY := by
      intro x hx h1
      rw [m3, getD_set_ne _ _ _ _ _ (Ne.symm hx)] at h1
      exact h1
    have hlen1 : in_.length - sp1.dirty_states.length < fuel := by
      rw [m5]
      simp only [List.length_append, List.length_singleton]
      have := hi.base.ds_length
      rw [m5] at m8
      simp only [List.length_append, List.length_singleton] at m8
      omega
    -- the loop over the incoming transitions
    have key := run_foldl_prefix
      (fun (done : List Transition) (sp2 : ShortestPaths) =>
        DfsInv sp3 sp2 in_ goals ∧
        (∀ u, sp1.goal_distances.getD u 0 = DIRTY → sp2.goal_distances.getD u 0 = DIRTY) ∧
        (∀ x, x ≠ s → sp2.goal_distances.getD x 0 = DIRTY →
          sp.goal_distances.getD x 0 ≠ DIRTY → PrevDone sp3 sp2 in_ x) ∧
        (∀ t ∈ done, sp2.goal_distances.getD t.target_id 0 = DIRTY ∨
          ∀ t1, sp3.shortest_path.getD t.target_id none = some t1 → t1.target_id ≠ s) ∧
        in_.length - sp2.dirty_states.length < fuel)
      (fun (sp2 : ShortestPaths) (t : Transition) =>
        let prev := t.target_id
        check a (prev != s) 115 <|
        if sp2.goal_distances.getD prev 0 != DIRTY &&
            (sp2.shortest_path.getD prev none).map Transition.target_id == some s then
          mark_orphaned_predecessors a in_ fuel sp2 prev
        else .ok sp2)
      (in_.getD s [])
      (by
        intro pre t sp2 ht ⟨p1, p2, p3, p4, p5⟩
        have hne : (t.target_id != s) = true := by
          simpa using hloop s t ht
        dsimp only
        rw [hne, check_true]
        by_cases hc : (sp2.goal_distances.getD t.target_id 0 != DIRTY &&
            (sp2.shortest_path.getD t.target_id none).map Transition.target_id == some s) = true
        · rw [if_pos hc]
          simp only [Bool.and_eq_true, bne_iff_ne, ne_eq, beq_iff_eq] at hc
          obtain ⟨hc1, hc2⟩ := hc
          have hprev : t.target_id < in_.length := hsrc s t ht
          have hpg : t.target_id ∉ goals := by
            intro hgm
            rw [(p1.base.goal _ hgm).2] at hc2
            simp at hc2
          obtain ⟨sp4, r1, r2, r3, r4, r5⟩ := ih sp2 t.target_id p1 hprev hc1 hpg p5
          refine ⟨sp4, r1, r2, fun u hu => r4 u (p2 u hu), ?_, ?_, ?_⟩
          · intro x hx h1 h2
            by_cases h3 : sp2.goal_distances.getD x 0 = DIRTY
            · intro t' ht'
              rcases p3 x hx h3 h2 t' ht' with h4 | h4
              · exact Or.inl (r4 _ h4)
              · exact Or.inr h4
            · exact r5 x h1 h3
          · intro t' ht'
            rcases List.mem_append.1 ht' with h1 | h1
            · rcases p4 t' h1 with h2 | h2
              · exact Or.inl (r4 _ h2)
              · exact Or.inr h2
            · simp only [List.mem_singleton] at h1
              subst h1
              exact Or.inl r3
          · have h1 := r2.base.ds_length
            have h2 : sp2.dirty_states.length ≤ sp4.dirty_states.length := by
              apply (List.subperm_of_subset p1.base.ds_nodup _).length_le
              intro x hx
              obtain ⟨hx1, hx2⟩ := (p1.base.ds_iff x).1 hx
              exact (r2.base.ds_iff x).2 ⟨hx1, r4 x hx2⟩
            omega
        · rw [if_neg hc]
          refine ⟨sp2, rfl, p1, p2, p3, ?_, p5⟩
          intro t' ht'
          rcases List.mem_append.1 ht' with h1 | h1
          · exact p4 t' h1
          · simp only [List.mem_singleton] at h1
            subst h1
            by_cases hd2 : sp2.goal_distances.getD t'.target_id 0 = DIRTY
            · exact Or.inl hd2
            · right
              intro t1 ht1 hts
              apply hc
              simp only [Bool.and_eq_true, bne_iff_ne, ne_eq, beq_iff_eq]
              refine ⟨hd2, ?_⟩
              rw [p1.keep_path _ hd2, ht1]
              simp [hts])
      sp1
      ⟨hi1, fun u hu => hu, fun x hx h1 h2 => absurd (hnew1 x hx h1) h2,
        fun t ht => by simp at ht, hlen1⟩
    obtain ⟨sp5, k1, k2, k3, k4, k5, -⟩ := key
    refine ⟨sp5, ?_, k2, k3 s hs1, fun u hu => k3 u (hmono1 u hu), ?_⟩
    · unfold mark_orphaned_predecessors
      simp only [m1, Run.bind]
      exact k1
    · intro x h1 h2
      by_cases hxs : x = s
      · subst hxs
        exact k5
      · exact k4 x hxs h1 h2

theorem AfterRedirect.mark_base {sp sp3 : ShortestPaths} {in0 in_ : List Transitions}
    {goals : List Nat} {v v2 bound : Nat} (ht : TreeOk sp in0 goals bound)
    (hr : AfterRedirect sp sp3 in_ goals v v2) :
    MarkBase sp3 sp3 in_ goals ∧ ∀ u, sp3.goal_distances.getD u 0 ≠ DIRTY := by
  have hnd : ∀ u, sp3.goal_distances.getD u 0 ≠ DIRTY := by
    intro u
    by_cases hu : u < in_.length
    · rw [hr.dist u hu]; exact ht.nodirty _
    · rw [List.getD_eq_default _ _ (by rw [hr.dist_len]; omega)]
      unfold DIRTY
      omega
  refine ⟨⟨rfl, rfl, rfl, hr.dist_len, hr.path_len, by rw [hr.ds]; exact List.nodup_nil, ?_,
    fun _ _ => rfl, fun g hg => ⟨hnd g, hr.goal g hg⟩, hr.inf, fun u _ h => absurd h (hnd u)⟩,
    hnd⟩
  intro u
  rw [hr.ds]
  simp only [List.not_mem_nil, false_iff, not_and]
  intro _
  exact hnd u

theorem mark_unfiltered_spec (a : Bool) {sp sp3 : ShortestPaths} {in0 in_ out : List Transitions}
    {goals : List Nat} {v v2 bound cmax : Nat} (ht : TreeOk sp in0 goals bound)
    (hs : SplitOk sp in0 in_ out goals v v2 bound cmax)
    (hr : AfterRedirect sp sp3 in_ goals v v2) (fuel : Nat) (hfuel : in_.length < fuel) :
    ∃ sp6, mark_orphaned_predecessors a in_ fuel sp3 v = .ok sp6 ∧
      AfterMark sp3 sp6 in_ goals := by
  obtain ⟨hb, hnd⟩ := hr.mark_base ht
  have hvn : v < in_.length := by have := hs.new_len; have := hs.v_lt; omega
  have hi : DfsInv sp3 sp3 in_ goals := ⟨hb, rfl, rfl, fun _ _ => rfl⟩
  obtain ⟨sp6, r1, r2, r3, r4, r5⟩ := mark_orphaned_spec a hs.src hs.noloop fuel sp3 v hi hvn
    (hnd v) hs.v_goal (by rw [hr.ds]; simpa using hfuel)
  refine ⟨sp6, r1, r2.base, by rw [r2.cq, hr.cq]; exact ht.cq,
    by rw [r2.dc, hr.dc]; exact ht.dc, ?_⟩
  intro u hu hg hfin hdirty
  have huv : u ≠ v := by
    intro hc
    rw [hc] at hdirty
    exact hdirty r3
  have hk := r2.base.keep u hdirty
  rw [hk] at hfin
  obtain ⟨t, t1, t2, t3, t4⟩ := hr.tree u hu hg hfin huv
  have htd : sp6.goal_distances.getD t.target_id 0 ≠ DIRTY := by
    intro hc
    rcases r5 t.target_id hc (hnd _) ⟨t.op_id, u⟩ t3 with h | h
    · exact hdirty h
    · exact h t t1 rfl
  refine ⟨t, by rw [r2.keep_path u hdirty]; exact t1, t2, t3, htd, ?_⟩
  rw [hk, r2.base.keep _ htd, r2.base.costs]
  exact t4

/-! ## Marking the orphans with the candidate queue -/

theorem HeapQueue.pop_perm : ∀ {q : HeapQueue} {x : Nat × Nat} {r : HeapQueue},
    q.pop = some (x, r) → List.Perm q (x :: r) := by
  intro q
  induction q with
  | nil => intro x r h; simp [HeapQueue.pop] at h
  | cons a as ih =>
    intro x r h
    simp only [HeapQueue.pop] at h
    split at h
    · rename_i hn
      simp only [Option.some.injEq, Prod.mk.injEq] at h
      obtain ⟨rfl, rfl⟩ := h
      have := HeapQueue.pop_eq_none.1 hn
      subst this
      exact List.Perm.refl _
    · rename_i y rest hs
      have i1 := ih hs
      split at h
      · simp only [Option.some.injEq, Prod.mk.injEq] at h
        obtain ⟨rfl, rfl⟩ := h
        exact List.Perm.refl _
      · simp only [Option.some.injEq, Prod.mk.injEq] at h
        obtain ⟨rfl, rfl⟩ := h
        exact (List.Perm.cons a i1).trans (List.Perm.swap _ _ _)

theorem CandInv.q_length {sp3 sp : ShortestPaths} {in_ : List Transitions} {goals : List Nat}
    {exc : Option Nat} (h : CandInv sp3 sp in_ goals exc) :
    sp.candidate_queue.length ≤ in_.length := by
  have := nodup_length_le _ _ h.q_nodup (by
    intro x hx
    obtain ⟨⟨k, u⟩, hku, rfl⟩ := List.mem_map.1 hx
    exact (h.cand k u hku).1)
  simpa using this

theorem push_candidate_inv {sp3 sp : ShortestPaths} {in_ : List Transitions}
    {goals : List Nat} {s : Nat} {t : Transition}
    (hi : CandInv sp3 sp in_ goals (some s)) (ht : t ∈ in_.getD s [])
    (hsrc : ∀ s t, t ∈ in_.getD s [] → t.target_id < in_.length) :
    CandInv sp3 (push_candidate s sp t) in_ goals (some s) ∧
    (push_candidate s sp t).shortest_path = sp.shortest_path ∧
    (push_candidate s sp t).dirty_states = sp.dirty_states ∧
    (push_candidate s sp t).goal_distances = sp.goal_distances ∧
    (∀ u, sp.dirty_candidate.getD u false = true →
      (push_candidate s sp t).dirty_candidate.getD u false = true) ∧
    ((push_candidate s sp t).dirty_candidate.getD t.target_id false = true ∨
      sp.goal_distances.getD t.target_id 0 = DIRTY ∨
      ∀ t1, sp.shortest_path.getD t.target_id none = some t1 → t1.target_id ≠ s) := by
  have hprev : t.target_id < in_.length := hsrc s t ht
  unfold push_candidate
  dsimp only
  by_cases hc : (!sp.dirty_candidate.getD t.target_id false &&
      sp.goal_distances.getD t.target_id 0 != DIRTY &&
      (sp.shortest_path.getD t.target_id none).map Transition.target_id == some s) = true
  · rw [if_pos hc]
    simp only [Bool.and_eq_true, Bool.not_eq_true', bne_iff_ne, ne_eq, beq_iff_eq] at hc
    obtain ⟨⟨hc1, hc2⟩, hc3⟩ := hc
    obtain ⟨e1, e2, e3⟩ := hi.exc_ok s rfl
    have hps : t.target_id ≠ s := by
      intro h
      rw [h] at hc2
      exact hc2 e2
    have hdl : t.target_id < sp.dirty_candidate.length := by rw [hi.dc_len]; exact hprev
    have hnotq : ∀ k, (k, t.target_id) ∉ sp.candidate_queue := by
      intro k hk
      have := (hi.flag t.target_id (by simpa using hps)).2 ⟨k, hk⟩
      rw [hc1] at this
      cases this
    have hpg : t.target_id ∉ goals := by
      intro hg
      rw [(hi.base.goal _ hg).2] at hc3
      simp at hc3
    have hpinf : sp.goal_distances.getD t.target_id 0 ≠ INF_COSTS := by
      intro hinf
      rw [hi.base.inf _ hprev hinf] at hc3
      simp at hc3
    have hb : MarkBase sp3
        { sp with
          dirty_candidate := sp.dirty_candidate.set t.target_id true
          candidate_queue := sp.candidate_queue.push
            (sp.goal_distances.getD t.target_id 0) t.target_id } in_ goals :=
      ⟨hi.base.zero, hi.base.costs, hi.base.oq, hi.base.dist_len, hi.base.path_len,
        hi.base.ds_nodup, hi.base.ds_iff, hi.base.keep, hi.base.goal, hi.base.inf,
        hi.base.dirty_none⟩
    refine ⟨⟨hb, by simpa using hi.dc_len, ?_, ?_, ?_, ?_, ?_⟩, rfl, rfl, rfl, ?_, ?_⟩
    · dsimp only
      simp only [HeapQueue.push, List.map_append, List.map_cons, List.map_nil]
      apply List.Nodup.append hi.q_nodup (List.nodup_singleton _)
      intro x hx hx2
      simp only [List.mem_singleton] at hx2
      subst hx2
      obtain ⟨⟨k, u⟩, hku, hu⟩ := List.mem_map.1 hx
      simp only at hu
      subst hu
      exact hnotq k hku
    · intro u hu
      dsimp only
      by_cases hut : t.target_id = u
      · subst hut
        rw [getD_set_eq _ _ _ _ hdl]
        simp only [true_iff]
        exact ⟨_, (HeapQueue.mem_push _ _ _ _).2 (Or.inr rfl)⟩
      · rw [getD_set_ne _ _ _ _ _ hut, hi.flag u hu]
        constructor
        · rintro ⟨k, hk⟩
          exact ⟨k, (HeapQueue.mem_push _ _ _ _).2 (Or.inl hk)⟩
        · rintro ⟨k, hk⟩
          rcases (HeapQueue.mem_push _ _ _ _).1 hk with h | h
          · exact ⟨k, h⟩
          · simp only [Prod.mk.injEq] at h
            exact absurd h.2.symm hut
    · intro s1 hs1
      cases hs1
      dsimp only
      refine ⟨?_, e2, ?_⟩
      · rw [getD_set_ne _ _ _ _ _ hps]; exact e1
      · intro k hk
        rcases (HeapQueue.mem_push _ _ _ _).1 hk with h | h
        · exact e3 k h
        · simp only [Prod.mk.injEq] at h
          exact hps h.2.symm
    · intro k u hk
      dsimp only at hk ⊢
      rcases (HeapQueue.mem_push _ _ _ _).1 hk with h | h
      · exact hi.cand k u h
      · simp only [Prod.mk.injEq] at h
        obtain ⟨-, rfl⟩ := h
        exact ⟨hprev, hc2, hpinf, hpg⟩
    · intro u hu hg hfin hd hf
      dsimp only at hfin hd hf ⊢
      have hut : t.target_id ≠ u := by
        intro h
        rw [← h, getD_set_eq _ _ _ _ hdl] at hf
        cases hf
      rw [getD_set_ne _ _ _ _ _ hut] at hf
      exact hi.tree u hu hg hfin hd hf
    · intro u hu
      dsimp only
      by_cases hut : t.target_id = u
      · subst hut; rw [getD_set_eq _ _ _ _ hdl]
      · rw [getD_set_ne _ _ _ _ _ hut]; exact hu
    · left
      dsimp only
      rw [getD_set_eq _ _ _ _ hdl]
  · rw [if_neg hc]
    refine ⟨hi, rfl, rfl, rfl, fun _ h => h, ?_⟩
    by_cases h1 : sp.dirty_candidate.getD t.target_id false = true
    · exact Or.inl h1
    · by_cases h2 : sp.goal_distances.getD t.target_id 0 = DIRTY
      · exact Or.inr (Or.inl h2)
      · right; right
        intro t1 ht1 hts
        apply hc
        simp only [Bool.and_eq_true, Bool.not_eq_true', bne_iff_ne, ne_eq, beq_iff_eq]
        refine ⟨⟨by simpa using h1, h2⟩, ?_⟩
        rw [ht1]
        simp [hts]

theorem push_candidates_inv {sp3 sp : ShortestPaths} {in_ : List Transitions}
    {goals : List Nat} {s : Nat}
    (hi : CandInv sp3 sp in_ goals (some s))
    (hsrc : ∀ s t, t ∈ in_.getD s [] → t.target_id < in_.length) :
    CandInv sp3 ((in_.getD s []).foldl (push_candidate s) sp) in_ goals (some s) ∧
    ((in_.getD s []).foldl (push_candidate s) sp).shortest_path = sp.shortest_path ∧
    ((in_.getD s []).foldl (push_candidate s) sp).dirty_states = sp.dirty_states ∧
    ((in_.getD s []).foldl (push_candidate s) sp).goal_distances = sp.goal_distances ∧
    (∀ t ∈ in_.getD s [],
      ((in_.getD s []).foldl (push_candidate s) sp).dirty_candidate.getD t.target_id false = true ∨
      sp.goal_distances.getD t.target_id 0 = DIRTY ∨
      ∀ t1, sp.shortest_path.getD t.target_id none = some t1 → t1.target_id ≠ s) := by
  have key := foldl_prefix_inv
    (fun (done : List Transition) (sp1 : ShortestPaths) =>
      CandInv sp3 sp1 in_ goals (some s) ∧
      sp1.shortest_path = sp.shortest_path ∧ sp1.dirty_states = sp.dirty_states ∧
      sp1.goal_distances = sp.goal_distances ∧
      (∀ t ∈ done, sp1.dirty_candidate.getD t.target_id false = true ∨
        sp.goal_distances.getD t.target_id 0 = DIRTY ∨
        ∀ t1, sp.shortest_path.getD t.target_id none = some t1 → t1.target_id ≠ s))
    (push_candidate s) (in_.getD s [])
    (by
      intro pre t sp1 ht ⟨h1, h2, h3, h4, h5⟩
      obtain ⟨k1, k2, k3, k4, k5, k6⟩ := push_candidate_inv h1 ht hsrc
      refine ⟨k1, k2.trans h2, k3.trans h3, k4.trans h4, ?_⟩
      intro t' ht'
      rcases List.mem_append.1 ht' with h | h
      · rcases h5 t' h with h6 | h6
        · exact Or.inl (k5 _ h6)
        · exact Or.inr h6
      · simp only [List.mem_singleton] at h
        subst h
        rw [h2, h4] at k6
        exact k6)
    sp ⟨hi, rfl, rfl, rfl, fun t ht => by simp at ht⟩
  exact key

theorem can_reconnect_spec {sp : ShortestPaths} {s : Nat} {t : Transition}
    (h : can_reconnect sp s t = true) :
    sp.goal_distances.getD t.target_id 0 ≠ DIRTY ∧
    sp.goal_distances.getD t.target_id 0 ≠ INF_COSTS ∧
    sp.operator_costs.getD t.op_id 0 ≠ INF_COSTS ∧
    add64 (sp.goal_distances.getD t.target_id 0) (sp.operator_costs.getD t.op_id 0)
      = sp.goal_distances.getD s 0 := by
  unfold can_reconnect at h
  simp only [Bool.and_eq_true, bne_iff_ne, ne_eq, beq_iff_eq] at h
  exact ⟨h.1.1.1, h.1.1.2, h.1.2, h.2⟩

theorem getD_false_of_contains {l : List Bool} (h : l.contains true = false) (i : Nat) :
    l.getD i false = false := by
  by_cases hi : i < l.length
  · rw [List.getD_eq_getElem _ _ hi]
    by_contra hc
    have hm : l[i] ∈ l := List.getElem_mem hi
    have : l[i] = true := by simpa using hc
    rw [this] at hm
    have : l.contains true = true := by simpa using hm
    rw [h] at this
    cases this
  · rw [List.getD_eq_default _ _ (by omega)]

theorem contains_of_getD_false {l : List Bool} (h : ∀ i, l.getD i false = false) :
    l.contains true = false := by
  by_contra hc
  have hm : true ∈ l := by simpa using hc
  obtain ⟨i, hi, hget⟩ := List.getElem_of_mem hm
  have := h i
  rw [List.getD_eq_getElem _ _ hi, hget] at this
  cases this

theorem candidate_step_spec (a : Bool) {sp3 : ShortestPaths} {in_ out : List Transitions}
    {goals : List Nat} {bound cmax : Nat}
    (hsrc : ∀ s t, t ∈ in_.getD s [] → t.target_id < in_.length)
    (hcons : Consistent in_ out)
    (hbelow : ∀ u, u < in_.length → sp3.goal_distances.getD u 0 ≠ INF_COSTS →
      sp3.goal_distances.getD u 0 < bound)
    (hfin : ∀ s t, t ∈ in_.getD s [] → sp3.operator_costs.getD t.op_id 0 ≤ cmax)
    (hroom : bound + cmax < INF_COSTS) {sp : ShortestPaths} {k s : Nat} {q : HeapQueue}
    (hi : CandInv sp3 sp in_ goals none) (hpop : sp.candidate_queue.pop = some ((k, s), q)) :
    ∃ sp1, CandStep a in_ out sp s q sp1 ∧ CandInv sp3 sp1 in_ goals none ∧
      cand_measure in_.length sp1 < cand_measure in_.length sp ∧
      ∀ fuel, candidate_loop a in_ out (fuel + 1) sp = candidate_loop a in_ out fuel sp1 := by
      obtain ⟨p1, -, p3⟩ := HeapQueue.pop_spec hpop
      have hperm := HeapQueue.pop_perm hpop
      have hmem : (k, s) ∈ sp.candidate_queue := (p1 _).2 (Or.inl rfl)
      obtain ⟨hs, hd, hinf, hg⟩ := hi.cand k s hmem
      have hflag : sp.dirty_candidate.getD s false = true :=
        (hi.flag s (by simp)).2 ⟨k, hmem⟩
      have hnd : ((k, s) :: q).map Prod.snd |>.Nodup :=
        (List.Perm.nodup_iff (hperm.map Prod.snd)).1 hi.q_nodup
      simp only [List.map_cons, List.nodup_cons] at hnd
      obtain ⟨hsq, hqnd⟩ := hnd
      have hsq2 : ∀ k1, (k1, s) ∉ q := by
        intro k1 hk1
        exact hsq (List.mem_map.2 ⟨(k1, s), hk1, rfl⟩)
      have hsd : s < sp.goal_distances.length := by rw [hi.base.dist_len]; exact hs
      have hsp : s < sp.shortest_path.length := by rw [hi.base.path_len]; exact hs
      have hsdc : s < sp.dirty_candidate.length := by rw [hi.dc_len]; exact hs
      have c1 : (sp.goal_distances.getD s 0 != INF_COSTS) = true := by simpa using hinf
      have c2 : (sp.goal_distances.getD s 0 != DIRTY) = true := by simpa using hd
      have hbase1 : MarkBase sp3 { sp with candidate_queue := q } in_ goals :=
        ⟨hi.base.zero, hi.base.costs, hi.base.oq, hi.base.dist_len, hi.base.path_len,
          hi.base.ds_nodup, hi.base.ds_iff, hi.base.keep, hi.base.goal, hi.base.inf,
          hi.base.dirty_none⟩
      have hflagq : ∀ u, u ≠ s →
          (sp.dirty_candidate.getD u false = true ↔ ∃ k1, (k1, u) ∈ q) := by
        intro u hu
        rw [hi.flag u (by simp)]
        constructor
        · rintro ⟨k1, hk1⟩
          rcases (p1 _).1 hk1 with h | h
          · simp only [Prod.mk.injEq] at h
            exact absurd h.2 hu
          · exact ⟨k1, h⟩
        · rintro ⟨k1, hk1⟩
          exact ⟨k1, (p1 _).2 (Or.inr hk1)⟩
      cases hfind : (out.getD s []).find? (can_reconnect { sp with candidate_queue := q } s) with
      | some t =>
        have htm : t ∈ out.getD s [] := List.mem_of_find?_eq_some hfind
        have hcan := List.find?_some hfind
        obtain ⟨r1, r2, r3, r4⟩ := can_reconnect_spec hcan
        dsimp only at r1 r2 r3 r4
        have harc : (⟨t.op_id, s⟩ : Transition) ∈ in_.getD t.target_id [] := hcons.fwd s t htm
        have htl : t.target_id < in_.length := mem_getD_lt harc
        have hir : CandInv sp3
            { sp with
              candidate_queue := q
              shortest_path := sp.shortest_path.set s (some ⟨t.op_id, t.target_id⟩)
              dirty_candidate := sp.dirty_candidate.set s false } in_ goals none := by
          refine ⟨⟨hi.base.zero, hi.base.costs, hi.base.oq, hi.base.dist_len,
            by simpa using hi.base.path_len, hi.base.ds_nodup, hi.base.ds_iff, hi.base.keep,
            ?_, ?_, ?_⟩, by simpa using hi.dc_len, hqnd, ?_, ?_, ?_, ?_⟩
          · intro g hgm
            dsimp only
            have hne : s ≠ g := fun hc => hg (hc ▸ hgm)
            rw [getD_set_ne _ _ _ _ _ hne]
            exact hi.base.goal g hgm
          · intro u hu hui
            dsimp only at hui ⊢
            have hne : s ≠ u := fun hc => hinf (hc ▸ hui)
            rw [getD_set_ne _ _ _ _ _ hne]
            exact hi.base.inf u hu hui
          · intro u hu hud
            dsimp only at hud ⊢
            have hne : s ≠ u := fun hc => hd (hc ▸ hud)
            rw [getD_set_ne _ _ _ _ _ hne]
            exact hi.base.dirty_none u hu hud
          · intro u _
            dsimp only
            by_cases hus : s = u
            · subst hus
              rw [getD_set_eq _ _ _ _ hsdc]
              simp only [Bool.false_eq_true, false_iff, not_exists]
              exact hsq2
            · rw [getD_set_ne _ _ _ _ _ hus]
              exact hflagq u (Ne.symm hus)
          · intro s1 hs1
            cases hs1
          · intro k1 u hk1
            exact hi.cand k1 u ((p1 _).2 (Or.inr hk1))
          · intro u hu hug hui hud hf
            dsimp only at hui hud hf ⊢
            by_cases hus : s = u
            · subst hus
              rw [getD_set_eq _ _ _ _ hsp]
              refine ⟨⟨t.op_id, t.target_id⟩, rfl, htl, harc, Or.inl r1, ?_⟩
              dsimp only
              rw [← hi.base.keep s hd, ← hi.base.keep _ r1, ← hi.base.costs, ← r4]
              have hb := hbelow t.target_id htl (by rw [← hi.base.keep _ r1]; exact r2)
              rw [← hi.base.keep _ r1] at hb
              have hc := hfin t.target_id ⟨t.op_id, s⟩ harc
              rw [← hi.base.costs] at hc
              dsimp only at hc
              rw [add64_eq (by omega)]
            · rw [getD_set_ne _ _ _ _ _ hus] at hf ⊢
              exact hi.tree u hu hug hui hud hf
        have hmr : cand_measure in_.length
            { sp with
              candidate_queue := q
              shortest_path := sp.shortest_path.set s (some ⟨t.op_id, t.target_id⟩)
              dirty_candidate := sp.dirty_candidate.set s false }
            < cand_measure in_.length sp := by
          unfold cand_measure
          dsimp only
          omega
        refine ⟨_, Or.inl ⟨t, hfind, rfl⟩, hir, hmr, ?_⟩
        intro fuel
        conv_lhs => unfold candidate_loop
        rw [hpop]
        dsimp only
        rw [hflag, check_true, c1, check_true, c2, check_true, hfind]
      | none =>
        obtain ⟨sp2, m1, m2, m3, m4, m5, m6, m7, m8⟩ :=
          mark_dirty_spec a hbase1 hs hd hg
        have hd2 : ∀ u, u ≠ s → sp2.goal_distances.getD u 0 = sp.goal_distances.getD u 0 := by
          intro u hu
          rw [m3]
          exact getD_set_ne _ _ _ _ _ (Ne.symm hu)
        have hp2 : ∀ u, u ≠ s → sp2.shortest_path.getD u none = sp.shortest_path.getD u none := by
          intro u hu
          rw [m4]
          exact getD_set_ne _ _ _ _ _ (Ne.symm hu)
        have hs2 : sp2.goal_distances.getD s 0 = DIRTY := by
          rw [m3]
          exact getD_set_eq _ _ _ _ hsd
        have hi2 : CandInv sp3 sp2 in_ goals (some s) := by
          refine ⟨m2, by rw [m7]; exact hi.dc_len, by rw [m6]; exact hqnd, ?_, ?_, ?_, ?_⟩
          · intro u hu
            rw [m7, m6]
            exact hflagq u (by simpa using hu)
          · intro s1 hs1
            cases hs1
            refine ⟨by rw [m7]; exact hflag, hs2, ?_⟩
            rw [m6]
            exact hsq2
          · intro k1 u hk1
            rw [m6] at hk1
            have hus : u ≠ s := fun hc => hsq2 k1 (hc ▸ hk1)
            rw [hd2 u hus]
            exact hi.cand k1 u ((p1 _).2 (Or.inr hk1))
          · intro u hu hug hui hud hf
            have hus : u ≠ s := fun hc => hud (hc ▸ hs2)
            rw [hd2 u hus] at hui hud
            rw [m7] at hf
            obtain ⟨t, t1, t2, t3, t4, t5⟩ := hi.tree u hu hug hui hud hf
            refine ⟨t, by rw [hp2 u hus]; exact t1, t2, t3, ?_, t5⟩
            by_cases hts : t.target_id = s
            · right; rw [hts]
            · left
              rw [hd2 _ hts]
              rcases t4 with h | h
              · exact h
              · cases h
        obtain ⟨f1, f2, f3, f4, f5⟩ := push_candidates_inv hi2 hsrc
        obtain ⟨sp4, hsp4⟩ : ∃ x, x = (in_.getD s []).foldl (push_candidate s) sp2 := ⟨_, rfl⟩
        rw [← hsp4] at f1 f2 f3 f4 f5
        obtain ⟨e1, e2, e3⟩ := f1.exc_ok s rfl
        have hsdc4 : s < sp4.dirty_candidate.length := by rw [f1.dc_len]; exact hs
        have hi4 : CandInv sp3 { sp4 with dirty_candidate := sp4.dirty_candidate.set s false }
            in_ goals none := by
          refine ⟨⟨f1.base.zero, f1.base.costs, f1.base.oq, f1.base.dist_len, f1.base.path_len,
            f1.base.ds_nodup, f1.base.ds_iff, f1.base.keep, f1.base.goal, f1.base.inf,
            f1.base.dirty_none⟩, by simpa using f1.dc_len, f1.q_nodup, ?_, ?_, f1.cand, ?_⟩
          · intro u _
            dsimp only
            by_cases hus : s = u
            · subst hus
              rw [getD_set_eq _ _ _ _ hsdc4]
              simp only [Bool.false_eq_true, false_iff, not_exists]
              exact e3
            · rw [getD_set_ne _ _ _ _ _ hus]
              exact f1.flag u (by simpa using Ne.symm hus)
          · intro s1 hs1
            cases hs1
          · intro u hu hug hui hud hf
            dsimp only at hui hud hf ⊢
            have hus : s ≠ u := fun hc => hud (hc ▸ e2)
            rw [getD_set_ne _ _ _ _ _ hus] at hf
            obtain ⟨t, t1, t2, t3, t4, t5⟩ := f1.tree u hu hug hui hud hf
            refine ⟨t, t1, t2, t3, ?_, t5⟩
            left
            rcases t4 with h | h
            · exact h
            · exfalso
              simp only [Option.some.injEq] at h
              rw [h] at t3
              rcases f5 ⟨t.op_id, u⟩ t3 with k1 | k1 | k1
              · dsimp only at k1
                rw [hf] at k1
                cases k1
              · dsimp only at k1
                rw [← f4] at k1
                exact hud k1
              · dsimp only at k1
                rw [← f2] at k1
                exact k1 t t1 h
        have hm4 : cand_measure in_.length
            { sp4 with dirty_candidate := sp4.dirty_candidate.set s false }
            < cand_measure in_.length sp := by
          have hq4 := hi4.q_length
          unfold cand_measure
          dsimp only at hq4 ⊢
          rw [f3, m5]
          rw [m5] at m8
          simp only [List.length_append, List.length_singleton] at m8 ⊢
          have h1 : (in_.length - (sp.dirty_states.length + 1)) * (in_.length + 1)
              + (in_.length + 1) ≤ (in_.length - sp.dirty_states.length) * (in_.length + 1) := by
            have h2 : in_.length - sp.dirty_states.length
                = (in_.length - (sp.dirty_states.length + 1)) + 1 := by omega
            rw [h2, Nat.add_mul]
            omega
          omega
        subst hsp4
        refine ⟨_, Or.inr ⟨hfind, sp2, m1, rfl⟩, hi4, hm4, ?_⟩
        intro fuel
        conv_lhs => unfold candidate_loop
        rw [hpop]
        dsimp only
        rw [hflag, check_true, c1, check_true, c2, check_true, hfind]
        simp only [m1, Run.bind]

theorem candidate_trace_step {a : Bool} {in_ out : List Transitions} {sp sp1 : ShortestPaths}
    {k s : Nat} {q : HeapQueue} (hpop : sp.candidate_queue.pop = some ((k, s), q))
    (hstep : CandStep a in_ out sp s q sp1) (fuel : Nat) :
    candidate_trace a in_ out (fuel + 1) sp
      = (s, q, sp1.candidate_queue) :: candidate_trace a in_ out fuel sp1 := by
  conv_lhs => unfold candidate_trace
  rw [hpop]
  dsimp only
  rcases hstep with ⟨t, h1, h2⟩ | ⟨h1, sp2, h2, h3⟩
  · rw [h1, h2]
  · rw [h1, h3]
    simp only [h2]

theorem candidate_loop_carries (a : Bool) {sp3 : ShortestPaths} {in_ out : List Transitions}
    {goals : List Nat} {bound cmax : Nat}
    (hsrc : ∀ s t, t ∈ in_.getD s [] → t.target_id < in_.length)
    (hcons : Consistent in_ out)
    (hbelow : ∀ u, u < in_.length → sp3.goal_distances.getD u 0 ≠ INF_COSTS →
      sp3.goal_distances.getD u 0 < bound)
    (hfin : ∀ s t, t ∈ in_.getD s [] → sp3.operator_costs.getD t.op_id 0 ≤ cmax)
    (hroom : bound + cmax < INF_COSTS)
    (J : List (Nat × HeapQueue × HeapQueue) → ShortestPaths → Prop)
    (hJ : ∀ log sp k s q sp1, CandInv sp3 sp in_ goals none →
      sp.candidate_queue.pop = some ((k, s), q) → CandStep a in_ out sp s q sp1 →
      J log sp → J (log ++ [(s, q, sp1.candidate_queue)]) sp1) :
    ∀ (fuel : Nat) (sp : ShortestPaths) (log : List (Nat × HeapQueue × HeapQueue)),
      CandInv sp3 sp in_ goals none → cand_measure in_.length sp < fuel → J log sp →
      ∃ sp1, candidate_loop a in_ out fuel sp = .ok sp1 ∧ CandInv sp3 sp1 in_ goals none ∧
        sp1.candidate_queue = [] ∧ J (log ++ candidate_trace a in_ out fuel sp) sp1 := by
  intro fuel
  induction fuel with
  | zero => intro sp _ _ h; omega
  | succ fuel ih =>
    intro sp log hi hm hj
    cases hpop : sp.candidate_queue.pop with
    | none =>
      refine ⟨sp, ?_, hi, HeapQueue.pop_eq_none.1 hpop, ?_⟩
      · unfold candidate_loop
        rw [hpop]
      · unfold candidate_trace
        rw [hpop]
        simpa using hj
    | some xr =>
      obtain ⟨⟨k, s⟩, q⟩ := xr
      obtain ⟨sp1, s1, s2, s3, s4⟩ := candidate_step_spec a hsrc hcons hbelow hfin hroom hi hpop
      obtain ⟨sp2, r1, r2, r3, r4⟩ := ih sp1 _ s2 (by omega) (hJ log sp k s q sp1 hi hpop s1 hj)
      refine ⟨sp2, by rw [s4]; exact r1, r2, r3, ?_⟩
      rw [candidate_trace_step hpop s1]
      simpa using r4

theorem candidate_loop_spec (a : Bool) {sp3 : ShortestPaths} {in_ out : List Transitions}
    {goals : List Nat} {bound cmax : Nat}
    (hsrc : ∀ s t, t ∈ in_.getD s [] → t.target_id < in_.length)
    (hcons : Consistent in_ out)
    (hbelow : ∀ u, u < in_.length → sp3.goal_distances.getD u 0 ≠ INF_COSTS →
      sp3.goal_distances.getD u 0 < bound)
    (hfin : ∀ s t, t ∈ in_.getD s [] → sp3.operator_costs.getD t.op_id 0 ≤ cmax)
    (hroom : bound + cmax < INF_COSTS) :
    ∀ (fuel : Nat) (sp : ShortestPaths), CandInv sp3 sp in_ goals none →
      cand_measure in_.length sp < fuel →
      ∃ sp1, candidate_loop a in_ out fuel sp = .ok sp1 ∧ CandInv sp3 sp1 in_ goals none ∧
        sp1.candidate_queue = [] := by
  intro fuel sp hi hm
  obtain ⟨sp1, r1, r2, r3, -⟩ := candidate_loop_carries a hsrc hcons hbelow hfin hroom
    (fun _ _ => True) (fun _ _ _ _ _ _ _ _ _ _ => trivial) fuel sp [] hi hm trivial
  exact ⟨sp1, r1, r2, r3⟩

theorem contains_resize_false {l : List Bool} (n : Nat) (h : l.contains true = false) :
    (resize l n false).contains true = false := by
  rw [Bool.eq_false_iff] at h ⊢
  intro hc
  apply h
  rw [List.contains_iff_exists_mem_beq] at hc ⊢
  obtain ⟨x, hx, hx2⟩ := hc
  refine ⟨x, ?_, hx2⟩
  simp only [resize, List.mem_append, List.mem_replicate] at hx
  rcases hx with hx | hx
  · exact List.mem_of_mem_take hx
  · rw [hx.2] at hx2
    cases hx2

theorem mark_filtered_carries (a : Bool) {sp sp3 : ShortestPaths}
    {in0 in_ out : List Transitions}
    {goals : List Nat} {v v2 bound cmax : Nat} (ht : TreeOk sp in0 goals bound)
    (hs : SplitOk sp in0 in_ out goals v v2 bound cmax)
    (hr : AfterRedirect sp sp3 in_ goals v v2) (fuel : Nat)
    (hfuel : in_.length * (in_.length + 1) + 1 < fuel)
    (J : List (Nat × HeapQueue × HeapQueue) → ShortestPaths → Prop)
    (hJ : ∀ log sp k s q sp1, CandInv sp3 sp in_ goals none →
      sp.candidate_queue.pop = some ((k, s), q) → CandStep a in_ out sp s q sp1 →
      J log sp → J (log ++ [(s, q, sp1.candidate_queue)]) sp1)
    (hJ0 : J [] (candidate_init sp3 in_.length v)) :
    ∃ sp6, (check a sp3.candidate_queue.isEmpty 200 <|
        check a (!sp3.dirty_candidate.contains true) 201 <|
        candidate_loop a in_ out fuel (candidate_init sp3 in_.length v)) = .ok sp6 ∧
      AfterMark sp3 sp6 in_ goals ∧
      candidate_loop a in_ out fuel (candidate_init sp3 in_.length v) = .ok sp6 ∧
      J (candidate_trace a in_ out fuel (candidate_init sp3 in_.length v)) sp6 := by
  obtain ⟨hb, hnd⟩ := hr.mark_base ht
  have hvn : v < in_.length := by have := hs.new_len; have := hs.v_lt; omega
  have hcq : sp3.candidate_queue = [] := by rw [hr.cq]; exact ht.cq
  have hdc : sp3.dirty_candidate.contains true = false := by rw [hr.dc]; exact ht.dc
  have hvfin : sp3.goal_distances.getD v 0 ≠ INF_COSTS := by
    intro hc
    have h1 := hr.dist v hvn
    rw [split_origin_of_lt hs.v_lt] at h1
    obtain ⟨t, t1, -, -⟩ := hs.inherit
    have h2 := ht.inf v (by rw [hs.old_len]; exact hs.v_lt) (by rw [← h1]; exact hc)
    rw [h2] at t1
    cases t1
  have hres := getD_false_of_contains (contains_resize_false in_.length hdc)
  have hi0 : CandInv sp3 (candidate_init sp3 in_.length v) in_ goals none := by
    unfold candidate_init
    dsimp only
    rw [hcq]
    refine ⟨⟨hb.zero, hb.costs, hb.oq, hb.dist_len, hb.path_len, hb.ds_nodup, hb.ds_iff,
      hb.keep, hb.goal, hb.inf, hb.dirty_none⟩, ?_, ?_, ?_, ?_, ?_, ?_⟩
    · dsimp only
      rw [List.length_set, length_resize]
    · simp [HeapQueue.push]
    · intro u _
      dsimp only
      simp only [HeapQueue.push, List.nil_append, List.mem_singleton, Prod.mk.injEq]
      by_cases huv : v = u
      · subst huv
        rw [getD_set_eq _ _ _ _ (by rw [length_resize]; exact hvn)]
        simp
      · rw [getD_set_ne _ _ _ _ _ huv, hres u]
        simp only [Bool.false_eq_true, false_iff, not_exists, not_and]
        intro _ _ h
        exact huv h.symm
    · intro s1 hs1
      cases hs1
    · intro k u hku
      dsimp only at hku ⊢
      simp only [HeapQueue.push, List.nil_append, List.mem_singleton, Prod.mk.injEq] at hku
      obtain ⟨-, rfl⟩ := hku
      exact ⟨hvn, hnd u, hvfin, hs.v_goal⟩
    · intro u hu hug hui hud hf
      dsimp only at hui hud hf ⊢
      have huv : u ≠ v := by
        intro hc
        subst hc
        rw [getD_set_eq _ _ _ _ (by rw [length_resize]; exact hvn)] at hf
        cases hf
      obtain ⟨t, t1, t2, t3, t4⟩ := hr.tree u hu hug hui huv
      exact ⟨t, t1, t2, t3, Or.inl (hnd _), t4⟩
  have hbelow : ∀ u, u < in_.length → sp3.goal_distances.getD u 0 ≠ INF_COSTS →
      sp3.goal_distances.getD u 0 < bound := by
    intro u hu hf
    rw [hr.dist u hu] at hf ⊢
    exact ht.below _ (by rw [hs.old_len]; exact split_origin_lt hs.v_lt (by rw [← hs.new_len]; exact hu)) hf
  have hfin : ∀ s t, t ∈ in_.getD s [] → sp3.operator_costs.getD t.op_id 0 ≤ cmax := by
    intro s t hst
    rw [hr.costs]
    exact hs.fin s t hst
  have hroom : bound + cmax < INF_COSTS := by
    have := hs.room
    have h2 : cmax ≤ (v2 + 2) * cmax := Nat.le_mul_of_pos_left _ (by omega)
    unfold DIRTY at this
    unfold INF_COSTS
    omega
  have hm : cand_measure in_.length (candidate_init sp3 in_.length v) < fuel := by
    unfold cand_measure candidate_init
    dsimp only
    rw [hr.ds, hcq, HeapQueue.length_push]
    simpa using hfuel
  obtain ⟨sp6, r1, r2, r3, r4⟩ := candidate_loop_carries a hs.src hs.cons hbelow hfin hroom
    J hJ fuel _ [] hi0 hm hJ0
  refine ⟨sp6, ?_, ⟨r2.base, r3, ?_, ?_⟩, r1, by simpa using r4⟩
  · rw [hcq, hdc]
    simp only [List.isEmpty_nil, check_true, Bool.not_false]
    exact r1
  · apply contains_of_getD_false
    intro i
    by_contra hc
    have h1 : sp6.dirty_candidate.getD i false = true := by
      cases h : sp6.dirty_candidate.getD i false
      · exact absurd h hc
      · rfl
    obtain ⟨k, hk⟩ := (r2.flag i (by simp)).1 h1
    rw [r3] at hk
    cases hk
  · intro u hu hug hui hud
    have hf : sp6.dirty_candidate.getD u false = false := by
      cases h : sp6.dirty_candidate.getD u false
      · rfl
      · obtain ⟨k, hk⟩ := (r2.flag u (by simp)).1 h
        rw [r3] at hk
        cases hk
    obtain ⟨t, t1, t2, t3, t4, t5⟩ := r2.tree u hu hug hui hud hf
    have htd : sp6.goal_distances.getD t.target_id 0 ≠ DIRTY := by
      rcases t4 with h | h
      · exact h
      · cases h
    refine ⟨t, t1, t2, t3, htd, ?_⟩
    rw [r2.base.keep u hud, r2.base.keep _ htd, r2.base.costs]
    exact t5

theorem mark_filtered_spec (a : Bool) {sp sp3 : ShortestPaths} {in0 in_ out : List Transitions}
    {goals : List Nat} {v v2 bound cmax : Nat} (ht : TreeOk sp in0 goals bound)
    (hs : SplitOk sp in0 in_ out goals v v2 bound cmax)
    (hr : AfterRedirect sp sp3 in_ goals v v2) (fuel : Nat)
    (hfuel : in_.length * (in_.length + 1) + 1 < fuel) :
    ∃ sp6, (check a sp3.candidate_queue.isEmpty 200 <|
        check a (!sp3.dirty_candidate.contains true) 201 <|
        candidate_loop a in_ out fuel (candidate_init sp3 in_.length v)) = .ok sp6 ∧
      AfterMark sp3 sp6 in_ goals := by
  obtain ⟨sp6, r1, r2, -⟩ := mark_filtered_carries a ht hs hr fuel hfuel
    (fun _ _ => True) (fun _ _ _ _ _ _ _ _ _ _ => trivial) trivial
  exact ⟨sp6, r1, r2⟩

/-! ## The repair loop of dijkstra_from_orphans -/

theorem OrphCtx.cmax_room {in_ out : List Transitions} {goals : List Nat} {ocs : List Nat}
    {bound cmax : Nat} (hc : OrphCtx in_ out goals ocs bound cmax) (k : Nat)
    (hk : k ≤ in_.length + 1) : bound + k * cmax < DIRTY := by
  have h1 := hc.room
  have h2 : k * cmax ≤ (in_.length + 1) * cmax := Nat.mul_le_mul_right _ hk
  omega

theorem OrphCtx.cost_lt {in_ out : List Transitions} {goals : List Nat} {ocs : List Nat}
    {bound cmax : Nat} (hc : OrphCtx in_ out goals ocs bound cmax) {s : Nat} {t : Transition}
    (ht : t ∈ in_.getD s []) : bound + ocs.getD t.op_id 0 < DIRTY := by
  have h1 := hc.cmax_room 1 (by omega)
  have h2 := hc.fin s t ht
  omega

theorem OrphCtx.finite {in_ out : List Transitions} {goals : List Nat} {ocs : List Nat}
    {bound cmax : Nat} (hc : OrphCtx in_ out goals ocs bound cmax) {u : Nat} {ops : List Nat}
    (hw : GoalWalk in_ goals u ops) : FiniteOps ocs ops := by
  induction hw with
  | goal _ => intro op hop; cases hop
  | step _ hmem ih =>
    refine FiniteOps.cons ?_ ih
    have := hc.cost_lt hmem
    dsimp only at this
    unfold DIRTY at this
    unfold INF_COSTS
    omega

theorem lt_dirty_iff {x : Nat} (hw : x ≤ INF_COSTS) :
    x < DIRTY ↔ x ≠ INF_COSTS ∧ x ≠ DIRTY := by
  unfold INF_COSTS at hw ⊢
  unfold DIRTY
  omega

/-- The greedy property for the repair loop. -/
theorem OrphInv.greedy {in_ out : List Transitions} {goals : List Nat} {ocs : List Nat}
    {bound cmax : Nat} {sp : ShortestPaths} (hc : OrphCtx in_ out goals ocs bound cmax)
    (hi : OrphInv in_ goals ocs (fun _ _ => False) sp)
    (hnd : ∀ u, sp.goal_distances.getD u 0 ≠ DIRTY) :
    ∀ {u : Nat} {ops : List Nat}, GoalWalk in_ goals u ops →
      walk_cost64 ocs ops < INF_COSTS →
      (∀ k x, (k, x) ∈ sp.open_queue → walk_cost64 ocs ops < k) →
      sp.goal_distances.getD u 0 ≤ walk_cost64 ocs ops := by
  intro u ops hw
  induction hw with
  | goal hmem =>
    intro _ _
    rw [(hi.goal _ hmem).1]
    exact Nat.zero_le _
  | @step s u op ops hw hmem ih =>
    intro hlt hq
    rw [walk_cost64_cons] at hlt hq ⊢
    have h1 := ih (by omega) (fun k x hkx => by have := hq k x hkx; omega)
    have hs : s < in_.length := hw.lt hc.graph
    have hne : sp.goal_distances.getD s 0 < DIRTY :=
      (lt_dirty_iff (hi.word s)).2 ⟨by omega, hnd s⟩
    rcases hi.closed s hs hne with h2 | h2
    · have := hq _ _ h2
      omega
    · have := h2 ⟨op, u⟩ hmem (fun h => h) (hnd _)
      simp only at this
      omega

theorem OrphInv.settled_lt {in_ out : List Transitions} {goals : List Nat} {ocs : List Nat}
    {bound cmax : Nat} {exc : Nat → Transition → Prop} {sp : ShortestPaths} {s : Nat}
    (hc : OrphCtx in_ out goals ocs bound cmax) (hi : OrphInv in_ goals ocs exc sp)
    (hnd : sp.goal_distances.getD s 0 ≠ DIRTY)
    (hs : s < in_.length) (hset : Settled in_ goals sp s) :
    sp.goal_distances.getD s 0 < bound := by
  obtain ⟨ops, h1, -⟩ := hi.sound s hs ((lt_dirty_iff (hi.word s)).2 ⟨hset.1, hnd⟩)
  obtain ⟨ops1, h4, h6⟩ := hc.path s ops h1
  have := hset.2 ops1 h4 (by rw [hi.costs]; exact hc.finite h4)
  rw [hi.costs] at this
  omega

theorem SameAt.then {sp sp1 sp2 : ShortestPaths} {u : Nat} (h1 : SameAt sp sp1 u)
    (h2 : SameAt sp1 sp2 u) : SameAt sp sp2 u :=
  ⟨h2.1.trans h1.1, h2.2.trans h1.2⟩

theorem SameAt.no_cheaper {in_ : List Transitions} {goals : List Nat} {sp sp1 : ShortestPaths}
    {u : Nat} (h : SameAt sp sp1 u) (hc : sp1.operator_costs = sp.operator_costs)
    (hu : NoCheaper in_ goals sp u) : NoCheaper in_ goals sp1 u := by
  intro ops hw
  rw [h.1, hc]
  exact hu ops hw

theorem orphan_relax_inv (a : Bool) {in_ out : List Transitions} {goals : List Nat}
    {ocs : List Nat} {bound cmax : Nat} (hc : OrphCtx in_ out goals ocs bound cmax)
    {sp : ShortestPaths} {s g : Nat} {done : List Transition} {t : Transition}
    (hi : OrphInv in_ goals ocs (fun u x => u = s ∧ x ∉ done) sp)
    (hnd : ∀ u, sp.goal_distances.getD u 0 ≠ DIRTY)
    (hgs : sp.goal_distances.getD s 0 = g) (hset : Settled in_ goals sp s)
    (hs : s < in_.length) (ht : t ∈ in_.getD s []) :
    ∃ sp1, orphan_relax a g s sp t = .ok sp1 ∧
      OrphInv in_ goals ocs (fun u x => u = s ∧ x ∉ done ++ [t]) sp1 ∧
      (∀ u, sp1.goal_distances.getD u 0 ≠ DIRTY) ∧
      sp1.goal_distances.getD s 0 = g ∧ Settled in_ goals sp1 s ∧
      loop_measure sp1 ≤ loop_measure sp ∧ Frame sp sp1 ∧
      ∀ u, NoCheaper in_ goals sp u → SameAt sp sp1 u := by
  have hoc := hi.costs
  subst hoc
  have hgB : g < bound := hgs ▸ hi.settled_lt hc (hnd s) hs hset
  have hw : t.target_id < in_.length := hc.graph.src s t ht
  have hcl := hc.cost_lt ht
  have hcI : sp.operator_costs.getD t.op_id 0 ≠ INF_COSTS := by
    unfold DIRTY at hcl
    unfold INF_COSTS
    omega
  have hsum : sp.operator_costs.getD t.op_id 0 + g < DIRTY := by omega
  have hsumI : sp.operator_costs.getD t.op_id 0 + g < INF_COSTS := by
    unfold DIRTY at hsum
    unfold INF_COSTS
    omega
  have hexc : ∀ u (x : Transition), ¬ (u = s ∧ x ∉ done ++ [t]) → x ≠ t →
      ¬ (u = s ∧ x ∉ done) := by
    intro u x h1 h2 h3
    apply h1
    refine ⟨h3.1, ?_⟩
    simp only [List.mem_append, List.mem_singleton, not_or]
    exact ⟨h3.2, h2⟩
  have hc1 : (sp.operator_costs.getD t.op_id 0 != INF_COSTS) = true := by simpa using hcI
  have hc2 : (sp.goal_distances.getD t.target_id 0 == DIRTY) = false := by
    simpa using hnd t.target_id
  unfold orphan_relax
  dsimp only
  rw [hc1, check_true, hc2, Bool.false_or, add64_eq hsumI]
  by_cases hlt : sp.operator_costs.getD t.op_id 0 + g < sp.goal_distances.getD t.target_id 0
  · -- the distance of the source of `t` decreases
    simp only [hlt, decide_True, if_true]
    have hwl : t.target_id < sp.goal_distances.length := by rw [hi.len]; exact hw
    have hwp : t.target_id < sp.shortest_path.length := by rw [hi.plen]; exact hw
    have hws : t.target_id ≠ s := by
      intro h
      rw [h, hgs] at hlt
      omega
    have hle : ∀ u, (sp.goal_distances.set t.target_id
        (sp.operator_costs.getD t.op_id 0 + g)).getD u 0 ≤ sp.goal_distances.getD u 0 :=
      fun u => getD_set_le _ _ _ _ (le_of_lt hlt)
    obtain ⟨ops_s, hws1, hws3⟩ := hi.sound s hs
      ((lt_dirty_iff (hi.word s)).2 ⟨hset.1, hnd s⟩)
    have hwalk : GoalWalk in_ goals t.target_id (t.op_id :: ops_s) := GoalWalk.step hws1 ht
    have hwcost : walk_cost64 sp.operator_costs (t.op_id :: ops_s)
        = sp.operator_costs.getD t.op_id 0 + g := by
      rw [walk_cost64_cons, hws3, hgs]
    have hkeep : ∀ x, Settled in_ goals sp x → x ≠ t.target_id := by
      intro x hx hxt
      subst hxt
      have := hx.2 _ hwalk (hc.finite hwalk)
      rw [hwcost] at this
      omega
    have hsettled : ∀ x, Settled in_ goals sp x →
        Settled in_ goals
          { sp with
            goal_distances := sp.goal_distances.set t.target_id
              (sp.operator_costs.getD t.op_id 0 + g)
            shortest_path := sp.shortest_path.set t.target_id (some ⟨t.op_id, s⟩)
            open_queue := sp.open_queue.push (sp.operator_costs.getD t.op_id 0 + g)
              t.target_id } x := by
      intro x hx
      have hne := hkeep x hx
      unfold Settled
      dsimp only
      rw [getD_set_ne _ _ _ _ _ (Ne.symm hne)]
      exact hx
    have hsame : ∀ u, NoCheaper in_ goals sp u →
        SameAt sp
          { sp with
            goal_distances := sp.goal_distances.set t.target_id
              (sp.operator_costs.getD t.op_id 0 + g)
            shortest_path := sp.shortest_path.set t.target_id (some ⟨t.op_id, s⟩)
            open_queue := sp.open_queue.push (sp.operator_costs.getD t.op_id 0 + g)
              t.target_id } u := by
      intro u hu
      have hne : t.target_id ≠ u := by
        intro hxt
        subst hxt
        have := hu _ hwalk
        rw [hwcost] at this
        omega
      exact ⟨getD_set_ne _ _ _ _ _ hne, getD_set_ne _ _ _ _ _ hne⟩
    refine ⟨_, rfl, ⟨?_, ?_, hi.costs, ?_, ?_, ?_, ?_, ?_, ?_, ?_⟩, ?_, ?_, hsettled s hset, ?_,
      ⟨rfl, rfl, rfl, rfl, rfl⟩, hsame⟩
    · simp only [List.length_set]; exact hi.len
    · simp only [List.length_set]; exact hi.plen
    · intro u
      exact le_trans (hle u) (hi.word u)
    · -- sound
      intro u hu hfin
      dsimp only at hfin ⊢
      by_cases huw : t.target_id = u
      · subst huw
        rw [getD_set_eq _ _ _ _ hwl]
        exact ⟨_, hwalk, hwcost⟩
      · rw [getD_set_ne _ _ _ _ _ huw] at hfin ⊢
        exact hi.sound u hu hfin
    · -- queue
      intro k u hk
      dsimp only at hk ⊢
      rcases (HeapQueue.mem_push _ _ _ _).1 hk with h | h
      · obtain ⟨h1, h2, h3⟩ := hi.queue k u h
        exact ⟨h1, le_trans (hle u) h2, h3⟩
      · simp only [Prod.mk.injEq] at h
        obtain ⟨rfl, rfl⟩ := h
        rw [getD_set_eq _ _ _ _ hwl]
        exact ⟨hw, le_refl _, hsum⟩
    · -- closed
      intro u hu hfin
      dsimp only at hfin ⊢
      by_cases huw : t.target_id = u
      · subst huw
        left
        rw [getD_set_eq _ _ _ _ hwl]
        exact (HeapQueue.mem_push _ _ _ _).2 (Or.inr rfl)
      · rw [getD_set_ne _ _ _ _ _ huw] at hfin ⊢
        rcases hi.closed u hu hfin with h | h
        · exact Or.inl ((HeapQueue.mem_push _ _ _ _).2 (Or.inl h))
        · right
          intro x hx hne _
          by_cases hxt : u = s ∧ x = t
          · obtain ⟨rfl, rfl⟩ := hxt
            rw [getD_set_eq _ _ _ _ hwl, hgs]
            omega
          · have hold : ¬ (u = s ∧ x ∉ done) := by
              intro h3
              apply hne
              refine ⟨h3.1, ?_⟩
              simp only [List.mem_append, List.mem_singleton, not_or]
              exact ⟨h3.2, fun h4 => hxt ⟨h3.1, h4⟩⟩
            exact le_trans (hle _) (h x hx hold (hnd _))
    · -- goal
      intro g0 hg0
      dsimp only
      have := hi.goal g0 hg0
      have hne : t.target_id ≠ g0 := by
        intro h
        rw [h, this.1] at hlt
        omega
      rw [getD_set_ne _ _ _ _ _ hne, getD_set_ne _ _ _ _ _ hne]
      exact this
    · -- inf
      intro u hu hinf
      dsimp only at hinf ⊢
      have hne : t.target_id ≠ u := by
        intro h
        subst h
        rw [getD_set_eq _ _ _ _ hwl] at hinf
        omega
      rw [getD_set_ne _ _ _ _ _ hne] at hinf ⊢
      exact hi.inf u hu hinf
    · -- tree
      intro u hu hng hfin
      dsimp only at hfin ⊢
      by_cases huw : t.target_id = u
      · subst huw
        rw [getD_set_eq _ _ _ _ hwp, getD_set_eq _ _ _ _ hwl]
        refine ⟨⟨t.op_id, s⟩, rfl, hs, ht, ?_, Or.inr (Or.inr ⟨?_, hsettled s hset⟩)⟩
        · dsimp only
          rw [getD_set_ne _ _ _ _ _ hws, hgs]
          omega
        · dsimp only
          rw [getD_set_ne _ _ _ _ _ hws, hgs]
          omega
      · rw [getD_set_ne _ _ _ _ _ huw] at hfin ⊢
        rw [getD_set_ne _ _ _ _ _ huw]
        obtain ⟨t1, h1, h2, h3, h4, h5⟩ := hi.tree u hu hng hfin
        refine ⟨t1, h1, h2, h3, le_trans (Nat.add_le_add_right (hle _) _) h4, ?_⟩
        rcases h5 with h5 | h5 | h5
        · left
          by_cases h6 : t.target_id = t1.target_id
          · rw [← h6, getD_set_eq _ _ _ _ hwl]
            exact (HeapQueue.mem_push _ _ _ _).2 (Or.inr rfl)
          · rw [getD_set_ne _ _ _ _ _ h6]
            exact (HeapQueue.mem_push _ _ _ _).2 (Or.inl h5)
        · right; left
          refine ⟨h5.1, ?_⟩
          simp only [List.mem_append, List.mem_singleton, not_or]
          refine ⟨h5.2, ?_⟩
          intro h6
          apply huw
          rw [← h6]
        · right; right
          rw [getD_set_ne _ _ _ _ _ (Ne.symm (hkeep _ h5.2))]
          exact ⟨h5.1, hsettled _ h5.2⟩
    · -- no distance is dirty
      intro u
      dsimp only
      by_cases huw : t.target_id = u
      · subst huw
        rw [getD_set_eq _ _ _ _ hwl]
        omega
      · rw [getD_set_ne _ _ _ _ _ huw]
        exact hnd u
    · dsimp only
      rw [getD_set_ne _ _ _ _ _ hws]
      exact hgs
    · unfold loop_measure
      dsimp only
      have := sum_set sp.goal_distances t.target_id (sp.operator_costs.getD t.op_id 0 + g) hwl
      rw [HeapQueue.length_push]
      omega
  · simp only [hlt, decide_False, if_false]
    refine ⟨sp, rfl, ⟨hi.len, hi.plen, hi.costs, hi.word, hi.sound, hi.queue, ?_, hi.goal,
      hi.inf, ?_⟩, hnd, hgs, hset, le_refl _, Frame.refl _, fun _ _ => ⟨rfl, rfl⟩⟩
    · intro u hu hfin
      rcases hi.closed u hu hfin with h | h
      · exact Or.inl h
      · right
        intro x hx hne hcx
        by_cases hxt : x = t
        · by_cases hus : u = s
          · subst hxt; subst hus
            rw [hgs]
            omega
          · exact h x hx (fun h3 => hus h3.1) hcx
        · exact h x hx (hexc u x hne hxt) hcx
    · intro u hu hng hfin
      obtain ⟨t1, h1, h2, h3, h4, h5⟩ := hi.tree u hu hng hfin
      refine ⟨t1, h1, h2, h3, h4, ?_⟩
      rcases h5 with h5 | h5 | h5
      · exact Or.inl h5
      · by_cases h6 : (⟨t1.op_id, u⟩ : Transition) = t
        · right; right
          have h7 : t.op_id = t1.op_id := by rw [← h6]
          have h8 : t.target_id = u := by rw [← h6]
          rw [h5.1] at h4 ⊢
          rw [h8, h7] at hlt
          rw [hgs] at h4 ⊢
          exact ⟨by omega, hset⟩
        · right; left
          refine ⟨h5.1, ?_⟩
          simp only [List.mem_append, List.mem_singleton, not_or]
          exact ⟨h5.2, h6⟩
      · exact Or.inr (Or.inr h5)

theorem orphan_relax_fold (a : Bool) {in_ out : List Transitions} {goals : List Nat}
    {ocs : List Nat} {bound cmax : Nat} (hc : OrphCtx in_ out goals ocs bound cmax)
    {sp : ShortestPaths} {s g : Nat}
    (hi : OrphInv in_ goals ocs (fun u _ => u = s) sp)
    (hnd : ∀ u, sp.goal_distances.getD u 0 ≠ DIRTY)
    (hgs : sp.goal_distances.getD s 0 = g) (hset : Settled in_ goals sp s)
    (hs : s < in_.length) :
    ∃ sp2, Run.foldl (orphan_relax a g s) sp (in_.getD s []) = .ok sp2 ∧
      OrphInv in_ goals ocs (fun _ _ => False) sp2 ∧
      (∀ u, sp2.goal_distances.getD u 0 ≠ DIRTY) ∧
      loop_measure sp2 ≤ loop_measure sp ∧ Frame sp sp2 ∧
      ∀ u, NoCheaper in_ goals sp u → SameAt sp sp2 u := by
  have key := run_foldl_prefix
    (fun (done : List Transition) (sp1 : ShortestPaths) =>
      OrphInv in_ goals ocs (fun u x => u = s ∧ x ∉ done) sp1 ∧
      (∀ u, sp1.goal_distances.getD u 0 ≠ DIRTY) ∧
      sp1.goal_distances.getD s 0 = g ∧ Settled in_ goals sp1 s ∧
      loop_measure sp1 ≤ loop_measure sp ∧ Frame sp sp1 ∧
      ∀ u, NoCheaper in_ goals sp u → SameAt sp sp1 u)
    (orphan_relax a g s) (in_.getD s [])
    (by
      intro pre x sp1 hx ⟨h1, h2, h3, h4, h5, h6, h7⟩
      obtain ⟨sp2, k0, k1, k2, k3, k4, k5, k6, k7⟩ := orphan_relax_inv a hc h1 h2 h3 h4 hs hx
      exact ⟨sp2, k0, k1, k2, k3, k4, le_trans k5 h5, h6.trans k6,
        fun u hu => (h7 u hu).then (k7 u ((h7 u hu).no_cheaper h6.costs hu))⟩)
    sp
    ⟨⟨hi.len, hi.plen, hi.costs, hi.word, hi.sound, hi.queue,
      (fun u hu hfin => (hi.closed u hu hfin).imp id
        (fun h x hx hne hcx => h x hx (fun h3 => hne ⟨h3, by simp⟩) hcx)),
      hi.goal, hi.inf,
      (fun u hu hng hfin => by
        obtain ⟨t1, h1, h2, h3, h4, h5⟩ := hi.tree u hu hng hfin
        refine ⟨t1, h1, h2, h3, h4, ?_⟩
        rcases h5 with h5 | h5 | h5
        · exact Or.inl h5
        · exact Or.inr (Or.inl ⟨h5, by simp⟩)
        · exact Or.inr (Or.inr h5))⟩, hnd, hgs, hset, le_refl _, Frame.refl _,
      fun _ _ => ⟨rfl, rfl⟩⟩
  obtain ⟨sp2, k0, k1, k2, -, -, k5, k6, k7⟩ := key
  refine ⟨sp2, k0, ⟨k1.len, k1.plen, k1.costs, k1.word, k1.sound, k1.queue, ?_, k1.goal,
    k1.inf, ?_⟩, k2, k5, k6, k7⟩
  · intro u hu hfin
    refine (k1.closed u hu hfin).imp id ?_
    intro h x hx _ hcx
    by_cases hus : u = s
    · subst hus
      exact h x hx (fun h3 => h3.2 hx) hcx
    · exact h x hx (fun h3 => hus h3.1) hcx
  · intro u hu hng hfin
    obtain ⟨t1, h1, h2, h3, h4, h5⟩ := k1.tree u hu hng hfin
    refine ⟨t1, h1, h2, h3, h4, ?_⟩
    rcases h5 with h5 | h5 | h5
    · exact Or.inl h5
    · exfalso
      apply h5.2
      rw [← h5.1]
      exact h3
    · exact Or.inr (Or.inr h5)

theorem orphan_loop_spec (a : Bool) {in_ out : List Transitions} {goals : List Nat}
    {ocs : List Nat} {bound cmax : Nat} (hc : OrphCtx in_ out goals ocs bound cmax) :
    ∀ (fuel : Nat) (sp : ShortestPaths), OrphInv in_ goals ocs (fun _ _ => False) sp →
      (∀ u, sp.goal_distances.getD u 0 ≠ DIRTY) → loop_measure sp < fuel →
      ∃ sp1, orphan_loop a in_ fuel sp = .ok sp1 ∧
        OrphInv in_ goals ocs (fun _ _ => False) sp1 ∧
        (∀ u, sp1.goal_distances.getD u 0 ≠ DIRTY) ∧ sp1.open_queue = [] ∧ Frame sp sp1 ∧
        ∀ u, NoCheaper in_ goals sp u → SameAt sp sp1 u := by
  intro fuel
  induction fuel with
  | zero => intro sp _ _ h; omega
  | succ fuel ih =>
    intro sp hi hnd hm
    unfold orphan_loop
    cases hpop : sp.open_queue.pop with
    | none =>
      exact ⟨sp, rfl, hi, hnd, HeapQueue.pop_eq_none.1 hpop, Frame.refl _,
        fun _ _ => ⟨rfl, rfl⟩⟩
    | some xr =>
      obtain ⟨⟨g, s⟩, q⟩ := xr
      obtain ⟨p1, p2, p3⟩ := HeapQueue.pop_spec hpop
      have hmem : (g, s) ∈ sp.open_queue := (p1 _).2 (Or.inl rfl)
      obtain ⟨hs, hle, hk⟩ := hi.queue _ _ hmem
      dsimp only
      have c1 : (sp.goal_distances.getD s 0 != DIRTY) = true := by simpa using hnd s
      rw [c1, check_true]
      have hm1 : loop_measure { sp with open_queue := q } + 1 = loop_measure sp := by
        unfold loop_measure
        dsimp only
        omega
      have hfr : Frame sp { sp with open_queue := q } := ⟨rfl, rfl, rfl, rfl, rfl⟩
      have hi1 : ∀ (exc : Nat → Transition → Prop),
          (sp.goal_distances.getD s 0 = g → ∀ x, exc s x) →
          OrphInv in_ goals ocs exc { sp with open_queue := q } := by
        intro exc hexc
        refine ⟨hi.len, hi.plen, hi.costs, hi.word, hi.sound, ?_, ?_, hi.goal, hi.inf, ?_⟩
        · intro k u hku
          exact hi.queue k u ((p1 _).2 (Or.inr hku))
        · intro u hu hfin
          rcases hi.closed u hu hfin with h | h
          · rcases (p1 _).1 h with h2 | h2
            · simp only [Prod.mk.injEq] at h2
              obtain ⟨h3, rfl⟩ := h2
              right
              intro x _ hne
              exact absurd (hexc h3 x) hne
            · exact Or.inl h2
          · right
            intro x hx _ hcx
            exact h x hx (fun h3 => h3) hcx
        · intro u hu hng hfin
          obtain ⟨t1, h1, h2, h3, h4, h5⟩ := hi.tree u hu hng hfin
          refine ⟨t1, h1, h2, h3, h4, ?_⟩
          rcases h5 with h5 | h5 | h5
          · rcases (p1 _).1 h5 with h6 | h6
            · simp only [Prod.mk.injEq] at h6
              obtain ⟨h7, h8⟩ := h6
              right; left
              rw [h8]
              apply hexc
              rw [← h8]
              exact h7
            · exact Or.inl h6
          · exact absurd h5 (fun h => h)
          · exact Or.inr (Or.inr h5)
      by_cases hlt : g > sp.goal_distances.getD s 0
      · simp only [hlt, if_true]
        obtain ⟨sp1, r1, r2, r3, r4, r5, r6⟩ := ih { sp with open_queue := q }
          (hi1 (fun _ _ => False) (fun h => by omega)) hnd (by omega)
        exact ⟨sp1, r1, r2, r3, r4, hfr.trans r5, fun u hu => r6 u hu⟩
      · simp only [hlt, if_false]
        have hgs : sp.goal_distances.getD s 0 = g := by omega
        have c3 : (g == sp.goal_distances.getD s 0) = true := by simpa using hgs.symm
        have c4 : (g != INF_COSTS) = true := by
          have : g ≠ INF_COSTS := by
            unfold DIRTY at hk
            unfold INF_COSTS
            omega
          simpa using this
        rw [c3, check_true, c4, check_true]
        have hset : Settled in_ goals { sp with open_queue := q } s := by
          refine ⟨by
            dsimp only
            unfold DIRTY at hk
            unfold INF_COSTS
            omega, ?_⟩
          intro ops hw hfin
          dsimp only at hfin ⊢
          rw [hi.costs] at hfin ⊢
          by_cases hcw : walk_cost64 ocs ops < g
          · exact hi.greedy hc hnd hw (by
              unfold DIRTY at hk
              unfold INF_COSTS
              omega)
              (fun k x hkx => lt_of_lt_of_le hcw (p2 _ hkx))
          · omega
        obtain ⟨sp2, f0, f1, f2, f3, f4, f5⟩ := orphan_relax_fold a hc
          (hi1 (fun u _ => u = s) (fun _ _ => rfl)) hnd hgs hset hs
        simp only [f0, Run.bind]
        obtain ⟨sp1, r1, r2, r3, r4, r5, r6⟩ := ih _ f1 f2 (by omega)
        exact ⟨sp1, r1, r2, r3, r4, (hfr.trans f4).trans r5,
          fun u hu => (f5 u hu).then (r6 u ((f5 u hu).no_cheaper f4.costs hu))⟩

/-! ## Seeding the open queue -/

theorem Settled.congr {in_ : List Transitions} {goals : List Nat} {sp sp1 : ShortestPaths}
    {x : Nat} (hc : sp1.operator_costs = sp.operator_costs)
    (hd : sp1.goal_distances.getD x 0 = sp.goal_distances.getD x 0)
    (h : Settled in_ goals sp x) : Settled in_ goals sp1 x := by
  unfold Settled at h ⊢
  rw [hc, hd]
  exact h

theorem run_foldl_split {σ α : Type} (P : List α → σ → Prop) (f : σ → α → Run σ)
    (l : List α)
    (hf : ∀ pre a suf s, pre ++ a :: suf = l → P pre s → ∃ s1, f s a = .ok s1 ∧ P (pre ++ [a]) s1) :
    ∀ s, P [] s → ∃ s1, Run.foldl f s l = .ok s1 ∧ P l s1 := by
  have key : ∀ (suf pre : List α), pre ++ suf = l → ∀ s, P pre s →
      ∃ s1, Run.foldl f s suf = .ok s1 ∧ P l s1 := by
    intro suf
    induction suf with
    | nil =>
      intro pre hpre s hs
      simp only [List.append_nil] at hpre
      subst hpre
      exact ⟨s, rfl, hs⟩
    | cons a as ih =>
      intro pre hpre s hs
      obtain ⟨s1, h1, h2⟩ := hf pre a as s hpre hs
      obtain ⟨s2, h3, h4⟩ := ih (pre ++ [a]) (by rw [← hpre]; simp) s1 h2
      refine ⟨s2, ?_, h4⟩
      simp only [Run.foldl, h1, Run.bind]
      exact h3
  intro s hs
  exact key l [] rfl s hs

theorem seed_fold (a : Bool) {in_ out : List Transitions} {goals : List Nat}
    {ocs : List Nat} {bound cmax : Nat} (hc : OrphCtx in_ out goals ocs bound cmax)
    {sp : ShortestPaths} {s B : Nat} (hcosts : sp.operator_costs = ocs)
    (hbelow : ∀ u, u < in_.length → sp.goal_distances.getD u 0 < DIRTY →
      sp.goal_distances.getD u 0 < B)
    (hB : B + cmax < DIRTY) (hword : ∀ u, sp.goal_distances.getD u 0 ≤ INF_COSTS) :
    ∃ m sp1, Run.foldl (seed_step a s) (INF_COSTS, sp) (out.getD s []) = .ok (m, sp1) ∧
      ((m = INF_COSTS ∧ sp1 = sp) ∨
        (∃ t ∈ out.getD s [],
          sp1 = { sp with
            shortest_path := sp.shortest_path.set s (some ⟨t.op_id, t.target_id⟩) } ∧
          sp.goal_distances.getD t.target_id 0 < DIRTY ∧ m < B + cmax ∧
          m = ocs.getD t.op_id 0 + sp.goal_distances.getD t.target_id 0)) ∧
      (∀ t ∈ out.getD s [], sp.goal_distances.getD t.target_id 0 < DIRTY →
        m ≤ ocs.getD t.op_id 0 + sp.goal_distances.getD t.target_id 0) := by
  subst hcosts
  have key := run_foldl_prefix
    (fun (done : List Transition) (acc : Nat × ShortestPaths) =>
      ((acc.1 = INF_COSTS ∧ acc.2 = sp) ∨
        (∃ t ∈ out.getD s [],
          acc.2 = { sp with
            shortest_path := sp.shortest_path.set s (some ⟨t.op_id, t.target_id⟩) } ∧
          sp.goal_distances.getD t.target_id 0 < DIRTY ∧ acc.1 < B + cmax ∧
          acc.1 = sp.operator_costs.getD t.op_id 0 + sp.goal_distances.getD t.target_id 0)) ∧
      (∀ t ∈ done, sp.goal_distances.getD t.target_id 0 < DIRTY →
        acc.1 ≤ sp.operator_costs.getD t.op_id 0 + sp.goal_distances.getD t.target_id 0))
    (seed_step a s) (out.getD s [])
    (by
      intro pre t acc ht ⟨h1, h2⟩
      obtain ⟨m, sp1⟩ := acc
      dsimp only at h1 h2
      have harc : (⟨t.op_id, s⟩ : Transition) ∈ in_.getD t.target_id [] := hc.cons.fwd s t ht
      have htl : t.target_id < in_.length := mem_getD_lt harc
      have hcl := hc.fin _ _ harc
      dsimp only at hcl
      have hgd : sp1.goal_distances = sp.goal_distances := by
        rcases h1 with h1 | ⟨t0, -, h1, -⟩
        · rw [h1.2]
        · rw [h1]
      have hoc : sp1.operator_costs = sp.operator_costs := by
        rcases h1 with h1 | ⟨t0, -, h1, -⟩
        · rw [h1.2]
        · rw [h1]
      have hsp1 : ∀ x, ({ sp1 with
            operator_costs := sp.operator_costs
            goal_distances := sp.goal_distances
            shortest_path := sp1.shortest_path.set s x } : ShortestPaths)
          = { sp with shortest_path := sp.shortest_path.set s x } := by
        intro x
        rcases h1 with h1 | ⟨t0, -, h1, -⟩
        · rw [h1.2]
        · rw [h1]
          dsimp only
          rw [List.set_set]
      have hm : m ≤ INF_COSTS := by
        rcases h1 with h1 | ⟨t0, -, -, -, h3, -⟩
        · rw [h1.1]
        · unfold DIRTY at hB
          unfold INF_COSTS
          omega
      have hcI : sp.operator_costs.getD t.op_id 0 ≠ INF_COSTS := by
        unfold DIRTY at hB
        unfold INF_COSTS
        omega
      have hc1 : (sp.operator_costs.getD t.op_id 0 != INF_COSTS) = true := by simpa using hcI
      have hold : ∀ m1, m1 ≤ m →
          (sp.goal_distances.getD t.target_id 0 < DIRTY →
            m1 ≤ sp.operator_costs.getD t.op_id 0 + sp.goal_distances.getD t.target_id 0) →
          ∀ t1 ∈ pre ++ [t], sp.goal_distances.getD t1.target_id 0 < DIRTY →
            m1 ≤ sp.operator_costs.getD t1.op_id 0 + sp.goal_distances.getD t1.target_id 0 := by
        intro m1 hm1 hnew t1 ht1 hd1
        simp only [List.mem_append, List.mem_singleton] at ht1
        rcases ht1 with ht1 | ht1
        · exact le_trans hm1 (h2 t1 ht1 hd1)
        · subst ht1
          exact hnew hd1
      unfold seed_step
      dsimp only
      rw [hgd, hoc]
      by_cases hd : sp.goal_distances.getD t.target_id 0 = DIRTY
      · have hd1 : (sp.goal_distances.getD t.target_id 0 != DIRTY) = false := by simpa using hd
        rw [hd1]
        simp only [Bool.false_eq_true, if_false]
        exact ⟨_, rfl, h1, hold m (le_refl _) (fun h => by omega)⟩
      · have hd1 : (sp.goal_distances.getD t.target_id 0 != DIRTY) = true := by simpa using hd
        rw [hd1, hc1, check_true]
        simp only [if_true, Bool.true_and]
        by_cases hinf : sp.goal_distances.getD t.target_id 0 = INF_COSTS
        · have hi1 : (sp.goal_distances.getD t.target_id 0 != INF_COSTS) = false := by
            simpa using hinf
          rw [hi1]
          simp only [Bool.false_eq_true, if_false]
          rw [if_neg (by omega)]
          refine ⟨_, rfl, h1, hold m (le_refl _) (fun h => ?_)⟩
          rw [hinf] at h
          unfold DIRTY INF_COSTS at h
          omega
        · have hi1 : (sp.goal_distances.getD t.target_id 0 != INF_COSTS) = true := by
            simpa using hinf
          rw [hi1]
          simp only [if_true]
          have hlt : sp.goal_distances.getD t.target_id 0 < DIRTY :=
            (lt_dirty_iff (hword _)).2 ⟨hinf, hd⟩
          have hb := hbelow _ htl hlt
          have hsum : sp.operator_costs.getD t.op_id 0 + sp.goal_distances.getD t.target_id 0
              < INF_COSTS := by
            unfold DIRTY at hB
            unfold INF_COSTS
            omega
          rw [add64_eq hsum]
          by_cases hnm : sp.operator_costs.getD t.op_id 0
              + sp.goal_distances.getD t.target_id 0 < m
          · rw [if_pos hnm]
            refine ⟨_, rfl, Or.inr ⟨t, ht, hsp1 _, hlt, by dsimp only; omega, rfl⟩, ?_⟩
            exact hold _ (le_of_lt hnm) (fun _ => le_refl _)
          · rw [if_neg hnm]
            exact ⟨_, rfl, h1, hold m (le_refl _) (fun _ => by omega)⟩)
    (INF_COSTS, sp) ⟨Or.inl ⟨rfl, rfl⟩, fun t ht => by cases ht⟩
  obtain ⟨⟨m, sp1⟩, k1, k2, k3⟩ := key
  exact ⟨m, sp1, k1, k2, k3⟩

theorem seed_state_inv {in_ out : List Transitions} {goals : List Nat}
    {ocs : List Nat} {bound cmax : Nat} (hc : OrphCtx in_ out goals ocs bound cmax)
    {ds pre : List Nat} {sp0 sp sp1 : ShortestPaths} {a m : Nat}
    (hi : SeedInv in_ goals ocs bound cmax ds pre sp0 sp)
    (ha : a < in_.length) (had : sp.goal_distances.getD a 0 = DIRTY) (hads : a ∈ ds)
    (hpre : pre.length ≤ in_.length)
    (hfr : Frame sp sp1)
    (hd : sp1.goal_distances = sp.goal_distances.set a m)
    (hpl : sp1.shortest_path.length = sp.shortest_path.length)
    (hp : ∀ u, u ≠ a → sp1.shortest_path.getD u none = sp.shortest_path.getD u none)
    (hq : ∀ y, y ∈ sp1.open_queue ↔ y ∈ sp.open_queue ∨ (m < DIRTY ∧ y = (m, a)))
    (hql : sp1.open_queue.length ≤ sp.open_queue.length + 1)
    (hm : (m = INF_COSTS ∧ sp1.shortest_path.getD a none = none) ∨
      (∃ t ∈ out.getD a [], sp1.shortest_path.getD a none = some ⟨t.op_id, t.target_id⟩ ∧
        sp.goal_distances.getD t.target_id 0 < DIRTY ∧ m < bound + (pre.length + 1) * cmax ∧
        m = ocs.getD t.op_id 0 + sp.goal_distances.getD t.target_id 0))
    (hall : ∀ t ∈ out.getD a [], sp.goal_distances.getD t.target_id 0 < DIRTY →
      m ≤ ocs.getD t.op_id 0 + sp.goal_distances.getD t.target_id 0) :
    SeedInv in_ goals ocs bound cmax ds (pre ++ [a]) sp0 sp1 := by
  have hal : a < sp.goal_distances.length := by rw [hi.inv.len]; exact ha
  have hda : ∀ u, u ≠ a → sp1.goal_distances.getD u 0 = sp.goal_distances.getD u 0 := by
    intro u hu
    rw [hd]
    exact getD_set_ne _ _ _ _ _ (Ne.symm hu)
  have hdaa : sp1.goal_distances.getD a 0 = m := by
    rw [hd]
    exact getD_set_eq _ _ _ _ hal
  have hroom := hc.cmax_room (pre.length + 1) (by omega)
  have hmw : m ≤ INF_COSTS ∧ m ≠ DIRTY := by
    rcases hm with h | ⟨t, -, -, -, h, -⟩
    · rw [h.1]
      unfold DIRTY INF_COSTS
      omega
    · unfold INF_COSTS
      unfold DIRTY at hroom ⊢
      omega
  have hnda : ∀ u, sp.goal_distances.getD u 0 < DIRTY → u ≠ a := by
    intro u hu hua
    rw [hua, had] at hu
    omega
  have hmfin : m < DIRTY → ∃ t ∈ out.getD a [],
      sp1.shortest_path.getD a none = some ⟨t.op_id, t.target_id⟩ ∧
      sp.goal_distances.getD t.target_id 0 < DIRTY ∧ m < bound + (pre.length + 1) * cmax ∧
      m = ocs.getD t.op_id 0 + sp.goal_distances.getD t.target_id 0 := by
    intro hlt
    rcases hm with h | h
    · rw [h.1] at hlt
      unfold DIRTY INF_COSTS at hlt
      omega
    · exact h
  have hset : ∀ x, x ≠ a → Settled in_ goals sp x → Settled in_ goals sp1 x :=
    fun x hx h => h.congr hfr.costs (hda x hx)
  refine ⟨⟨?_, ?_, hfr.costs.trans hi.inv.costs, ?_, ?_, ?_, ?_, ?_, ?_, ?_⟩, hi.frame.trans hfr,
    ?_, ?_, ?_, ?_, ?_⟩
  · rw [hd, List.length_set]
    exact hi.inv.len
  · rw [hpl]
    exact hi.inv.plen
  · intro u
    by_cases hua : u = a
    · rw [hua, hdaa]
      exact hmw.1
    · rw [hda u hua]
      exact hi.inv.word u
  · -- sound
    intro u hu hfin
    by_cases hua : u = a
    · subst hua
      rw [hdaa] at hfin ⊢
      obtain ⟨t, ht, -, t2, -, t4⟩ := hmfin hfin
      have harc := hc.cons.fwd u t ht
      obtain ⟨ops, w1, w2⟩ := hi.inv.sound t.target_id (mem_getD_lt harc) t2
      exact ⟨t.op_id :: ops, GoalWalk.step w1 harc, by rw [walk_cost64_cons, w2, t4]⟩
    · rw [hda u hua] at hfin ⊢
      exact hi.inv.sound u hu hfin
  · -- queue
    intro k u hku
    rcases (hq _).1 hku with h | h
    · obtain ⟨h1, h2, h3⟩ := hi.inv.queue k u h
      rw [hda u (hnda u (by omega))]
      exact ⟨h1, h2, h3⟩
    · obtain ⟨h1, h2⟩ := h
      simp only [Prod.mk.injEq] at h2
      obtain ⟨rfl, rfl⟩ := h2
      rw [hdaa]
      exact ⟨ha, le_refl _, h1⟩
  · -- closed
    intro u hu hfin
    by_cases hua : u = a
    · subst hua
      rw [hdaa] at hfin ⊢
      exact Or.inl ((hq _).2 (Or.inr ⟨hfin, rfl⟩))
    · rw [hda u hua] at hfin ⊢
      rcases hi.inv.closed u hu hfin with h | h
      · exact Or.inl ((hq _).2 (Or.inl h))
      · right
        intro x hx _ hxd
        by_cases hxa : x.target_id = a
        · have hout := hc.cons.bwd u x hx
          rw [hxa] at hout
          have := hall _ hout hfin
          dsimp only at this
          rw [hxa, hdaa]
          omega
        · rw [hda _ hxa] at hxd ⊢
          exact h x hx (fun h => h) hxd
  · -- goal
    intro g hg
    obtain ⟨h1, h2⟩ := hi.inv.goal g hg
    have hga : g ≠ a := by
      intro h
      rw [h, had] at h1
      unfold DIRTY at h1
      omega
    rw [hda g hga, hp g hga]
    exact ⟨h1, h2⟩
  · -- inf
    intro u hu hinf
    by_cases hua : u = a
    · subst hua
      rw [hdaa] at hinf
      rcases hm with h | ⟨t, -, -, -, h, -⟩
      · exact h.2
      · rw [hinf] at h
        unfold INF_COSTS at h
        unfold DIRTY at hroom
        omega
    · rw [hda u hua] at hinf
      rw [hp u hua]
      exact hi.inv.inf u hu hinf
  · -- tree
    intro u hu hng hfin
    by_cases hua : u = a
    · subst hua
      rw [hdaa] at hfin ⊢
      obtain ⟨t, ht, t1, t2, -, t4⟩ := hmfin hfin
      have harc := hc.cons.fwd u t ht
      have htu : t.target_id ≠ u := hnda _ t2
      refine ⟨⟨t.op_id, t.target_id⟩, t1, mem_getD_lt harc, harc, ?_, ?_⟩
      · dsimp only
        rw [hda _ htu]
        omega
      · dsimp only
        rw [hda _ htu]
        rcases hi.status t.target_id (mem_getD_lt harc) t2 with h | h
        · exact Or.inl ((hq _).2 (Or.inl h))
        · exact Or.inr (Or.inr ⟨by omega, hset _ htu h⟩)
    · rw [hda u hua] at hfin ⊢
      rw [hp u hua]
      obtain ⟨t1, h1, h2, h3, h4, h5⟩ := hi.inv.tree u hu hng hfin
      have ht1 : t1.target_id ≠ a := hnda _ (by omega)
      refine ⟨t1, h1, h2, h3, ?_, ?_⟩
      · rw [hda _ ht1]
        exact h4
      rw [hda _ ht1]
      rcases h5 with h5 | h5 | h5
      · exact Or.inl ((hq _).2 (Or.inl h5))
      · exact absurd h5 (fun h => h)
      · exact Or.inr (Or.inr ⟨h5.1, hset _ ht1 h5.2⟩)
  · -- dirty
    intro u
    by_cases hua : u = a
    · subst hua
      rw [hdaa]
      simp only [List.mem_append, List.mem_singleton, or_true, not_true_eq_false, and_false,
        iff_false]
      exact hmw.2
    · rw [hda u hua, hi.dirty u]
      simp only [List.mem_append, List.mem_singleton, hua, or_false]
  · intro u hu hdu
    have hua : u ≠ a := by
      intro h
      rw [h, hdaa] at hdu
      exact hmw.2 hdu
    rw [hda u hua] at hdu
    rw [hp u hua]
    exact hi.dirty_none u hu hdu
  · -- status
    intro u hu hfin
    by_cases hua : u = a
    · subst hua
      rw [hdaa] at hfin ⊢
      exact Or.inl ((hq _).2 (Or.inr ⟨hfin, rfl⟩))
    · rw [hda u hua] at hfin ⊢
      rcases hi.status u hu hfin with h | h
      · exact Or.inl ((hq _).2 (Or.inl h))
      · exact Or.inr (hset u hua h)
  · -- below
    intro u hu hfin
    rw [List.length_append, List.length_singleton]
    by_cases hua : u = a
    · subst hua
      rw [hdaa] at hfin ⊢
      obtain ⟨t, -, -, -, t3, -⟩ := hmfin hfin
      exact t3
    · rw [hda u hua] at hfin ⊢
      have := hi.below u hu hfin
      rw [Nat.add_mul]
      omega
  · rw [List.length_append, List.length_singleton]
    have := hi.qlen
    omega

theorem seed_state_spec (a : Bool) {in_ out : List Transitions} {goals : List Nat}
    {ocs : List Nat} {bound cmax : Nat} (hc : OrphCtx in_ out goals ocs bound cmax)
    {ds pre suf : List Nat} {sp0 sp : ShortestPaths} {x : Nat}
    (hi : SeedInv in_ goals ocs bound cmax ds pre sp0 sp) (hsplit : pre ++ x :: suf = ds)
    (hnd : ds.Nodup) (hlt : ∀ y ∈ ds, y < in_.length) (hlen : ds.length ≤ in_.length) :
    ∃ sp1, seed_state a out sp x = .ok sp1 ∧
      SeedInv in_ goals ocs bound cmax ds (pre ++ [x]) sp0 sp1 := by
  have hxds : x ∈ ds := by rw [← hsplit]; simp
  have hxpre : x ∉ pre := by
    rw [← hsplit] at hnd
    have := (List.nodup_middle.1 hnd)
    rw [List.nodup_cons] at this
    intro h
    exact this.1 (List.mem_append_left _ h)
  have hx : x < in_.length := hlt x hxds
  have had : sp.goal_distances.getD x 0 = DIRTY := (hi.dirty x).2 ⟨hxds, hxpre⟩
  have hpl : pre.length < ds.length := by
    rw [← hsplit]
    simp
  have hroom := hc.cmax_room (pre.length + 1) (by omega)
  have hB : bound + pre.length * cmax + cmax < DIRTY := by
    rw [Nat.add_mul] at hroom
    omega
  obtain ⟨m, sp1, hfold, hcase, hall⟩ :=
    seed_fold a hc (s := x) hi.inv.costs hi.below hB hi.inv.word
  have hxp : x < sp.shortest_path.length := by rw [hi.inv.plen]; exact hx
  have c1 : (sp.goal_distances.getD x 0 == DIRTY) = true := by simpa using had
  unfold seed_state
  rw [c1, check_true, hfold]
  simp only [Run.bind]
  rcases hcase with ⟨h1, h2⟩ | ⟨t, ht, h2, h3, h4, h5⟩
  · subst h1
    subst h2
    simp only [bne_self_eq_false, Bool.false_eq_true, if_false]
    refine ⟨_, rfl, seed_state_inv hc hi hx had hxds (by omega) ⟨rfl, rfl, rfl, rfl, rfl⟩ rfl rfl
      (fun _ _ => rfl) ?_ (by dsimp only; omega)
      (Or.inl ⟨rfl, hi.dirty_none x hx had⟩) hall⟩
    intro y
    dsimp only
    constructor
    · exact Or.inl
    · rintro (h | ⟨h, -⟩)
      · exact h
      · unfold DIRTY INF_COSTS at h
        omega
  · subst h2
    have hmI : m ≠ INF_COSTS := by
      unfold INF_COSTS
      unfold DIRTY at hB
      omega
    have c2 : (m != INF_COSTS) = true := by simpa using hmI
    simp only [c2, if_true]
    refine ⟨_, rfl, seed_state_inv hc hi hx had hxds (by omega) ⟨rfl, rfl, rfl, rfl, rfl⟩ rfl
      (by dsimp only; rw [List.length_set]) ?_ ?_ ?_
      (Or.inr ⟨t, ht, ?_, h3, by rw [Nat.add_mul]; omega, h5⟩) hall⟩
    · intro u hu
      dsimp only
      exact getD_set_ne _ _ _ _ _ (Ne.symm hu)
    · intro y
      dsimp only
      rw [HeapQueue.mem_push]
      constructor
      · rintro (h | h)
        · exact Or.inl h
        · exact Or.inr ⟨by omega, h⟩
      · rintro (h | h)
        · exact Or.inl h
        · exact Or.inr h.2
    · dsimp only
      rw [HeapQueue.length_push]
    · dsimp only
      exact getD_set_eq _ _ _ _ hxp

theorem seed_states_spec (a : Bool) {in_ out : List Transitions} {goals : List Nat}
    {ocs : List Nat} {bound cmax : Nat} (hc : OrphCtx in_ out goals ocs bound cmax)
    {ds : List Nat} {sp0 : ShortestPaths}
    (hi : SeedInv in_ goals ocs bound cmax ds [] sp0 sp0)
    (hnd : ds.Nodup) (hlt : ∀ y ∈ ds, y < in_.length) (hlen : ds.length ≤ in_.length) :
    ∃ sp1, Run.foldl (seed_state a out) sp0 ds = .ok sp1 ∧
      SeedInv in_ goals ocs bound cmax ds ds sp0 sp1 :=
  run_foldl_split (fun pre sp => SeedInv in_ goals ocs bound cmax ds pre sp0 sp)
    (seed_state a out) ds
    (fun _ _ _ _ hsplit h => seed_state_spec a hc h hsplit hnd hlt hlen) sp0 hi

/-! ## Correctness of dijkstra_from_orphans -/

theorem split_ctx {sp : ShortestPaths} {in0 in_ out : List Transitions} {goals : List Nat}
    {v v2 bound cmax : Nat} (ht : TreeOk sp in0 goals bound)
    (hs : SplitOk sp in0 in_ out goals v v2 bound cmax) :
    OrphCtx in_ out goals sp.operator_costs bound cmax := by
  refine ⟨⟨hs.src, ?_⟩, hs.cons, hs.fin, hs.path, ?_⟩
  · intro g hg
    have h1 := (ht.goal g hg).1
    have h2 := hs.old_len
    have h3 := hs.new_len
    omega
  · rw [hs.new_len]
    exact hs.room

theorem split_walk_old {sp : ShortestPaths} {in0 in_ out : List Transitions} {goals : List Nat}
    {v v2 bound cmax : Nat} (ht : TreeOk sp in0 goals bound)
    (hs : SplitOk sp in0 in_ out goals v v2 bound cmax) {u : Nat} {ops : List Nat}
    (hw : GoalWalk in_ goals u ops) :
    ∃ ops0, GoalWalk in0 goals (split_origin v v2 u) ops0 ∧
      FiniteOps sp.operator_costs ops0 ∧
      walk_cost64 sp.operator_costs ops0 ≤ walk_cost64 sp.operator_costs ops := by
  induction hw with
  | @goal g hg =>
    have h1 := (ht.goal g hg).1
    rw [hs.old_len] at h1
    rw [split_origin_of_lt h1]
    exact ⟨[], GoalWalk.goal hg, (by intro op hop; cases hop), le_refl _⟩
  | @step s u op ops hw hmem ih =>
    obtain ⟨ops0, w1, w2, w3⟩ := ih
    rcases hs.arc_old s ⟨op, u⟩ hmem with h | h
    · dsimp only at h
      rw [h]
      refine ⟨ops0, w1, w2, ?_⟩
      rw [walk_cost64_cons]
      omega
    · dsimp only at h
      refine ⟨op :: ops0, GoalWalk.step w1 h, FiniteOps.cons ?_ w2, ?_⟩
      · have h1 := (split_ctx ht hs).cost_lt hmem
        dsimp only at h1
        unfold DIRTY at h1
        unfold INF_COSTS
        omega
      · rw [walk_cost64_cons, walk_cost64_cons]
        omega

theorem split_lower {sp : ShortestPaths} {in0 in_ out : List Transitions} {goals : List Nat}
    {v v2 bound cmax : Nat} (ht : TreeOk sp in0 goals bound)
    (hs : SplitOk sp in0 in_ out goals v v2 bound cmax) {u : Nat} {ops : List Nat}
    (hw : GoalWalk in_ goals u ops) :
    sp.goal_distances.getD (split_origin v v2 u) 0 ≤ walk_cost64 sp.operator_costs ops := by
  obtain ⟨ops0, w1, w2, w3⟩ := split_walk_old ht hs hw
  exact le_trans (ht.optimal _ _ w1 w2) w3

theorem after_mark_value {sp sp3 sp6 : ShortestPaths} {in_ : List Transitions}
    {goals : List Nat} {v v2 : Nat}
    (hr : AfterRedirect sp sp3 in_ goals v v2) (hm : AfterMark sp3 sp6 in_ goals) {u : Nat}
    (hu : u < in_.length) (hd : sp6.goal_distances.getD u 0 ≠ DIRTY) :
    sp6.goal_distances.getD u 0 = sp.goal_distances.getD (split_origin v v2 u) 0 := by
  rw [hm.base.keep u hd, hr.dist u hu]

theorem after_mark_word {sp sp3 sp6 : ShortestPaths} {in0 in_ : List Transitions}
    {goals : List Nat} {v v2 bound : Nat} (ht : TreeOk sp in0 goals bound)
    (hr : AfterRedirect sp sp3 in_ goals v v2) (hm : AfterMark sp3 sp6 in_ goals) (u : Nat) :
    sp6.goal_distances.getD u 0 ≤ INF_COSTS := by
  by_cases hu : u < in_.length
  · by_cases hd : sp6.goal_distances.getD u 0 = DIRTY
    · rw [hd]
      unfold DIRTY INF_COSTS
      omega
    · rw [after_mark_value hr hm hu hd]
      exact ht.word _
  · rw [List.getD_eq_default _ _ (by rw [hm.base.dist_len]; omega)]
    exact Nat.zero_le _

theorem after_mark_sound {sp sp3 sp6 : ShortestPaths} {in0 in_ out : List Transitions}
    {goals : List Nat} {v v2 bound cmax : Nat} (ht : TreeOk sp in0 goals bound)
    (hs : SplitOk sp in0 in_ out goals v v2 bound cmax)
    (hr : AfterRedirect sp sp3 in_ goals v v2) (hm : AfterMark sp3 sp6 in_ goals) :
    ∀ d u, u < in_.length → sp6.goal_distances.getD u 0 = d → d < DIRTY →
      ∃ ops, GoalWalk in_ goals u ops ∧ walk_cost64 sp.operator_costs ops = d := by
  intro d
  induction d using Nat.strong_induction_on with
  | _ d ih =>
    intro u hu hud hd
    have hw := after_mark_word ht hr hm u
    have hfin := (lt_dirty_iff hw).1 (by rw [hud]; exact hd)
    by_cases hg : u ∈ goals
    · have h1 := ht.goal u hg
      have h2 := after_mark_value hr hm hu hfin.2
      rw [hs.old_len] at h1
      rw [split_origin_of_lt h1.1, h1.2.1, hud] at h2
      exact ⟨[], GoalWalk.goal hg, by rw [h2]; rfl⟩
    · obtain ⟨t, -, t2, t3, t4, t5⟩ := hm.tree u hu hg hfin.1 hfin.2
      have hpos := hs.pos _ _ t3
      dsimp only at hpos
      rw [hm.base.costs, hr.costs] at t5
      obtain ⟨ops, w1, w2⟩ := ih (sp6.goal_distances.getD t.target_id 0) (by omega)
        t.target_id t2 rfl (by omega)
      refine ⟨t.op_id :: ops, GoalWalk.step w1 t3, ?_⟩
      rw [walk_cost64_cons, w2]
      omega

theorem after_mark_settled {sp sp3 sp6 : ShortestPaths} {in0 in_ out : List Transitions}
    {goals : List Nat} {v v2 bound cmax : Nat} (ht : TreeOk sp in0 goals bound)
    (hs : SplitOk sp in0 in_ out goals v v2 bound cmax)
    (hr : AfterRedirect sp sp3 in_ goals v v2) (hm : AfterMark sp3 sp6 in_ goals)
    {u : Nat} (hu : u < in_.length) (hd : sp6.goal_distances.getD u 0 < DIRTY) :
    Settled in_ goals sp6 u := by
  have hfin := (lt_dirty_iff (after_mark_word ht hr hm u)).1 hd
  refine ⟨hfin.1, ?_⟩
  intro ops hw _
  rw [hm.base.costs, hr.costs, after_mark_value hr hm hu hfin.2]
  exact split_lower ht hs hw

theorem seed_start {sp sp3 sp6 : ShortestPaths} {in0 in_ out : List Transitions}
    {goals : List Nat} {v v2 bound cmax : Nat} (ht : TreeOk sp in0 goals bound)
    (hs : SplitOk sp in0 in_ out goals v v2 bound cmax)
    (hr : AfterRedirect sp sp3 in_ goals v v2) (hm : AfterMark sp3 sp6 in_ goals) :
    SeedInv in_ goals sp.operator_costs bound cmax sp6.dirty_states []
      { sp6 with open_queue := [] } { sp6 with open_queue := [] } := by
  have hcosts : sp6.operator_costs = sp.operator_costs := by rw [hm.base.costs, hr.costs]
  have hword := after_mark_word ht hr hm
  have hset : ∀ u, u < in_.length → sp6.goal_distances.getD u 0 < DIRTY →
      Settled in_ goals { sp6 with open_queue := [] } u :=
    fun u hu hd => after_mark_settled ht hs hr hm hu hd
  refine ⟨⟨hm.base.dist_len, hm.base.path_len, hcosts, hword, ?_, ?_, ?_, ?_, hm.base.inf, ?_⟩,
    Frame.refl _, ?_, hm.base.dirty_none, ?_, ?_, ?_⟩
  · intro u hu hd
    exact after_mark_sound ht hs hr hm _ u hu rfl hd
  · intro k u hku
    cases hku
  · intro u hu hd
    right
    intro x hx _ hxd
    obtain ⟨ops, w1, w2⟩ := after_mark_sound ht hs hr hm _ u hu rfl hd
    have h1 := split_lower ht hs (GoalWalk.step w1 hx)
    rw [walk_cost64_cons, w2] at h1
    dsimp only at h1 ⊢
    rw [after_mark_value hr hm (hs.src u x hx) hxd]
    omega
  · intro g hg
    obtain ⟨g1, g2⟩ := hm.base.goal g hg
    have h1 := ht.goal g hg
    have hgn : g < in_.length := by
      have := hs.old_len
      have := hs.new_len
      omega
    have h2 := after_mark_value hr hm hgn g1
    rw [hs.old_len] at h1
    rw [split_origin_of_lt h1.1, h1.2.1] at h2
    exact ⟨h2, g2⟩
  · intro u hu hg hd
    have hfin := (lt_dirty_iff (hword u)).1 hd
    obtain ⟨t, t1, t2, t3, t4, t5⟩ := hm.tree u hu hg hfin.1 hfin.2
    rw [hcosts] at t5
    have ht5 : sp6.goal_distances.getD t.target_id 0 < DIRTY :=
      (lt_dirty_iff (hword _)).2 ⟨by
        dsimp only at hd
        unfold INF_COSTS
        unfold DIRTY at hd
        omega, t4⟩
    exact ⟨t, t1, t2, t3, by dsimp only; omega, Or.inr (Or.inr ⟨t5, hset _ t2 ht5⟩)⟩
  · intro u
    dsimp only
    rw [hm.base.ds_iff]
    simp only [List.not_mem_nil, not_false_eq_true, and_true]
    constructor
    · intro h
      refine ⟨?_, h⟩
      by_contra hc
      rw [List.getD_eq_default _ _ (by rw [hm.base.dist_len]; omega)] at h
      unfold DIRTY at h
      omega
    · exact fun h => h.2
  · intro u hu hd
    exact Or.inr (hset u hu hd)
  · intro u hu hd
    have hfin := (lt_dirty_iff (hword u)).1 hd
    dsimp only at hd ⊢
    rw [after_mark_value hr hm hu hfin.2] at hd ⊢
    simp only [List.length_nil, Nat.zero_mul, Nat.add_zero]
    have hv := hs.v_lt
    have hn := hs.new_len
    exact ht.below _ (by rw [hs.old_len]; exact split_origin_lt hv (by omega))
      (by
        unfold INF_COSTS
        unfold DIRTY at hd
        omega)
  · simp

theorem split_goal_exists {sp sp3 : ShortestPaths} {in0 in_ out : List Transitions}
    {goals : List Nat} {v v2 bound cmax : Nat} (ht : TreeOk sp in0 goals bound)
    (hs : SplitOk sp in0 in_ out goals v v2 bound cmax)
    (hr : AfterRedirect sp sp3 in_ goals v v2) : ∃ g, g ∈ goals := by
  have hn := hs.new_len
  have hv := hs.v_lt
  have hword : ∀ u, u < in_.length → sp3.goal_distances.getD u 0 ≤ INF_COSTS := by
    intro u hu
    rw [hr.dist u hu]
    exact ht.word _
  have hv3 : sp3.goal_distances.getD v 0 = sp.goal_distances.getD v 0 := by
    rw [hr.dist v (by omega), split_origin_of_lt hv]
  have hv23 : sp3.goal_distances.getD v2 0 = sp.goal_distances.getD v 0 := by
    rw [hr.dist v2 (by omega)]
    unfold split_origin
    rw [if_pos rfl]
  have hvfin : sp.goal_distances.getD v 0 ≠ INF_COSTS := by
    intro hc
    obtain ⟨t, t1, -, -⟩ := hs.inherit
    have h2 := ht.inf v (by rw [hs.old_len]; exact hv) hc
    rw [h2] at t1
    cases t1
  have key : ∀ d u, u < in_.length → sp3.goal_distances.getD u 0 = d → d ≠ INF_COSTS →
      d ≤ sp3.goal_distances.getD v 0 → u ≠ v → ∃ g, g ∈ goals := by
    intro d
    induction d using Nat.strong_induction_on with
    | _ d ih =>
      intro u hu hud hd hle huv
      by_cases hg : u ∈ goals
      · exact ⟨u, hg⟩
      · obtain ⟨t, -, t2, t3, t4⟩ := hr.tree u hu hg (by rw [hud]; exact hd) huv
        have hpos := hs.pos _ _ t3
        dsimp only at hpos
        rw [hr.costs] at t4
        have hwu := hword u hu
        exact ih (sp3.goal_distances.getD t.target_id 0) (by omega) t.target_id t2 rfl
          (by omega) (by omega) (by
            intro hc
            rw [hc] at t4
            omega)
  exact key _ v2 (by omega) rfl (by rw [hv23]; exact hvfin) (by rw [hv23, hv3]) (by omega)

theorem after_mark_checks {sp sp3 sp6 : ShortestPaths} {in0 in_ out : List Transitions}
    {goals : List Nat} {v v2 bound cmax : Nat} (ht : TreeOk sp in0 goals bound)
    (hs : SplitOk sp in0 in_ out goals v v2 bound cmax)
    (hr : AfterRedirect sp sp3 in_ goals v v2) (hm : AfterMark sp3 sp6 in_ goals) :
    sp6.dirty_states.length < in_.length ∧
    dirty_states_consistent sp6 in_.length = true := by
  constructor
  · obtain ⟨g, hg⟩ := split_goal_exists ht hs hr
    have hgd := (hm.base.goal g hg).1
    have hgn : g < in_.length := by
      have := (ht.goal g hg).1
      have := hs.old_len
      have := hs.new_len
      omega
    have hnot : g ∉ sp6.dirty_states := fun hc => hgd ((hm.base.ds_iff g).1 hc).2
    have := nodup_length_le (g :: sp6.dirty_states) in_.length
      (List.nodup_cons.2 ⟨hnot, hm.base.ds_nodup⟩) (by
        intro x hx
        rcases List.mem_cons.1 hx with h | h
        · rw [h]; exact hgn
        · exact ((hm.base.ds_iff x).1 h).1)
    simp only [List.length_cons] at this
    omega
  · unfold dirty_states_consistent
    rw [List.all_eq_true]
    intro i hi
    rw [List.mem_range] at hi
    by_cases hd : sp6.goal_distances.getD i 0 = DIRTY
    · have hmem : i ∈ sp6.dirty_states := (hm.base.ds_iff i).2 ⟨hi, hd⟩
      have := List.count_eq_one_of_mem hm.base.ds_nodup hmem
      simp [this]
    · have hd1 : (sp6.goal_distances.getD i 0 != DIRTY) = true := by simpa using hd
      rw [hd1, Bool.true_or]

theorem sum_le_of_getD (B : Nat) : ∀ (l : List Nat), (∀ u, l.getD u 0 ≤ B) →
    l.sum ≤ l.length * B := by
  intro l
  induction l with
  | nil => intro _; simp
  | cons x xs ih =>
    intro h
    have h0 := h 0
    have h1 := ih (fun u => h (u + 1))
    simp only [List.getD_cons_zero] at h0
    simp only [List.sum_cons, List.length_cons, Nat.add_mul, Nat.one_mul]
    omega

theorem OrphInv.full_post {in_ out : List Transitions} {goals : List Nat} {ocs : List Nat}
    {bound cmax : Nat} {sp : ShortestPaths} (hc : OrphCtx in_ out goals ocs bound cmax)
    (hi : OrphInv in_ goals ocs (fun _ _ => False) sp)
    (hnd : ∀ u, sp.goal_distances.getD u 0 ≠ DIRTY) (hq : sp.open_queue = []) :
    FullPost in_ goals sp := by
  have hoc := hi.costs
  subst hoc
  have hlt : ∀ u, sp.goal_distances.getD u 0 ≠ INF_COSTS → sp.goal_distances.getD u 0 < DIRTY :=
    fun u h => (lt_dirty_iff (hi.word u)).2 ⟨h, hnd u⟩
  have hinv : FullInv in_ goals sp.operator_costs (fun _ _ => False) sp := by
    refine ⟨hi.len, hi.plen, rfl, hi.word, ?_, ?_, ?_, fun g hg => (hi.goal g hg).1, ?_⟩
    · intro u hu hfin
      obtain ⟨ops, w1, w2⟩ := hi.sound u hu (hlt u hfin)
      exact ⟨ops, w1, hc.finite w1, w2⟩
    · intro k u hku
      rw [hq] at hku
      cases hku
    · intro u hu hfin
      rcases hi.closed u hu (hlt u hfin) with h | h
      · rw [hq] at h
        cases h
      · right
        intro t ht hne _
        exact h t ht hne (hnd _)
    · intro u hu hg hfin
      obtain ⟨t, t1, t2, t3, t4, t5⟩ := hi.tree u hu hg (hlt u hfin)
      have hcl := hc.cost_lt t3
      dsimp only at hcl
      rcases t5 with h | h | h
      · rw [hq] at h
        cases h
      · exact absurd h (fun h => h)
      · refine ⟨t, t1, t2, t3, ?_, h.1, h.2⟩
        unfold DIRTY at hcl
        unfold INF_COSTS
        omega
  refine ⟨hinv, hq, ?_⟩
  intro u ops hw hfin
  by_cases hlt2 : walk_cost64 sp.operator_costs ops < INF_COSTS
  · exact hinv.below_queue hc.graph hw hfin hlt2 (fun k x hkx => by rw [hq] at hkx; cases hkx)
  · exact le_trans (hi.word u) (by omega)

theorem repair_post {in_ out : List Transitions} {goals : List Nat} {ocs : List Nat}
    {bound cmax : Nat} {sp : ShortestPaths} (hc : OrphCtx in_ out goals ocs bound cmax)
    (hi : OrphInv in_ goals ocs (fun _ _ => False) sp)
    (hnd : ∀ u, sp.goal_distances.getD u 0 ≠ DIRTY) (hq : sp.open_queue = [])
    (hcq : sp.candidate_queue = []) (hdc : sp.dirty_candidate.contains true = false) :
    FullPost in_ goals sp ∧ TreeOk sp in_ goals bound := by
  have hp := hi.full_post hc hnd hq
  refine ⟨hp, hi.len, hi.plen, hcq, hdc, hi.word, hnd, ?_, hi.inf, ?_, hp.optimal, ?_⟩
  · intro g hg
    exact ⟨hc.graph.goals_lt g hg, (hi.goal g hg).1, (hi.goal g hg).2⟩
  · intro u hu hg hfin
    obtain ⟨t, t1, t2, t3, -, t4, -⟩ := hp.inv.tree u hu hg hfin
    exact ⟨t, t1, t2, t3, t4⟩
  · intro u hu hfin
    obtain ⟨ops, w1, w2, w3⟩ := hp.inv.sound u hu hfin
    obtain ⟨ops1, w4, w5⟩ := hc.path u ops w1
    have h1 := hp.optimal u ops1 w4 (by rw [hi.costs]; exact hc.finite w4)
    rw [hi.costs] at h1
    omega

theorem seed_step_other {a : Bool} {state : Nat} {acc acc1 : Nat × ShortestPaths}
    {t : Transition} (h : seed_step a state acc t = .ok acc1) (u : Nat) (hu : u ≠ state) :
    acc1.2.goal_distances = acc.2.goal_distances ∧
    acc1.2.shortest_path.getD u none = acc.2.shortest_path.getD u none := by
  unfold seed_step check at h
  dsimp only at h
  split_ifs at h <;> cases h <;>
    first
      | exact ⟨rfl, rfl⟩
      | exact ⟨rfl, getD_set_ne _ _ _ _ _ (Ne.symm hu)⟩

theorem seed_state_other {a : Bool} {out : List Transitions} {sp sp1 : ShortestPaths}
    {state : Nat} (h : seed_state a out sp state = .ok sp1) (u : Nat) (hu : u ≠ state) :
    SameAt sp sp1 u := by
  unfold seed_state at h
  replace h := (check_eq_ok h).2
  obtain ⟨acc, hf, h⟩ := Run.bind_eq_ok h
  have := run_foldl_inv
    (fun s : Nat × ShortestPaths => s.2.goal_distances = sp.goal_distances ∧
      s.2.shortest_path.getD u none = sp.shortest_path.getD u none) _
    (fun s t s1 hs hf => by
      obtain ⟨k1, k2⟩ := seed_step_other hf u hu
      exact ⟨k1.trans hs.1, k2.trans hs.2⟩) hf ⟨rfl, rfl⟩
  dsimp only at h this
  unfold SameAt
  split_ifs at h <;> cases h <;> dsimp only <;>
    exact ⟨by rw [getD_set_ne _ _ _ _ _ (Ne.symm hu), this.1], this.2⟩

theorem seed_states_other {a : Bool} {out : List Transitions} (l : List Nat)
    {sp sp1 : ShortestPaths} (h : Run.foldl (seed_state a out) sp l = .ok sp1) (u : Nat)
    (hu : u ∉ l) : SameAt sp sp1 u := by
  have key : ∀ (l : List Nat) (s : ShortestPaths), u ∉ l →
      Run.foldl (seed_state a out) s l = .ok sp1 → SameAt s sp1 u := by
    intro l
    induction l with
    | nil =>
      intro s _ h
      simp only [Run.foldl, Run.ok.injEq] at h
      rw [h]
      exact ⟨rfl, rfl⟩
    | cons x xs ih =>
      intro s hx h
      simp only [Run.foldl] at h
      obtain ⟨s2, h1, h2⟩ := Run.bind_eq_ok h
      simp only [List.mem_cons, not_or] at hx
      exact (seed_state_other h1 u hx.1).then (ih s2 hx.2 h2)
  exact key l sp hu h

theorem repair_rest (a : Bool) {sp sp3 sp6 : ShortestPaths} {in0 in_ out : List Transitions}
    {goals : List Nat} {v v2 bound cmax : Nat} (ht : TreeOk sp in0 goals bound)
    (hs : SplitOk sp in0 in_ out goals v v2 bound cmax)
    (hr : AfterRedirect sp sp3 in_ goals v v2) (hm : AfterMark sp3 sp6 in_ goals) (fuel : Nat)
    (hfuel : repair_fuel in_.length ≤ fuel) :
    ∃ sp1, (check a (decide (sp6.dirty_states.length < in_.length)) 261 <|
        check a (dirty_states_consistent sp6 in_.length) 266 <|
        (Run.foldl (seed_state a out) { sp6 with open_queue := [] } sp6.dirty_states).bind
          fun sp8 => orphan_loop a in_ fuel sp8) = .ok sp1 ∧
      FullPost in_ goals sp1 ∧ TreeOk sp1 in_ goals bound ∧
      sp1.operator_costs = sp.operator_costs ∧
      sp1.task_has_zero_costs = sp.task_has_zero_costs ∧ Frame sp6 sp1 ∧
      ∀ u, u < in_.length → sp6.goal_distances.getD u 0 ≠ DIRTY → SameAt sp6 sp1 u := by
  have hc := split_ctx ht hs
  obtain ⟨k1, k2⟩ := after_mark_checks ht hs hr hm
  have c1 : decide (sp6.dirty_states.length < in_.length) = true := by simpa using k1
  rw [c1, check_true, k2, check_true]
  obtain ⟨sp8, s1, s2⟩ := seed_states_spec a hc (seed_start ht hs hr hm) hm.base.ds_nodup
    (fun y hy => ((hm.base.ds_iff y).1 hy).1) (le_of_lt k1)
  rw [s1]
  simp only [Run.bind]
  have hnd8 : ∀ u, sp8.goal_distances.getD u 0 ≠ DIRTY := by
    intro u hu
    have := (s2.dirty u).1 hu
    exact this.2 this.1
  have hmeas : loop_measure sp8 < fuel := by
    unfold loop_measure
    have h1 := sum_le_of_getD INF_COSTS sp8.goal_distances s2.inv.word
    rw [s2.inv.len] at h1
    have h2 := s2.qlen
    unfold repair_fuel at hfuel
    have h3 : (in_.length + 1) * (in_.length + 1) = in_.length * in_.length + 2 * in_.length + 1 := by
      ring
    have h4 : 2 * in_.length * INF_COSTS = 2 * (in_.length * INF_COSTS) := by ring
    omega
  obtain ⟨sp9, r1, r2, r3, r4, r5, r6⟩ := orphan_loop_spec a hc fuel sp8 s2.inv hnd8 hmeas
  have hfr := s2.frame.trans r5
  obtain ⟨p1, p2⟩ := repair_post hc r2 r3 r4 (by rw [hfr.cq]; exact hm.cq)
    (by rw [hfr.dc]; exact hm.dc)
  refine ⟨sp9, r1, p1, p2, ?_, ?_, ⟨hfr.zero, hfr.costs, hfr.cq, hfr.dc, hfr.ds⟩, ?_⟩
  · rw [hfr.costs]
    dsimp only
    rw [hm.base.costs, hr.costs]
  · rw [hfr.zero]
    dsimp only
    rw [hm.base.zero, hr.zero]
  · intro u hu hd
    have h78 : SameAt { sp6 with open_queue := [] } sp8 u :=
      seed_states_other _ s1 u (fun hmem => hd ((hm.base.ds_iff u).1 hmem).2)
    have h68 : SameAt sp6 sp8 u := h78
    refine h68.then (r6 u ?_)
    intro ops hw
    rw [h68.1, s2.inv.costs, after_mark_value hr hm hu hd]
    exact split_lower ht hs hw

theorem dijkstra_from_orphans_spec (a : Bool) {sp : ShortestPaths}
    {in0 in_ out : List Transitions} {goals : List Nat} {v v2 bound cmax : Nat}
    (filter_orphans : Bool) (fuel : Nat) (ht : TreeOk sp in0 goals bound)
    (hs : SplitOk sp in0 in_ out goals v v2 bound cmax)
    (hfuel : repair_fuel in_.length ≤ fuel) :
    ∃ sp1, dijkstra_from_orphans a sp in_ out v v v2 filter_orphans fuel = .ok sp1 ∧
      FullPost in_ goals sp1 ∧ TreeOk sp1 in_ goals bound ∧
      sp1.operator_costs = sp.operator_costs ∧
      sp1.task_has_zero_costs = sp.task_has_zero_costs ∧
      ∃ sp6, AfterMark (split_start sp in_ v v2) sp6 in_ goals ∧ Frame sp6 sp1 := by
  have hv := hs.v_lt
  have hn := hs.new_len
  have hr := split_start_spec ht hs
  have h137 : (in_.length == out.length) = true := by simpa using hs.cons.len
  have hold : (split_init sp in_.length).shortest_path.getD v none
      = sp.shortest_path.getD v none := by
    unfold split_init
    dsimp only
    exact getD_resize_lt _ _ _ _ _ (by rw [ht.path_len, hs.old_len]; exact hv) (by omega)
  obtain ⟨t, t1, t2, t3⟩ := hs.inherit
  have h1s : ((out.getD v []).any fun x =>
      some x == (split_init sp in_.length).shortest_path.getD v none) = false := by
    rw [hold, t1, List.any_eq_false]
    intro x hx hc
    simp only [beq_iff_eq, Option.some.injEq] at hc
    exact t3 (hc ▸ hx)
  have h2s : ((out.getD v2 []).any fun x =>
      some x == (split_init sp in_.length).shortest_path.getD v none) = true := by
    rw [hold, t1, List.any_eq_true]
    exact ⟨t, t2, by simp⟩
  have hfuel2 : in_.length * (in_.length + 1) + 1 < fuel ∧ in_.length < fuel := by
    unfold repair_fuel at hfuel
    have h3 : (in_.length + 1) * (in_.length + 1)
        = in_.length * (in_.length + 1) + in_.length + 1 := by ring
    constructor <;> omega
  unfold dijkstra_from_orphans
  rw [h137, check_true]
  dsimp only
  rw [h1s, h2s]
  simp only [Bool.xor_true, Bool.not_false, check_true]
  have hsp3 : redirect_arcs in_ v v v2 (split_copy (split_init sp in_.length) v v v2)
      = split_start sp in_ v v2 := rfl
  rw [hsp3]
  cases filter_orphans
  · simp only [Bool.false_eq_true, if_false]
    obtain ⟨sp6, m1, m2⟩ := mark_unfiltered_spec a ht hs hr fuel hfuel2.2
    rw [m1]
    simp only [Run.bind]
    obtain ⟨sp1, q1, q2, q3, q4, q5, q6, -⟩ := repair_rest a ht hs hr m2 fuel hfuel
    exact ⟨sp1, q1, q2, q3, q4, q5, sp6, m2, q6⟩
  · simp only [if_true]
    obtain ⟨sp6, m1, m2⟩ := mark_filtered_spec a ht hs hr fuel hfuel2.1
    rw [m1]
    simp only [Run.bind]
    obtain ⟨sp1, q1, q2, q3, q4, q5, q6, -⟩ := repair_rest a ht hs hr m2 fuel hfuel
    exact ⟨sp1, q1, q2, q3, q4, q5, sp6, m2, q6⟩

theorem FullPost.dist_eq {in_ : List Transitions} {goals : List Nat} {sp1 sp2 : ShortestPaths}
    (h1 : FullPost in_ goals sp1) (h2 : FullPost in_ goals sp2)
    (hc : sp1.operator_costs = sp2.operator_costs) :
    sp1.goal_distances = sp2.goal_distances := by
  have key : ∀ {a b : ShortestPaths}, FullPost in_ goals a → FullPost in_ goals b →
      a.operator_costs = b.operator_costs → ∀ u, u < in_.length →
      a.goal_distances.getD u 0 ≠ INF_COSTS →
      b.goal_distances.getD u 0 ≤ a.goal_distances.getD u 0 := by
    intro a b ha hb hab u hu hfin
    obtain ⟨ops, w1, w2, w3⟩ := ha.inv.sound u hu hfin
    rw [← w3, hab]
    exact hb.optimal u ops w1 (by rw [← hab]; exact w2)
  apply List.ext_getElem
  · rw [h1.inv.len, h2.inv.len]
  · intro u hu1 hu2
    have hu : u < in_.length := by rw [← h1.inv.len]; exact hu1
    rw [← List.getD_eq_getElem _ 0 hu1, ← List.getD_eq_getElem _ 0 hu2]
    have hw1 := h1.inv.word u
    have hw2 := h2.inv.word u
    by_cases hf1 : sp1.goal_distances.getD u 0 = INF_COSTS
    · by_cases hf2 : sp2.goal_distances.getD u 0 = INF_COSTS
      · rw [hf1, hf2]
      · have := key h2 h1 hc.symm u hu hf2
        omega
    · have k1 := key h1 h2 hc u hu hf1
      have hf2 : sp2.goal_distances.getD u 0 ≠ INF_COSTS := by omega
      have k2 := key h2 h1 hc.symm u hu hf2
      omega

/-! ## Incremental equivalence, validity of the tree, no dirty distance -/

theorem SplitSeq.tree_ok {a : Bool} {goals : List Nat} {bound cmax : Nat}
    {sp0 sp : ShortestPaths} {in0 in1 : List Transitions} (ht : TreeOk sp0 in0 goals bound)
    (h : SplitSeq a goals bound cmax sp0 in0 sp in1) : TreeOk sp in1 goals bound := by
  induction h with
  | nil _ => exact ht
  | step _ hs hfuel hrun ih =>
    obtain ⟨sp2, r1, -, r3, -⟩ := dijkstra_from_orphans_spec a _ _ (ih ht) hs hfuel
    rw [r1] at hrun
    cases hrun
    exact r3

theorem split_no_overflow {sp sp1 : ShortestPaths} {in0 in_ out : List Transitions}
    {goals : List Nat} {v v2 bound cmax : Nat} (ht : TreeOk sp in0 goals bound)
    (hs : SplitOk sp in0 in_ out goals v v2 bound cmax)
    (hsame : sp1.operator_costs = sp.operator_costs) :
    NoOverflow in_ goals sp1.operator_costs bound := by
  have hc := split_ctx ht hs
  rw [hsame]
  refine ⟨?_, ?_, ?_⟩
  · intro u ops hw _
    obtain ⟨ops1, w1, w2⟩ := hc.path u ops hw
    exact ⟨ops1, w1, hc.finite w1, w2⟩
  · intro s t hst _
    have := hc.cost_lt hst
    unfold DIRTY at this
    unfold INF_COSTS
    omega
  · have := hc.cmax_room 0 (by omega)
    unfold DIRTY at this
    unfold INF_COSTS
    omega

theorem valid_call_post {a : Bool} {in_ out : List Transitions} {goals : List Nat}
    {r : Run ShortestPaths} (h : ValidCall a in_ out goals r) :
    ∃ sp1, r = .ok sp1 ∧ FullPost in_ goals sp1 ∧
      ∀ u, sp1.goal_distances.getD u 0 ≠ DIRTY := by
  cases h with
  | full sp bound fuel hg hno hfuel =>
    obtain ⟨sp1, r1, r2, r3⟩ := full_dijkstra_spec a sp in_ goals bound hg hno fuel hfuel
    refine ⟨sp1, r1, r2, ?_⟩
    intro u
    by_cases hu : u < in_.length
    · by_cases hfin : sp1.goal_distances.getD u 0 = INF_COSTS
      · rw [hfin]
        unfold INF_COSTS DIRTY
        omega
      · obtain ⟨ops, w1, w2, w3⟩ := r2.inv.sound u hu hfin
        rw [r3.costs] at w2
        obtain ⟨ops1, w4, w5, w6⟩ := hno.path u ops w1 w2
        have h1 := r2.optimal u ops1 w4 (by rw [r3.costs]; exact w5)
        rw [r3.costs] at h1
        have h2 := hno.lt
        unfold INF_COSTS at h2
        unfold DIRTY
        omega
    · rw [List.getD_eq_default _ _ (by rw [r2.inv.len]; omega)]
      unfold DIRTY
      omega
  | orphans sp in0 v v2 bound cmax filter_orphans fuel ht hs hfuel =>
    obtain ⟨sp1, r1, r2, r3, -⟩ := dijkstra_from_orphans_spec a filter_orphans fuel ht hs hfuel
    exact ⟨sp1, r1, r2, r3.nodirty⟩

/-- C1 (incremental equivalence). Let `sp0` hold a shortest-path tree with perfect
goal distances of the graph `in0` (`TreeOk`), and let `sp`, `in1` result from it
by any finite sequence of valid splits (`SplitSeq`). Then for every further valid
split of `v` into `v1 = v` and the new state `v2` (`SplitOk`: no goal is split,
`out[v2]` holds the old tree arc of `v` and `out[v1]` does not, the new graph
refines the old one, no overflow), `dijkstra_from_orphans` returns, for both
values of `filter_orphans`, and its `goal_distances` are the ones that
`full_dijkstra` computes on the new graph from any engine with the same operator
costs. -/
theorem incremental_equivalence (a a2 : Bool) (goals : List Nat) (bound cmax : Nat)
    (sp0 sp sp2 : ShortestPaths) (in0 in1 in_ out : List Transitions) (v v2 : Nat)
    (filter_orphans : Bool) (fuel fuel2 : Nat)
    (ht : TreeOk sp0 in0 goals bound)
    (hseq : SplitSeq a goals bound cmax sp0 in0 sp in1)
    (hs : SplitOk sp in1 in_ out goals v v2 bound cmax)
    (hfuel : repair_fuel in_.length ≤ fuel)
    (hsame : sp2.operator_costs = sp.operator_costs)
    (hfuel2 : loop_measure (full_start sp2 in_ goals) < fuel2) :
    ∃ sp1 sp3, dijkstra_from_orphans a sp in_ out v v v2 filter_orphans fuel = .ok sp1 ∧
      full_dijkstra a2 sp2 in_ goals fuel2 = .ok sp3 ∧
      sp1.goal_distances = sp3.goal_distances := by
  have ht1 := hseq.tree_ok ht
  obtain ⟨sp1, r1, r2, -, r4, -⟩ := dijkstra_from_orphans_spec a filter_orphans fuel ht1 hs hfuel
  obtain ⟨sp3, f1, f2, f3⟩ := full_dijkstra_spec a2 sp2 in_ goals bound (split_ctx ht1 hs).graph
    (split_no_overflow ht1 hs hsame) fuel2 hfuel2
  exact ⟨sp1, sp3, r1, f1, r2.dist_eq f2 (by rw [r4, f3.costs, hsame])⟩

/-- C3 fails for `full_dijkstra` when a 64-bit sum wraps around. For the cost
table `[0, 2147483646]` and the graph `wrap_in` with goal 0, the sum of three
costs of operator 1 exceeds `2 ^ 64`; `full_dijkstra` returns (no assertion
fails) with `shortest_path[3] = (op 1, 2)` and a distance of 3 other than
`INF_COSTS`, but `goal_distances[3]` differs from
`goal_distances[2] + operator_costs[1]`, also modulo `2 ^ 64`. -/
theorem full_dijkstra_tree_wraps :
    ShortestPaths.new true [0, 2147483646] = .ok wrap_state
    ∧ full_dijkstra true wrap_state wrap_in [0] 50 = .ok wrap_result
    ∧ wrap_result.shortest_path.getD 3 none = some ⟨1, 2⟩
    ∧ (⟨1, 2⟩ : Transition) ∈ wrap_out.getD 3 []
    ∧ wrap_result.goal_distances.getD 3 0 ≠ INF_COSTS
    ∧ wrap_result.goal_distances.getD 3 0
      ≠ wrap_result.goal_distances.getD 2 0 + wrap_result.operator_costs.getD 1 0
    ∧ wrap_result.goal_distances.getD 3 0
      ≠ add64 (wrap_result.goal_distances.getD 2 0) (wrap_result.operator_costs.getD 1 0)
    ∧ ¬ TreeValid wrap_result wrap_out [0] := by
  refine ⟨by decide, by decide, by decide, by decide, by decide, by decide, by decide, ?_⟩
  intro h
  obtain ⟨t, t1, -, -, t4⟩ := h.arc 3 (by decide) (by decide) (by decide)
  have ht : t = ⟨1, 2⟩ := by
    have : wrap_result.shortest_path.getD 3 none = some ⟨1, 2⟩ := by decide
    rw [this] at t1
    cases t1
    rfl
  subst ht
  revert t4
  decide

/-- C3, amended: after every call of `full_dijkstra` and of `dijkstra_from_orphans`
made under its preconditions, which include that no sum of costs overflows
(`ValidCall`), the call returns and the engine state is a valid shortest-path
tree: every non-goal state `u` with `goal_distances[u] != INF_COSTS` has a tree
arc `(op, t)` that is an element of `out[u]`, and
`goal_distances[u] = goal_distances[t] + operator_costs[op]`. -/
theorem tree_valid_after_call (a : Bool) (in_ out : List Transitions) (goals : List Nat)
    (r : Run ShortestPaths) (hcons : Consistent in_ out) (h : ValidCall a in_ out goals r) :
    ∃ sp1, r = .ok sp1 ∧ TreeValid sp1 out goals := by
  obtain ⟨sp1, r1, r2, -⟩ := valid_call_post h
  refine ⟨sp1, r1, ?_, r2.inv.goal, ?_⟩
  · intro u
    have := r2.inv.word u
    unfold INF_COSTS at this
    omega
  · intro u hu hg hfin
    rw [r2.inv.len] at hu ⊢
    obtain ⟨t, t1, t2, t3, -, t5, -⟩ := r2.inv.tree u hu hg hfin
    exact ⟨t, t1, hcons.bwd _ _ t3, t2, t5⟩

/-- C4: every call of `dijkstra_from_orphans` and of `full_dijkstra` made under its
preconditions (`ValidCall`) returns, and when it returns no entry of
`goal_distances` equals `DIRTY`: every state, the ones marked dirty during the
call included, has a finite distance or `INF_COSTS`. -/
theorem no_dirty_after_call (a : Bool) (in_ out : List Transitions) (goals : List Nat)
    (r : Run ShortestPaths) (h : ValidCall a in_ out goals r) :
    ∃ sp1, r = .ok sp1 ∧ ∀ u, sp1.goal_distances.getD u 0 ≠ DIRTY ∧
      (sp1.goal_distances.getD u 0 < DIRTY ∨ sp1.goal_distances.getD u 0 = INF_COSTS) := by
  obtain ⟨sp1, r1, r2, r3⟩ := valid_call_post h
  refine ⟨sp1, r1, fun u => ⟨r3 u, ?_⟩⟩
  have h1 := r2.inv.word u
  have h2 := r3 u
  unfold INF_COSTS at h1 ⊢
  unfold DIRTY at h2 ⊢
  omega

theorem chain_tree_ok : TreeOk (chain_state 3 4) chain_in [2] 8 := by
  refine ⟨rfl, rfl, rfl, rfl, ?_, ?_, ?_, ?_, ?_, ?_, ?_⟩
  · intro u
    rcases u with _ | _ | _ | u <;> simp [chain_state, INF_COSTS]
  · intro u
    rcases u with _ | _ | _ | u <;> simp [chain_state, DIRTY]
  · intro g hg
    simp only [List.mem_singleton] at hg
    subst hg
    simp [chain_state, chain_in]
  · intro u hu hinf
    rcases u with _ | _ | _ | u <;> simp [chain_state, INF_COSTS] at hinf ⊢
  · intro u hu hg _
    simp only [chain_in, List.length_cons, List.length_nil] at hu
    rcases u with _ | _ | _ | u
    · exact ⟨⟨0, 1⟩, by simp [chain_state], by simp [chain_in], by simp [chain_in],
        by simp [chain_state]⟩
    · exact ⟨⟨1, 2⟩, by simp [chain_state], by simp [chain_in], by simp [chain_in],
        by simp [chain_state]⟩
    · simp at hg
    · omega
  · intro u ops hw _
    rcases chain_walks hw with ⟨rfl, rfl⟩ | ⟨rfl, rfl⟩ | ⟨rfl, rfl⟩ <;>
      simp [chain_state, walk_cost64]
  · intro u hu _
    simp only [chain_in, List.length_cons, List.length_nil] at hu
    rcases u with _ | _ | _ | u
    · simp [chain_state]
    · simp [chain_state]
    · simp [chain_state]
    · omega

theorem split_walks {u : Nat} {ops : List Nat} (h : GoalWalk split_in [2] u ops) :
    (u = 2 ∧ ops = []) ∨ (u = 3 ∧ ops = [1]) ∨ (u = 0 ∧ ops = [0, 1]) := by
  induction h with
  | goal hmem =>
    simp at hmem
    exact Or.inl ⟨hmem, rfl⟩
  | @step s u op ops hw hmem ih =>
    rcases ih with ⟨rfl, rfl⟩ | ⟨rfl, rfl⟩ | ⟨rfl, rfl⟩
    · simp [split_in] at hmem
      exact Or.inr (Or.inl ⟨hmem.2, by rw [hmem.1]⟩)
    · simp [split_in] at hmem
      exact Or.inr (Or.inr ⟨hmem.2, by rw [hmem.1]⟩)
    · simp [split_in] at hmem

theorem split_consistent : Consistent split_in split_out := by
  refine ⟨rfl, ?_, ?_⟩
  · intro u t ht
    rcases u with _ | _ | _ | _ | u <;> simp [split_out] at ht
    · rcases ht with rfl | rfl <;> simp [split_in]
    · subst ht
      simp [split_in]
  · intro s t ht
    rcases s with _ | _ | _ | _ | s <;> simp [split_in] at ht <;> subst ht <;> simp [split_out]

theorem split_ok : SplitOk (chain_state 3 4) chain_in split_in split_out [2] 1 3 8 4 := by
  refine ⟨rfl, rfl, by decide, by decide, ?_, ?_, split_consistent, ?_, ?_, ?_, ?_, ?_, ?_, ?_, ?_⟩
  · intro s t ht
    rcases s with _ | _ | _ | _ | s <;> simp [split_in] at ht ⊢ <;> subst ht <;> simp
  · intro s t ht
    rcases s with _ | _ | _ | _ | s <;> simp [split_in] at ht ⊢ <;> subst ht <;> simp
  · intro s t ht
    rcases s with _ | _ | _ | _ | s <;> simp [split_in] at ht <;> subst ht <;>
      simp [split_origin, chain_in]
  · intro s u op h hs hu
    rcases s with _ | _ | _ | s <;> simp [chain_in] at h
    · exact absurd rfl hs
    · exact absurd h.2 hu
  · intro u op h hu
    simp [chain_in] at h
    obtain ⟨rfl, rfl⟩ := h
    left
    simp [split_in]
  · exact ⟨⟨1, 2⟩, by simp [chain_state], by simp [split_out], by simp [split_out]⟩
  · intro s t ht
    rcases s with _ | _ | _ | _ | s <;> simp [split_in] at ht <;> subst ht <;>
      simp [chain_state]
  · intro s t ht
    rcases s with _ | _ | _ | _ | s <;> simp [split_in] at ht <;> subst ht <;>
      simp [chain_state]
  · intro u ops hw
    refine ⟨ops, hw, ?_⟩
    rcases split_walks hw with ⟨-, rfl⟩ | ⟨-, rfl⟩ | ⟨-, rfl⟩ <;>
      simp [chain_state, walk_cost64]
  · unfold DIRTY
    norm_num

theorem chain_no_overflow : NoOverflow chain_in [2] (chain_state 3 4).operator_costs 8 := by
  refine ⟨?_, ?_, ?_⟩
  · intro u ops hw hf
    refine ⟨ops, hw, hf, ?_⟩
    rcases chain_walks hw with ⟨-, rfl⟩ | ⟨-, rfl⟩ | ⟨-, rfl⟩ <;>
      simp [chain_state, walk_cost64]
  · intro s t ht _
    rcases s with _ | _ | _ | s <;> simp [chain_in] at ht <;> subst ht <;>
      simp [chain_state, INF_COSTS]
  · unfold INF_COSTS
    norm_num

/-- Witness of C1 on scenario S3: costs `[3, 4]`, the chain `0 -> 1 -> 2` with
goal 2, state 1 split into 1 and the new state 3. -/
theorem incremental_equivalence_witness :
    ∃ sp1 sp3,
      dijkstra_from_orphans true (chain_state 3 4) split_in split_out 1 1 3 true (repair_fuel 4)
        = .ok sp1 ∧
      full_dijkstra true (chain_state 3 4) split_in [2] (2 ^ 67) = .ok sp3 ∧
      sp1.goal_distances = sp3.goal_distances :=
  incremental_equivalence true true [2] 8 4 (chain_state 3 4) (chain_state 3 4) (chain_state 3 4)
    chain_in chain_in split_in split_out 1 3 true (repair_fuel 4) (2 ^ 67) chain_tree_ok
    (SplitSeq.nil _ _) split_ok (le_refl _) rfl (by decide)

/-- Witness of the amended C3 on scenario S3 and on the chain of scenario S2. -/
theorem tree_valid_after_call_witness :
    (∃ sp1, dijkstra_from_orphans true (chain_state 3 4) split_in split_out 1 1 3 true
        (repair_fuel 4) = .ok sp1 ∧ TreeValid sp1 split_out [2]) ∧
    (∃ sp1, full_dijkstra true (chain_state 3 4) chain_in [2] (2 ^ 67) = .ok sp1 ∧
      TreeValid sp1 chain_out [2]) :=
  ⟨tree_valid_after_call true split_in split_out [2] _ split_consistent
      (ValidCall.orphans (chain_state 3 4) chain_in 1 3 8 4 true (repair_fuel 4) chain_tree_ok
        split_ok (le_refl _)),
    tree_valid_after_call true chain_in chain_out [2] _
      ⟨rfl, by
        intro u t ht
        rcases u with _ | _ | _ | u <;> simp [chain_out] at ht <;> subst ht <;> simp [chain_in],
       by
        intro s t ht
        rcases s with _ | _ | _ | s <;> simp [chain_in] at ht <;> subst ht <;> simp [chain_out]⟩
      (ValidCall.full (chain_state 3 4) 8 (2 ^ 67) chain_graph_ok chain_no_overflow
        (by decide))⟩

/-- Witness of C4 on scenario S3 without the filter and on the chain of
scenario S2. -/
theorem no_dirty_after_call_witness :
    (∃ sp1, dijkstra_from_orphans true (chain_state 3 4) split_in split_out 1 1 3 false
        (repair_fuel 4) = .ok sp1 ∧ ∀ u, sp1.goal_distances.getD u 0 ≠ DIRTY ∧
      (sp1.goal_distances.getD u 0 < DIRTY ∨ sp1.goal_distances.getD u 0 = INF_COSTS)) ∧
    (∃ sp1, full_dijkstra true (chain_state 3 4) chain_in [2] (2 ^ 67) = .ok sp1 ∧
      ∀ u, sp1.goal_distances.getD u 0 ≠ DIRTY ∧
      (sp1.goal_distances.getD u 0 < DIRTY ∨ sp1.goal_distances.getD u 0 = INF_COSTS)) :=
  ⟨no_dirty_after_call true split_in split_out [2] _
      (ValidCall.orphans (chain_state 3 4) chain_in 1 3 8 4 false (repair_fuel 4) chain_tree_ok
        split_ok (le_refl _)),
    no_dirty_after_call true chain_in chain_out [2] _
      (ValidCall.full (chain_state 3 4) 8 (2 ^ 67) chain_graph_ok chain_no_overflow
        (by decide))⟩

/-! ## Monotone encoding and sums of encoded costs -/

theorem convert_to_64_total (a hz : Bool) (c : Int) (h0 : 0 ≤ c) :
    ∃ x, convert_to_64_bit_cost a hz c = .ok x := by
  unfold convert_to_64_bit_cost
  have hge : decide (c ≥ 0) = true := by simpa using h0
  rw [hge, check_true]
  split_ifs <;> exact ⟨_, rfl⟩

theorem convert_monotone (assertions hz : Bool) (a b : Int) (h0 : 0 ≤ a) (hab : a < b)
    (hb : b ≤ INF) :
    ∃ x y, convert_to_64_bit_cost assertions hz a = .ok x ∧
      convert_to_64_bit_cost assertions hz b = .ok y ∧ x < y := by
  obtain ⟨x, hx⟩ := convert_to_64_total assertions hz a h0
  obtain ⟨y, hy⟩ := convert_to_64_total assertions hz b (by omega)
  refine ⟨x, y, hx, hy, ?_⟩
  have h32 : (2 : Int) ^ 32 = 4294967296 := by norm_num
  rcases convert_to_64_value hx h0 (by omega) with ⟨ha, -⟩ | ⟨-, -, hx3, hxf, hxt⟩
  · omega
  · rcases convert_to_64_value hy (by omega) hb with ⟨-, hy2⟩ | ⟨-, -, -, hyf, hyt⟩
    · rw [hy2]
      unfold INF_COSTS
      omega
    · cases hz
      · have h1 := hxf rfl
        have h2 := hyf rfl
        omega
      · rcases hxt rfl with ⟨h1, h2⟩ | ⟨h1, h2⟩
        · rcases hyt rfl with ⟨h3, h4⟩ | ⟨h3, h4⟩
          · omega
          · rw [h32] at h4
            omega
        · rcases hyt rfl with ⟨h3, h4⟩ | ⟨h3, h4⟩
          · omega
          · rw [h32] at h2 h4
            omega

/-- C11: the encoding is strictly monotone. In every constructed engine, for all
external costs `a`, `b` with `0 ≤ a < b ≤ INF`, both are encoded without an
assertion failing and the code of `a` is below the code of `b`; and when the
cost table contains a zero, 0 is encoded as 1 and 1 as `2 ^ 32`. -/
theorem encoding_monotone (assertions a0 : Bool) (costs : List Int) (sp : ShortestPaths)
    (hnew : ShortestPaths.new a0 costs = .ok sp) (a b : Int) (h0 : 0 ≤ a) (hab : a < b)
    (hb : b ≤ INF) :
    (∃ x y, convert_to_64_bit_cost assertions sp.task_has_zero_costs a = .ok x ∧
      convert_to_64_bit_cost assertions sp.task_has_zero_costs b = .ok y ∧ x < y) ∧
    ((0 : Int) ∈ costs →
      convert_to_64_bit_cost assertions sp.task_has_zero_costs 0 = .ok 1 ∧
      convert_to_64_bit_cost assertions sp.task_has_zero_costs 1 = .ok (2 ^ 32) ∧
      (1 : Nat) < 2 ^ 32) := by
  refine ⟨convert_monotone assertions _ a b h0 hab hb, ?_⟩
  intro hz
  rw [new_task_has_zero_costs hnew, (has_zero_cost_iff costs).2 hz]
  refine ⟨by simp [convert_to_64_bit_cost, check, INF], ?_, by norm_num⟩
  simp [convert_to_64_bit_cost, check, INF, toUInt64]

/-- Witness of C11 in the engine built from the cost table `[0, 1]`, at the
external costs 0 and 1. -/
theorem encoding_monotone_witness :
    (∃ x y, convert_to_64_bit_cost true true 0 = .ok x ∧
      convert_to_64_bit_cost true true 1 = .ok y ∧ x < y) ∧
    ((0 : Int) ∈ [(0 : Int), 1] →
      convert_to_64_bit_cost true true 0 = .ok 1 ∧
      convert_to_64_bit_cost true true 1 = .ok (2 ^ 32) ∧
      (1 : Nat) < 2 ^ 32) :=
  encoding_monotone true true [0, 1] ⟨true, [1, 4294967296], [], [], [], [], [], []⟩
    (by decide) 0 1 (by decide) (by decide) (by decide)

theorem foldl_add64 : ∀ (xs : List Nat) (acc : Nat), acc < 2 ^ 64 →
    xs.foldl add64 acc = (acc + xs.sum) % 2 ^ 64 := by
  intro xs
  induction xs with
  | nil =>
    intro acc h
    simp only [List.foldl_nil, List.sum_nil, Nat.add_zero]
    exact (Nat.mod_eq_of_lt h).symm
  | cons x xs ih =>
    intro acc _
    simp only [List.foldl_cons, List.sum_cons]
    rw [ih (add64 acc x) (Nat.mod_lt _ (by norm_num))]
    unfold add64
    rw [Nat.mod_add_mod, Nat.add_assoc]

theorem sum64_eq (xs : List Nat) (h : xs.sum < 2 ^ 64) : sum64 xs = xs.sum := by
  unfold sum64
  rw [foldl_add64 xs 0 (by norm_num), Nat.zero_add]
  exact Nat.mod_eq_of_lt h

theorem encode_list_spec (a hz : Bool) : ∀ (cs : List Int), (∀ c ∈ cs, 0 ≤ c ∧ c < INF) →
    ∃ xs, List.Forall₂ (fun c x => convert_to_64_bit_cost a hz c = .ok x) cs xs ∧
      ∃ S z : Nat, (S : Int) = cs.sum ∧ S ≤ cs.length * 2147483646 ∧ z ≤ cs.length ∧
        (hz = false → xs.sum = S) ∧ (hz = true → xs.sum = S * 2 ^ 32 + z) := by
  intro cs
  induction cs with
  | nil =>
    intro _
    exact ⟨[], List.Forall₂.nil, 0, 0, by simp, by simp, by simp, by simp, by simp⟩
  | cons c cs ih =>
    intro hc
    obtain ⟨xs, f1, S, z, s1, s2, s3, s4, s5⟩ := ih (fun c1 h1 => hc c1 (List.mem_cons_of_mem _ h1))
    obtain ⟨c0, c1⟩ := hc c (List.mem_cons_self _ _)
    obtain ⟨x, hx⟩ := convert_to_64_total a hz c c0
    have hINF : INF = 2147483647 := by norm_num [INF]
    have h32 : (2 : Int) ^ 32 = 4294967296 := by norm_num
    rw [hINF] at c1
    obtain ⟨n, rfl⟩ := Int.eq_ofNat_of_zero_le c0
    rcases convert_to_64_value hx c0 (by rw [hINF]; omega) with ⟨h, -⟩ | ⟨-, -, -, hxf, hxt⟩
    · rw [hINF] at h
      omega
    · refine ⟨x :: xs, List.Forall₂.cons hx f1, n + S, (if n = 0 then 1 else 0) + z, ?_, ?_, ?_,
        ?_, ?_⟩
      · simp only [List.sum_cons]
        push_cast
        omega
      · simp only [List.length_cons]
        have : n ≤ 2147483646 := by omega
        rw [Nat.add_mul]
        omega
      · simp only [List.length_cons]
        split_ifs <;> omega
      · intro h
        have h1 := hxf h
        simp only [List.sum_cons]
        rw [s4 h]
        omega
      · intro h
        simp only [List.sum_cons]
        rw [s5 h]
        rcases hxt h with ⟨h1, h2⟩ | ⟨h1, h2⟩
        · have hn0 : n = 0 := by omega
          subst hn0
          rw [h2]
          simp only [if_true]
          omega
        · have hn0 : n ≠ 0 := by omega
          rw [h32] at h2
          simp only [hn0, if_false]
          have : x = n * 4294967296 := by omega
          rw [this]
          norm_num
          ring

/-- C12: in an engine whose cost table contains a zero, for every list of
external costs `cs`, each with `0 ≤ c < INF`, of fewer than `2 ^ 32` entries and
with a sum below `INF`, every cost is encoded without an assertion failing and
the 64-bit sum of the encoded costs is decoded to the sum of `cs`. -/
theorem lifted_sum_decodes (assertions a0 a1 : Bool) (costs : List Int) (sp : ShortestPaths)
    (hnew : ShortestPaths.new a0 costs = .ok sp) (hzero : (0 : Int) ∈ costs) (cs : List Int)
    (hc : ∀ c ∈ cs, 0 ≤ c ∧ c < INF) (hn : cs.length < 2 ^ 32) (hs : cs.sum < INF) :
    ∃ xs, List.Forall₂
        (fun c x => convert_to_64_bit_cost assertions sp.task_has_zero_costs c = .ok x) cs xs ∧
      convert_to_32_bit_cost a1 sp.task_has_zero_costs (sum64 xs) = .ok cs.sum := by
  rw [new_task_has_zero_costs hnew, (has_zero_cost_iff costs).2 hzero]
  obtain ⟨xs, f1, S, z, s1, -, s3, -, s5⟩ := encode_list_spec assertions true cs hc
  refine ⟨xs, f1, ?_⟩
  have hINF : INF = 2147483647 := by norm_num [INF]
  rw [hINF] at hs
  have hS : S < 2147483647 := by omega
  have hsum := s5 rfl
  have hlt : xs.sum < 2 ^ 63 := by omega
  rw [sum64_eq xs (by omega), hsum]
  unfold convert_to_32_bit_cost
  have h3 : (S * 2 ^ 32 + z != DIRTY) = true := by
    have : S * 2 ^ 32 + z ≠ 2 ^ 64 - 2 := by omega
    simpa [DIRTY] using this
  have h4 : ¬ (S * 2 ^ 32 + z = INF_COSTS) := by
    have : S * 2 ^ 32 + z ≠ 2 ^ 64 - 1 := by omega
    simpa [INF_COSTS] using this
  rw [h3, check_true]
  simp only [beq_iff_eq, h4, if_false, if_true]
  have hdiv : (S * 2 ^ 32 + z) / 2 ^ 32 = S := by
    rw [Nat.add_comm, Nat.add_mul_div_right _ _ (by norm_num), Nat.div_eq_of_lt (by omega)]
    omega
  rw [hdiv, toInt32_of_lt _ (by omega), s1]

/-- Witness of C12 for the cost table `[0, 1]` and the costs `[0, 1, 0]`. -/
theorem lifted_sum_decodes_witness :
    ∃ xs, List.Forall₂ (fun c x => convert_to_64_bit_cost true true c = .ok x) [0, 1, 0] xs ∧
      convert_to_32_bit_cost true true (sum64 xs) = .ok ([0, 1, 0] : List Int).sum :=
  lifted_sum_decodes true true true [0, 1] ⟨true, [1, 4294967296], [], [], [], [], [], []⟩
    (by decide) (by decide) [0, 1, 0] (by decide) (by decide) (by decide)

/-- C13 fails when the task has a zero-cost operator: in the engine built from
the cost table `[0, 2147483646]`, three operators of external cost `2147483646`
(below `INF`) are encoded as `2147483646 * 2 ^ 32` each; their true sum exceeds
`2 ^ 64`, so the 64-bit sum wraps around, and `full_dijkstra` stores the wrapped
sum as the goal distance of state 3 of the graph `wrap_in`. -/
theorem encoded_sum_wraps :
    ShortestPaths.new true [0, 2147483646] = .ok wrap_state
    ∧ wrap_state.task_has_zero_costs = true
    ∧ (∀ c ∈ [(2147483646 : Int), 2147483646, 2147483646], 0 ≤ c ∧ c < INF)
    ∧ [(2147483646 : Int), 2147483646, 2147483646].length < 2 ^ 32
    ∧ List.Forall₂ (fun c x => convert_to_64_bit_cost true true c = .ok x)
        [2147483646, 2147483646, 2147483646]
        [9223372028264841216, 9223372028264841216, 9223372028264841216]
    ∧ 2 ^ 64 ≤ [9223372028264841216, 9223372028264841216, 9223372028264841216].sum
    ∧ sum64 [9223372028264841216, 9223372028264841216, 9223372028264841216]
      ≠ [9223372028264841216, 9223372028264841216, 9223372028264841216].sum
    ∧ full_dijkstra true wrap_state wrap_in [0] 50 = .ok wrap_result
    ∧ wrap_result.goal_distances.getD 3 0
      = sum64 [9223372028264841216, 9223372028264841216, 9223372028264841216] := by
  refine ⟨by decide, rfl, by decide, by decide, ?_, by decide, by decide, by decide, by decide⟩
  exact List.Forall₂.cons (by decide) (List.Forall₂.cons (by decide)
    (List.Forall₂.cons (by decide) List.Forall₂.nil))

/-- C13, amended: for every list of external costs `cs`, each with `0 ≤ c < INF`,
of fewer than `2 ^ 32` entries, and, when the task has a zero-cost operator, with
a sum below `2 ^ 32 - 1`, the true sum of the encoded costs is below `DIRTY`, so
the 64-bit sum does not wrap around and is neither `DIRTY` nor `INF_COSTS`. -/
theorem encoded_sum_below_dirty (assertions hz : Bool) (cs : List Int)
    (hc : ∀ c ∈ cs, 0 ≤ c ∧ c < INF) (hn : cs.length < 2 ^ 32)
    (hs : hz = true → cs.sum < 2 ^ 32 - 1) :
    ∃ xs, List.Forall₂ (fun c x => convert_to_64_bit_cost assertions hz c = .ok x) cs xs ∧
      xs.sum < DIRTY ∧ sum64 xs = xs.sum ∧ sum64 xs ≠ DIRTY ∧ sum64 xs ≠ INF_COSTS := by
  obtain ⟨xs, f1, S, z, s1, s2, s3, s4, s5⟩ := encode_list_spec assertions hz cs hc
  have hlt : xs.sum < 2 ^ 64 - 2 := by
    cases hz
    · rw [s4 rfl]
      have : cs.length * 2147483646 < 4294967296 * 2147483646 :=
        Nat.mul_lt_mul_of_pos_right hn (by norm_num)
      omega
    · rw [s5 rfl]
      have h1 := hs rfl
      have h2 : S < 4294967295 := by omega
      omega
  have heq := sum64_eq xs (by omega)
  refine ⟨xs, f1, by unfold DIRTY; exact hlt, heq, ?_, ?_⟩
  · rw [heq]
    unfold DIRTY
    omega
  · rw [heq]
    unfold INF_COSTS
    omega

/-- Witness of the amended C13 for a task with a zero-cost operator and the costs
`[0, 1, 0]`. -/
theorem encoded_sum_below_dirty_witness :
    ∃ xs, List.Forall₂ (fun c x => convert_to_64_bit_cost true true c = .ok x) [0, 1, 0] xs ∧
      xs.sum < DIRTY ∧ sum64 xs = xs.sum ∧ sum64 xs ≠ DIRTY ∧ sum64 xs ≠ INF_COSTS :=
  encoded_sum_below_dirty true true [0, 1, 0] (by decide) (by decide) (by decide)

/-! ## Overflow in the relaxations -/

/-- C14 fails: no overflow check exists. For the cost table `[0, 2147483646]` and
the line `3 -> 2 -> 1 -> 0` with goal 0, the relaxation of the arc `3 -> 2` in
`full_dijkstra` adds the finite distance of state 2 and the finite cost of
operator 1, whose true sum exceeds `2 ^ 64 - 1`; the call returns, with assertions
compiled in, and `goal_distances[3]` holds the wrapped sum, which is below the
distance of state 2. The relaxation of `dijkstra_from_orphans` stores the same
wrapped sum for the same addition. -/
theorem overflow_is_stored :
    ShortestPaths.new true [0, 2147483646] = .ok wrap_state
    ∧ full_dijkstra true wrap_state line_in [0] 50 = .ok line_result
    ∧ line_result.goal_distances.getD 2 0 ≠ INF_COSTS
    ∧ line_result.operator_costs.getD 1 0 ≠ INF_COSTS
    ∧ 2 ^ 64 ≤ line_result.goal_distances.getD 2 0 + line_result.operator_costs.getD 1 0
    ∧ line_result.shortest_path.getD 3 none = some ⟨1, 2⟩
    ∧ line_result.goal_distances.getD 3 0
      = line_result.goal_distances.getD 2 0 + line_result.operator_costs.getD 1 0 - 2 ^ 64
    ∧ line_result.goal_distances.getD 3 0 < line_result.goal_distances.getD 2 0
    ∧ (orphan_relax true 18446744056529682432 2 line_mid ⟨1, 3⟩).bind
        (fun sp1 => .ok (sp1.goal_distances.getD 3 0))
      = .ok 9223372011084972032 := by
  decide

/-- C14, amended: a relaxation adds in unsigned 64-bit arithmetic without a check
and never aborts on an overflow. For a distance `g` and an operator cost other
than `INF_COSTS`, when the sum modulo `2 ^ 64` is below the stored distance of
the source of the transition, the relaxation of `full_dijkstra` stores that
wrapped sum, the relaxation of `dijkstra_from_orphans` returns (its only
assertion, line 321, is `cost != INF_COSTS`) and stores it too, and the seeding
step of Stage D (only assertion: line 293) takes the wrapped sum as the new
minimum. -/
theorem overflow_not_detected (a : Bool) (g s : Nat) (sp : ShortestPaths) (t : Transition)
    (hc : sp.operator_costs.getD t.op_id 0 ≠ INF_COSTS)
    (hs : t.target_id < sp.goal_distances.length)
    (hlt : (g + sp.operator_costs.getD t.op_id 0) % 2 ^ 64
      < sp.goal_distances.getD t.target_id 0) :
    (full_relax g s sp t).goal_distances.getD t.target_id 0
      = (g + sp.operator_costs.getD t.op_id 0) % 2 ^ 64
    ∧ (∃ sp1, orphan_relax a g s sp t = .ok sp1 ∧
      sp1.goal_distances.getD t.target_id 0
        = (g + sp.operator_costs.getD t.op_id 0) % 2 ^ 64)
    ∧ (∀ d m, sp.goal_distances.getD s 0 ≠ DIRTY → sp.goal_distances.getD s 0 ≠ INF_COSTS →
      (sp.operator_costs.getD t.op_id 0 + sp.goal_distances.getD s 0) % 2 ^ 64 < m →
      seed_step a d (m, sp) ⟨t.op_id, s⟩
        = .ok ((sp.operator_costs.getD t.op_id 0 + sp.goal_distances.getD s 0) % 2 ^ 64,
            { sp with shortest_path := sp.shortest_path.set d (some ⟨t.op_id, s⟩) })) := by
  have hc1 : (sp.operator_costs.getD t.op_id 0 != INF_COSTS) = true := by simpa using hc
  have hc2 : (sp.operator_costs.getD t.op_id 0 == INF_COSTS) = false := by simpa using hc
  refine ⟨?_, ?_, ?_⟩
  · unfold full_relax add64
    dsimp only
    rw [hc2]
    simp only [Bool.false_eq_true, if_false, hlt, if_true]
    exact getD_set_eq _ _ _ _ hs
  · unfold orphan_relax add64
    dsimp only
    rw [hc1, check_true]
    have hlt2 : (sp.operator_costs.getD t.op_id 0 + g) % 2 ^ 64
        < sp.goal_distances.getD t.target_id 0 := by rw [Nat.add_comm]; exact hlt
    have hd : (sp.goal_distances.getD t.target_id 0 == DIRTY
        || decide ((sp.operator_costs.getD t.op_id 0 + g) % 2 ^ 64
          < sp.goal_distances.getD t.target_id 0)) = true := by
      simp only [Bool.or_eq_true, decide_eq_true_eq]
      exact Or.inr hlt2
    rw [if_pos hd]
    refine ⟨_, rfl, ?_⟩
    dsimp only
    rw [getD_set_eq _ _ _ _ hs, Nat.add_comm]
  · intro d m h1 h2 h3
    have h1b : (sp.goal_distances.getD s 0 != DIRTY) = true := by simpa using h1
    have h2b : (sp.goal_distances.getD s 0 != INF_COSTS) = true := by simpa using h2
    unfold seed_step add64
    dsimp only
    rw [h1b, hc1, check_true, h2b]
    simp only [if_true, Bool.and_self, h3]

/-- Witness of the amended C14 at the relaxation of the arc `3 -> 2` of the line,
where the true sum exceeds `2 ^ 64`. -/
theorem overflow_not_detected_witness :
    2 ^ 64 ≤ 18446744056529682432 + line_mid.operator_costs.getD 1 0
    ∧ (full_relax 18446744056529682432 2 line_mid ⟨1, 3⟩).goal_distances.getD 3 0
      = (18446744056529682432 + line_mid.operator_costs.getD 1 0) % 2 ^ 64
    ∧ (∃ sp1, orphan_relax true 18446744056529682432 2 line_mid ⟨1, 3⟩ = .ok sp1 ∧
      sp1.goal_distances.getD 3 0
        = (18446744056529682432 + line_mid.operator_costs.getD 1 0) % 2 ^ 64)
    ∧ (∀ d m, line_mid.goal_distances.getD 2 0 ≠ DIRTY →
      line_mid.goal_distances.getD 2 0 ≠ INF_COSTS →
      (line_mid.operator_costs.getD 1 0 + line_mid.goal_distances.getD 2 0) % 2 ^ 64 < m →
      seed_step true d (m, line_mid) ⟨1, 2⟩
        = .ok ((line_mid.operator_costs.getD 1 0 + line_mid.goal_distances.getD 2 0) % 2 ^ 64,
            { line_mid with shortest_path := line_mid.shortest_path.set d (some ⟨1, 2⟩) })) :=
  ⟨by decide, overflow_not_detected true 18446744056529682432 2 line_mid ⟨1, 3⟩ (by decide)
    (by decide) (by decide)⟩

/-! ## Goals and unreachable states after the repair -/

/-- C15: for every call of `dijkstra_from_orphans` made under its preconditions
(a shortest-path tree of the graph before the split, a valid split, enough
fuel), for both values of `filter_orphans`, the call returns, no goal state is
in `dirty_states` (the vector is cleared on entry and only grows during the
call, so no goal state is ever appended to it), and every goal state has the
distance 0 and the undefined transition as its tree arc. -/
theorem goals_fixed_by_repair (a : Bool) (sp : ShortestPaths) (in0 in_ out : List Transitions)
    (goals : List Nat) (v v2 bound cmax : Nat) (filter_orphans : Bool) (fuel : Nat)
    (ht : TreeOk sp in0 goals bound) (hs : SplitOk sp in0 in_ out goals v v2 bound cmax)
    (hfuel : repair_fuel in_.length ≤ fuel) :
    ∃ sp1, dijkstra_from_orphans a sp in_ out v v v2 filter_orphans fuel = .ok sp1 ∧
      ∀ g ∈ goals, g ∉ sp1.dirty_states ∧ sp1.goal_distances.getD g 0 = 0 ∧
        sp1.shortest_path.getD g none = none := by
  obtain ⟨sp1, r1, -, r3, -, -, sp6, m1, m2⟩ :=
    dijkstra_from_orphans_spec a filter_orphans fuel ht hs hfuel
  refine ⟨sp1, r1, ?_⟩
  intro g hg
  obtain ⟨-, g2, g3⟩ := r3.goal g hg
  refine ⟨?_, g2, g3⟩
  rw [m2.ds]
  intro hc
  exact (m1.base.goal g hg).1 ((m1.base.ds_iff g).1 hc).2

/-- Witness of C15 on scenario S3, in which state 1 is marked dirty. -/
theorem goals_fixed_by_repair_witness :
    ∃ sp1, dijkstra_from_orphans true (chain_state 3 4) split_in split_out 1 1 3 true
        (repair_fuel 4) = .ok sp1 ∧
      ∀ g ∈ [2], g ∉ sp1.dirty_states ∧ sp1.goal_distances.getD g 0 = 0 ∧
        sp1.shortest_path.getD g none = none :=
  goals_fixed_by_repair true (chain_state 3 4) chain_in split_in split_out [2] 1 3 8 4 true
    (repair_fuel 4) chain_tree_ok split_ok (le_refl _)

theorem bind_never_aborts {α β : Type} {r : Run α} {k : α → Run β}
    (hr : ∀ line, r ≠ .abort line) (hk : ∀ x line, k x ≠ .abort line) :
    ∀ line, r.bind k ≠ .abort line := by
  intro line
  cases r with
  | ok x => exact hk x line
  | abort l => exact absurd rfl (hr l)
  | ub => intro h; cases h
  | timeout => intro h; cases h

theorem foldl_never_aborts {σ α : Type} {f : σ → α → Run σ}
    (hf : ∀ s x line, f s x ≠ .abort line) :
    ∀ (l : List α) (s : σ) (line : Nat), Run.foldl f s l ≠ .abort line := by
  intro l
  induction l with
  | nil => intro s line h; cases h
  | cons x xs ih =>
    intro s line
    exact bind_never_aborts (hf s x) (fun s1 => ih s1) line

theorem mark_dirty_unchecked (sp : ShortestPaths) (state line : Nat) :
    mark_dirty false sp state ≠ .abort line := by
  unfold mark_dirty
  dsimp only
  rw [check_off]
  intro h
  cases h

theorem mark_orphaned_unchecked (in_ : List Transitions) :
    ∀ (fuel : Nat) (sp : ShortestPaths) (state line : Nat),
      mark_orphaned_predecessors false in_ fuel sp state ≠ .abort line := by
  intro fuel
  induction fuel with
  | zero => intro sp state line h; cases h
  | succ fuel ih =>
    intro sp state line
    unfold mark_orphaned_predecessors
    refine bind_never_aborts (mark_dirty_unchecked sp state) ?_ line
    intro sp1
    refine foldl_never_aborts ?_ _ _
    intro sp2 t line
    dsimp only
    rw [check_off]
    split
    · exact ih _ _ _
    · intro h; cases h

theorem candidate_loop_unchecked (in_ out : List Transitions) :
    ∀ (fuel : Nat) (sp : ShortestPaths) (line : Nat),
      candidate_loop false in_ out fuel sp ≠ .abort line := by
  intro fuel
  induction fuel with
  | zero => intro sp line h; cases h
  | succ fuel ih =>
    intro sp line
    unfold candidate_loop
    split
    · intro h; cases h
    · dsimp only
      rw [check_off, check_off, check_off]
      split
      · exact ih _ _
      · exact bind_never_aborts (mark_dirty_unchecked _ _) (fun sp2 => ih _) line

theorem seed_step_unchecked (state : Nat) (acc : Nat × ShortestPaths) (t : Transition)
    (line : Nat) : seed_step false state acc t ≠ .abort line := by
  unfold seed_step
  dsimp only
  split
  · rw [check_off]
    split_ifs <;> (intro h; cases h)
  · intro h; cases h

theorem seed_state_unchecked (out : List Transitions) (sp : ShortestPaths) (state line : Nat) :
    seed_state false out sp state ≠ .abort line := by
  unfold seed_state
  rw [check_off]
  refine bind_never_aborts (foldl_never_aborts (seed_step_unchecked state) _ _) ?_ line
  intro acc line
  dsimp only
  split <;> (intro h; cases h)

theorem orphan_relax_unchecked (g state : Nat) (sp : ShortestPaths) (t : Transition)
    (line : Nat) : orphan_relax false g state sp t ≠ .abort line := by
  unfold orphan_relax
  dsimp only
  rw [check_off]
  split <;> (intro h; cases h)

theorem orphan_loop_unchecked (in_ : List Transitions) :
    ∀ (fuel : Nat) (sp : ShortestPaths) (line : Nat),
      orphan_loop false in_ fuel sp ≠ .abort line := by
  intro fuel
  induction fuel with
  | zero => intro sp line h; cases h
  | succ fuel ih =>
    intro sp line
    unfold orphan_loop
    split
    · intro h; cases h
    · dsimp only
      rw [check_off]
      split
      · exact ih _ _
      · rw [check_off, check_off]
        exact bind_never_aborts (foldl_never_aborts (orphan_relax_unchecked _ _) _ _)
          (fun sp2 => ih _) line

theorem dijkstra_from_orphans_unchecked (sp : ShortestPaths) (in_ out : List Transitions)
    (v v1 v2 : Nat) (filter_orphans : Bool) (fuel line : Nat) :
    dijkstra_from_orphans false sp in_ out v v1 v2 filter_orphans fuel ≠ .abort line := by
  unfold dijkstra_from_orphans
  rw [check_off]
  dsimp only
  rw [check_off, check_off]
  refine bind_never_aborts ?_ ?_ line
  · intro line
    cases filter_orphans
    · exact mark_orphaned_unchecked _ _ _ _ _
    · simp only [if_true]
      rw [check_off, check_off]
      exact candidate_loop_unchecked _ _ _ _ _
  · intro sp6 line
    rw [check_off, check_off]
    exact bind_never_aborts (foldl_never_aborts (seed_state_unchecked out) _ _)
      (fun sp8 => orphan_loop_unchecked _ _ _) line

/-- C17 fails in a build without assertions: in scenario S4 the tree arc
`(op 1, 2)` of state 1 is in `out[1]` and not in `out[3]`, and the split of state
1 into `v1 = 1` and `v2 = 3` returns for both values of `filter_orphans`, since the
block of lines 149-161 is compiled out under `NDEBUG`. The call leaves the
distances `[7, 4, 0, 4]` and the tree arc `(op 1, 2)` on state 3, which is no
element of `out[3]`. -/
theorem wrong_inheritor_returns :
    (∀ t ∈ wrong_out.getD 3 [],
      some t ≠ (split_init (chain_state 3 4) wrong_in.length).shortest_path.getD 1 none)
    ∧ (split_init (chain_state 3 4) wrong_in.length).shortest_path.getD 1 none = some ⟨1, 2⟩
    ∧ (⟨1, 2⟩ : Transition) ∈ wrong_out.getD 1 []
    ∧ (⟨1, 2⟩ : Transition) ∉ wrong_out.getD 3 []
    ∧ dijkstra_from_orphans false (chain_state 3 4) wrong_in wrong_out 1 1 3 true 10
      = .ok ⟨false, [3, 4], [], [], [7, 4, 0, 4], [false, false, false, false], [],
          [some ⟨0, 3⟩, some ⟨1, 2⟩, none, some ⟨1, 2⟩]⟩
    ∧ dijkstra_from_orphans false (chain_state 3 4) wrong_in wrong_out 1 1 3 false 10
      = .ok ⟨false, [3, 4], [], [], [7, 4, 0, 4], [], [1],
          [some ⟨0, 3⟩, some ⟨1, 2⟩, none, some ⟨1, 2⟩]⟩ := by
  decide

/-- C17 as amended: when the tree arc of `v` (read at line 150, after the resize
of `shortest_path`) is not an element of `out[v2]`, or is an element of both
`out[v1]` and `out[v2]`, then with assertions compiled in `dijkstra_from_orphans`
aborts: the assertion of line 159 or of line 160 fails, unless the one of line
137 has failed before. Without assertions (`NDEBUG`) the call does not abort at
any line. -/
theorem wrong_inheritor_aborts (sp : ShortestPaths) (in_ out : List Transitions)
    (v v1 v2 : Nat) (filter_orphans : Bool) (fuel : Nat)
    (hbad : (∀ t ∈ out.getD v2 [],
        some t ≠ (split_init sp in_.length).shortest_path.getD v none) ∨
      ((∃ t ∈ out.getD v1 [], some t = (split_init sp in_.length).shortest_path.getD v none) ∧
        ∃ t ∈ out.getD v2 [], some t = (split_init sp in_.length).shortest_path.getD v none)) :
    (∃ line, dijkstra_from_orphans true sp in_ out v v1 v2 filter_orphans fuel = .abort line ∧
      (line = 137 ∨ line = 159 ∨ line = 160)) ∧
    ∀ line, dijkstra_from_orphans false sp in_ out v v1 v2 filter_orphans fuel
      ≠ .abort line := by
  refine ⟨?_, dijkstra_from_orphans_unchecked sp in_ out v v1 v2 filter_orphans fuel⟩
  unfold dijkstra_from_orphans
  cases h137 : (in_.length == out.length)
  · exact ⟨137, check_on_false _ _, Or.inl rfl⟩
  · rw [check_true]
    dsimp only
    cases hb1 : (out.getD v1 []).any
        (fun t => some t == (split_init sp in_.length).shortest_path.getD v none) <;>
      cases hb2 : (out.getD v2 []).any
        (fun t => some t == (split_init sp in_.length).shortest_path.getD v none)
    · exact ⟨159, check_on_false _ _, Or.inr (Or.inl rfl)⟩
    · exfalso
      rw [List.any_eq_true] at hb2
      obtain ⟨t, ht, ht2⟩ := hb2
      simp only [beq_iff_eq] at ht2
      rcases hbad with h | ⟨⟨t1, ht1, ht3⟩, -⟩
      · exact h t ht ht2
      · rw [List.any_eq_false] at hb1
        apply hb1 t1 ht1
        simp only [beq_iff_eq]
        exact ht3
    · refine ⟨160, ?_, Or.inr (Or.inr rfl)⟩
      simp only [Bool.xor_false, check_true]
      exact check_on_false _ _
    · exact ⟨159, check_on_false _ _, Or.inr (Or.inl rfl)⟩

/-- Witness of the amended C17 on scenario S4: the tree arc `(op 1, 2)` of state 1
stays on `v1 = 1` and is not in `out[3]`. -/
theorem wrong_inheritor_aborts_witness :
    ((∃ line, dijkstra_from_orphans true (chain_state 3 4) wrong_in wrong_out 1 1 3 true 10
        = .abort line ∧ (line = 137 ∨ line = 159 ∨ line = 160)) ∧
      ∀ line, dijkstra_from_orphans false (chain_state 3 4) wrong_in wrong_out 1 1 3 true 10
        ≠ .abort line) ∧
    dijkstra_from_orphans true (chain_state 3 4) wrong_in wrong_out 1 1 3 true 10
      = .abort 160 :=
  ⟨wrong_inheritor_aborts (chain_state 3 4) wrong_in wrong_out 1 1 3 true 10
    (Or.inl (by decide)), by decide⟩

/-- C18 fails in a build with assertions: in scenario S5 the tree arc of the
unreachable state 0 is undefined, so it is in neither `out[0]` nor `out[2]`, and
the split of state 0 into 0 and 2 aborts at the assertion of line 159, for both
values of `filter_orphans`. -/
theorem unreachable_split_aborts :
    (ShortestPaths.new true [1, 1]).bind (fun sp0 => full_dijkstra true sp0 loops_in [1] 10)
      = .ok loops_state
    ∧ dijkstra_from_orphans true loops_state loops_split loops_split 0 0 2 true 10 = .abort 159
    ∧ dijkstra_from_orphans true loops_state loops_split loops_split 0 0 2 false 10
      = .abort 159 := by
  decide

/-- C18, amended: in scenario S5 (cost table `[1, 1]`) `full_dijkstra` gives the
goal distances `[INF_COSTS, 0]` and the extraction from 0 returns the null
pointer; the split of the unreachable state 0 into 0 and 2 aborts at line 159
when assertions are compiled in, and without assertions it returns with
`goal_distances[0] = goal_distances[2] = INF_COSTS`, for both values of
`filter_orphans`. -/
theorem unreachable_split_scenario :
    (ShortestPaths.new true [1, 1]).bind (fun sp0 => full_dijkstra true sp0 loops_in [1] 10)
      = .ok loops_state
    ∧ loops_state.goal_distances = [INF_COSTS, 0]
    ∧ extract_solution_from_shortest_path_tree true loops_state 0 [1] 10 = .ok none
    ∧ (∀ filter_orphans,
      dijkstra_from_orphans true loops_state loops_split loops_split 0 0 2 filter_orphans 10
        = .abort 159)
    ∧ (∀ filter_orphans,
      (dijkstra_from_orphans false loops_state loops_split loops_split 0 0 2 filter_orphans
          10).bind (fun sp1 => .ok sp1.goal_distances)
        = .ok [INF_COSTS, 0, INF_COSTS]) := by
  decide

/-- C19 fails: in scenario S3 state 1 has no outgoing transition after the split,
so the call ends with `goal_distances[1] = INF_COSTS`, decoded as `INF`, not
with 7. -/
theorem split_scenario_unreachable :
    ((ShortestPaths.new true [3, 4]).bind fun sp0 =>
      (full_dijkstra true sp0 chain_in [2] 10).bind fun sp =>
        (dijkstra_from_orphans true sp split_in split_out 1 1 3 true 10).bind fun sp1 =>
          decoded_distances true sp1) = .ok [7, INF, 0, 4]
    ∧ split_out.getD 1 [] = []
    ∧ INF ≠ 7 := by
  decide

/-- C19, amended: in scenario S3 (costs `[3, 4]`, goal distances `[7, 4, 0]`
before the split) the call with `v = v1 = 1`, `v2 = 3` and `filter_orphans`
returns in the state `split_state`: the decoded goal distances are
`[7, INF, 0, 4]` and `shortest_path[0]` is `(op 0, 3)`. -/
theorem split_scenario :
    (ShortestPaths.new true [3, 4]).bind (fun sp0 => full_dijkstra true sp0 chain_in [2] 10)
      = .ok (chain_state 3 4)
    ∧ (chain_state 3 4).goal_distances = [7, 4, 0]
    ∧ dijkstra_from_orphans true (chain_state 3 4) split_in split_out 1 1 3 true 10
      = .ok split_state
    ∧ decoded_distances true split_state = .ok [7, INF, 0, 4]
    ∧ split_state.shortest_path.getD 0 none = some ⟨0, 3⟩ := by
  decide

/-- C20: in scenario S6 (cost table `[0, 1]`, chain `0 -> 1 -> 2`, goal 2)
`full_dijkstra` returns with the internal goal distances `[2 ^ 32 + 1, 2 ^ 32, 0]`,
which are decoded as `[1, 1, 0]`; the extraction from 0 returns
`[(op 0, 1), (op 1, 2)]` with assertions compiled in, so none of them fails, and
the internal distance strictly decreases along it. -/
theorem zero_cost_scenario :
    (ShortestPaths.new true [0, 1]).bind (fun sp0 => full_dijkstra true sp0 chain_in [2] 10)
      = .ok zero_state
    ∧ zero_state.goal_distances = [2 ^ 32 + 1, 2 ^ 32, 0]
    ∧ decoded_distances true zero_state = .ok [1, 1, 0]
    ∧ extract_solution_from_shortest_path_tree true zero_state 0 [2] 10
      = .ok (some [⟨0, 1⟩, ⟨1, 2⟩])
    ∧ zero_state.goal_distances.getD 1 0 < zero_state.goal_distances.getD 0 0
    ∧ zero_state.goal_distances.getD 2 0 < zero_state.goal_distances.getD 1 0 := by
  decide

/-! ## The main loop of full_dijkstra for every cost table -/

theorem weak_update {in_ : List Transitions} {p0 : List (Option Transition)}
    {sp : ShortestPaths} {w sg : Nat} (arc : Option Transition) (hi : WeakInv in_ p0 sp)
    (hw : w < in_.length) (hlt : sg < sp.goal_distances.getD w 0) :
    WeakInv in_ p0
      { sp with
        goal_distances := sp.goal_distances.set w sg
        shortest_path := sp.shortest_path.set w arc
        open_queue := sp.open_queue.push sg w } ∧
    loop_measure
      { sp with
        goal_distances := sp.goal_distances.set w sg
        shortest_path := sp.shortest_path.set w arc
        open_queue := sp.open_queue.push sg w } ≤ loop_measure sp := by
  have hwl : w < sp.goal_distances.length := by rw [hi.len]; exact hw
  have hle : ∀ u, (sp.goal_distances.set w sg).getD u 0 ≤ sp.goal_distances.getD u 0 :=
    fun u => getD_set_le _ _ _ _ (le_of_lt hlt)
  have hsg : sg < INF_COSTS := lt_of_lt_of_le hlt (hi.word w)
  refine ⟨⟨?_, ?_, ?_, ?_, ?_⟩, ?_⟩
  · simp only [List.length_set]; exact hi.len
  · simp only [List.length_set]; exact hi.plen
  · intro u
    exact le_trans (hle u) (hi.word u)
  · intro k u hk
    dsimp only at hk ⊢
    rcases (HeapQueue.mem_push _ _ _ _).1 hk with h | h
    · obtain ⟨h1, h2, h3⟩ := hi.queue k u h
      exact ⟨h1, le_trans (hle u) h2, h3⟩
    · simp only [Prod.mk.injEq] at h
      obtain ⟨rfl, rfl⟩ := h
      rw [getD_set_eq _ _ _ _ hwl]
      exact ⟨hw, le_refl _, hsg⟩
  · intro u hu
    dsimp only at hu ⊢
    by_cases huw : w = u
    · subst huw
      rw [getD_set_eq _ _ _ _ hwl] at hu
      omega
    · rw [getD_set_ne _ _ _ _ _ huw] at hu ⊢
      exact hi.keep u hu
  · unfold loop_measure
    dsimp only
    have := sum_set sp.goal_distances w sg hwl
    rw [HeapQueue.length_push]
    omega

theorem full_relax_weak {in_ : List Transitions} {p0 : List (Option Transition)}
    {sp : ShortestPaths} (g s : Nat) {t : Transition} (hi : WeakInv in_ p0 sp)
    (hw : t.target_id < in_.length) :
    WeakInv in_ p0 (full_relax g s sp t) ∧
    loop_measure (full_relax g s sp t) ≤ loop_measure sp := by
  unfold full_relax
  dsimp only
  split_ifs with h1 h2 h2
  · exact weak_update _ hi hw h2
  · exact ⟨hi, le_refl _⟩
  · exact weak_update _ hi hw h2
  · exact ⟨hi, le_refl _⟩

theorem full_loop_weak {in_ : List Transitions} {p0 : List (Option Transition)}
    (hsrc : ∀ s t, t ∈ in_.getD s [] → t.target_id < in_.length) (a : Bool) :
    ∀ (fuel : Nat) (sp : ShortestPaths), WeakInv in_ p0 sp → loop_measure sp < fuel →
      ∃ sp1, full_loop a in_ fuel sp = .ok sp1 ∧ WeakInv in_ p0 sp1 ∧
        sp1.open_queue = [] ∧ Frame sp sp1 := by
  intro fuel
  induction fuel with
  | zero => intro sp _ h; omega
  | succ fuel ih =>
    intro sp hi hm
    unfold full_loop
    cases hpop : sp.open_queue.pop with
    | none =>
      exact ⟨sp, rfl, hi, HeapQueue.pop_eq_none.1 hpop, Frame.refl _⟩
    | some xr =>
      obtain ⟨⟨old_g, s⟩, q⟩ := xr
      obtain ⟨p1, p2, p3⟩ := HeapQueue.pop_spec hpop
      have hmem : (old_g, s) ∈ sp.open_queue := (p1 _).2 (Or.inl rfl)
      obtain ⟨hs, hle, hk⟩ := hi.queue _ _ hmem
      dsimp only
      have c1 : decide (sp.goal_distances.getD s 0 < INF_COSTS) = true := by
        simp only [decide_eq_true_eq]; omega
      have c2 : decide (sp.goal_distances.getD s 0 ≤ old_g) = true := by
        simp only [decide_eq_true_eq]; exact hle
      rw [c1, check_true, c2, check_true]
      have hm1 : loop_measure { sp with open_queue := q } + 1 = loop_measure sp := by
        unfold loop_measure
        dsimp only
        omega
      have hfr : Frame sp { sp with open_queue := q } := ⟨rfl, rfl, rfl, rfl, rfl⟩
      have hi1 : WeakInv in_ p0 { sp with open_queue := q } :=
        ⟨hi.len, hi.plen, hi.word, fun k u hku => hi.queue k u ((p1 _).2 (Or.inr hku)), hi.keep⟩
      by_cases hlt : sp.goal_distances.getD s 0 < old_g
      · simp only [hlt, if_true]
        obtain ⟨sp1, r1, r2, r3, r4⟩ := ih { sp with open_queue := q } hi1 (by omega)
        exact ⟨sp1, r1, r2, r3, hfr.trans r4⟩
      · simp only [hlt, if_false]
        have c3 : decide (s < in_.length) = true := by
          simp only [decide_eq_true_eq]; exact hs
        rw [c3, check_true]
        have key := foldl_prefix_inv
          (fun (_ : List Transition) (sp1 : ShortestPaths) =>
            WeakInv in_ p0 sp1 ∧ loop_measure sp1 ≤ loop_measure { sp with open_queue := q } ∧
            Frame { sp with open_queue := q } sp1)
          (full_relax (sp.goal_distances.getD s 0) s) (in_.getD s [])
          (by
            intro pre x sp1 hx ⟨h1, h2, h3⟩
            obtain ⟨k1, k2⟩ := full_relax_weak (sp.goal_distances.getD s 0) s h1 (hsrc s x hx)
            exact ⟨k1, le_trans k2 h2, h3.trans (full_relax_frame _ _ _ _)⟩)
          { sp with open_queue := q } ⟨hi1, le_refl _, Frame.refl _⟩
        obtain ⟨f1, f2, f3⟩ := key
        obtain ⟨sp1, r1, r2, r3, r4⟩ := ih _ f1 (by omega)
        exact ⟨sp1, r1, r2, r3, (hfr.trans f3).trans r4⟩

theorem full_start_path (sp : ShortestPaths) (in_ : List Transitions) (goals : List Nat) (u : Nat)
    (hu : u ∉ goals) :
    (full_start sp in_ goals).shortest_path.getD u none
      = (resize sp.shortest_path in_.length none).getD u none := by
  unfold full_start
  have key := foldl_prefix_inv
    (fun (done : List Nat) (s : ShortestPaths) =>
      s.shortest_path.getD u none = (resize sp.shortest_path in_.length none).getD u none)
    init_goal goals
    (by
      intro pre g s hgm h
      unfold init_goal
      dsimp only
      have hgu : g ≠ u := fun h2 => hu (h2 ▸ hgm)
      rw [getD_set_ne _ _ _ _ _ hgu]
      exact h)
    { sp with
      open_queue := []
      shortest_path := resize sp.shortest_path in_.length none
      goal_distances := List.replicate in_.length INF_COSTS }
    rfl
  exact key

theorem getD_resize_none {α : Type} (xs : List (Option α)) (n i : Nat) (h : i < n) :
    (resize xs n none).getD i none = xs.getD i none := by
  by_cases hl : i < xs.length
  · exact getD_resize_lt _ _ _ _ _ hl h
  · rw [getD_resize_ge _ _ _ _ _ (by omega) h, List.getD_eq_default _ _ (by omega)]

theorem full_start_weak (sp : ShortestPaths) (in_ : List Transitions) (goals : List Nat)
    (hg : GraphOk in_ goals) :
    WeakInv in_ sp.shortest_path (full_start sp in_ goals) := by
  obtain ⟨h1, h2, h3, h4, h5, h6⟩ := full_start_spec sp in_ goals hg.goals_lt
  refine ⟨h1, h2, ?_, ?_, ?_⟩
  · intro u
    by_cases hu : u < in_.length
    · rw [h4 u hu]
      split_ifs
      · exact Nat.zero_le _
      · exact le_refl _
    · rw [List.getD_eq_default _ _ (by omega)]
      exact Nat.zero_le _
  · intro k u hku
    obtain ⟨rfl, hug⟩ := (h6 k u).1 hku
    have hu := hg.goals_lt u hug
    refine ⟨hu, ?_, by unfold INF_COSTS; omega⟩
    rw [h4 u hu]
    simp [hug]
  · intro u hinf
    have hu : u < in_.length := by
      by_contra hc
      rw [List.getD_eq_default _ _ (by omega)] at hinf
      unfold INF_COSTS at hinf
      omega
    have hng : u ∉ goals := by
      intro hug
      rw [h4 u hu, if_pos hug] at hinf
      unfold INF_COSTS at hinf
      omega
    rw [full_start_path sp in_ goals u hng, getD_resize_none _ _ _ hu]

theorem full_dijkstra_returns (a : Bool) (sp : ShortestPaths) (in_ : List Transitions)
    (goals : List Nat) (hg : GraphOk in_ goals) (fuel : Nat)
    (hfuel : loop_measure (full_start sp in_ goals) < fuel) :
    ∃ sp1, full_dijkstra a sp in_ goals fuel = .ok sp1 ∧
      WeakInv in_ sp.shortest_path sp1 ∧ sp1.open_queue = [] ∧ Frame sp sp1 := by
  obtain ⟨-, -, h3, -⟩ := full_start_spec sp in_ goals hg.goals_lt
  obtain ⟨sp1, r1, r2, r3, r4⟩ := full_loop_weak hg.src a fuel _
    (full_start_weak sp in_ goals hg) hfuel
  exact ⟨sp1, by rw [full_dijkstra_eq]; exact r1, r2, r3, h3.trans r4⟩

theorem full_loop_empty (a : Bool) (in_ : List Transitions) :
    ∀ (fuel : Nat) (sp sp1 : ShortestPaths), full_loop a in_ fuel sp = .ok sp1 →
      sp1.open_queue = [] := by
  intro fuel
  induction fuel with
  | zero => intro sp sp1 h; simp [full_loop] at h
  | succ fuel ih =>
    intro sp sp1 h
    unfold full_loop at h
    cases hpop : sp.open_queue.pop with
    | none =>
      rw [hpop] at h
      simp only [Run.ok.injEq] at h
      rw [← h]
      exact HeapQueue.pop_eq_none.1 hpop
    | some xr =>
      obtain ⟨⟨old_g, s⟩, q⟩ := xr
      rw [hpop] at h
      dsimp only at h
      obtain ⟨-, h⟩ := check_eq_ok h
      obtain ⟨-, h⟩ := check_eq_ok h
      split_ifs at h
      · exact ih _ _ h
      · obtain ⟨-, h⟩ := check_eq_ok h
        exact ih _ _ h

/-- C30 fails on an engine state left by an earlier run: after `full_dijkstra`
on the chain `0 -> 1 -> 2`, a second `full_dijkstra` on the graph with the same
states and no arc returns with `goal_distances[0] = INF_COSTS` and the tree arc
`(op 0, 1)` of the earlier run still in `shortest_path[0]`. -/
theorem full_dijkstra_keeps_stale_arcs :
    ∃ sp1, full_dijkstra true (chain_state 3 4) no_arcs [2] 10 = .ok sp1 ∧
      sp1.goal_distances.getD 0 0 = INF_COSTS ∧
      sp1.shortest_path.getD 0 none = some ⟨0, 1⟩ := by
  refine ⟨⟨false, [3, 4], [], [], [INF_COSTS, INF_COSTS, 0], [], [],
    [some ⟨0, 1⟩, some ⟨1, 2⟩, none]⟩, ?_, ?_, ?_⟩ <;> decide

/-- C30 as amended: on a well-formed graph and for every engine state before the
call, `full_dijkstra` returns (with enough fuel), `goal_distances` and
`shortest_path` have the length `in.size()` afterwards, and every vertex whose
distance is `INF_COSTS` afterwards has the entry of `shortest_path` that it had
before the call (the undefined transition if it had none, in particular on a
fresh engine): the call resizes `shortest_path` and does not reset it. -/
theorem full_dijkstra_resets (a : Bool) (sp : ShortestPaths) (in_ : List Transitions)
    (goals : List Nat) (fuel : Nat) (hg : GraphOk in_ goals)
    (hfuel : loop_measure (full_start sp in_ goals) < fuel) :
    ∃ sp1, full_dijkstra a sp in_ goals fuel = .ok sp1 ∧
      sp1.goal_distances.length = in_.length ∧ sp1.shortest_path.length = in_.length ∧
      (∀ u, sp1.goal_distances.getD u 0 = INF_COSTS →
        sp1.shortest_path.getD u none = sp.shortest_path.getD u none) ∧
      ((∀ u, sp.shortest_path.getD u none = none) →
        ∀ u, sp1.goal_distances.getD u 0 = INF_COSTS → sp1.shortest_path.getD u none = none) := by
  obtain ⟨sp1, r1, r2, -, -⟩ := full_dijkstra_returns a sp in_ goals hg fuel hfuel
  refine ⟨sp1, r1, r2.len, r2.plen, r2.keep, ?_⟩
  intro h u hu
  rw [r2.keep u hu]
  exact h u

theorem no_arcs_graph_ok : GraphOk no_arcs [2] := by
  refine ⟨?_, by decide⟩
  intro s t ht
  have hs : s < 3 := mem_getD_lt ht
  interval_cases s <;> simp [no_arcs] at ht

/-- Witness of the amended C30 on the engine state left by a run on the chain and
the graph without arcs. -/
theorem full_dijkstra_resets_witness :
    ∃ sp1, full_dijkstra true (chain_state 3 4) no_arcs [2] 73786976294838206462 = .ok sp1 ∧
      sp1.goal_distances.length = no_arcs.length ∧ sp1.shortest_path.length = no_arcs.length ∧
      (∀ u, sp1.goal_distances.getD u 0 = INF_COSTS →
        sp1.shortest_path.getD u none = (chain_state 3 4).shortest_path.getD u none) ∧
      ((∀ u, (chain_state 3 4).shortest_path.getD u none = none) →
        ∀ u, sp1.goal_distances.getD u 0 = INF_COSTS → sp1.shortest_path.getD u none = none) :=
  full_dijkstra_resets true (chain_state 3 4) no_arcs [2] 73786976294838206462
    no_arcs_graph_ok (by decide)

/-! ## Order of the goals and of the transitions, scratch buffers -/

theorem GoalWalk.mono {in_ in2 : List Transitions} {goals goals2 : List Nat}
    (hgoal : ∀ g ∈ goals, g ∈ goals2)
    (harc : ∀ s t, t ∈ in_.getD s [] → t ∈ in2.getD s []) {u : Nat} {ops : List Nat}
    (h : GoalWalk in_ goals u ops) : GoalWalk in2 goals2 u ops := by
  induction h with
  | goal hg => exact GoalWalk.goal (hgoal _ hg)
  | step _ harc1 ih => exact GoalWalk.step ih (harc _ _ harc1)

theorem Settled.same_walks {in_ in2 : List Transitions} {goals goals2 : List Nat}
    {sp : ShortestPaths} {x : Nat} (hgoal : ∀ g ∈ goals, g ∈ goals2)
    (harc : ∀ s t, t ∈ in_.getD s [] → t ∈ in2.getD s [])
    (h : Settled in2 goals2 sp x) : Settled in_ goals sp x :=
  ⟨h.1, fun ops hw hfin => h.2 ops (hw.mono hgoal harc) hfin⟩

theorem FullPost.transport {in_ in2 : List Transitions} {goals goals2 : List Nat}
    {sp : ShortestPaths} (hlen : in2.length = in_.length)
    (hgoal : ∀ g, g ∈ goals ↔ g ∈ goals2)
    (harc : ∀ s t, t ∈ in_.getD s [] ↔ t ∈ in2.getD s [])
    (h : FullPost in2 goals2 sp) : FullPost in_ goals sp := by
  have hg1 : ∀ g ∈ goals, g ∈ goals2 := fun g hg => (hgoal g).1 hg
  have hg2 : ∀ g ∈ goals2, g ∈ goals := fun g hg => (hgoal g).2 hg
  have ha1 : ∀ s t, t ∈ in_.getD s [] → t ∈ in2.getD s [] := fun s t ht => (harc s t).1 ht
  have ha2 : ∀ s t, t ∈ in2.getD s [] → t ∈ in_.getD s [] := fun s t ht => (harc s t).2 ht
  refine ⟨⟨?_, ?_, h.inv.costs, h.inv.word, ?_, ?_, ?_, ?_, ?_⟩, h.empty, ?_⟩
  · rw [h.inv.len, hlen]
  · rw [h.inv.plen, hlen]
  · intro u hu hfin
    obtain ⟨ops, w1, w2, w3⟩ := h.inv.sound u (by rw [hlen]; exact hu) hfin
    exact ⟨ops, w1.mono hg2 ha2, w2, w3⟩
  · intro k u hk
    obtain ⟨q1, q2, q3⟩ := h.inv.queue k u hk
    exact ⟨by rw [← hlen]; exact q1, q2, q3⟩
  · intro u hu hfin
    rcases h.inv.closed u (by rw [hlen]; exact hu) hfin with c | c
    · exact Or.inl c
    · exact Or.inr (fun t ht hne hc => c t (ha1 _ _ ht) hne hc)
  · intro g hg
    exact h.inv.goal g (hg1 g hg)
  · intro u hu hng hfin
    obtain ⟨t, t1, t2, t3, t4, t5, t6⟩ := h.inv.tree u (by rw [hlen]; exact hu)
      (fun hc => hng (hg2 u hc)) hfin
    exact ⟨t, t1, by rw [← hlen]; exact t2, ha2 _ _ t3, t4, t5, t6.same_walks hg1 ha1⟩
  · intro u ops hw hfin
    exact h.optimal u ops (hw.mono hg1 ha1) hfin

theorem FullPost.tree_valid {in_ out : List Transitions} {goals : List Nat}
    {sp1 : ShortestPaths} (hcons : Consistent in_ out) (h : FullPost in_ goals sp1) :
    TreeValid sp1 out goals := by
  refine ⟨?_, h.inv.goal, ?_⟩
  · intro u
    have := h.inv.word u
    unfold INF_COSTS at this
    omega
  · intro u hu hg hfin
    rw [h.inv.len] at hu ⊢
    obtain ⟨t, t1, t2, t3, -, t5, -⟩ := h.inv.tree u hu hg hfin
    exact ⟨t, t1, hcons.bwd _ _ t3, t2, t5⟩

/-- With the queue modelled here, which returns the oldest of the entries of
minimum cost, the distances themselves depend on the order inside `in[1]` once
sums wrap around. For the cost table `[0, 2147483646]`, the goal 0 and the graph
`tie_in`, states 2 and 3 enter the open queue with the same key from the
expansion of state 1, in the order of `in[1]`. When state 2 is expanded first,
state 4 gets the wrapped sum of three costs; when state 3 is expanded first,
state 2 is lowered to a wrapped sum before its expansion and state 4 gets a
larger value. -/
theorem order_changes_wrapped_distances :
    ShortestPaths.new true [0, 2147483646] = .ok wrap_state
    ∧ (∀ s, (tie_in_swapped.getD s []).Perm (tie_in.getD s []))
    ∧ (full_dijkstra true wrap_state tie_in [0] 50).bind (fun sp1 => .ok sp1.goal_distances)
      = .ok [0, 9223372028264841216, 9223372011084972032, 18446744056529682432,
          9223372011084972032]
    ∧ (full_dijkstra true wrap_state tie_in_swapped [0] 50).bind
        (fun sp1 => .ok sp1.goal_distances)
      = .ok [0, 9223372028264841216, 9223372011084972032, 18446744056529682432,
          18446744039349813248] := by
  refine ⟨by decide, ?_, by decide, by decide⟩
  intro s
  by_cases hs : s < 5
  · interval_cases s
    · exact List.Perm.refl _
    · exact List.Perm.swap _ _ _
    · exact List.Perm.refl _
    · exact List.Perm.refl _
    · exact List.Perm.refl _
  · rw [List.getD_eq_default _ _ (by simp [tie_in_swapped]; omega),
      List.getD_eq_default _ _ (by simp [tie_in]; omega)]

/-- C23 fails when sums wrap around, for the given order and for a reordering.
For the cost table `[0, 2147483646]`, the goal 0 and the graph `wrap_in`, in the
order `wrap_in` and with the two transitions of `in[2]` swapped, `full_dijkstra`
returns the same state `wrap_result`, which is no valid shortest-path tree of the
graph: `shortest_path[3] = (op 1, 2)`, but `goal_distances[3]` is the wrapped sum
of three costs and differs from `goal_distances[2] + operator_costs[1]`. In both
runs the entries of `open_queue` have pairwise distinct keys at every `pop`, so
the entry of minimum cost is unique each time. -/
theorem reordered_tree_wraps :
    ShortestPaths.new true [0, 2147483646] = .ok wrap_state
    ∧ (∀ s, (wrap_in_swapped.getD s []).Perm (wrap_in.getD s []))
    ∧ wrap_in_swapped ≠ wrap_in
    ∧ full_dijkstra true wrap_state wrap_in [0] 50 = .ok wrap_result
    ∧ full_dijkstra true wrap_state wrap_in_swapped [0] 50 = .ok wrap_result
    ∧ (∀ q ∈ full_queues wrap_in 50 (full_start wrap_state wrap_in [0]),
        (q.map Prod.fst).Nodup)
    ∧ (∀ q ∈ full_queues wrap_in_swapped 50 (full_start wrap_state wrap_in_swapped [0]),
        (q.map Prod.fst).Nodup)
    ∧ wrap_result.shortest_path.getD 3 none = some ⟨1, 2⟩
    ∧ wrap_result.goal_distances.getD 3 0 ≠ INF_COSTS
    ∧ wrap_result.goal_distances.getD 3 0
      ≠ add64 (wrap_result.goal_distances.getD 2 0) (wrap_result.operator_costs.getD 1 0)
    ∧ ¬ TreeValid wrap_result wrap_out [0] := by
  refine ⟨by decide, ?_, by decide, by decide, by decide, by decide, by decide, by decide,
    by decide, by decide, ?_⟩
  · intro s
    by_cases hs : s < 5
    · interval_cases s
      · exact List.Perm.refl _
      · exact List.Perm.refl _
      · exact List.Perm.swap _ _ _
      · exact List.Perm.refl _
      · exact List.Perm.refl _
    · rw [List.getD_eq_default _ _ (by simp [wrap_in_swapped]; omega),
        List.getD_eq_default _ _ (by simp [wrap_in]; omega)]
  · intro h
    obtain ⟨t, t1, -, -, t4⟩ := h.arc 3 (by decide) (by decide) (by decide)
    have ht : t = ⟨1, 2⟩ := by
      have : wrap_result.shortest_path.getD 3 none = some ⟨1, 2⟩ := by decide
      rw [this] at t1
      cases t1
      rfl
    subst ht
    revert t4
    decide

/-- C23 as amended: on a well-formed graph on which no sum of costs overflows
(`NoOverflow`), `full_dijkstra` returns for every iteration order `goals2` of the
goal set and every ordering `in2` of the transitions inside each `in[s]`, from
every engine with the same cost table, and the `goal_distances` are the same;
each result is a valid shortest-path tree. -/
theorem distances_order_independent (a a2 : Bool) (sp sp0 : ShortestPaths)
    (in_ in2 out : List Transitions) (goals goals2 : List Nat) (bound fuel fuel2 : Nat)
    (hg : GraphOk in_ goals) (hno : NoOverflow in_ goals sp.operator_costs bound)
    (hcons : Consistent in_ out) (hsame : sp0.operator_costs = sp.operator_costs)
    (hlen : in2.length = in_.length)
    (hperm : ∀ s, (in2.getD s []).Perm (in_.getD s [])) (hgp : goals2.Perm goals)
    (hfuel : loop_measure (full_start sp in_ goals) < fuel)
    (hfuel2 : loop_measure (full_start sp0 in2 goals2) < fuel2) :
    ∃ sp1 sp2, full_dijkstra a sp in_ goals fuel = .ok sp1 ∧
      full_dijkstra a2 sp0 in2 goals2 fuel2 = .ok sp2 ∧
      sp2.goal_distances = sp1.goal_distances ∧
      TreeValid sp1 out goals ∧ TreeValid sp2 out goals := by
  have hgoal : ∀ g, g ∈ goals ↔ g ∈ goals2 := fun g => (hgp.mem_iff).symm
  have harc : ∀ s t, t ∈ in_.getD s [] ↔ t ∈ in2.getD s [] := fun s t => ((hperm s).mem_iff).symm
  have hg2 : GraphOk in2 goals2 := by
    refine ⟨?_, ?_⟩
    · intro s t ht
      rw [hlen]
      exact hg.src s t ((harc s t).2 ht)
    · intro g hgm
      rw [hlen]
      exact hg.goals_lt g ((hgoal g).2 hgm)
  have hno2 : NoOverflow in2 goals2 sp0.operator_costs bound := by
    rw [hsame]
    refine ⟨?_, ?_, hno.lt⟩
    · intro u ops hw hfin
      obtain ⟨ops1, w1, w2, w3⟩ := hno.path u ops
        (hw.mono (fun g h => (hgoal g).2 h) (fun s t h => (harc s t).2 h)) hfin
      exact ⟨ops1, w1.mono (fun g h => (hgoal g).1 h) (fun s t h => (harc s t).1 h), w2, w3⟩
    · intro s t ht hc
      exact hno.cost s t ((harc s t).2 ht) hc
  obtain ⟨sp1, r1, r2, r3⟩ := full_dijkstra_spec a sp in_ goals bound hg hno fuel hfuel
  obtain ⟨sp2, q1, q2, q3⟩ := full_dijkstra_spec a2 sp0 in2 goals2 bound hg2 hno2 fuel2 hfuel2
  have q2t : FullPost in_ goals sp2 := q2.transport hlen hgoal harc
  refine ⟨sp1, sp2, r1, q1, q2t.dist_eq r2 (by rw [q3.costs, r3.costs, hsame]),
    r2.tree_valid hcons, q2t.tree_valid hcons⟩

theorem chain_consistent : Consistent chain_in chain_out := by
  refine ⟨rfl, ?_, ?_⟩
  · intro u t ht
    have hu : u < 3 := mem_getD_lt ht
    interval_cases u <;> simp [chain_out] at ht <;> subst ht <;> simp [chain_in]
  · intro s t ht
    have hs : s < 3 := mem_getD_lt ht
    interval_cases s <;> simp [chain_in] at ht <;> subst ht <;> simp [chain_out]

theorem fan_walks {u : Nat} {ops : List Nat} (h : GoalWalk fan_in [0, 1] u ops) :
    (u = 0 ∧ ops = []) ∨ (u = 1 ∧ ops = []) ∨ (u = 2 ∧ ops = [0]) ∨ (u = 2 ∧ ops = [1]) ∨
      (u = 3 ∧ ops = [1]) := by
  induction h with
  | goal hmem =>
    simp at hmem
    rcases hmem with rfl | rfl
    · exact Or.inl ⟨rfl, rfl⟩
    · exact Or.inr (Or.inl ⟨rfl, rfl⟩)
  | @step s u op ops hw hmem ih =>
    rcases ih with ⟨rfl, rfl⟩ | ⟨rfl, rfl⟩ | ⟨rfl, rfl⟩ | ⟨rfl, rfl⟩ | ⟨rfl, rfl⟩
    · simp [fan_in] at hmem
      rcases hmem with ⟨rfl, rfl⟩ | ⟨rfl, rfl⟩
      · exact Or.inr (Or.inr (Or.inl ⟨rfl, rfl⟩))
      · exact Or.inr (Or.inr (Or.inr (Or.inr ⟨rfl, rfl⟩)))
    · simp [fan_in] at hmem
      rcases hmem with ⟨rfl, rfl⟩ | ⟨rfl, rfl⟩
      · exact Or.inr (Or.inr (Or.inr (Or.inr ⟨rfl, rfl⟩)))
      · exact Or.inr (Or.inr (Or.inr (Or.inl ⟨rfl, rfl⟩)))
    · simp [fan_in] at hmem
    · simp [fan_in] at hmem
    · simp [fan_in] at hmem

theorem fan_graph_ok : GraphOk fan_in [0, 1] := by
  constructor
  · intro s t ht
    rcases s with _ | _ | _ | _ | s <;> simp [fan_in] at ht ⊢
    · rcases ht with rfl | rfl <;> simp
    · rcases ht with rfl | rfl <;> simp
  · intro g hg
    simp at hg
    rcases hg with rfl | rfl <;> simp [fan_in]

theorem fan_no_overflow : NoOverflow fan_in [0, 1] (chain_state 3 4).operator_costs 8 := by
  refine ⟨?_, ?_, ?_⟩
  · intro u ops hw hf
    refine ⟨ops, hw, hf, ?_⟩
    rcases fan_walks hw with ⟨-, rfl⟩ | ⟨-, rfl⟩ | ⟨-, rfl⟩ | ⟨-, rfl⟩ | ⟨-, rfl⟩ <;>
      simp [chain_state, walk_cost64]
  · intro s t ht _
    rcases s with _ | _ | _ | _ | s <;> simp [fan_in] at ht
    · rcases ht with rfl | rfl <;> simp [chain_state, INF_COSTS]
    · rcases ht with rfl | rfl <;> simp [chain_state, INF_COSTS]
  · unfold INF_COSTS
    norm_num

theorem fan_consistent : Consistent fan_in fan_out := by
  refine ⟨rfl, ?_, ?_⟩
  · intro u t ht
    have hu : u < 4 := mem_getD_lt ht
    interval_cases u <;> simp [fan_out] at ht
    · rcases ht with rfl | rfl <;> simp [fan_in]
    · rcases ht with rfl | rfl <;> simp [fan_in]
  · intro s t ht
    have hs : s < 4 := mem_getD_lt ht
    interval_cases s <;> simp [fan_in] at ht
    · rcases ht with rfl | rfl <;> simp [fan_out]
    · rcases ht with rfl | rfl <;> simp [fan_out]

theorem fan_reordered (s : Nat) : (fan_in_swapped.getD s []).Perm (fan_in.getD s []) := by
  by_cases hs : s < 4
  · interval_cases s
    · exact List.Perm.swap _ _ _
    · exact List.Perm.swap _ _ _
    · exact List.Perm.refl _
    · exact List.Perm.refl _
  · rw [List.getD_eq_default _ _ (by simp [fan_in_swapped]; omega),
      List.getD_eq_default _ _ (by simp [fan_in]; omega)]

/-- Witness of the amended C23 on the graph `fan_in` with the goals 0 and 1: the
second call iterates over the goals in the order `[1, 0]` and reads the
transitions of `in[0]` and of `in[1]` in the other order. -/
theorem distances_order_independent_witness :
    ∃ sp1 sp2, full_dijkstra true (chain_state 3 4) fan_in [0, 1] (2 ^ 67) = .ok sp1 ∧
      full_dijkstra false (chain_state 3 4) fan_in_swapped [1, 0] (2 ^ 67) = .ok sp2 ∧
      sp2.goal_distances = sp1.goal_distances ∧
      TreeValid sp1 fan_out [0, 1] ∧ TreeValid sp2 fan_out [0, 1] :=
  distances_order_independent true false (chain_state 3 4) (chain_state 3 4) fan_in
    fan_in_swapped fan_out [0, 1] [1, 0] 8 (2 ^ 67) (2 ^ 67) fan_graph_ok fan_no_overflow
    fan_consistent rfl rfl fan_reordered (List.Perm.swap _ _ _) (by decide) (by decide)

/-- C24: `full_dijkstra` returns with an empty `open_queue`, whenever it returns
and from every engine state (it returns on every well-formed graph, given enough
fuel); `dijkstra_from_orphans`, called under its preconditions with either value
of `filter_orphans`, returns with `open_queue` and `candidate_queue` empty and no
true entry in `dirty_candidate`. -/
theorem scratch_buffers_empty (a : Bool) (spF : ShortestPaths) (inF : List Transitions)
    (goalsF : List Nat) (fuelF : Nat) (sp : ShortestPaths) (in0 in_ out : List Transitions)
    (goals : List Nat) (v v2 bound cmax : Nat) (filter_orphans : Bool) (fuel : Nat)
    (hgF : GraphOk inF goalsF) (hfuelF : loop_measure (full_start spF inF goalsF) < fuelF)
    (ht : TreeOk sp in0 goals bound) (hs : SplitOk sp in0 in_ out goals v v2 bound cmax)
    (hfuel : repair_fuel in_.length ≤ fuel) :
    (∀ (a1 : Bool) (sp0 r : ShortestPaths) (in1 : List Transitions) (goals1 : List Nat)
      (fuel1 : Nat), full_dijkstra a1 sp0 in1 goals1 fuel1 = .ok r → r.open_queue = []) ∧
    (∃ r, full_dijkstra a spF inF goalsF fuelF = .ok r ∧ r.open_queue = []) ∧
    (∃ sp1, dijkstra_from_orphans a sp in_ out v v v2 filter_orphans fuel = .ok sp1 ∧
      sp1.open_queue = [] ∧ sp1.candidate_queue = [] ∧
      sp1.dirty_candidate.contains true = false) := by
  refine ⟨?_, ?_, ?_⟩
  · intro a1 sp0 r in1 goals1 fuel1 h
    rw [full_dijkstra_eq] at h
    exact full_loop_empty a1 in1 fuel1 _ _ h
  · obtain ⟨r, r1, -, r3, -⟩ := full_dijkstra_returns a spF inF goalsF hgF fuelF hfuelF
    exact ⟨r, r1, r3⟩
  · obtain ⟨sp1, r1, r2, r3, -⟩ := dijkstra_from_orphans_spec a filter_orphans fuel ht hs hfuel
    exact ⟨sp1, r1, r2.empty, r3.cq, r3.dc⟩

/-- Witness of C24: `full_dijkstra` on the chain `0 -> 1 -> 2` and the split of
scenario S3 with the filter of orphans. -/
theorem scratch_buffers_empty_witness :
    (∀ (a1 : Bool) (sp0 r : ShortestPaths) (in1 : List Transitions) (goals1 : List Nat)
      (fuel1 : Nat), full_dijkstra a1 sp0 in1 goals1 fuel1 = .ok r → r.open_queue = []) ∧
    (∃ r, full_dijkstra true (chain_state 3 4) chain_in [2] 73786976294838206462 = .ok r ∧
      r.open_queue = []) ∧
    (∃ sp1, dijkstra_from_orphans true (chain_state 3 4) split_in split_out 1 1 3 true
        (repair_fuel 4) = .ok sp1 ∧
      sp1.open_queue = [] ∧ sp1.candidate_queue = [] ∧
      sp1.dirty_candidate.contains true = false) :=
  scratch_buffers_empty true (chain_state 3 4) chain_in [2] 73786976294838206462
    (chain_state 3 4) chain_in split_in split_out [2] 1 3 8 4 true (repair_fuel 4)
    chain_graph_ok (by decide) chain_tree_ok split_ok (le_refl _)

/-! ## The redirection of the tree arcs into the split state -/

theorem redirect_pass_one (v u : Nat) (c0 : Nat) (l : List Transition)
    (sp : ShortestPaths) (hu : u < sp.shortest_path.length)
    (hp : ∃ t1, sp.shortest_path.getD u none = some t1 ∧ t1.target_id = v ∧
      sp.operator_costs.getD t1.op_id 0 = c0) :
    (l.foldl (redirect_step v v) sp).operator_costs = sp.operator_costs ∧
    (l.foldl (redirect_step v v) sp).shortest_path.length = sp.shortest_path.length ∧
    ∃ t1, (l.foldl (redirect_step v v) sp).shortest_path.getD u none = some t1 ∧
      t1.target_id = v ∧ sp.operator_costs.getD t1.op_id 0 = c0 := by
  apply list_foldl_inv
    (fun (s : ShortestPaths) => s.operator_costs = sp.operator_costs ∧
      s.shortest_path.length = sp.shortest_path.length ∧
      ∃ t1, s.shortest_path.getD u none = some t1 ∧ t1.target_id = v ∧
        sp.operator_costs.getD t1.op_id 0 = c0)
    (redirect_step v v) _ l sp ⟨rfl, rfl, hp⟩
  intro s t ⟨hc, hl, t1, h1, h2, h3⟩
  obtain ⟨-, kc, -, -, -, -, -, kl, kne, kcase⟩ := redirect_step_spec v v s t
  refine ⟨kc.trans hc, kl.trans hl, ?_⟩
  by_cases htu : t.target_id = u
  · rw [htu] at kcase
    rcases kcase with ⟨k1, -⟩ | ⟨arc, k1, -, k3, k4⟩
    · exact ⟨t1, k1.trans h1, h2, h3⟩
    · rw [h1] at k1
      cases k1
      refine ⟨⟨t.op_id, v⟩, k4 (by rw [hl]; exact hu), rfl, ?_⟩
      dsimp only
      rw [← hc, k3, hc]
      exact h3
  · rw [kne u (fun h => htu h.symm)]
    exact ⟨t1, h1, h2, h3⟩

theorem redirect_pass_two (in_ : List Transitions) (v v2 u : Nat) (c0 : Nat)
    (sp : ShortestPaths) (hu : u < sp.shortest_path.length)
    (hp : ∃ t1, sp.shortest_path.getD u none = some t1 ∧ t1.target_id = v ∧
      sp.operator_costs.getD t1.op_id 0 = c0)
    (h2 : ∃ t2 ∈ in_.getD v2 [], t2.target_id = u ∧ sp.operator_costs.getD t2.op_id 0 = c0) :
    ∃ op, ((in_.getD v2 []).foldl (redirect_step v v2) sp).shortest_path.getD u none
        = some ⟨op, v2⟩ ∧
      (⟨op, u⟩ : Transition) ∈ in_.getD v2 [] ∧ sp.operator_costs.getD op 0 = c0 := by
  have key := foldl_prefix_inv
    (fun (pre : List Transition) (s : ShortestPaths) =>
      s.operator_costs = sp.operator_costs ∧
      s.shortest_path.length = sp.shortest_path.length ∧
      (((∃ t1, s.shortest_path.getD u none = some t1 ∧ t1.target_id = v ∧
          sp.operator_costs.getD t1.op_id 0 = c0) ∧
        ∀ t ∈ pre, ¬ (t.target_id = u ∧ sp.operator_costs.getD t.op_id 0 = c0)) ∨
       ∃ op, s.shortest_path.getD u none = some ⟨op, v2⟩ ∧
        (⟨op, u⟩ : Transition) ∈ in_.getD v2 [] ∧ sp.operator_costs.getD op 0 = c0))
    (redirect_step v v2) (in_.getD v2 [])
    (by
      intro pre t s ht ⟨hc, hl, hcase⟩
      obtain ⟨-, kc, -, -, -, -, -, kl, kne, kcase⟩ := redirect_step_spec v v2 s t
      refine ⟨kc.trans hc, kl.trans hl, ?_⟩
      by_cases htu : t.target_id = u
      · rw [htu] at kcase
        have hmem : (⟨t.op_id, u⟩ : Transition) ∈ in_.getD v2 [] := by
          rw [← htu]
          exact ht
        rcases hcase with ⟨⟨t1, h1, h3, h4⟩, hpre⟩ | ⟨op, h1, h3, h4⟩
        · rcases kcase with ⟨k1, k2⟩ | ⟨arc, k1, -, k3, k4⟩
          · left
            refine ⟨⟨t1, k1.trans h1, h3, h4⟩, ?_⟩
            intro x hx
            rcases List.mem_append.1 hx with hx | hx
            · exact hpre x hx
            · simp only [List.mem_singleton] at hx
              subst hx
              intro hx2
              apply k2 t1 h1
              refine ⟨h3, ?_⟩
              rw [hc, h4]
              exact hx2.2
          · right
            rw [h1] at k1
            cases k1
            refine ⟨t.op_id, k4 (by rw [hl]; exact hu), hmem, ?_⟩
            rw [← hc, k3, hc]
            exact h4
        · right
          rcases kcase with ⟨k1, -⟩ | ⟨arc, k1, -, k3, k4⟩
          · exact ⟨op, k1.trans h1, h3, h4⟩
          · rw [h1] at k1
            cases k1
            refine ⟨t.op_id, k4 (by rw [hl]; exact hu), hmem, ?_⟩
            rw [← hc, k3, hc]
            exact h4
      · have hk := kne u (fun h => htu h.symm)
        rcases hcase with ⟨⟨t1, h1, h3, h4⟩, hpre⟩ | ⟨op, h1, h3, h4⟩
        · left
          refine ⟨⟨t1, hk.trans h1, h3, h4⟩, ?_⟩
          intro x hx
          rcases List.mem_append.1 hx with hx | hx
          · exact hpre x hx
          · simp only [List.mem_singleton] at hx
            subst hx
            exact fun hx2 => htu hx2.1
        · exact Or.inr ⟨op, hk.trans h1, h3, h4⟩)
    sp ⟨rfl, rfl, Or.inl ⟨hp, fun t ht => by simp at ht⟩⟩
  obtain ⟨-, -, hcase⟩ := key
  rcases hcase with ⟨-, hpre⟩ | h
  · obtain ⟨t2, m1, m2, m3⟩ := h2
    exact absurd ⟨m2, m3⟩ (hpre t2 m1)
  · exact h

theorem redirect_pass_keeps (v x w : Nat) (l : List Transition) (sp : ShortestPaths)
    (hw : ∀ t, sp.shortest_path.getD w none = some t → t.target_id ≠ v) :
    (l.foldl (redirect_step v x) sp).shortest_path.getD w none
      = sp.shortest_path.getD w none := by
  apply list_foldl_inv
    (fun (s : ShortestPaths) => s.shortest_path.getD w none = sp.shortest_path.getD w none)
    (redirect_step v x) _ l sp rfl
  intro s t hs
  obtain ⟨-, -, -, -, -, -, -, -, kne, kcase⟩ := redirect_step_spec v x s t
  by_cases htw : t.target_id = w
  · rw [htw] at kcase
    rcases kcase with ⟨k1, -⟩ | ⟨arc, k1, k2, -⟩
    · exact k1.trans hs
    · rw [hs] at k1
      exact absurd k2 (hw arc k1)
  · exact (kne w (fun h => htw h.symm)).trans hs

theorem redirect_arcs_eq (in_ : List Transitions) (v v1 v2 : Nat) (sp : ShortestPaths) :
    redirect_arcs in_ v v1 v2 sp
      = (in_.getD v2 []).foldl (redirect_step v v2)
          ((in_.getD v1 []).foldl (redirect_step v v1) sp) := rfl

theorem split_copy_path (sp : ShortestPaths) (n v v2 w : Nat) (hw : w < n) (hne : w ≠ v2) :
    (split_copy (split_init sp n) v v v2).shortest_path.getD w none
      = sp.shortest_path.getD w none := by
  unfold split_copy split_init
  dsimp only
  rw [getD_set_ne _ _ _ _ _ (Ne.symm hne)]
  exact getD_resize_none _ _ _ hw

/-- C25: in a call with `v1 = v`, let `u` be a state other than the new state `v2`
whose tree arc before the call leads to `v`, and let `in[v2]` hold a transition
from `u` whose operator costs as much as the operator of that tree arc (whether
`in[v1]` holds such a transition too or not). After the loops of lines 174-184
the tree arc of `u` leads to `v2`, by an operator of the same cost that labels an
arc from `u` to `v2`. A state whose
tree arc at the start of the loops is undefined or does not lead to `v` has the
same tree arc after them, and at the start of the loops every state but `v2` has
the tree arc that it had before the call. -/
theorem redirect_prefers_settled (sp : ShortestPaths) (in_ : List Transitions) (v v2 u : Nat)
    (t0 t2 : Transition) (hu : u < in_.length) (hne : u ≠ v2)
    (hp : sp.shortest_path.getD u none = some t0) (hv : t0.target_id = v)
    (h2 : t2 ∈ in_.getD v2 []) (h2u : t2.target_id = u)
    (h2c : sp.operator_costs.getD t2.op_id 0 = sp.operator_costs.getD t0.op_id 0) :
    (∃ op, (redirect_arcs in_ v v v2 (split_copy (split_init sp in_.length) v v v2)).shortest_path.getD
          u none = some ⟨op, v2⟩ ∧
      (⟨op, u⟩ : Transition) ∈ in_.getD v2 [] ∧
      sp.operator_costs.getD op 0 = sp.operator_costs.getD t0.op_id 0) ∧
    (∀ w, (∀ t, (split_copy (split_init sp in_.length) v v v2).shortest_path.getD w none = some t →
        t.target_id ≠ v) →
      (redirect_arcs in_ v v v2 (split_copy (split_init sp in_.length) v v v2)).shortest_path.getD
          w none
        = (split_copy (split_init sp in_.length) v v v2).shortest_path.getD w none) ∧
    (∀ w, w < in_.length → w ≠ v2 →
      (split_copy (split_init sp in_.length) v v v2).shortest_path.getD w none
        = sp.shortest_path.getD w none) := by
  have hlen : (split_copy (split_init sp in_.length) v v v2).shortest_path.length = in_.length := by
    unfold split_copy split_init
    dsimp only
    rw [List.length_set, length_resize]
  have hcost : (split_copy (split_init sp in_.length) v v v2).operator_costs
      = sp.operator_costs := rfl
  refine ⟨?_, ?_, fun w hw hwne => split_copy_path sp _ v v2 w hw hwne⟩
  · rw [redirect_arcs_eq]
    have hstart : ∃ t1, (split_copy (split_init sp in_.length) v v v2).shortest_path.getD u none
        = some t1 ∧ t1.target_id = v ∧
        (split_copy (split_init sp in_.length) v v v2).operator_costs.getD t1.op_id 0
          = sp.operator_costs.getD t0.op_id 0 :=
      ⟨t0, by rw [split_copy_path sp _ v v2 u hu hne]; exact hp, hv, by rw [hcost]⟩
    obtain ⟨p1, p2, p3⟩ := redirect_pass_one v u _ (in_.getD v [])
      (split_copy (split_init sp in_.length) v v v2) (by rw [hlen]; exact hu) hstart
    rw [hcost] at p1 p3
    have := redirect_pass_two in_ v v2 u (sp.operator_costs.getD t0.op_id 0)
      ((in_.getD v []).foldl (redirect_step v v) (split_copy (split_init sp in_.length) v v v2))
      (by rw [p2, hlen]; exact hu) (by rw [p1]; exact p3)
      ⟨t2, h2, h2u, by rw [p1]; exact h2c⟩
    rw [p1] at this
    exact this
  · intro w hw
    rw [redirect_arcs_eq]
    have q1 := redirect_pass_keeps v v w (in_.getD v [])
      (split_copy (split_init sp in_.length) v v v2) hw
    have q2 := redirect_pass_keeps v v2 w (in_.getD v2 [])
      ((in_.getD v []).foldl (redirect_step v v) (split_copy (split_init sp in_.length) v v v2))
      (by rw [q1]; exact hw)
    exact q2.trans q1

/-- Witness of C25: the chain `0 -> 1 -> 2` with costs 3 and 4, state 1 split into
1 and 3, state 0 with an arc of operator 0 to both halves. -/
theorem redirect_prefers_settled_witness :
    (∃ op, (redirect_arcs both_in 1 1 3
          (split_copy (split_init (chain_state 3 4) both_in.length) 1 1 3)).shortest_path.getD
          0 none = some ⟨op, 3⟩ ∧
      (⟨op, 0⟩ : Transition) ∈ both_in.getD 3 [] ∧
      (chain_state 3 4).operator_costs.getD op 0 = (chain_state 3 4).operator_costs.getD 0 0) ∧
    (∀ w, (∀ t, (split_copy (split_init (chain_state 3 4) both_in.length) 1 1 3).shortest_path.getD
          w none = some t → t.target_id ≠ 1) →
      (redirect_arcs both_in 1 1 3
          (split_copy (split_init (chain_state 3 4) both_in.length) 1 1 3)).shortest_path.getD
          w none
        = (split_copy (split_init (chain_state 3 4) both_in.length) 1 1 3).shortest_path.getD
          w none) ∧
    (∀ w, w < both_in.length → w ≠ 3 →
      (split_copy (split_init (chain_state 3 4) both_in.length) 1 1 3).shortest_path.getD w none
        = (chain_state 3 4).shortest_path.getD w none) :=
  redirect_prefers_settled (chain_state 3 4) both_in 1 3 0 ⟨0, 1⟩ ⟨0, 0⟩
    (by decide) (by decide) (by decide) rfl (by decide) rfl rfl

/-! ## The seeding scan of a dirty state -/

theorem foldl_min_le : ∀ (xs : List Nat) (m : Nat),
    xs.foldl min m ≤ m ∧ (∀ c ∈ xs, xs.foldl min m ≤ c) ∧
    (xs.foldl min m = m ∨ xs.foldl min m ∈ xs) := by
  intro xs
  induction xs with
  | nil => intro m; simp
  | cons x xs ih =>
    intro m
    obtain ⟨h1, h2, h3⟩ := ih (min m x)
    simp only [List.foldl_cons, List.mem_cons]
    refine ⟨le_trans h1 (min_le_left _ _), ?_, ?_⟩
    · intro c hc
      rcases hc with rfl | hc
      · exact le_trans h1 (min_le_right _ _)
      · exact h2 c hc
    · rcases h3 with h | h
      · rcases min_choice m x with hm | hm
        · left; rw [h, hm]
        · right; left; rw [h, hm]
      · exact Or.inr (Or.inr h)

theorem saturating_sum_eq (c d : Nat) :
    (if (c != INF_COSTS && d != INF_COSTS) = true then add64 c d else INF_COSTS)
      = saturating_sum c d := by
  unfold saturating_sum
  by_cases h1 : c = INF_COSTS <;> by_cases h2 : d = INF_COSTS <;> simp [h1, h2]

theorem seed_candidates_congr {sp sp1 : ShortestPaths}
    (hd : sp1.goal_distances = sp.goal_distances) (hc : sp1.operator_costs = sp.operator_costs)
    (ts : List Transition) : seed_candidates sp1 ts = seed_candidates sp ts := by
  unfold seed_candidates
  rw [hd, hc]

theorem seed_candidates_cons (sp : ShortestPaths) (t : Transition) (ts : List Transition) :
    seed_candidates sp (t :: ts)
      = if sp.goal_distances.getD t.target_id 0 ≠ DIRTY then
          saturating_sum (sp.operator_costs.getD t.op_id 0)
            (sp.goal_distances.getD t.target_id 0) :: seed_candidates sp ts
        else seed_candidates sp ts := by
  unfold seed_candidates
  rw [List.filter_cons]
  by_cases h : sp.goal_distances.getD t.target_id 0 = DIRTY
  · have hb : (sp.goal_distances.getD t.target_id 0 != DIRTY) = false := by
      rw [h]
      exact bne_self_eq_false _
    rw [hb, if_neg Bool.false_ne_true, if_neg (not_not.2 h)]
  · have hb : (sp.goal_distances.getD t.target_id 0 != DIRTY) = true := by simpa using h
    rw [hb, if_pos rfl, if_pos h, List.map_cons]

theorem seed_scan (a : Bool) (s : Nat) : ∀ (ts : List Transition) (m : Nat) (sp : ShortestPaths),
    (a = true → ∀ t ∈ ts, sp.goal_distances.getD t.target_id 0 ≠ DIRTY →
      sp.operator_costs.getD t.op_id 0 ≠ INF_COSTS) →
    ∃ sp1, Run.foldl (seed_step a s) (m, sp) ts = .ok ((seed_candidates sp ts).foldl min m, sp1) ∧
      sp1.goal_distances = sp.goal_distances ∧ sp1.operator_costs = sp.operator_costs ∧
      sp1.open_queue = sp.open_queue ∧ sp1.task_has_zero_costs = sp.task_has_zero_costs ∧
      sp1.candidate_queue = sp.candidate_queue ∧ sp1.dirty_candidate = sp.dirty_candidate ∧
      sp1.dirty_states = sp.dirty_states ∧
      ∀ u, u ≠ s → sp1.shortest_path.getD u none = sp.shortest_path.getD u none := by
  intro ts
  induction ts with
  | nil =>
    intro m sp _
    exact ⟨sp, rfl, rfl, rfl, rfl, rfl, rfl, rfl, rfl, fun _ _ => rfl⟩
  | cons t ts ih =>
    intro m sp hfin
    have hfin1 : a = true → ∀ x ∈ ts, sp.goal_distances.getD x.target_id 0 ≠ DIRTY →
        sp.operator_costs.getD x.op_id 0 ≠ INF_COSTS :=
      fun ha x hx => hfin ha x (List.mem_cons_of_mem _ hx)
    simp only [Run.foldl]
    rw [seed_candidates_cons]
    by_cases hd : sp.goal_distances.getD t.target_id 0 = DIRTY
    · have hstep : seed_step a s (m, sp) t = .ok (m, sp) := by
        unfold seed_step
        dsimp only
        have hb : (sp.goal_distances.getD t.target_id 0 != DIRTY) = false := by
          rw [hd]
          exact bne_self_eq_false _
        rw [hb, if_neg Bool.false_ne_true]
      rw [hstep]
      simp only [Run.bind, hd, ne_eq, not_true_eq_false, if_false]
      exact ih m sp hfin1
    · have hcheck : check a (sp.operator_costs.getD t.op_id 0 != INF_COSTS) 293
          (Run.ok (m, sp)) = Run.ok (m, sp) := by
        cases a
        · exact check_off _ _ _
        · have := hfin rfl t (List.mem_cons_self _ _) hd
          have hb : (sp.operator_costs.getD t.op_id 0 != INF_COSTS) = true := by simpa using this
          rw [hb, check_true]
      have hnew := saturating_sum_eq (sp.operator_costs.getD t.op_id 0)
        (sp.goal_distances.getD t.target_id 0)
      simp only [ne_eq, hd, not_false_eq_true, if_true, List.foldl_cons]
      by_cases hlt : saturating_sum (sp.operator_costs.getD t.op_id 0)
          (sp.goal_distances.getD t.target_id 0) < m
      · have hstep : seed_step a s (m, sp) t
            = .ok (saturating_sum (sp.operator_costs.getD t.op_id 0)
                (sp.goal_distances.getD t.target_id 0),
              { sp with shortest_path := sp.shortest_path.set s (some ⟨t.op_id, t.target_id⟩) }) := by
          unfold seed_step
          dsimp only
          have hb : (sp.goal_distances.getD t.target_id 0 != DIRTY) = true := by simpa using hd
          rw [if_pos hb, hnew, if_pos hlt]
          cases a
          · exact check_off _ _ _
          · have := hfin rfl t (List.mem_cons_self _ _) hd
            have hb2 : (sp.operator_costs.getD t.op_id 0 != INF_COSTS) = true := by
              simpa using this
            rw [hb2, check_true]
        rw [hstep]
        simp only [Run.bind]
        rw [min_eq_right (le_of_lt hlt)]
        obtain ⟨sp1, r1, r2, r3, r4, r5, r6, r7, r8, r9⟩ := ih
          (saturating_sum (sp.operator_costs.getD t.op_id 0)
            (sp.goal_distances.getD t.target_id 0))
          { sp with shortest_path := sp.shortest_path.set s (some ⟨t.op_id, t.target_id⟩) } hfin1
        rw [seed_candidates_congr rfl rfl] at r1
        refine ⟨sp1, r1, r2, r3, r4, r5, r6, r7, r8, ?_⟩
        intro u hu
        rw [r9 u hu]
        exact getD_set_ne _ _ _ _ _ (Ne.symm hu)
      · have hstep : seed_step a s (m, sp) t = .ok (m, sp) := by
          unfold seed_step
          dsimp only
          have hb : (sp.goal_distances.getD t.target_id 0 != DIRTY) = true := by simpa using hd
          rw [if_pos hb, hnew, if_neg hlt]
          exact hcheck
        rw [hstep]
        simp only [Run.bind]
        rw [min_eq_left (not_lt.1 hlt)]
        exact ih m sp hfin1

theorem seed_step_total (s : Nat) (m : Nat) (sp : ShortestPaths) (t : Transition)
    (hok : sp.goal_distances.getD t.target_id 0 ≠ DIRTY →
      sp.operator_costs.getD t.op_id 0 ≠ INF_COSTS) :
    ∃ m1 sp1, seed_step true s (m, sp) t = .ok (m1, sp1) ∧
      sp1.goal_distances = sp.goal_distances ∧ sp1.operator_costs = sp.operator_costs := by
  obtain ⟨sp1, r1, r2, r3, -⟩ := seed_scan true s [t] m sp
    (fun _ x hx => by
      simp only [List.mem_singleton] at hx
      subst hx
      exact hok)
  simp only [Run.foldl] at r1
  obtain ⟨acc, h1, h2⟩ := Run.bind_eq_ok r1
  simp only [Run.ok.injEq] at h2
  exact ⟨_, sp1, h2 ▸ h1, r2, r3⟩

theorem seed_scan_aborts (s : Nat) : ∀ (ts : List Transition) (m : Nat) (sp : ShortestPaths),
    (∃ t ∈ ts, sp.goal_distances.getD t.target_id 0 ≠ DIRTY ∧
      sp.operator_costs.getD t.op_id 0 = INF_COSTS) →
    Run.foldl (seed_step true s) (m, sp) ts = .abort 293 := by
  intro ts
  induction ts with
  | nil =>
    intro m sp h
    obtain ⟨t, ht, -⟩ := h
    simp at ht
  | cons t ts ih =>
    intro m sp h
    simp only [Run.foldl]
    by_cases hbad : sp.goal_distances.getD t.target_id 0 ≠ DIRTY ∧
        sp.operator_costs.getD t.op_id 0 = INF_COSTS
    · have hstep : seed_step true s (m, sp) t = .abort 293 := by
        unfold seed_step
        dsimp only
        have hb : (sp.goal_distances.getD t.target_id 0 != DIRTY) = true := by simpa using hbad.1
        rw [if_pos hb, hbad.2]
        simp [check]
      rw [hstep]
      rfl
    · obtain ⟨m1, sp1, k1, k2, k3⟩ := seed_step_total s m sp t
        (fun h1 h2 => hbad ⟨h1, h2⟩)
      rw [k1]
      simp only [Run.bind]
      apply ih
      obtain ⟨x, hx, hx2⟩ := h
      rcases List.mem_cons.1 hx with rfl | hx
      · exact absurd hx2 hbad
      · exact ⟨x, hx, by rw [k2, k3]; exact hx2⟩

/-- C29 fails with assertions compiled in. The chain `0 -> 1 -> 2` with costs 3
and 4 has one more arc `1 -> 0` whose operator 2 has the external cost `INF`.
After the split of state 1 into 1 and 3, state 1 is dirty and its only outgoing
transition leads to state 0, which is not dirty, by the operator of cost
`INF_COSTS`: the seeding scan aborts at the assertion of line 293, for both
values of `filter_orphans`. Without assertions the call returns and state 1 gets
the distance `INF_COSTS`. -/
theorem seeding_aborts_on_infinite_cost :
    ShortestPaths.new true [3, 4, 2147483647]
      = .ok ⟨false, [3, 4, INF_COSTS], [], [], [], [], [], []⟩
    ∧ full_dijkstra true ⟨false, [3, 4, INF_COSTS], [], [], [], [], [], []⟩ inf_chain_in [2] 20
      = .ok inf_state
    ∧ dijkstra_from_orphans true inf_state inf_in inf_out 1 1 3 false 20 = .abort 293
    ∧ dijkstra_from_orphans true inf_state inf_in inf_out 1 1 3 true 20 = .abort 293
    ∧ (dijkstra_from_orphans false inf_state inf_in inf_out 1 1 3 false 20).bind
        (fun sp1 => .ok sp1.goal_distances) = .ok [7, INF_COSTS, 0, 4] := by
  decide

/-- C29 as amended: let `s` be a dirty state. If assertions are compiled out, or
no transition of `out[s]` with a target that is not `DIRTY` has an operator of
cost `INF_COSTS`, the seeding scan of `s` returns; `goal_distances[s]` is then
the minimum `m` of the saturating sums (`INF_COSTS` if the operator cost or the
distance is `INF_COSTS`, the 64-bit sum otherwise) over the transitions of
`out[s]` whose target is not `DIRTY`, and `INF_COSTS` if there is none; `s` is
pushed onto `open_queue` with the key `m` exactly when `m` is not `INF_COSTS`,
and no other distance changes. If assertions are compiled in and some transition
of `out[s]` with a target that is not `DIRTY` has an operator of cost
`INF_COSTS`, the scan aborts at the assertion of line 293. -/
theorem seeding_minimum (a : Bool) (out : List Transitions) (sp : ShortestPaths) (s : Nat)
    (hs : sp.goal_distances.getD s 0 = DIRTY) :
    ((a = true → ∀ t ∈ out.getD s [], sp.goal_distances.getD t.target_id 0 ≠ DIRTY →
        sp.operator_costs.getD t.op_id 0 ≠ INF_COSTS) →
      ∃ sp1, seed_state a out sp s = .ok sp1 ∧
        sp1.goal_distances
          = sp.goal_distances.set s ((seed_candidates sp (out.getD s [])).foldl min INF_COSTS) ∧
        sp1.open_queue
          = (if (seed_candidates sp (out.getD s [])).foldl min INF_COSTS ≠ INF_COSTS
              then sp.open_queue.push
                ((seed_candidates sp (out.getD s [])).foldl min INF_COSTS) s
              else sp.open_queue) ∧
        (∀ c ∈ seed_candidates sp (out.getD s []),
          (seed_candidates sp (out.getD s [])).foldl min INF_COSTS ≤ c) ∧
        ((seed_candidates sp (out.getD s [])).foldl min INF_COSTS = INF_COSTS ∨
          (seed_candidates sp (out.getD s [])).foldl min INF_COSTS
            ∈ seed_candidates sp (out.getD s []))) ∧
    ((∃ t ∈ out.getD s [], sp.goal_distances.getD t.target_id 0 ≠ DIRTY ∧
        sp.operator_costs.getD t.op_id 0 = INF_COSTS) →
      seed_state true out sp s = .abort 293) := by
  have hcheck : (sp.goal_distances.getD s 0 == DIRTY) = true := by simpa using hs
  refine ⟨?_, ?_⟩
  · intro hfin
    obtain ⟨sp1, r1, r2, r3, r4, -⟩ := seed_scan a s (out.getD s []) INF_COSTS sp hfin
    obtain ⟨-, m2, m3⟩ := foldl_min_le (seed_candidates sp (out.getD s [])) INF_COSTS
    unfold seed_state
    rw [hcheck, check_true, r1]
    simp only [Run.bind]
    by_cases hm : (seed_candidates sp (out.getD s [])).foldl min INF_COSTS = INF_COSTS
    · have hb : ¬ (((seed_candidates sp (out.getD s [])).foldl min INF_COSTS != INF_COSTS) = true) := by
        simpa using hm
      rw [if_neg hb]
      refine ⟨_, rfl, by rw [r2], ?_, m2, m3⟩
      rw [if_neg (by simpa using hm)]
      exact r4
    · have hb : ((seed_candidates sp (out.getD s [])).foldl min INF_COSTS != INF_COSTS) = true := by
        simpa using hm
      rw [if_pos hb]
      refine ⟨_, rfl, by rw [r2], ?_, m2, m3⟩
      rw [if_pos hm]
      dsimp only
      rw [r4]
  · intro hbad
    unfold seed_state
    rw [hcheck, check_true, seed_scan_aborts s _ _ _ hbad]
    rfl

/-- Witness of the amended C29: the seeding scan of the dirty state 1 whose only
outgoing transition leads to the goal 2 by operator 1. -/
theorem seeding_minimum_witness :
    ∃ sp1, seed_state true chain_out
        ⟨false, [3, 4], [], [], [7, DIRTY, 0], [], [1], [some ⟨0, 1⟩, none, none]⟩ 1 = .ok sp1 ∧
      sp1.goal_distances = [7, 4, 0] ∧ sp1.open_queue = [(4, 1)] := by
  obtain ⟨sp1, r1, r2, r3, -⟩ := (seeding_minimum true chain_out
    ⟨false, [3, 4], [], [], [7, DIRTY, 0], [], [1], [some ⟨0, 1⟩, none, none]⟩ 1 rfl).1
    (by decide)
  exact ⟨sp1, r1, by rw [r2]; decide, by rw [r3]; decide⟩

/-! ## One iteration of the candidate loop -/

theorem can_reconnect_iff (sp : ShortestPaths) (s : Nat) (t : Transition) :
    can_reconnect sp s t = true ↔ ReconnectArc sp s t := by
  unfold can_reconnect ReconnectArc
  simp only [Bool.and_eq_true, bne_iff_ne, ne_eq, beq_iff_eq]
  tauto

/-- C27: one iteration of the loop over the candidate queue (lines 207-250), with
the popped candidate `s` (the assertions of lines 213-215 hold). If `out[s]` holds
a transition that passes the test of lines 221-225 (`ReconnectArc`), the loop
goes on in the state in which `shortest_path[s]` is the first such transition in
the order of `out[s]` and the flag of `s` is cleared: `goal_distances`,
`dirty_states` and the rest of the candidate queue are as they were, so `s` is
not marked dirty and no predecessor is enqueued. If `out[s]` holds no such
transition, `s` is marked dirty (`goal_distances[s] = DIRTY`, `shortest_path[s]`
undefined, `s` appended to `dirty_states`) and the loop goes on after the
insertion of its tree children. -/
theorem salvage_reconnection (a : Bool) (in_ out : List Transitions) (fuel : Nat)
    (sp : ShortestPaths) (k s : Nat) (q : HeapQueue)
    (hpop : sp.candidate_queue.pop = some ((k, s), q))
    (hchk : a = true → sp.dirty_candidate.getD s false = true ∧
      sp.goal_distances.getD s 0 ≠ INF_COSTS ∧ sp.goal_distances.getD s 0 ≠ DIRTY) :
    ((∃ t ∈ out.getD s [], ReconnectArc sp s t) →
      ∃ pre t post, out.getD s [] = pre ++ t :: post ∧
        (∀ x ∈ pre, ¬ ReconnectArc sp s x) ∧ ReconnectArc sp s t ∧
        candidate_loop a in_ out (fuel + 1) sp
          = candidate_loop a in_ out fuel
              { sp with
                candidate_queue := q
                shortest_path := sp.shortest_path.set s (some t)
                dirty_candidate := sp.dirty_candidate.set s false }) ∧
    ((¬ ∃ t ∈ out.getD s [], ReconnectArc sp s t) →
      candidate_loop a in_ out (fuel + 1) sp
        = ((mark_dirty a { sp with candidate_queue := q } s).bind fun sp2 =>
            candidate_loop a in_ out fuel
              { (in_.getD s []).foldl (push_candidate s) sp2 with
                dirty_candidate :=
                  ((in_.getD s []).foldl (push_candidate s) sp2).dirty_candidate.set s false }) ∧
      (s ∉ sp.dirty_states →
        mark_dirty a { sp with candidate_queue := q } s
          = .ok { sp with
              candidate_queue := q
              goal_distances := sp.goal_distances.set s DIRTY
              shortest_path := sp.shortest_path.set s none
              dirty_states := sp.dirty_states ++ [s] })) := by
  have hc1 : check a (sp.dirty_candidate.getD s false) 213 = fun (r : Run ShortestPaths) => r := by
    funext r
    cases a
    · exact check_off _ _ _
    · rw [(hchk rfl).1, check_true]
  have hc2 : check a (sp.goal_distances.getD s 0 != INF_COSTS) 214
      = fun (r : Run ShortestPaths) => r := by
    funext r
    cases a
    · exact check_off _ _ _
    · have hb : (sp.goal_distances.getD s 0 != INF_COSTS) = true := by
        simpa using (hchk rfl).2.1
      rw [hb, check_true]
  have hc3 : check a (sp.goal_distances.getD s 0 != DIRTY) 215
      = fun (r : Run ShortestPaths) => r := by
    funext r
    cases a
    · exact check_off _ _ _
    · have hb : (sp.goal_distances.getD s 0 != DIRTY) = true := by
        simpa using (hchk rfl).2.2
      rw [hb, check_true]
  have hcan : can_reconnect { sp with candidate_queue := q } s = can_reconnect sp s := by
    exact congrFun (@can_reconnect_congr { sp with candidate_queue := q } sp rfl rfl) s
  refine ⟨?_, ?_⟩
  · intro hex
    cases hfind : (out.getD s []).find? (can_reconnect sp s) with
    | none =>
      obtain ⟨t, ht, hr⟩ := hex
      have := List.find?_eq_none.1 hfind t ht
      exact absurd ((can_reconnect_iff sp s t).2 hr) this
    | some t =>
      obtain ⟨h1, pre, post, h2, h3⟩ := List.find?_eq_some.1 hfind
      refine ⟨pre, t, post, h2, ?_, (can_reconnect_iff sp s t).1 h1, ?_⟩
      · intro x hx hr
        have := h3 x hx
        rw [(can_reconnect_iff sp s x).2 hr] at this
        simp at this
      · conv_lhs => unfold candidate_loop
        rw [hpop]
        dsimp only
        rw [hc1, hc2, hc3, hcan, hfind]
  · intro hno
    have hfind : (out.getD s []).find? (can_reconnect sp s) = none := by
      rw [List.find?_eq_none]
      intro x hx hc
      exact hno ⟨x, hx, (can_reconnect_iff sp s x).1 hc⟩
    refine ⟨?_, ?_⟩
    · conv_lhs => unfold candidate_loop
      rw [hpop]
      dsimp only
      rw [hc1, hc2, hc3, hcan, hfind]
    · intro hnot
      unfold mark_dirty
      dsimp only
      have hb : (!(sp.dirty_states.contains s)) = true := by simpa using hnot
      rw [hb, check_true]

/-- Witness of C27: the candidate 1 of the chain `0 -> 1 -> 2` is reconnected by
its transition to the goal. -/
theorem salvage_reconnection_witness :
    ∃ pre t post, chain_out.getD 1 [] = pre ++ t :: post ∧
      (∀ x ∈ pre, ¬ ReconnectArc candidate_state 1 x) ∧ ReconnectArc candidate_state 1 t ∧
      candidate_loop true chain_in chain_out (1 + 1) candidate_state
        = candidate_loop true chain_in chain_out 1
            { candidate_state with
              candidate_queue := []
              shortest_path := candidate_state.shortest_path.set 1 (some t)
              dirty_candidate := candidate_state.dirty_candidate.set 1 false } :=
  (salvage_reconnection true chain_in chain_out 1 candidate_state 4 1 [] rfl
    (fun _ => ⟨by decide, by decide, by decide⟩)).1
    ⟨⟨1, 2⟩, by decide, by decide, by decide, by decide, by decide⟩

/-! ## The set of orphans of the depth-first marking -/

theorem DfsMark.dirty_count {sp0 sp : ShortestPaths} {in_ : List Transitions} {v1 : Nat}
    (h : DfsMark sp0 sp in_ v1) : sp.dirty_states.length ≤ in_.length :=
  nodup_length_le _ _ h.ds_nodup (fun x hx => ((h.ds_iff x).1 hx).1)

theorem DfsMark.lt_of_dirty {sp0 sp : ShortestPaths} {in_ : List Transitions} {v1 u : Nat}
    (h : DfsMark sp0 sp in_ v1) (hu : sp.goal_distances.getD u 0 = DIRTY) : u < in_.length := by
  by_contra hc
  rw [List.getD_eq_default _ _ (by rw [h.dist_len]; omega)] at hu
  unfold DIRTY at hu
  omega

theorem mark_dirty_mark (a : Bool) {sp0 sp : ShortestPaths} {in_ : List Transitions}
    {v1 s : Nat} (h : DfsMark sp0 sp in_ v1) (hs : s < in_.length)
    (hd : sp.goal_distances.getD s 0 ≠ DIRTY) (hr : ParentChain sp0 v1 s) :
    ∃ sp1, mark_dirty a sp s = .ok sp1 ∧ DfsMark sp0 sp1 in_ v1 ∧
      sp1.goal_distances = sp.goal_distances.set s DIRTY ∧
      sp1.dirty_states = sp.dirty_states ++ [s] := by
  have hnot : s ∉ sp.dirty_states := fun hc => hd ((h.ds_iff s).1 hc).2
  have hsd : s < sp.goal_distances.length := by rw [h.dist_len]; exact hs
  have hsp : s < sp.shortest_path.length := by rw [h.path_len]; exact hs
  have hc : (!(sp.dirty_states.contains s)) = true := by simpa using hnot
  refine ⟨{ sp with
      goal_distances := sp.goal_distances.set s DIRTY
      shortest_path := sp.shortest_path.set s none
      dirty_states := sp.dirty_states ++ [s] }, ?_, ?_, rfl, rfl⟩
  · unfold mark_dirty
    dsimp only
    rw [hc, check_true]
  · refine ⟨h.zero, h.costs, h.oq, h.cq, h.dc, by simpa using h.dist_len,
      by simpa using h.path_len, ?_, ?_, ?_, ?_, ?_⟩
    · exact List.Nodup.append h.ds_nodup (List.nodup_singleton s) (by simpa using hnot)
    · intro u
      dsimp only
      simp only [List.mem_append, List.mem_singleton]
      by_cases hus : s = u
      · subst hus
        rw [getD_set_eq _ _ _ _ hsd]
        constructor
        · intro _; exact ⟨hs, rfl⟩
        · intro _; exact Or.inr rfl
      · rw [getD_set_ne _ _ _ _ _ hus, h.ds_iff u]
        constructor
        · rintro (h1 | h1)
          · exact h1
          · exact absurd h1.symm hus
        · exact Or.inl
    · intro u hu
      dsimp only at hu ⊢
      by_cases hus : s = u
      · subst hus
        rw [getD_set_eq _ _ _ _ hsd] at hu
        exact absurd rfl hu
      · rw [getD_set_ne _ _ _ _ _ hus] at hu ⊢
        rw [getD_set_ne _ _ _ _ _ hus]
        exact h.keep u hu
    · intro u hdu
      dsimp only at hdu ⊢
      by_cases hus : s = u
      · subst hus
        rw [getD_set_eq _ _ _ _ hsp]
      · rw [getD_set_ne _ _ _ _ _ hus] at hdu ⊢
        exact h.dirty_none u hdu
    · intro u hdu
      dsimp only at hdu
      by_cases hus : s = u
      · subst hus
        exact hr
      · rw [getD_set_ne _ _ _ _ _ hus] at hdu
        exact h.reach u hdu

theorem dfs_mark_spec (a : Bool) {sp0 : ShortestPaths} {in_ : List Transitions} {v1 : Nat}
    (hloop : a = true → ∀ s t, t ∈ in_.getD s [] → t.target_id ≠ s) :
    ∀ (fuel : Nat) (sp : ShortestPaths) (s : Nat), DfsMark sp0 sp in_ v1 →
      s < in_.length → sp.goal_distances.getD s 0 ≠ DIRTY → ParentChain sp0 v1 s →
      in_.length - sp.dirty_states.length < fuel →
      ∃ sp1, mark_orphaned_predecessors a in_ fuel sp s = .ok sp1 ∧
        DfsMark sp0 sp1 in_ v1 ∧ sp1.goal_distances.getD s 0 = DIRTY ∧
        (∀ u, sp.goal_distances.getD u 0 = DIRTY → sp1.goal_distances.getD u 0 = DIRTY) ∧
        (∀ x, sp1.goal_distances.getD x 0 = DIRTY → sp.goal_distances.getD x 0 ≠ DIRTY →
          PrevDone sp0 sp1 in_ x) := by
  intro fuel
  induction fuel with
  | zero => intro sp s _ _ _ _ h; omega
  | succ fuel ih =>
    intro sp s hi hs hd hr hfuel
    obtain ⟨sp1, m1, m2, m3, m5⟩ := mark_dirty_mark a hi hs hd hr
    have hsd : s < sp.goal_distances.length := by rw [hi.dist_len]; exact hs
    have hs1 : sp1.goal_distances.getD s 0 = DIRTY := by
      rw [m3, getD_set_eq _ _ _ _ hsd]
    have hmono1 : ∀ u, sp.goal_distances.getD u 0 = DIRTY →
        sp1.goal_distances.getD u 0 = DIRTY := by
      intro u hu
      rw [m3]
      by_cases hus : s = u
      · subst hus; exact absurd hu hd
      · rw [getD_set_ne _ _ _ _ _ hus]; exact hu
    have hnew1 : ∀ x, x ≠ s → sp1.goal_distances.getD x 0 = DIRTY →
        sp.goal_distances.getD x 0 = DIRTY := by
      intro x hx h1
      rw [m3, getD_set_ne _ _ _ _ _ (Ne.symm hx)] at h1
      exact h1
    have hlen1 : in_.length - sp1.dirty_states.length < fuel := by
      have h8 := m2.dirty_count
      rw [m5] at h8 ⊢
      simp only [List.length_append, List.length_singleton] at h8 ⊢
      omega
    have key := run_foldl_prefix
      (fun (done : List Transition) (sp2 : ShortestPaths) =>
        DfsMark sp0 sp2 in_ v1 ∧
        (∀ u, sp1.goal_distances.getD u 0 = DIRTY → sp2.goal_distances.getD u 0 = DIRTY) ∧
        (∀ x, x ≠ s → sp2.goal_distances.getD x 0 = DIRTY →
          sp.goal_distances.getD x 0 ≠ DIRTY → PrevDone sp0 sp2 in_ x) ∧
        (∀ t ∈ done, sp2.goal_distances.getD t.target_id 0 = DIRTY ∨
          ∀ t1, sp0.shortest_path.getD t.target_id none = some t1 → t1.target_id ≠ s) ∧
        in_.length - sp2.dirty_states.length < fuel)
      (fun (sp2 : ShortestPaths) (t : Transition) =>
        let prev := t.target_id
        check a (prev != s) 115 <|
        if sp2.goal_distances.getD prev 0 != DIRTY &&
            (sp2.shortest_path.getD prev none).map Transition.target_id == some s then
          mark_orphaned_predecessors a in_ fuel sp2 prev
        else .ok sp2)
      (in_.getD s [])
      (by
        intro pre t sp2 ht ⟨p1, p2, p3, p4, p5⟩
        have hchk : ∀ (r : Run ShortestPaths), check a (t.target_id != s) 115 r = r := by
          intro r
          cases a
          · exact check_off _ _ _
          · have hne : (t.target_id != s) = true := by simpa using hloop rfl s t ht
            rw [hne, check_true]
        dsimp only
        rw [hchk]
        by_cases hc : (sp2.goal_distances.getD t.target_id 0 != DIRTY &&
            (sp2.shortest_path.getD t.target_id none).map Transition.target_id == some s) = true
        · rw [if_pos hc]
          simp only [Bool.and_eq_true, bne_iff_ne, ne_eq, beq_iff_eq] at hc
          obtain ⟨hc1, hc2⟩ := hc
          have hprev : t.target_id < in_.length := by
            by_contra hge
            rw [List.getD_eq_default _ _ (by rw [p1.path_len]; omega)] at hc2
            simp at hc2
          have hchain : ParentChain sp0 v1 t.target_id := by
            cases hpath : sp2.shortest_path.getD t.target_id none with
            | none => rw [hpath] at hc2; simp at hc2
            | some t1 =>
              rw [hpath] at hc2
              simp only [Option.map_some', Option.some.injEq] at hc2
              have h0 := (p1.keep _ hc1).2
              rw [hpath] at h0
              refine ParentChain.step h0.symm ?_
              rw [hc2]
              exact hr
          obtain ⟨sp4, r1, r2, r3, r4, r5⟩ := ih sp2 t.target_id p1 hprev hc1 hchain p5
          refine ⟨sp4, r1, r2, fun u hu => r4 u (p2 u hu), ?_, ?_, ?_⟩
          · intro x hx h1 h2
            by_cases h3 : sp2.goal_distances.getD x 0 = DIRTY
            · intro t' ht'
              rcases p3 x hx h3 h2 t' ht' with h4 | h4
              · exact Or.inl (r4 _ h4)
              · exact Or.inr h4
            · exact r5 x h1 h3
          · intro t' ht'
            rcases List.mem_append.1 ht' with h1 | h1
            · rcases p4 t' h1 with h2 | h2
              · exact Or.inl (r4 _ h2)
              · exact Or.inr h2
            · simp only [List.mem_singleton] at h1
              subst h1
              exact Or.inl r3
          · have h1 := r2.dirty_count
            have h2 : sp2.dirty_states.length ≤ sp4.dirty_states.length := by
              apply (List.subperm_of_subset p1.ds_nodup _).length_le
              intro x hx
              obtain ⟨hx1, hx2⟩ := (p1.ds_iff x).1 hx
              exact (r2.ds_iff x).2 ⟨hx1, r4 x hx2⟩
            omega
        · rw [if_neg hc]
          refine ⟨sp2, rfl, p1, p2, p3, ?_, p5⟩
          intro t' ht'
          rcases List.mem_append.1 ht' with h1 | h1
          · exact p4 t' h1
          · simp only [List.mem_singleton] at h1
            subst h1
            by_cases hd2 : sp2.goal_distances.getD t'.target_id 0 = DIRTY
            · exact Or.inl hd2
            · right
              intro t1 ht1 hts
              apply hc
              simp only [Bool.and_eq_true, bne_iff_ne, ne_eq, beq_iff_eq]
              refine ⟨hd2, ?_⟩
              rw [(p1.keep _ hd2).2, ht1]
              simp [hts])
      sp1
      ⟨m2, fun u hu => hu, fun x hx h1 h2 => absurd (hnew1 x hx h1) h2,
        fun t ht => by simp at ht, hlen1⟩
    obtain ⟨sp5, k1, k2, k3, k4, k5, -⟩ := key
    refine ⟨sp5, ?_, k2, k3 s hs1, fun u hu => k3 u (hmono1 u hu), ?_⟩
    · unfold mark_orphaned_predecessors
      simp only [m1, Run.bind]
      exact k1
    · intro x h1 h2
      by_cases hxs : x = s
      · subst hxs
        exact k5
      · exact k4 x hxs h1 h2

theorem dfs_mark_start {sp : ShortestPaths} {in_ : List Transitions} (v1 : Nat)
    (hdl : sp.goal_distances.length = in_.length) (hpl : sp.shortest_path.length = in_.length)
    (hds : sp.dirty_states = []) (hnd : ∀ u, sp.goal_distances.getD u 0 ≠ DIRTY) :
    DfsMark sp sp in_ v1 := by
  refine ⟨rfl, rfl, rfl, rfl, rfl, hdl, hpl, by rw [hds]; exact List.nodup_nil, ?_,
    fun _ _ => ⟨rfl, rfl⟩, fun u hu => absurd hu (hnd u), fun u hu => absurd hu (hnd u)⟩
  intro u
  rw [hds]
  simp only [List.not_mem_nil, false_iff, not_and]
  intro _
  exact hnd u

theorem dfs_mark_complete {sp sp1 : ShortestPaths} {in_ : List Transitions} {v1 : Nat}
    (hrev : ∀ u t, sp.shortest_path.getD u none = some t →
      (⟨t.op_id, u⟩ : Transition) ∈ in_.getD t.target_id [])
    (hv : sp1.goal_distances.getD v1 0 = DIRTY)
    (hdone : ∀ x, sp1.goal_distances.getD x 0 = DIRTY → PrevDone sp sp1 in_ x) {u : Nat}
    (h : ParentChain sp v1 u) : sp1.goal_distances.getD u 0 = DIRTY := by
  induction h with
  | root => exact hv
  | step hp _ ih =>
    rcases hdone _ ih _ (hrev _ _ hp) with h1 | h1
    · exact h1
    · exact absurd rfl (h1 _ hp)

/-- C26 fails with assertions compiled in when `in[v1]` holds a self-loop: in the
engine state of scenario S5 (states 0 and 1 with a self-loop each, goal 1, no
state dirty, no tree arc defined) `mark_orphaned_predecessors(in, 0)` aborts at
the assertion of line 115; with assertions compiled out it returns and marks
state 0. -/
theorem mark_orphaned_aborts_on_loop :
    (∀ u t, loops_state.shortest_path.getD u none = some t →
      (⟨t.op_id, u⟩ : Transition) ∈ loops_in.getD t.target_id [])
    ∧ (∀ u, u < 2 → loops_state.goal_distances.getD u 0 ≠ DIRTY)
    ∧ loops_state.dirty_states = []
    ∧ mark_orphaned_predecessors true loops_in 5 loops_state 0 = .abort 115
    ∧ (mark_orphaned_predecessors false loops_in 5 loops_state 0).bind
        (fun sp1 => .ok (sp1.goal_distances, sp1.dirty_states)) = .ok ([DIRTY, 0], [0]) := by
  refine ⟨?_, by decide, by decide, by decide, by decide⟩
  intro u t h
  by_cases hu : u < 2
  · interval_cases u <;> simp [loops_state] at h
  · rw [List.getD_eq_default _ _ (by simp [loops_state]; omega)] at h
    cases h

/-- C26 as amended: let `in` be a backward adjacency of a graph with `n` states
whose sources are states and which, if assertions are compiled in, holds no
self-loop; let the vectors of the engine have length `n`, let every defined tree
arc `shortest_path[u] = (op, t)` have its reverse `(op, u)` in `in[t]`, let no
distance be `DIRTY` and `dirty_states` be empty. Then
`mark_orphaned_predecessors(in, v1)` returns for `v1 < n` (with fuel above `n`),
and afterwards the states with distance `DIRTY` are exactly the states whose
parent chain reaches `v1`, `v1` included; each of them occurs exactly once in
`dirty_states`, which holds no other state, and has an undefined tree arc; every
other state has the distance and the tree arc that it had, and the other members
of the engine are unchanged. -/
theorem unfiltered_orphan_set (a : Bool) (in_ : List Transitions) (sp : ShortestPaths)
    (v1 fuel : Nat)
    (hloop : a = true → ∀ s t, t ∈ in_.getD s [] → t.target_id ≠ s)
    (hdl : sp.goal_distances.length = in_.length) (hpl : sp.shortest_path.length = in_.length)
    (hrev : ∀ u t, sp.shortest_path.getD u none = some t →
      (⟨t.op_id, u⟩ : Transition) ∈ in_.getD t.target_id [])
    (hnd : ∀ u, sp.goal_distances.getD u 0 ≠ DIRTY) (hds : sp.dirty_states = [])
    (hv : v1 < in_.length) (hfuel : in_.length < fuel) :
    ∃ sp1, mark_orphaned_predecessors a in_ fuel sp v1 = .ok sp1 ∧
      (∀ u, sp1.goal_distances.getD u 0 = DIRTY ↔ ParentChain sp v1 u) ∧
      (∀ u, ParentChain sp v1 u →
        sp1.dirty_states.count u = 1 ∧ sp1.shortest_path.getD u none = none) ∧
      (∀ u, u ∈ sp1.dirty_states → ParentChain sp v1 u) ∧
      (∀ u, ¬ ParentChain sp v1 u →
        sp1.goal_distances.getD u 0 = sp.goal_distances.getD u 0 ∧
        sp1.shortest_path.getD u none = sp.shortest_path.getD u none) ∧
      sp1.goal_distances.length = sp.goal_distances.length ∧
      sp1.shortest_path.length = sp.shortest_path.length ∧
      sp1.operator_costs = sp.operator_costs ∧ sp1.open_queue = sp.open_queue ∧
      sp1.candidate_queue = sp.candidate_queue ∧ sp1.dirty_candidate = sp.dirty_candidate := by
  obtain ⟨sp1, r1, r2, r3, -, r5⟩ := dfs_mark_spec a hloop fuel sp v1
    (dfs_mark_start v1 hdl hpl hds hnd) hv (hnd v1) ParentChain.root
    (by rw [hds]; simpa using hfuel)
  have hiff : ∀ u, sp1.goal_distances.getD u 0 = DIRTY ↔ ParentChain sp v1 u :=
    fun u => ⟨r2.reach u, fun h => dfs_mark_complete hrev r3 (fun x hx => r5 x hx (hnd x)) h⟩
  refine ⟨sp1, r1, hiff, ?_, ?_, ?_, by rw [r2.dist_len, hdl], by rw [r2.path_len, hpl],
    r2.costs, r2.oq, r2.cq, r2.dc⟩
  · intro u hu
    have hd := (hiff u).2 hu
    refine ⟨?_, r2.dirty_none u hd⟩
    exact List.count_eq_one_of_mem r2.ds_nodup ((r2.ds_iff u).2 ⟨r2.lt_of_dirty hd, hd⟩)
  · intro u hu
    exact (hiff u).1 ((r2.ds_iff u).1 hu).2
  · intro u hu
    exact r2.keep u (fun hd => hu ((hiff u).1 hd))

theorem chain_reverse (u : Nat) (t : Transition)
    (h : (chain_state 3 4).shortest_path.getD u none = some t) :
    (⟨t.op_id, u⟩ : Transition) ∈ chain_in.getD t.target_id [] := by
  by_cases hu : u < 3
  · interval_cases u <;> simp [chain_state] at h <;> subst h <;> simp [chain_in]
  · rw [List.getD_eq_default _ _ (by simp [chain_state]; omega)] at h
    cases h

theorem chain_not_dirty (u : Nat) : (chain_state 3 4).goal_distances.getD u 0 ≠ DIRTY := by
  by_cases hu : u < 3
  · interval_cases u <;> decide
  · rw [List.getD_eq_default _ _ (by simp [chain_state]; omega)]
    decide

theorem chain_no_loop (s : Nat) (t : Transition) (h : t ∈ chain_in.getD s []) :
    t.target_id ≠ s := by
  have hs : s < 3 := mem_getD_lt h
  interval_cases s <;> simp [chain_in] at h <;> subst h <;> decide

/-- Witness of the amended C26: marking from state 1 of the chain `0 -> 1 -> 2`. -/
theorem unfiltered_orphan_set_witness :
    ∃ sp1, mark_orphaned_predecessors true chain_in 4 (chain_state 3 4) 1 = .ok sp1 ∧
      (∀ u, sp1.goal_distances.getD u 0 = DIRTY ↔ ParentChain (chain_state 3 4) 1 u) ∧
      (∀ u, ParentChain (chain_state 3 4) 1 u →
        sp1.dirty_states.count u = 1 ∧ sp1.shortest_path.getD u none = none) ∧
      (∀ u, u ∈ sp1.dirty_states → ParentChain (chain_state 3 4) 1 u) ∧
      (∀ u, ¬ ParentChain (chain_state 3 4) 1 u →
        sp1.goal_distances.getD u 0 = (chain_state 3 4).goal_distances.getD u 0 ∧
        sp1.shortest_path.getD u none = (chain_state 3 4).shortest_path.getD u none) ∧
      sp1.goal_distances.length = (chain_state 3 4).goal_distances.length ∧
      sp1.shortest_path.length = (chain_state 3 4).shortest_path.length ∧
      sp1.operator_costs = (chain_state 3 4).operator_costs ∧
      sp1.open_queue = (chain_state 3 4).open_queue ∧
      sp1.candidate_queue = (chain_state 3 4).candidate_queue ∧
      sp1.dirty_candidate = (chain_state 3 4).dirty_candidate :=
  unfiltered_orphan_set true chain_in (chain_state 3 4) 1 4 (fun _ => chain_no_loop) rfl rfl
    chain_reverse chain_not_dirty rfl (by decide) (by decide)

/-! ## The states that the repair leaves untouched -/

theorem getD_set_true_false {l : List Bool} {i u : Nat}
    (h : (l.set i true).getD u false = false) : l.getD u false = false := by
  by_cases hiu : i = u
  · subst hiu
    by_cases hi : i < l.length
    · rw [getD_set_eq _ _ _ _ hi] at h
      cases h
    · rw [List.set_eq_of_length_le (by omega)] at h
      exact h
  · rw [getD_set_ne _ _ _ _ _ hiu] at h
    exact h

theorem push_candidates_queue (s : Nat) (l : List Transition) (sp : ShortestPaths) :
    (l.foldl (push_candidate s) sp).goal_distances = sp.goal_distances ∧
    (l.foldl (push_candidate s) sp).shortest_path = sp.shortest_path ∧
    (l.foldl (push_candidate s) sp).dirty_states = sp.dirty_states ∧
    (l.foldl (push_candidate s) sp).operator_costs = sp.operator_costs ∧
    (∀ x ∈ (l.foldl (push_candidate s) sp).candidate_queue,
      x ∈ sp.candidate_queue ∨ PushedBy sp s x) := by
  have key := list_foldl_inv
    (fun (cur : ShortestPaths) =>
      cur.goal_distances = sp.goal_distances ∧ cur.shortest_path = sp.shortest_path ∧
      cur.dirty_states = sp.dirty_states ∧ cur.operator_costs = sp.operator_costs ∧
      (∀ u, cur.dirty_candidate.getD u false = false → sp.dirty_candidate.getD u false = false) ∧
      (∀ x ∈ cur.candidate_queue, x ∈ sp.candidate_queue ∨ PushedBy sp s x))
    (push_candidate s)
    (by
      intro cur t ⟨h1, h2, h3, h4, h5, h6⟩
      unfold push_candidate
      dsimp only
      by_cases hc : (!cur.dirty_candidate.getD t.target_id false &&
          cur.goal_distances.getD t.target_id 0 != DIRTY &&
          (cur.shortest_path.getD t.target_id none).map Transition.target_id == some s) = true
      · rw [if_pos hc]
        simp only [Bool.and_eq_true, Bool.not_eq_true', bne_iff_ne, ne_eq, beq_iff_eq] at hc
        obtain ⟨⟨hc1, hc2⟩, hc3⟩ := hc
        refine ⟨h1, h2, h3, h4, fun u hu => h5 u (getD_set_true_false hu), ?_⟩
        intro x hx
        dsimp only at hx
        rcases (HeapQueue.mem_push _ _ _ _).1 hx with h | h
        · exact h6 x h
        · right
          rw [h]
          refine ⟨?_, h5 _ hc1, ?_, ?_⟩
          · dsimp only
            rw [h1]
          · dsimp only
            rw [← h1]
            exact hc2
          · dsimp only
            rw [← h2]
            exact hc3
      · rw [if_neg hc]
        exact ⟨h1, h2, h3, h4, h5, h6⟩)
    l sp ⟨rfl, rfl, rfl, rfl, fun _ h => h, fun x hx => Or.inl hx⟩
  obtain ⟨k1, k2, k3, k4, -, k6⟩ := key
  exact ⟨k1, k2, k3, k4, k6⟩

theorem mark_dirty_eq {a : Bool} {sp sp2 : ShortestPaths} {s : Nat}
    (h : mark_dirty a sp s = .ok sp2) :
    sp2 = { sp with
      goal_distances := sp.goal_distances.set s DIRTY
      shortest_path := sp.shortest_path.set s none
      dirty_states := sp.dirty_states ++ [s] } := by
  unfold mark_dirty at h
  dsimp only at h
  obtain ⟨-, h⟩ := check_eq_ok h
  simp only [Run.ok.injEq] at h
  exact h.symm

theorem split_copy_path_new (sp : ShortestPaths) (n v v2 : Nat) (hv : v < n) (hv2 : v2 < n) :
    (split_copy (split_init sp n) v v v2).shortest_path.getD v2 none
      = sp.shortest_path.getD v none := by
  unfold split_copy split_init
  dsimp only
  rw [getD_set_eq _ _ _ _ (by rw [length_resize]; exact hv2)]
  exact getD_resize_none _ _ _ hv

theorem split_start_path {sp : ShortestPaths} {in_ : List Transitions} {v v2 w : Nat}
    (hw : w < in_.length) (hne : w ≠ v2)
    (hnv : ∀ t, sp.shortest_path.getD w none = some t → t.target_id ≠ v) :
    (split_start sp in_ v v2).shortest_path.getD w none = sp.shortest_path.getD w none := by
  have h0 := split_copy_path sp in_.length v v2 w hw hne
  have hA : ∀ t, (split_copy (split_init sp in_.length) v v v2).shortest_path.getD w none
      = some t → t.target_id ≠ v := by
    intro t h
    rw [h0] at h
    exact hnv t h
  unfold split_start
  rw [redirect_arcs_eq]
  have q1 := redirect_pass_keeps v v w (in_.getD v [])
    (split_copy (split_init sp in_.length) v v v2) hA
  have q2 := redirect_pass_keeps v v2 w (in_.getD v2 [])
    ((in_.getD v []).foldl (redirect_step v v) (split_copy (split_init sp in_.length) v v v2))
    (by rw [q1]; exact hA)
  exact (q2.trans q1).trans h0

theorem inherit_target {sp : ShortestPaths} {in0 in_ out : List Transitions}
    {goals : List Nat} {v v2 bound cmax : Nat} (ht : TreeOk sp in0 goals bound)
    (hs : SplitOk sp in0 in_ out goals v v2 bound cmax) :
    ∃ t, sp.shortest_path.getD v none = some t ∧ t.target_id ≠ v ∧
      sp.goal_distances.getD t.target_id 0 < sp.goal_distances.getD v 0 := by
  obtain ⟨t, t1, t2, -⟩ := hs.inherit
  have hvl : v < in0.length := by rw [hs.old_len]; exact hs.v_lt
  have hfin : sp.goal_distances.getD v 0 ≠ INF_COSTS := by
    intro hc
    rw [ht.inf v hvl hc] at t1
    cases t1
  obtain ⟨t', p1, -, -, p4⟩ := ht.tree v hvl hs.v_goal hfin
  rw [t1] at p1
  cases p1
  have hpos := hs.pos _ _ (hs.cons.fwd _ _ t2)
  dsimp only at hpos
  refine ⟨t, t1, ?_, by omega⟩
  intro hc
  rw [hc] at p4
  omega

theorem split_start_path_new {sp : ShortestPaths} {in0 in_ out : List Transitions}
    {goals : List Nat} {v v2 bound cmax : Nat} (ht : TreeOk sp in0 goals bound)
    (hs : SplitOk sp in0 in_ out goals v v2 bound cmax) :
    (split_start sp in_ v v2).shortest_path.getD v2 none = sp.shortest_path.getD v none := by
  have hn := hs.new_len
  have hv := hs.v_lt
  have h0 := split_copy_path_new sp in_.length v v2 (by omega) (by omega)
  obtain ⟨t, t1, t2, -⟩ := inherit_target ht hs
  have hA : ∀ x, (split_copy (split_init sp in_.length) v v v2).shortest_path.getD v2 none
      = some x → x.target_id ≠ v := by
    intro x h
    rw [h0, t1] at h
    cases h
    exact t2
  unfold split_start
  rw [redirect_arcs_eq]
  have q1 := redirect_pass_keeps v v v2 (in_.getD v [])
    (split_copy (split_init sp in_.length) v v v2) hA
  have q2 := redirect_pass_keeps v v2 v2 (in_.getD v2 [])
    ((in_.getD v []).foldl (redirect_step v v) (split_copy (split_init sp in_.length) v v v2))
    (by rw [q1]; exact hA)
  exact (q2.trans q1).trans h0

theorem chain_dist {sp sp3 : ShortestPaths} {in0 in_ out : List Transitions}
    {goals : List Nat} {v v2 bound cmax : Nat}
    (hs : SplitOk sp in0 in_ out goals v v2 bound cmax)
    (hr : AfterRedirect sp sp3 in_ goals v v2) {u : Nat} (h : ParentChain sp3 v u) :
    u = v ∨ (u < in_.length ∧ sp3.goal_distances.getD v 0 < sp3.goal_distances.getD u 0) := by
  induction h with
  | root => exact Or.inl rfl
  | @step u t hp _ ih =>
    by_cases huv : u = v
    · exact Or.inl huv
    · right
      have hu : u < in_.length := by
        by_contra hc
        rw [List.getD_eq_default _ _ (by rw [hr.path_len]; omega)] at hp
        cases hp
      have hg : u ∉ goals := by
        intro hc
        rw [hr.goal u hc] at hp
        cases hp
      have hfin : sp3.goal_distances.getD u 0 ≠ INF_COSTS := by
        intro hc
        rw [hr.inf u hu hc] at hp
        cases hp
      obtain ⟨t', p1, p2, p3, p4⟩ := hr.tree u hu hg hfin huv
      rw [hp] at p1
      cases p1
      have hpos := hs.pos _ _ p3
      dsimp only at hpos
      rw [hr.costs] at p4
      refine ⟨hu, ?_⟩
      rcases ih with h1 | h1
      · rw [h1] at p4
        omega
      · omega

theorem not_chain_new {sp sp3 : ShortestPaths} {in0 in_ out : List Transitions}
    {goals : List Nat} {v v2 bound cmax : Nat}
    (hs : SplitOk sp in0 in_ out goals v v2 bound cmax)
    (hr : AfterRedirect sp sp3 in_ goals v v2) : ¬ ParentChain sp3 v v2 := by
  intro h
  have hn := hs.new_len
  have hv := hs.v_lt
  rcases chain_dist hs hr h with h1 | ⟨-, h1⟩
  · omega
  · rw [hr.dist v2 (by omega), hr.dist v (by omega)] at h1
    unfold split_origin at h1
    rw [if_pos rfl, if_neg (by omega)] at h1
    omega

theorem chain_old {sp : ShortestPaths} {in0 in_ out : List Transitions}
    {goals : List Nat} {v v2 bound cmax : Nat} (ht : TreeOk sp in0 goals bound)
    (hs : SplitOk sp in0 in_ out goals v v2 bound cmax) {u : Nat}
    (h : ParentChain (split_start sp in_ v v2) v u) : u ≠ v2 → ParentChain sp v u := by
  have hr := split_start_spec ht hs
  induction h with
  | root => exact fun _ => ParentChain.root
  | @step u t hp _ ih =>
    intro hne
    have hu : u < in_.length := by
      by_contra hc
      rw [List.getD_eq_default _ _ (by rw [hr.path_len]; omega)] at hp
      cases hp
    by_cases hch : ∃ t0, sp.shortest_path.getD u none = some t0 ∧ t0.target_id = v
    · obtain ⟨t0, h1, h2⟩ := hch
      exact ParentChain.step h1 (h2 ▸ ParentChain.root)
    · have hsame := split_start_path hu hne (fun t0 h1 h2 => hch ⟨t0, h1, h2⟩)
      rw [hsame] at hp
      have hul : u < in0.length := by
        have := hs.new_len
        rw [hs.old_len]
        omega
      have hg : u ∉ goals := by
        intro hc
        rw [(ht.goal u hc).2.2] at hp
        cases hp
      have hfin : sp.goal_distances.getD u 0 ≠ INF_COSTS := by
        intro hc
        rw [ht.inf u hul hc] at hp
        cases hp
      obtain ⟨t', p1, p2, -⟩ := ht.tree u hul hg hfin
      rw [hp] at p1
      cases p1
      rw [hs.old_len] at p2
      exact ParentChain.step hp (ih (by omega))

theorem untouched_init {sp3 : ShortestPaths} (n v : Nat) (hcq : sp3.candidate_queue = []) :
    Untouched sp3 v (candidate_init sp3 n v) := by
  intro u hu
  refine ⟨⟨rfl, rfl⟩, ?_⟩
  intro k hk
  unfold candidate_init at hk
  dsimp only at hk
  rw [hcq] at hk
  simp only [HeapQueue.push, List.nil_append, List.mem_singleton, Prod.mk.injEq] at hk
  exact hu (hk.2 ▸ ParentChain.root)

theorem untouched_step {a : Bool} {sp3 sp sp1 : ShortestPaths} {in_ out : List Transitions}
    {v k s : Nat} {q : HeapQueue} (hpop : sp.candidate_queue.pop = some ((k, s), q))
    (hstep : CandStep a in_ out sp s q sp1) (hJ : Untouched sp3 v sp) :
    Untouched sp3 v sp1 := by
  obtain ⟨p1, -, -⟩ := HeapQueue.pop_spec hpop
  have hmem : (k, s) ∈ sp.candidate_queue := (p1 _).2 (Or.inl rfl)
  have hchain : ParentChain sp3 v s := by
    by_contra hc
    exact (hJ s hc).2 k hmem
  intro u hu
  have hus : s ≠ u := fun h => hu (h ▸ hchain)
  obtain ⟨⟨j1, j2⟩, j3⟩ := hJ u hu
  have hq : ∀ k1, (k1, u) ∉ q := fun k1 h => j3 k1 ((p1 _).2 (Or.inr h))
  rcases hstep with ⟨t, -, h2⟩ | ⟨-, sp2, h2, h3⟩
  · rw [h2]
    refine ⟨⟨j1, ?_⟩, hq⟩
    dsimp only
    rw [getD_set_ne _ _ _ _ _ hus]
    exact j2
  · have h2e := mark_dirty_eq h2
    obtain ⟨f1, f2, -, -, f5⟩ := push_candidates_queue s (in_.getD s []) sp2
    have hd2 : sp2.goal_distances.getD u 0 = sp.goal_distances.getD u 0 := by
      rw [h2e]
      exact getD_set_ne _ _ _ _ _ hus
    have hp2 : sp2.shortest_path.getD u none = sp.shortest_path.getD u none := by
      rw [h2e]
      exact getD_set_ne _ _ _ _ _ hus
    rw [h3]
    refine ⟨⟨?_, ?_⟩, ?_⟩
    · dsimp only
      rw [f1, hd2]
      exact j1
    · dsimp only
      rw [f2, hp2]
      exact j2
    · intro k1 hk1
      dsimp only at hk1
      rcases f5 _ hk1 with h | h
      · rw [h2e] at h
        exact hq k1 h
      · obtain ⟨-, -, -, h4⟩ := h
        dsimp only at h4
        rw [hp2, j2] at h4
        cases hp : sp3.shortest_path.getD u none with
        | none => rw [hp] at h4; cases h4
        | some t =>
          rw [hp] at h4
          simp only [Option.map_some', Option.some.injEq] at h4
          exact hu (ParentChain.step hp (h4 ▸ hchain))

theorem dijkstra_from_orphans_trace (a : Bool) {sp : ShortestPaths}
    {in0 in_ out : List Transitions} {goals : List Nat} {v v2 bound cmax : Nat}
    (filter_orphans : Bool) (fuel : Nat) (ht : TreeOk sp in0 goals bound)
    (hs : SplitOk sp in0 in_ out goals v v2 bound cmax)
    (hfuel : repair_fuel in_.length ≤ fuel)
    (J : List (Nat × HeapQueue × HeapQueue) → ShortestPaths → Prop)
    (hJ : ∀ log sp5 k s q sp1, CandInv (split_start sp in_ v v2) sp5 in_ goals none →
      sp5.candidate_queue.pop = some ((k, s), q) → CandStep a in_ out sp5 s q sp1 →
      J log sp5 → J (log ++ [(s, q, sp1.candidate_queue)]) sp1)
    (hJ0 : J [] (candidate_init (split_start sp in_ v v2) in_.length v)) :
    ∃ sp6 sp1, dijkstra_from_orphans a sp in_ out v v v2 filter_orphans fuel = .ok sp1 ∧
      FullPost in_ goals sp1 ∧ TreeOk sp1 in_ goals bound ∧
      AfterMark (split_start sp in_ v v2) sp6 in_ goals ∧ Frame sp6 sp1 ∧
      (∀ u, u < in_.length → sp6.goal_distances.getD u 0 ≠ DIRTY → SameAt sp6 sp1 u) ∧
      (∀ u, ¬ ParentChain (split_start sp in_ v v2) v u →
        SameAt (split_start sp in_ v v2) sp6 u) ∧
      (filter_orphans = true →
        candidate_loop a in_ out fuel (candidate_init (split_start sp in_ v v2) in_.length v)
          = .ok sp6 ∧
        J (candidate_trace a in_ out fuel
          (candidate_init (split_start sp in_ v v2) in_.length v)) sp6) := by
  have hv := hs.v_lt
  have hn := hs.new_len
  have hr := split_start_spec ht hs
  have h137 : (in_.length == out.length) = true := by simpa using hs.cons.len
  have hold : (split_init sp in_.length).shortest_path.getD v none
      = sp.shortest_path.getD v none := by
    unfold split_init
    dsimp only
    exact getD_resize_lt _ _ _ _ _ (by rw [ht.path_len, hs.old_len]; exact hv) (by omega)
  obtain ⟨t, t1, t2, t3⟩ := hs.inherit
  have h1s : ((out.getD v []).any fun x =>
      some x == (split_init sp in_.length).shortest_path.getD v none) = false := by
    rw [hold, t1, List.any_eq_false]
    intro x hx hc
    simp only [beq_iff_eq, Option.some.injEq] at hc
    exact t3 (hc ▸ hx)
  have h2s : ((out.getD v2 []).any fun x =>
      some x == (split_init sp in_.length).shortest_path.getD v none) = true := by
    rw [hold, t1, List.any_eq_true]
    exact ⟨t, t2, by simp⟩
  have hfuel2 : in_.length * (in_.length + 1) + 1 < fuel ∧ in_.length < fuel := by
    unfold repair_fuel at hfuel
    have h3 : (in_.length + 1) * (in_.length + 1)
        = in_.length * (in_.length + 1) + in_.length + 1 := by ring
    constructor <;> omega
  unfold dijkstra_from_orphans
  rw [h137, check_true]
  dsimp only
  rw [h1s, h2s]
  simp only [Bool.xor_true, Bool.not_false, check_true]
  have hsp3 : redirect_arcs in_ v v v2 (split_copy (split_init sp in_.length) v v v2)
      = split_start sp in_ v v2 := rfl
  rw [hsp3]
  cases filter_orphans
  · simp only [Bool.false_eq_true, if_false]
    obtain ⟨hb, hnd⟩ := hr.mark_base ht
    obtain ⟨sp6, m1, m2, -, -, -⟩ := dfs_mark_spec a (fun _ => hs.noloop) fuel
      (split_start sp in_ v v2) v
      (dfs_mark_start v hr.dist_len hr.path_len hr.ds hnd) (by omega) (hnd v)
      ParentChain.root (by rw [hr.ds]; simpa using hfuel2.2)
    obtain ⟨sp6', n1, n2⟩ := mark_unfiltered_spec a ht hs hr fuel hfuel2.2
    rw [m1] at n1
    cases n1
    rw [m1]
    simp only [Run.bind]
    obtain ⟨sp1, q1, q2, q3, -, -, q6, q7⟩ := repair_rest a ht hs hr n2 fuel hfuel
    refine ⟨sp6, sp1, q1, q2, q3, n2, q6, q7, ?_, fun h => by cases h⟩
    intro u hu
    exact m2.keep u (fun hd => hu (m2.reach u hd))
  · simp only [if_true]
    obtain ⟨sp6, m1, m2, m3, m4, m5⟩ := mark_filtered_carries a ht hs hr fuel hfuel2.1
      (fun log sp5 => Untouched (split_start sp in_ v v2) v sp5 ∧ J log sp5)
      (fun log sp5 k s q sp1 hi hpop hstep hj =>
        ⟨untouched_step hpop hstep hj.1, hJ log sp5 k s q sp1 hi hpop hstep hj.2⟩)
      ⟨untouched_init _ _ (by rw [hr.cq]; exact ht.cq), hJ0⟩
    rw [m1]
    simp only [Run.bind]
    obtain ⟨sp1, q1, q2, q3, -, -, q6, q7⟩ := repair_rest a ht hs hr m2 fuel hfuel
    exact ⟨sp6, sp1, q1, q2, q3, m2, q6, q7, fun u hu => (m4 u hu).1, fun _ => ⟨m3, m5⟩⟩

/-- C21: for every call of `dijkstra_from_orphans` made under its preconditions
(`TreeOk`, `SplitOk`, enough fuel, either value of `filter_orphans`) the call
returns, and every state `u` other than `v2` whose parent chain in the tree
before the call does not reach `v` (`u` is not `v` and no ancestor of `u` is `v`)
has the same `goal_distances[u]` and the same `shortest_path[u]` after the call
as before it. -/
theorem repair_frame (a : Bool) (sp : ShortestPaths) (in0 in_ out : List Transitions)
    (goals : List Nat) (v v2 bound cmax : Nat) (filter_orphans : Bool) (fuel : Nat)
    (ht : TreeOk sp in0 goals bound) (hs : SplitOk sp in0 in_ out goals v v2 bound cmax)
    (hfuel : repair_fuel in_.length ≤ fuel) :
    ∃ sp1, dijkstra_from_orphans a sp in_ out v v v2 filter_orphans fuel = .ok sp1 ∧
      ∀ u, u ≠ v2 → ¬ ParentChain sp v u →
        sp1.goal_distances.getD u 0 = sp.goal_distances.getD u 0 ∧
        sp1.shortest_path.getD u none = sp.shortest_path.getD u none := by
  obtain ⟨sp6, sp1, r1, r2, -, r4, -, r6, r7, -⟩ := dijkstra_from_orphans_trace a
    filter_orphans fuel ht hs hfuel (fun _ _ => True) (fun _ _ _ _ _ _ _ _ _ _ => trivial) trivial
  have hr := split_start_spec ht hs
  have hn := hs.new_len
  refine ⟨sp1, r1, ?_⟩
  intro u hne hch
  by_cases hu : u < in_.length
  · have h36 := r7 u (fun hc => hch (chain_old ht hs hc hne))
    have hd3 : (split_start sp in_ v v2).goal_distances.getD u 0
        = sp.goal_distances.getD u 0 := by
      rw [hr.dist u hu]
      unfold split_origin
      rw [if_neg hne]
    have hp3 := @split_start_path sp in_ v v2 u hu hne
      (fun t0 h1 h2 => hch (ParentChain.step h1 (h2 ▸ ParentChain.root)))
    have hnd : sp6.goal_distances.getD u 0 ≠ DIRTY := by
      rw [h36.1, hd3]
      exact ht.nodirty u
    have h61 := r6 u hu hnd
    exact ⟨(h61.1.trans h36.1).trans hd3, (h61.2.trans h36.2).trans hp3⟩
  · rw [List.getD_eq_default _ _ (by rw [r2.inv.len]; omega),
      List.getD_eq_default _ _ (by rw [ht.dist_len, hs.old_len]; omega),
      List.getD_eq_default _ _ (by rw [r2.inv.plen]; omega),
      List.getD_eq_default _ _ (by rw [ht.path_len, hs.old_len]; omega)]
    exact ⟨rfl, rfl⟩

/-- Witness of C21: in scenario S3 (the chain `0 -> 1 -> 2`, state 1 split into 1
and 3) the goal state 2 keeps its distance and its tree arc. -/
theorem repair_frame_witness :
    ∃ sp1, dijkstra_from_orphans true (chain_state 3 4) split_in split_out 1 1 3 true
        (repair_fuel 4) = .ok sp1 ∧
      ∀ u, u ≠ 3 → ¬ ParentChain (chain_state 3 4) 1 u →
        sp1.goal_distances.getD u 0 = (chain_state 3 4).goal_distances.getD u 0 ∧
        sp1.shortest_path.getD u none = (chain_state 3 4).shortest_path.getD u none :=
  repair_frame true (chain_state 3 4) chain_in split_in split_out [2] 1 3 8 4 true
    (repair_fuel 4) chain_tree_ok split_ok (le_refl _)

/-- C22: for every call of `dijkstra_from_orphans` made under its preconditions
the call returns, `goal_distances[v2]` is then the distance that `v` had before
the call and `shortest_path[v2]` the tree arc that `v` had before the call, and
`v2` is not in `dirty_states`: it has not been marked dirty, and no relaxation
has changed it. -/
theorem new_state_settled (a : Bool) (sp : ShortestPaths) (in0 in_ out : List Transitions)
    (goals : List Nat) (v v2 bound cmax : Nat) (filter_orphans : Bool) (fuel : Nat)
    (ht : TreeOk sp in0 goals bound) (hs : SplitOk sp in0 in_ out goals v v2 bound cmax)
    (hfuel : repair_fuel in_.length ≤ fuel) :
    ∃ sp1, dijkstra_from_orphans a sp in_ out v v v2 filter_orphans fuel = .ok sp1 ∧
      sp1.goal_distances.getD v2 0 = sp.goal_distances.getD v 0 ∧
      sp1.shortest_path.getD v2 none = sp.shortest_path.getD v none ∧
      v2 ∉ sp1.dirty_states := by
  obtain ⟨sp6, sp1, r1, -, -, r4, r5, r6, r7, -⟩ := dijkstra_from_orphans_trace a
    filter_orphans fuel ht hs hfuel (fun _ _ => True) (fun _ _ _ _ _ _ _ _ _ _ => trivial) trivial
  have hr := split_start_spec ht hs
  have hn := hs.new_len
  have hv2 : v2 < in_.length := by omega
  have h36 := r7 v2 (not_chain_new hs hr)
  have hd3 : (split_start sp in_ v v2).goal_distances.getD v2 0
      = sp.goal_distances.getD v 0 := by
    rw [hr.dist v2 hv2]
    unfold split_origin
    rw [if_pos rfl]
  have hnd : sp6.goal_distances.getD v2 0 ≠ DIRTY := by
    rw [h36.1, hd3]
    exact ht.nodirty v
  have h61 := r6 v2 hv2 hnd
  refine ⟨sp1, r1, (h61.1.trans h36.1).trans hd3,
    (h61.2.trans h36.2).trans (split_start_path_new ht hs), ?_⟩
  rw [r5.ds]
  intro hmem
  exact hnd ((r4.base.ds_iff v2).1 hmem).2

/-- Witness of C22 in scenario S3, with the filter of orphans and without. -/
theorem new_state_settled_witness :
    ∃ sp1, dijkstra_from_orphans true (chain_state 3 4) split_in split_out 1 1 3 false
        (repair_fuel 4) = .ok sp1 ∧
      sp1.goal_distances.getD 3 0 = (chain_state 3 4).goal_distances.getD 1 0 ∧
      sp1.shortest_path.getD 3 none = (chain_state 3 4).shortest_path.getD 1 none ∧
      3 ∉ sp1.dirty_states :=
  new_state_settled true (chain_state 3 4) chain_in split_in split_out [2] 1 3 8 4 false
    (repair_fuel 4) chain_tree_ok split_ok (le_refl _)

/-! ## The order of the candidate queue -/

theorem old_arc_cost {sp : ShortestPaths} {in0 in_ out : List Transitions}
    {goals : List Nat} {v v2 bound cmax : Nat} (ht : TreeOk sp in0 goals bound)
    (hs : SplitOk sp in0 in_ out goals v v2 bound cmax) {y : Nat} {t : Transition}
    (hp : sp.shortest_path.getD y none = some t)
    (harc : (⟨t.op_id, y⟩ : Transition) ∈ in0.getD t.target_id []) :
    1 ≤ sp.operator_costs.getD t.op_id 0 ∧ sp.operator_costs.getD t.op_id 0 ≠ INF_COSTS := by
  have hnew : ∃ s' u', (⟨t.op_id, u'⟩ : Transition) ∈ in_.getD s' [] := by
    by_cases hyv : y = v
    · obtain ⟨t', t1, t2, -⟩ := hs.inherit
      rw [hyv, t1] at hp
      cases hp
      exact ⟨_, _, hs.cons.fwd _ _ t2⟩
    · by_cases htv : t.target_id = v
      · rw [htv] at harc
        rcases hs.arc_split y t.op_id harc hyv with h | h
        · exact ⟨_, _, h⟩
        · exact ⟨_, _, h⟩
      · exact ⟨_, _, hs.arc_kept _ _ _ harc htv hyv⟩
  obtain ⟨s', u', h⟩ := hnew
  have h1 := hs.pos _ _ h
  have h2 := (split_ctx ht hs).cost_lt h
  dsimp only at h1 h2
  refine ⟨h1, ?_⟩
  unfold DIRTY at h2
  unfold INF_COSTS
  omega

theorem old_tree_sound {sp : ShortestPaths} {in0 in_ out : List Transitions}
    {goals : List Nat} {v v2 bound cmax : Nat} (ht : TreeOk sp in0 goals bound)
    (hs : SplitOk sp in0 in_ out goals v v2 bound cmax) :
    ∀ d y, y < in0.length → sp.goal_distances.getD y 0 = d → d ≠ INF_COSTS →
      ∃ ops, GoalWalk in0 goals y ops ∧ FiniteOps sp.operator_costs ops ∧
        walk_cost64 sp.operator_costs ops = d := by
  intro d
  induction d using Nat.strong_induction_on with
  | _ d ih =>
    intro y hy hyd hfin
    by_cases hg : y ∈ goals
    · have h1 := (ht.goal y hg).2.1
      rw [hyd] at h1
      exact ⟨[], GoalWalk.goal hg, (by intro op hop; cases hop), by rw [h1]; rfl⟩
    · obtain ⟨t, t1, t2, t3, t4⟩ := ht.tree y hy hg (by rw [hyd]; exact hfin)
      obtain ⟨c1, c2⟩ := old_arc_cost ht hs t1 t3
      rw [hyd] at t4
      have hw := ht.word y
      rw [hyd] at hw
      obtain ⟨ops, w1, w2, w3⟩ := ih (sp.goal_distances.getD t.target_id 0) (by omega)
        t.target_id t2 rfl (by omega)
      refine ⟨t.op_id :: ops, GoalWalk.step w1 t3, FiniteOps.cons c2 w2, ?_⟩
      rw [walk_cost64_cons, w3]
      omega

theorem old_triangle {sp : ShortestPaths} {in0 in_ out : List Transitions}
    {goals : List Nat} {v v2 bound cmax : Nat} (ht : TreeOk sp in0 goals bound)
    (hs : SplitOk sp in0 in_ out goals v v2 bound cmax) {x y op : Nat}
    (harc : (⟨op, x⟩ : Transition) ∈ in0.getD y [])
    (hc : sp.operator_costs.getD op 0 ≠ INF_COSTS) :
    sp.goal_distances.getD x 0 ≤ sp.operator_costs.getD op 0 + sp.goal_distances.getD y 0 := by
  by_cases hfin : sp.goal_distances.getD y 0 = INF_COSTS
  · have := ht.word x
    omega
  · obtain ⟨ops, w1, w2, w3⟩ := old_tree_sound ht hs _ y (mem_getD_lt harc) rfl hfin
    have := ht.optimal x (op :: ops) (GoalWalk.step w1 harc) (FiniteOps.cons hc w2)
    rw [walk_cost64_cons, w3] at this
    exact this

theorem pushed_greater {sp sp3 sp5 sp2 : ShortestPaths} {in0 in_ out : List Transitions}
    {goals : List Nat} {v v2 bound cmax s : Nat} {q : HeapQueue} {x : Nat × Nat}
    (hs : SplitOk sp in0 in_ out goals v v2 bound cmax)
    (hr : AfterRedirect sp sp3 in_ goals v v2)
    (hi : CandInv sp3 sp5 in_ goals none) (hsl : s < in_.length)
    (h2 : sp2 = { sp5 with
      candidate_queue := q
      goal_distances := sp5.goal_distances.set s DIRTY
      shortest_path := sp5.shortest_path.set s none
      dirty_states := sp5.dirty_states ++ [s] })
    (hx : PushedBy sp2 s x) :
    x.1 = sp3.goal_distances.getD x.2 0 ∧
    sp3.goal_distances.getD s 0 < sp3.goal_distances.getD x.2 0 := by
  obtain ⟨x1, x2, x3, x4⟩ := hx
  rw [h2] at x1 x2 x3 x4
  dsimp only at x1 x2 x3 x4
  have hne : s ≠ x.2 := by
    intro hc
    rw [← hc, getD_set_eq _ _ _ _ (by rw [hi.base.dist_len]; exact hsl)] at x3
    exact x3 rfl
  rw [getD_set_ne _ _ _ _ _ hne] at x1 x3 x4
  cases hp : sp5.shortest_path.getD x.2 none with
  | none => rw [hp] at x4; cases x4
  | some t =>
    rw [hp] at x4
    simp only [Option.map_some', Option.some.injEq] at x4
    have hu : x.2 < in_.length := by
      by_contra hc
      rw [List.getD_eq_default _ _ (by rw [hi.base.path_len]; omega)] at hp
      cases hp
    have hg : x.2 ∉ goals := by
      intro hc
      rw [(hi.base.goal _ hc).2] at hp
      cases hp
    have hinf : sp5.goal_distances.getD x.2 0 ≠ INF_COSTS := by
      intro hc
      rw [hi.base.inf _ hu hc] at hp
      cases hp
    obtain ⟨t', p1, p2, p3, -, p5⟩ := hi.tree x.2 hu hg hinf x3 x2
    rw [hp] at p1
    cases p1
    have hpos := hs.pos _ _ p3
    dsimp only at hpos
    rw [x4] at p5
    rw [hr.costs] at p5
    refine ⟨by rw [x1, hi.base.keep _ x3], by omega⟩

theorem unreconnectable_is_orphan {sp sp3 sp5 : ShortestPaths}
    {in0 in_ out : List Transitions} {goals : List Nat} {v v2 bound cmax k s : Nat}
    {q : HeapQueue} (ht : TreeOk sp in0 goals bound)
    (hs : SplitOk sp in0 in_ out goals v v2 bound cmax)
    (hr : AfterRedirect sp sp3 in_ goals v v2)
    (hi : CandInv sp3 sp5 in_ goals none) (hmem : (k, s) ∈ sp5.candidate_queue)
    (hfind : (out.getD s []).find? (can_reconnect { sp5 with candidate_queue := q } s) = none)
    (horph : ∀ u, sp5.goal_distances.getD u 0 = DIRTY → ∀ ops, GoalWalk in_ goals u ops →
      sp3.goal_distances.getD u 0 < walk_cost64 sp3.operator_costs ops) :
    ∀ ops, GoalWalk in_ goals s ops →
      sp3.goal_distances.getD s 0 < walk_cost64 sp3.operator_costs ops := by
  obtain ⟨hsl, hsd, hsinf, hsg⟩ := hi.cand k s hmem
  have hn := hs.new_len
  intro ops hw
  by_contra hle
  cases hw with
  | goal hg => exact hsg hg
  | @step t _ op ops' hw' harc =>
    have htl : t < in_.length := mem_getD_lt harc
    have hlow := split_lower ht hs hw'
    have hpos := hs.pos _ _ harc
    have hcl := (split_ctx ht hs).cost_lt harc
    dsimp only at hpos hcl
    have hcI : sp.operator_costs.getD op 0 ≠ INF_COSTS := by
      unfold DIRTY at hcl
      unfold INF_COSTS
      omega
    rw [hr.costs, walk_cost64_cons] at hle
    rw [hr.dist s hsl] at hle
    have hks : sp5.goal_distances.getD s 0 = sp.goal_distances.getD (split_origin v v2 s) 0 := by
      rw [hi.base.keep s hsd, hr.dist s hsl]
    rcases hs.arc_old t ⟨op, s⟩ harc with h | h
    · dsimp only at h
      rw [h] at hle
      omega
    · dsimp only at h
      have htri := old_triangle ht hs h hcI
      have hword := ht.word (split_origin v v2 s)
      have htd : sp5.goal_distances.getD t 0 ≠ DIRTY := by
        intro hd
        have := horph t hd ops' hw'
        rw [hr.costs, hr.dist t htl] at this
        omega
      have hkt : sp5.goal_distances.getD t 0 = sp.goal_distances.getD (split_origin v v2 t) 0 := by
        rw [hi.base.keep t htd, hr.dist t htl]
      have hsfin : sp.goal_distances.getD (split_origin v v2 s) 0 ≠ INF_COSTS := by
        rw [← hks]
        exact hsinf
      have hcan : can_reconnect { sp5 with candidate_queue := q } s ⟨op, t⟩ = true := by
        unfold can_reconnect
        dsimp only
        rw [hi.base.costs, hr.costs, hkt, hks]
        have e1 : (sp.goal_distances.getD (split_origin v v2 t) 0 != DIRTY) = true := by
          rw [← hkt]
          simpa using htd
        have e2 : (sp.goal_distances.getD (split_origin v v2 t) 0 != INF_COSTS) = true := by
          have : sp.goal_distances.getD (split_origin v v2 t) 0 ≠ INF_COSTS := by omega
          simpa using this
        have e3 : (sp.operator_costs.getD op 0 != INF_COSTS) = true := by simpa using hcI
        rw [e1, e2, e3, add64_eq (by omega)]
        simp only [Bool.and_self, Bool.true_and, beq_iff_eq]
        omega
      have hout : (⟨op, t⟩ : Transition) ∈ out.getD s [] := hs.cons.bwd t ⟨op, s⟩ harc
      have := List.find?_eq_none.1 hfind _ hout
      exact this hcan

theorem cand_order_step {a : Bool} {sp sp3 sp5 sp1 : ShortestPaths}
    {in0 in_ out : List Transitions} {goals : List Nat} {v v2 bound cmax k s : Nat}
    {q : HeapQueue} {log : List (Nat × HeapQueue × HeapQueue)}
    (ht : TreeOk sp in0 goals bound) (hs : SplitOk sp in0 in_ out goals v v2 bound cmax)
    (hr : AfterRedirect sp sp3 in_ goals v v2)
    (hi : CandInv sp3 sp5 in_ goals none) (hpop : sp5.candidate_queue.pop = some ((k, s), q))
    (hstep : CandStep a in_ out sp5 s q sp1) (hj : CandOrder sp3 in_ goals log sp5) :
    CandOrder sp3 in_ goals (log ++ [(s, q, sp1.candidate_queue)]) sp1 := by
  obtain ⟨p1, p2, -⟩ := HeapQueue.pop_spec hpop
  have hmem : (k, s) ∈ sp5.candidate_queue := (p1 _).2 (Or.inl rfl)
  obtain ⟨hsl, hsd, hsinf, hsg⟩ := hi.cand k s hmem
  have hk : k = sp3.goal_distances.getD s 0 := hj.keys _ hmem
  have hq : ∀ x ∈ q, x ∈ sp5.candidate_queue := fun x hx => (p1 _).2 (Or.inr hx)
  have hsorted : ((log ++ [(s, q, sp1.candidate_queue)]).map
      fun e => sp3.goal_distances.getD e.1 0).Pairwise (· ≤ ·) := by
    rw [List.map_append, List.pairwise_append]
    refine ⟨hj.sorted, by simp, ?_⟩
    intro x hx y hy
    obtain ⟨e, he, rfl⟩ := List.mem_map.1 hx
    simp only [List.map_cons, List.map_nil, List.mem_singleton] at hy
    rw [hy, ← hk]
    exact hj.above e he _ hmem
  -- what the queue at the end of the iteration holds
  have hqueue : ∀ x ∈ sp1.candidate_queue, x ∈ q ∨
      (x.1 = sp3.goal_distances.getD x.2 0 ∧
        sp3.goal_distances.getD s 0 < sp3.goal_distances.getD x.2 0) := by
    intro x hx
    rcases hstep with ⟨t, -, h2⟩ | ⟨-, sp2, h2, h3⟩
    · rw [h2] at hx
      exact Or.inl hx
    · have h2e := mark_dirty_eq h2
      obtain ⟨-, -, -, -, f5⟩ := push_candidates_queue s (in_.getD s []) sp2
      rw [h3] at hx
      rcases f5 x hx with h | h
      · rw [h2e] at h
        exact Or.inl h
      · exact Or.inr (pushed_greater hs hr hi hsl h2e h)
  refine ⟨hsorted, ?_, ?_, ?_, ?_, ?_, ?_⟩
  · intro e he x hx
    have hs_le : sp3.goal_distances.getD s 0 ≤ x.1 := by
      rcases hqueue x hx with h | h
      · rw [← hk]
        exact p2 x (hq x h)
      · omega
    rcases List.mem_append.1 he with h | h
    · have := hj.above e h _ hmem
      dsimp only at this
      omega
    · simp only [List.mem_singleton] at h
      rw [h]
      exact hs_le
  · intro x hx
    rcases hqueue x hx with h | h
    · exact hj.keys x (hq x h)
    · exact h.1
  · intro e he x hx
    rcases List.mem_append.1 he with h | h
    · exact hj.pushed e h x hx
    · simp only [List.mem_singleton] at h
      rw [h] at hx ⊢
      dsimp only at hx ⊢
      rcases hqueue x hx with h1 | h1
      · exact Or.inl h1
      · exact Or.inr h1.2
  · intro u hu
    rcases hstep with ⟨t, -, h2⟩ | ⟨-, sp2, h2, h3⟩
    · rw [h2] at hu
      obtain ⟨e, he, h⟩ := hj.popped u hu
      exact ⟨e, List.mem_append_left _ he, h⟩
    · have h2e := mark_dirty_eq h2
      obtain ⟨-, -, f3, -, -⟩ := push_candidates_queue s (in_.getD s []) sp2
      rw [h3] at hu
      dsimp only at hu
      rw [f3, h2e] at hu
      dsimp only at hu
      rcases List.mem_append.1 hu with h | h
      · obtain ⟨e, he, h4⟩ := hj.popped u h
        exact ⟨e, List.mem_append_left _ he, h4⟩
      · simp only [List.mem_singleton] at h
        exact ⟨_, List.mem_append_right _ (List.mem_singleton.2 rfl), h.symm⟩
  · intro u hu
    rcases hstep with ⟨t, -, h2⟩ | ⟨-, sp2, h2, h3⟩
    · rw [h2] at hu
      exact hj.finite u hu
    · have h2e := mark_dirty_eq h2
      obtain ⟨f1, -, -, -, -⟩ := push_candidates_queue s (in_.getD s []) sp2
      rw [h3] at hu
      dsimp only at hu
      rw [f1, h2e] at hu
      dsimp only at hu
      by_cases hus : s = u
      · subst hus
        rw [← hi.base.keep s hsd]
        exact hsinf
      · rw [getD_set_ne _ _ _ _ _ hus] at hu
        exact hj.finite u hu
  · intro u hu
    rcases hstep with ⟨t, -, h2⟩ | ⟨hfind, sp2, h2, h3⟩
    · rw [h2] at hu
      exact hj.orphan u hu
    · have h2e := mark_dirty_eq h2
      obtain ⟨f1, -, -, -, -⟩ := push_candidates_queue s (in_.getD s []) sp2
      rw [h3] at hu
      dsimp only at hu
      rw [f1, h2e] at hu
      dsimp only at hu
      by_cases hus : s = u
      · subst hus
        exact unreconnectable_is_orphan ht hs hr hi hmem hfind hj.orphan
      · rw [getD_set_ne _ _ _ _ _ hus] at hu
        exact hj.orphan u hu

theorem cand_order_init {sp sp3 : ShortestPaths} {in0 in_ : List Transitions}
    {goals : List Nat} {v v2 bound : Nat} (ht : TreeOk sp in0 goals bound)
    (hr : AfterRedirect sp sp3 in_ goals v v2) :
    CandOrder sp3 in_ goals [] (candidate_init sp3 in_.length v) := by
  obtain ⟨-, hnd⟩ := hr.mark_base ht
  have hcq : sp3.candidate_queue = [] := by rw [hr.cq]; exact ht.cq
  refine ⟨(by simp), (fun e he => by cases he), ?_, (fun e he => by cases he), ?_,
    (fun u hu => absurd hu (hnd u)), (fun u hu => absurd hu (hnd u))⟩
  · intro x hx
    unfold candidate_init at hx
    dsimp only at hx
    rw [hcq] at hx
    simp only [HeapQueue.push, List.nil_append, List.mem_singleton] at hx
    rw [hx]
  · intro u hu
    unfold candidate_init at hu
    dsimp only at hu
    rw [hr.ds] at hu
    cases hu

/-- C28: in a call of `dijkstra_from_orphans` with `filter_orphans = true` made
under its preconditions (a valid shortest-path tree before the split, `TreeOk`
and `SplitOk`), the call returns and, with `d3` the distances after lines
139-184, which are the goal distances before the split (`d3[u]` is the distance of
`u` before the split, the distance of `v` for the new state `v2`):
the states popped from `candidate_queue` (`candidate_trace` lists the
iterations of the loop of lines 207-250) have non-decreasing `d3`; every entry
that an iteration adds to the queue has a state of strictly greater `d3` than
the state popped by that iteration; and every state in `dirty_states` on return
has been popped by the pass, and its distance on return, which is its goal
distance in the graph after the split, is strictly greater than its `d3`, as is
the cost of every path from it to a goal in the graph after the split. -/
theorem candidate_order (a : Bool) (sp : ShortestPaths) (in0 in_ out : List Transitions)
    (goals : List Nat) (v v2 bound cmax : Nat) (fuel : Nat)
    (ht : TreeOk sp in0 goals bound) (hs : SplitOk sp in0 in_ out goals v v2 bound cmax)
    (hfuel : repair_fuel in_.length ≤ fuel) :
    ∃ sp1, dijkstra_from_orphans a sp in_ out v v v2 true fuel = .ok sp1 ∧
      (∀ u, u < in_.length → (split_start sp in_ v v2).goal_distances.getD u 0
        = sp.goal_distances.getD (split_origin v v2 u) 0) ∧
      ((candidate_trace a in_ out fuel
          (candidate_init (split_start sp in_ v v2) in_.length v)).map
        fun e => (split_start sp in_ v v2).goal_distances.getD e.1 0).Pairwise (· ≤ ·) ∧
      (∀ e ∈ candidate_trace a in_ out fuel
          (candidate_init (split_start sp in_ v v2) in_.length v),
        ∀ x ∈ e.2.2, x ∈ e.2.1 ∨
          (split_start sp in_ v v2).goal_distances.getD e.1 0
            < (split_start sp in_ v v2).goal_distances.getD x.2 0) ∧
      (∀ u, u ∈ sp1.dirty_states →
        (∃ e ∈ candidate_trace a in_ out fuel
          (candidate_init (split_start sp in_ v v2) in_.length v), e.1 = u) ∧
        (split_start sp in_ v v2).goal_distances.getD u 0 < sp1.goal_distances.getD u 0 ∧
        ∀ ops, GoalWalk in_ goals u ops →
          (split_start sp in_ v v2).goal_distances.getD u 0
            < walk_cost64 sp.operator_costs ops) := by
  have hr := split_start_spec ht hs
  obtain ⟨sp6, sp1, r1, r2, -, r4, r5, -, -, r8⟩ := dijkstra_from_orphans_trace a true fuel
    ht hs hfuel (CandOrder (split_start sp in_ v v2) in_ goals)
    (fun log sp5 k s q sp1 hi hpop hstep hj => cand_order_step ht hs hr hi hpop hstep hj)
    (cand_order_init ht hr)
  obtain ⟨-, hj⟩ := r8 rfl
  refine ⟨sp1, r1, hr.dist, hj.sorted, hj.pushed, ?_⟩
  intro u hu
  rw [r5.ds] at hu
  obtain ⟨hul, hud⟩ := (r4.base.ds_iff u).1 hu
  have horph := hj.orphan u hud
  rw [hr.costs] at horph
  refine ⟨hj.popped u hu, ?_, horph⟩
  by_cases hfin : sp1.goal_distances.getD u 0 = INF_COSTS
  · rw [hfin]
    have h1 := hj.finite u hud
    have h2 : (split_start sp in_ v v2).goal_distances.getD u 0 ≤ INF_COSTS := by
      rw [hr.dist u hul]
      exact ht.word _
    omega
  · obtain ⟨ops, w1, -, w3⟩ := r2.inv.sound u hul hfin
    have hc : sp1.operator_costs = sp.operator_costs := by
      rw [r5.costs, r4.base.costs, hr.costs]
    rw [hc] at w3
    rw [← w3]
    exact horph ops w1

/-- Witness of C28 in scenario S3: the chain `0 -> 1 -> 2` with state 1 split into
1 and 3. -/
theorem candidate_order_witness :
    ∃ sp1, dijkstra_from_orphans true (chain_state 3 4) split_in split_out 1 1 3 true
        (repair_fuel 4) = .ok sp1 ∧
      (∀ u, u < split_in.length →
        (split_start (chain_state 3 4) split_in 1 3).goal_distances.getD u 0
          = (chain_state 3 4).goal_distances.getD (split_origin 1 3 u) 0) ∧
      ((candidate_trace true split_in split_out (repair_fuel 4)
          (candidate_init (split_start (chain_state 3 4) split_in 1 3) split_in.length 1)).map
        fun e => (split_start (chain_state 3 4) split_in 1 3).goal_distances.getD e.1 0).Pairwise
          (· ≤ ·) ∧
      (∀ e ∈ candidate_trace true split_in split_out (repair_fuel 4)
          (candidate_init (split_start (chain_state 3 4) split_in 1 3) split_in.length 1),
        ∀ x ∈ e.2.2, x ∈ e.2.1 ∨
          (split_start (chain_state 3 4) split_in 1 3).goal_distances.getD e.1 0
            < (split_start (chain_state 3 4) split_in 1 3).goal_distances.getD x.2 0) ∧
      (∀ u, u ∈ sp1.dirty_states →
        (∃ e ∈ candidate_trace true split_in split_out (repair_fuel 4)
          (candidate_init (split_start (chain_state 3 4) split_in 1 3) split_in.length 1),
          e.1 = u) ∧
        (split_start (chain_state 3 4) split_in 1 3).goal_distances.getD u 0
          < sp1.goal_distances.getD u 0 ∧
        ∀ ops, GoalWalk split_in [2] u ops →
          (split_start (chain_state 3 4) split_in 1 3).goal_distances.getD u 0
            < walk_cost64 (chain_state 3 4).operator_costs ops) :=
  candidate_order true (chain_state 3 4) chain_in split_in split_out [2] 1 3 8 4
    (repair_fuel 4) chain_tree_ok split_ok (le_refl _)

/-! ## Internal costs, distances across a split, descent of the extraction -/

theorem new_fold_total (a hz : Bool) : ∀ (costs : List Int) (acc : List Nat),
    (∀ c ∈ costs, 0 ≤ c) →
    ∃ res, Run.foldl (fun (acc : List Nat) (cost : Int) =>
      (convert_to_64_bit_cost a hz cost).bind (fun c => .ok (acc ++ [c]))) acc costs = .ok res := by
  intro costs
  induction costs with
  | nil => intro acc _; exact ⟨acc, rfl⟩
  | cons c cs ih =>
    intro acc h
    obtain ⟨x, hx⟩ := convert_to_64_total a hz c (h c (List.mem_cons_self _ _))
    obtain ⟨res, hres⟩ := ih (acc ++ [x]) (fun c1 h1 => h c1 (List.mem_cons_of_mem _ h1))
    refine ⟨res, ?_⟩
    simp only [Run.foldl, hx, Run.bind]
    exact hres

theorem new_total (a : Bool) (costs : List Int) (h : ∀ c ∈ costs, 0 ≤ c) :
    ∃ sp, ShortestPaths.new a costs = .ok sp := by
  obtain ⟨res, hres⟩ := new_fold_total a (has_zero_cost costs) costs [] h
  unfold ShortestPaths.new
  dsimp only
  rw [hres]
  exact ⟨_, rfl⟩

/-- C34: for every table of external operator costs between 0 and `INF` (the
non-negative values of the type `int`), the constructor returns, and every entry
of `operator_costs` is at least 1: the cost `INF` becomes `INF_COSTS`; every other
cost becomes a value that is neither `INF_COSTS` nor `DIRTY`, namely 1 for the
cost 0, the cost itself for a positive cost when the table holds no zero, and the
cost times `2 ^ 32` when it holds one. -/
theorem no_zero_internal_cost (a : Bool) (costs : List Int)
    (hcosts : ∀ c ∈ costs, 0 ≤ c ∧ c ≤ INF) :
    ∃ sp, ShortestPaths.new a costs = .ok sp ∧
      sp.operator_costs.length = costs.length ∧
      ∀ i, i < costs.length →
        1 ≤ sp.operator_costs.getD i 0 ∧
        (costs.getD i 0 = INF → sp.operator_costs.getD i 0 = INF_COSTS) ∧
        (costs.getD i 0 ≠ INF →
          sp.operator_costs.getD i 0 ≠ INF_COSTS ∧ sp.operator_costs.getD i 0 ≠ DIRTY ∧
          (costs.getD i 0 = 0 → sp.operator_costs.getD i 0 = 1) ∧
          (0 < costs.getD i 0 → has_zero_cost costs = false →
            (sp.operator_costs.getD i 0 : Int) = costs.getD i 0) ∧
          (0 < costs.getD i 0 → has_zero_cost costs = true →
            (sp.operator_costs.getD i 0 : Int) = costs.getD i 0 * 2 ^ 32)) := by
  obtain ⟨sp, hsp⟩ := new_total a costs (fun c hc => (hcosts c hc).1)
  obtain ⟨hlen, hconv⟩ := new_operator_costs hsp
  refine ⟨sp, hsp, hlen, ?_⟩
  intro i hi
  have hc := hcosts _ (getD_mem_of_lt costs i 0 hi)
  have hINF : INF = 2147483647 := by norm_num [INF]
  rcases convert_to_64_value (hconv i hi) hc.1 hc.2 with ⟨h1, h2⟩ | ⟨h1, h2, h3, h4, h5⟩
  · refine ⟨by rw [h2]; unfold INF_COSTS; omega, fun _ => h2, fun h => absurd h1 h⟩
  · have hD : sp.operator_costs.getD i 0 ≠ DIRTY := by unfold DIRTY; omega
    cases hz : has_zero_cost costs with
    | false =>
      have h6 := h4 hz
      have h7 : costs.getD i 0 ≠ 0 := by
        intro h0
        have hm := getD_mem_of_lt costs i 0 hi
        rw [h0] at hm
        have := (has_zero_cost_iff costs).2 hm
        rw [hz] at this
        exact Bool.false_ne_true this
      refine ⟨by omega, fun h => by omega, fun _ => ⟨h2, hD, fun h => absurd h h7,
        fun _ _ => h6, fun _ h => by simp at h⟩⟩
    | true =>
      rcases h5 hz with ⟨h6, h7⟩ | ⟨h6, h7⟩
      · refine ⟨by omega, fun h => by omega, fun _ => ⟨h2, hD, fun _ => h7,
          fun h => by omega, fun h => by omega⟩⟩
      · have hp : (0 : Int) < (sp.operator_costs.getD i 0 : Int) := by
          rw [h7]; positivity
        refine ⟨by omega, fun h => by omega, fun _ => ⟨h2, hD, fun h => by omega,
          fun _ h => by simp at h, fun _ _ => h7⟩⟩

/-- Witness of C34 on the cost table `[0, 5, INF]`. -/
theorem no_zero_internal_cost_witness :
    ∃ sp, ShortestPaths.new true [0, 5, 2147483647] = .ok sp ∧
      sp.operator_costs.length = [(0 : Int), 5, 2147483647].length ∧
      ∀ i, i < [(0 : Int), 5, 2147483647].length →
        1 ≤ sp.operator_costs.getD i 0 ∧
        ([(0 : Int), 5, 2147483647].getD i 0 = INF → sp.operator_costs.getD i 0 = INF_COSTS) ∧
        ([(0 : Int), 5, 2147483647].getD i 0 ≠ INF →
          sp.operator_costs.getD i 0 ≠ INF_COSTS ∧ sp.operator_costs.getD i 0 ≠ DIRTY ∧
          ([(0 : Int), 5, 2147483647].getD i 0 = 0 → sp.operator_costs.getD i 0 = 1) ∧
          (0 < [(0 : Int), 5, 2147483647].getD i 0 →
            has_zero_cost [(0 : Int), 5, 2147483647] = false →
            (sp.operator_costs.getD i 0 : Int) = [(0 : Int), 5, 2147483647].getD i 0) ∧
          (0 < [(0 : Int), 5, 2147483647].getD i 0 →
            has_zero_cost [(0 : Int), 5, 2147483647] = true →
            (sp.operator_costs.getD i 0 : Int)
              = [(0 : Int), 5, 2147483647].getD i 0 * 2 ^ 32)) :=
  no_zero_internal_cost true [0, 5, 2147483647] (by
    intro c hc
    simp only [List.mem_cons, List.mem_singleton, List.not_mem_nil, or_false] at hc
    rcases hc with rfl | rfl | rfl <;> norm_num [INF])

/-- C37: for every call of `dijkstra_from_orphans` made under its preconditions,
with either value of `filter_orphans`, the call returns, no distance is `DIRTY`
afterwards, and the goal distance of every state `u` of the graph before the
split is afterwards at least what it was before the call (`INF_COSTS` is the
largest value); the distances of `v1 = v` and of the new state `v2` are at least
the distance of `v` before the call. -/
theorem distances_never_decrease (a : Bool) (sp : ShortestPaths)
    (in0 in_ out : List Transitions) (goals : List Nat) (v v2 bound cmax : Nat)
    (filter_orphans : Bool) (fuel : Nat) (ht : TreeOk sp in0 goals bound)
    (hs : SplitOk sp in0 in_ out goals v v2 bound cmax)
    (hfuel : repair_fuel in_.length ≤ fuel) :
    ∃ sp1, dijkstra_from_orphans a sp in_ out v v v2 filter_orphans fuel = .ok sp1 ∧
      (∀ u, sp1.goal_distances.getD u 0 ≠ DIRTY) ∧
      (∀ u, u < in0.length →
        sp.goal_distances.getD u 0 ≤ sp1.goal_distances.getD u 0) ∧
      sp.goal_distances.getD v 0 ≤ sp1.goal_distances.getD v 0 ∧
      sp.goal_distances.getD v 0 ≤ sp1.goal_distances.getD v2 0 := by
  obtain ⟨sp1, r1, r2, r3, r4, -⟩ := dijkstra_from_orphans_spec a filter_orphans fuel ht hs hfuel
  have key : ∀ u, u < in_.length →
      sp.goal_distances.getD (split_origin v v2 u) 0 ≤ sp1.goal_distances.getD u 0 := by
    intro u hu
    by_cases hfin : sp1.goal_distances.getD u 0 = INF_COSTS
    · rw [hfin]
      exact ht.word _
    · obtain ⟨ops, w1, -, w3⟩ := r2.inv.sound u hu hfin
      rw [← w3, r4]
      exact split_lower ht hs w1
  have hn := hs.new_len
  have ho := hs.old_len
  have hv := hs.v_lt
  have horig : ∀ u, u < v2 → split_origin v v2 u = u := by
    intro u hu
    unfold split_origin
    rw [if_neg (by omega)]
  refine ⟨sp1, r1, r3.nodirty, ?_, ?_, ?_⟩
  · intro u hu
    have := key u (by omega)
    rw [horig u (by omega)] at this
    exact this
  · have := key v (by omega)
    rw [horig v hv] at this
    exact this
  · have := key v2 (by omega)
    unfold split_origin at this
    rw [if_pos rfl] at this
    exact this

/-- Witness of C37 in scenario S3. -/
theorem distances_never_decrease_witness :
    ∃ sp1, dijkstra_from_orphans true (chain_state 3 4) split_in split_out 1 1 3 true
        (repair_fuel 4) = .ok sp1 ∧
      (∀ u, sp1.goal_distances.getD u 0 ≠ DIRTY) ∧
      (∀ u, u < chain_in.length →
        (chain_state 3 4).goal_distances.getD u 0 ≤ sp1.goal_distances.getD u 0) ∧
      (chain_state 3 4).goal_distances.getD 1 0 ≤ sp1.goal_distances.getD 1 0 ∧
      (chain_state 3 4).goal_distances.getD 1 0 ≤ sp1.goal_distances.getD 3 0 :=
  distances_never_decrease true (chain_state 3 4) chain_in split_in split_out [2] 1 3 8 4
    true (repair_fuel 4) chain_tree_ok split_ok (le_refl _)

theorem tree_walk_exists {sp : ShortestPaths} {out : List Transitions} {goals : List Nat}
    (hv : TreeValid sp out goals)
    (hpos : ∀ u t, t ∈ out.getD u [] → 1 ≤ sp.operator_costs.getD t.op_id 0) :
    ∀ d u, sp.goal_distances.getD u 0 = d → u < sp.goal_distances.length →
      sp.goal_distances.getD u 0 ≠ INF_COSTS →
      ∃ rest, IsTreeWalk sp out goals u rest ∧ walk_end u rest ∈ goals := by
  intro d
  induction d using Nat.strong_induction_on with
  | _ d ih =>
    intro u hd hu hfin
    by_cases hg : u ∈ goals
    · exact ⟨[], trivial, hg⟩
    · obtain ⟨t, t1, t2, t3, t4⟩ := hv.arc u hu hg hfin
      obtain ⟨-, -, -, h4, -⟩ := hv.step hu hg hfin t1
      have hp := hpos u t t2
      obtain ⟨rest, r1, r2⟩ := ih (sp.goal_distances.getD t.target_id 0) (by omega)
        t.target_id rfl t3 h4
      exact ⟨t :: rest, ⟨hg, t1, t2, r1⟩, r2⟩

theorem walk_descends {sp : ShortestPaths} {out : List Transitions} {goals : List Nat}
    (hv : TreeValid sp out goals)
    (hpos : ∀ u t, t ∈ out.getD u [] → 1 ≤ sp.operator_costs.getD t.op_id 0) :
    ∀ (rest : List Transition) (u : Nat), IsTreeWalk sp out goals u rest →
      u < sp.goal_distances.length → sp.goal_distances.getD u 0 ≠ INF_COSTS →
      ((walk_states u rest).map fun x => sp.goal_distances.getD x 0).Pairwise (· > ·) := by
  intro rest
  induction rest with
  | nil => intro u _ _ _; simp [walk_states]
  | cons t rest ih =>
    intro u hw hu hfin
    obtain ⟨hg, hsp, hmem, hw2⟩ := hw
    obtain ⟨h1, h2, h3, h4, h5⟩ := hv.step hu hg hfin hsp
    have hp := hpos u t hmem
    obtain ⟨-, -, i3, -⟩ := walk_valid hv hpos rest t.target_id hw2 h2 h4
    simp only [walk_states, List.map_cons, List.pairwise_cons]
    refine ⟨?_, ih _ hw2 h2 h4⟩
    intro y hy
    obtain ⟨x, hx, rfl⟩ := List.mem_map.1 hy
    have := (i3 x hx).2
    omega

theorem extract_loop_total (a : Bool) {sp : ShortestPaths} {out : List Transitions}
    {goals : List Nat} (hv : TreeValid sp out goals)
    (hpos : ∀ u t, t ∈ out.getD u [] → 1 ≤ sp.operator_costs.getD t.op_id 0) :
    ∀ (rest : List Transition) (u : Nat) (acc : List Transition) (fuel : Nat),
      IsTreeWalk sp out goals u rest → walk_end u rest ∈ goals →
      u < sp.goal_distances.length → sp.goal_distances.getD u 0 ≠ INF_COSTS →
      rest.length < fuel →
      extract_loop a sp goals fuel u acc = .ok (acc ++ rest) := by
  intro rest
  induction rest with
  | nil =>
    intro u acc fuel _ hend _ _ hf
    obtain ⟨fuel, rfl⟩ : ∃ k, fuel = k + 1 := ⟨fuel - 1, by simp at hf; omega⟩
    unfold extract_loop
    have hc : goals.contains u = true := by simpa [walk_end] using hend
    simp only [hc, if_true, List.append_nil]
  | cons t rest ih =>
    intro u acc fuel hw hend hu hfin hf
    obtain ⟨fuel, rfl⟩ : ∃ k, fuel = k + 1 := ⟨fuel - 1, by simp at hf; omega⟩
    obtain ⟨hg, hsp, hmem, hw2⟩ := hw
    obtain ⟨h1, h2, h3, h4, h5⟩ := hv.step hu hg hfin hsp
    have hp := hpos u t hmem
    unfold extract_loop
    have hc : goals.contains u = false := by simpa using hg
    have hlen : u < sp.shortest_path.length := by
      by_contra hcon
      rw [List.getD_eq_default _ _ (by omega)] at hsp
      cases hsp
    have c1 : decide (u < sp.shortest_path.length) = true := by simpa using hlen
    have c2 : (t.target_id != u) = true := by
      have : t.target_id ≠ u := by
        intro he
        rw [he] at h3
        omega
      simpa using this
    have c3 : decide (sp.goal_distances.getD t.target_id 0 ≤ sp.goal_distances.getD u 0)
        = true := by
      simp only [decide_eq_true_eq]
      omega
    simp only [hc, Bool.false_eq_true, if_false, c1, check_true, hsp, c2, c3]
    rw [ih t.target_id (acc ++ [t]) fuel hw2 hend h2 h4 (by simp at hf; omega)]
    simp

/-- C32 fails for a start state that is a goal: on the chain `0 -> 1 -> 2` with
the goal 2 and the shortest-path tree of `full_dijkstra`, the distance of state 2
is 0, not `INF_COSTS`, and the extraction from state 2 aborts at the assertion of
line 85 when assertions are compiled in. -/
theorem extraction_aborts_at_goal :
    TreeValid (chain_state 3 4) chain_out [2] ∧
    (chain_state 3 4).goal_distances.getD 2 0 ≠ INF_COSTS ∧
    extract_solution_from_shortest_path_tree true (chain_state 3 4) 2 [2] 10 = .abort 85 :=
  ⟨chain_state_valid 3 4 (by norm_num), by decide, by decide⟩

/-- C32 as amended: for every shortest-path tree in which the operators on the
transitions cost at least 1 (as every internal cost does, with or without
zero-cost operators in the task), and every start state `init_id` that is not a
goal and has a distance other than `INF_COSTS`, the extraction returns a sequence
with every amount of fuel from the number of states on, with assertions compiled
in or not; the goal distances along the states it visits are strictly
decreasing, so no state is visited twice, and the sequence has at most
(number of states - 1) transitions. -/
theorem extraction_descends (a : Bool) (sp : ShortestPaths) (out : List Transitions)
    (goals : List Nat) (init_id fuel : Nat) (hv : TreeValid sp out goals)
    (hpos : ∀ u t, t ∈ out.getD u [] → 1 ≤ sp.operator_costs.getD t.op_id 0)
    (hinit : init_id < sp.goal_distances.length) (hng : init_id ∉ goals)
    (hfin : sp.goal_distances.getD init_id 0 ≠ INF_COSTS)
    (hfuel : sp.goal_distances.length ≤ fuel) :
    ∃ sol, extract_solution_from_shortest_path_tree a sp init_id goals fuel = .ok (some sol) ∧
      IsTreeWalk sp out goals init_id sol ∧ walk_end init_id sol ∈ goals ∧
      ((walk_states init_id sol).map fun x => sp.goal_distances.getD x 0).Pairwise (· > ·) ∧
      (walk_states init_id sol).Nodup ∧
      sol.length + 1 ≤ sp.goal_distances.length := by
  obtain ⟨sol, w1, w2⟩ := tree_walk_exists hv hpos _ init_id rfl hinit hfin
  obtain ⟨-, -, v3, v4⟩ := walk_valid hv hpos sol init_id w1 hinit hfin
  have hlen : sol.length + 1 ≤ sp.goal_distances.length := by
    have := nodup_length_le _ _ v4 (fun x hx => (v3 x hx).1)
    rw [walk_states_length] at this
    exact this
  refine ⟨sol, ?_, w1, w2, walk_descends hv hpos sol init_id w1 hinit hfin, v4, hlen⟩
  unfold extract_solution_from_shortest_path_tree
  have hc : goals.contains init_id = false := by simpa using hng
  simp only [beq_iff_eq, hfin, if_false, hc, Bool.not_false, check_true]
  rw [extract_loop_total a hv hpos sol init_id [] fuel w1 w2 hinit hfin (by omega)]
  simp [Run.bind]

/-- Witness of the amended C32 on the chain `0 -> 1 -> 2` with the goal 2. -/
theorem extraction_descends_witness :
    ∃ sol, extract_solution_from_shortest_path_tree true (chain_state 3 4) 0 [2] 3
        = .ok (some sol) ∧
      IsTreeWalk (chain_state 3 4) chain_out [2] 0 sol ∧ walk_end 0 sol ∈ [2] ∧
      ((walk_states 0 sol).map fun x =>
        (chain_state 3 4).goal_distances.getD x 0).Pairwise (· > ·) ∧
      (walk_states 0 sol).Nodup ∧
      sol.length + 1 ≤ (chain_state 3 4).goal_distances.length :=
  extraction_descends true (chain_state 3 4) chain_out [2] 0 3
    (chain_state_valid 3 4 (by norm_num))
    (by
      intro u t ht
      rcases u with _ | _ | _ | u <;> simp [chain_out] at ht <;> subst ht <;>
        simp [chain_state])
    (by decide) (by decide) (by decide) (by decide)

/-! ## Operators of infinite cost in full_dijkstra -/

theorem full_relax_inf {in_ : List Transitions} {goals : List Nat} {ocs : List Nat}
    {p0 : List (Option Transition)} {sp : ShortestPaths} (g s : Nat) {t : Transition}
    (hw : WeakInv in_ p0 sp) (hi : InfInv in_ goals ocs sp) (ht : t ∈ in_.getD s [])
    (htl : t.target_id < in_.length)
    (hwalk : ∃ ops, GoalWalk in_ goals s ops ∧ FiniteOps ocs ops) :
    InfInv in_ goals ocs (full_relax g s sp t) := by
  unfold full_relax
  dsimp only
  by_cases hupd : (if (sp.operator_costs.getD t.op_id 0 == INF_COSTS) = true then INF_COSTS
      else add64 g (sp.operator_costs.getD t.op_id 0)) < sp.goal_distances.getD t.target_id 0
  · rw [if_pos hupd]
    have hop : sp.operator_costs.getD t.op_id 0 ≠ INF_COSTS := by
      intro hc
      rw [hc] at hupd
      simp only [beq_self_eq_true, if_true] at hupd
      have := hw.word t.target_id
      omega
    have hne : ∀ u, sp.goal_distances.getD u 0 = 0 → t.target_id ≠ u := by
      intro u hu hc
      rw [hc, hu] at hupd
      omega
    have hdl : t.target_id < sp.goal_distances.length := by rw [hw.len]; exact htl
    have hpl : t.target_id < sp.shortest_path.length := by rw [hw.plen]; exact htl
    refine ⟨hi.costs, ?_, ?_, ?_⟩
    · intro x hx
      dsimp only
      have h0 := hi.goal x hx
      rw [getD_set_ne _ _ _ _ _ (hne x h0.1), getD_set_ne _ _ _ _ _ (hne x h0.1)]
      exact h0
    · intro u t1 h1 h2
      dsimp only at h1 h2
      by_cases hu : t.target_id = u
      · subst hu
        rw [getD_set_eq _ _ _ _ hpl] at h1
        cases h1
        rw [← hi.costs]
        exact hop
      · rw [getD_set_ne _ _ _ _ _ hu] at h1 h2
        exact hi.arcs u t1 h1 h2
    · intro u hu h2
      dsimp only at h2
      by_cases hus : t.target_id = u
      · subst hus
        obtain ⟨ops, w1, w2⟩ := hwalk
        have harc : (⟨t.op_id, t.target_id⟩ : Transition) ∈ in_.getD s [] := ht
        exact ⟨t.op_id :: ops, GoalWalk.step w1 harc,
          FiniteOps.cons (by rw [← hi.costs]; exact hop) w2⟩
      · rw [getD_set_ne _ _ _ _ _ hus] at h2
        exact hi.reach u hu h2
  · rw [if_neg hupd]
    exact hi

theorem full_loop_inf {in_ : List Transitions} {goals : List Nat} {ocs : List Nat}
    {p0 : List (Option Transition)}
    (hsrc : ∀ s t, t ∈ in_.getD s [] → t.target_id < in_.length) (a : Bool) :
    ∀ (fuel : Nat) (sp : ShortestPaths), WeakInv in_ p0 sp → InfInv in_ goals ocs sp →
      loop_measure sp < fuel →
      ∃ sp1, full_loop a in_ fuel sp = .ok sp1 ∧ InfInv in_ goals ocs sp1 := by
  intro fuel
  induction fuel with
  | zero => intro sp _ _ h; omega
  | succ fuel ih =>
    intro sp hi hj hm
    unfold full_loop
    cases hpop : sp.open_queue.pop with
    | none => exact ⟨sp, rfl, hj⟩
    | some xr =>
      obtain ⟨⟨old_g, s⟩, q⟩ := xr
      obtain ⟨p1, p2, p3⟩ := HeapQueue.pop_spec hpop
      have hmem : (old_g, s) ∈ sp.open_queue := (p1 _).2 (Or.inl rfl)
      obtain ⟨hs, hle, hk⟩ := hi.queue _ _ hmem
      dsimp only
      have c1 : decide (sp.goal_distances.getD s 0 < INF_COSTS) = true := by
        simp only [decide_eq_true_eq]; omega
      have c2 : decide (sp.goal_distances.getD s 0 ≤ old_g) = true := by
        simp only [decide_eq_true_eq]; exact hle
      rw [c1, check_true, c2, check_true]
      have hm1 : loop_measure { sp with open_queue := q } + 1 = loop_measure sp := by
        unfold loop_measure
        dsimp only
        omega
      have hi1 : WeakInv in_ p0 { sp with open_queue := q } :=
        ⟨hi.len, hi.plen, hi.word, fun k u hku => hi.queue k u ((p1 _).2 (Or.inr hku)), hi.keep⟩
      have hj1 : InfInv in_ goals ocs { sp with open_queue := q } :=
        ⟨hj.costs, hj.goal, hj.arcs, hj.reach⟩
      by_cases hlt : sp.goal_distances.getD s 0 < old_g
      · simp only [hlt, if_true]
        exact ih { sp with open_queue := q } hi1 hj1 (by omega)
      · simp only [hlt, if_false]
        have c3 : decide (s < in_.length) = true := by
          simp only [decide_eq_true_eq]; exact hs
        rw [c3, check_true]
        have hwalk := hj.reach s hs (by omega)
        have key := foldl_prefix_inv
          (fun (_ : List Transition) (sp1 : ShortestPaths) =>
            WeakInv in_ p0 sp1 ∧ InfInv in_ goals ocs sp1 ∧
            loop_measure sp1 ≤ loop_measure { sp with open_queue := q })
          (full_relax (sp.goal_distances.getD s 0) s) (in_.getD s [])
          (by
            intro pre x sp1 hx ⟨h1, h2, h3⟩
            obtain ⟨k1, k2⟩ := full_relax_weak (sp.goal_distances.getD s 0) s h1 (hsrc s x hx)
            exact ⟨k1, full_relax_inf _ s h1 h2 hx (hsrc s x hx) hwalk, le_trans k2 h3⟩)
          { sp with open_queue := q } ⟨hi1, hj1, le_refl _⟩
        obtain ⟨f1, f2, f3⟩ := key
        exact ih _ f1 f2 (by omega)

theorem full_start_inf (sp : ShortestPaths) (in_ : List Transitions) (goals : List Nat)
    (hg : GraphOk in_ goals) :
    InfInv in_ goals sp.operator_costs (full_start sp in_ goals) := by
  obtain ⟨h1, h2, h3, h4, h5, h6⟩ := full_start_spec sp in_ goals hg.goals_lt
  have hgoal : ∀ u, (full_start sp in_ goals).goal_distances.getD u 0 ≠ INF_COSTS →
      u < in_.length → u ∈ goals := by
    intro u hne hu
    by_contra hc
    rw [h4 u hu, if_neg hc] at hne
    exact hne rfl
  refine ⟨h3.costs, ?_, ?_, ?_⟩
  · intro g hgm
    have := h4 g (hg.goals_lt g hgm)
    rw [if_pos hgm] at this
    exact ⟨this, h5 g hgm⟩
  · intro u t ht hne
    exfalso
    by_cases hu : u < in_.length
    · rw [h5 u (hgoal u hne hu)] at ht
      cases ht
    · rw [List.getD_eq_default _ _ (by omega)] at ht
      cases ht
  · intro u hu hne
    exact ⟨[], GoalWalk.goal (hgoal u hne hu), fun op hop => by cases hop⟩

/-- C31: on a well-formed graph and for every cost table and engine state before
the call, `full_dijkstra` returns, and afterwards: a tree arc whose operator has
the internal cost `INF_COSTS` can only be the arc that a state of distance
`INF_COSTS` had before the call, so when no tree arc used such an operator before
the call (as on a fresh engine), none does afterwards; a state of the graph all
of whose paths to a goal contain an operator of cost `INF_COSTS` (in particular a
state without a path) has the distance `INF_COSTS`; goal states have distance 0
and the undefined transition as tree arc. -/
theorem infinite_costs_carry_no_path (a : Bool) (sp : ShortestPaths) (in_ : List Transitions)
    (goals : List Nat) (fuel : Nat) (hg : GraphOk in_ goals)
    (hfuel : loop_measure (full_start sp in_ goals) < fuel) :
    ∃ sp1, full_dijkstra a sp in_ goals fuel = .ok sp1 ∧
      sp1.operator_costs = sp.operator_costs ∧
      (∀ u t, sp1.shortest_path.getD u none = some t →
        sp1.operator_costs.getD t.op_id 0 = INF_COSTS →
        sp1.goal_distances.getD u 0 = INF_COSTS ∧ sp.shortest_path.getD u none = some t) ∧
      ((∀ u t, sp.shortest_path.getD u none = some t →
          sp.operator_costs.getD t.op_id 0 ≠ INF_COSTS) →
        ∀ u t, sp1.shortest_path.getD u none = some t →
          sp1.operator_costs.getD t.op_id 0 ≠ INF_COSTS) ∧
      (∀ u, u < in_.length →
        (∀ ops, GoalWalk in_ goals u ops → ¬ FiniteOps sp1.operator_costs ops) →
        sp1.goal_distances.getD u 0 = INF_COSTS) ∧
      (∀ g ∈ goals, sp1.goal_distances.getD g 0 = 0 ∧
        sp1.shortest_path.getD g none = none) := by
  obtain ⟨sp1, r1, r2, -, r4⟩ := full_dijkstra_returns a sp in_ goals hg fuel hfuel
  obtain ⟨sp1', q1, q2⟩ := full_loop_inf hg.src a fuel _ (full_start_weak sp in_ goals hg)
    (full_start_inf sp in_ goals hg) hfuel
  rw [full_dijkstra_eq, q1] at r1
  cases r1
  have hstale : ∀ u t, sp1.shortest_path.getD u none = some t →
      sp1.operator_costs.getD t.op_id 0 = INF_COSTS →
      sp1.goal_distances.getD u 0 = INF_COSTS ∧ sp.shortest_path.getD u none = some t := by
    intro u t h1 h2
    have hd : sp1.goal_distances.getD u 0 = INF_COSTS := by
      by_contra hc
      have := q2.arcs u t h1 hc
      rw [← r4.costs] at this
      exact this h2
    refine ⟨hd, ?_⟩
    rw [← r2.keep u hd]
    exact h1
  refine ⟨sp1, by rw [full_dijkstra_eq]; exact q1, r4.costs, hstale, ?_, ?_, q2.goal⟩
  · intro hpre u t h1 h2
    obtain ⟨-, h3⟩ := hstale u t h1 h2
    rw [r4.costs] at h2
    exact hpre u t h3 h2
  · intro u hu hall
    by_contra hc
    obtain ⟨ops, w1, w2⟩ := q2.reach u hu hc
    rw [← r4.costs] at w2
    exact hall ops w1 w2

/-- Witness of C31 on the chain `0 -> 1 -> 2` with the goal 2 and the internal
cost table `[3, INF_COSTS]`: the only arc into the goal carries an operator of
cost `INF_COSTS`, and states 0 and 1 end with the distance `INF_COSTS`. -/
theorem infinite_costs_carry_no_path_witness :
    ∃ sp1, full_dijkstra true ⟨false, [3, INF_COSTS], [], [], [], [], [], []⟩ chain_in [2]
        73786976294838206462 = .ok sp1 ∧
      sp1.operator_costs = [3, INF_COSTS] ∧
      (∀ u t, sp1.shortest_path.getD u none = some t →
        sp1.operator_costs.getD t.op_id 0 = INF_COSTS →
        sp1.goal_distances.getD u 0 = INF_COSTS ∧
          ([] : List (Option Transition)).getD u none = some t) ∧
      ((∀ u t, ([] : List (Option Transition)).getD u none = some t →
          [3, INF_COSTS].getD t.op_id 0 ≠ INF_COSTS) →
        ∀ u t, sp1.shortest_path.getD u none = some t →
          sp1.operator_costs.getD t.op_id 0 ≠ INF_COSTS) ∧
      (∀ u, u < chain_in.length →
        (∀ ops, GoalWalk chain_in [2] u ops → ¬ FiniteOps sp1.operator_costs ops) →
        sp1.goal_distances.getD u 0 = INF_COSTS) ∧
      (∀ g ∈ [2], sp1.goal_distances.getD g 0 = 0 ∧
        sp1.shortest_path.getD g none = none) :=
  infinite_costs_carry_no_path true ⟨false, [3, INF_COSTS], [], [], [], [], [], []⟩ chain_in [2]
    73786976294838206462 chain_graph_ok (by decide)

/-! ## Termination of the repair, orphan filtering, assertions of the repair -/

theorem orphan_pop_inv {in_ out : List Transitions} {goals : List Nat}
    {ocs : List Nat} {bound cmax : Nat} (hc : OrphCtx in_ out goals ocs bound cmax)
    {sp : ShortestPaths} {g s : Nat} {q : HeapQueue}
    (hi : OrphInv in_ goals ocs (fun _ _ => False) sp)
    (hnd : ∀ u, sp.goal_distances.getD u 0 ≠ DIRTY)
    (hpop : sp.open_queue.pop = some ((g, s), q)) :
    s < in_.length ∧ sp.goal_distances.getD s 0 ≤ g ∧ g < DIRTY ∧
    (g > sp.goal_distances.getD s 0 →
      OrphInv in_ goals ocs (fun _ _ => False) { sp with open_queue := q }) ∧
    (¬ g > sp.goal_distances.getD s 0 →
      OrphInv in_ goals ocs (fun u _ => u = s) { sp with open_queue := q } ∧
      Settled in_ goals { sp with open_queue := q } s) := by
  obtain ⟨p1, p2, p3⟩ := HeapQueue.pop_spec hpop
  have hmem : (g, s) ∈ sp.open_queue := (p1 _).2 (Or.inl rfl)
  obtain ⟨hs, hle, hk⟩ := hi.queue _ _ hmem
  have hi1 : ∀ (exc : Nat → Transition → Prop),
      (sp.goal_distances.getD s 0 = g → ∀ x, exc s x) →
      OrphInv in_ goals ocs exc { sp with open_queue := q } := by
    intro exc hexc
    refine ⟨hi.len, hi.plen, hi.costs, hi.word, hi.sound, ?_, ?_, hi.goal, hi.inf, ?_⟩
    · intro k u hku
      exact hi.queue k u ((p1 _).2 (Or.inr hku))
    · intro u hu hfin
      rcases hi.closed u hu hfin with h | h
      · rcases (p1 _).1 h with h2 | h2
        · simp only [Prod.mk.injEq] at h2
          obtain ⟨h3, rfl⟩ := h2
          right
          intro x _ hne
          exact absurd (hexc h3 x) hne
        · exact Or.inl h2
      · right
        intro x hx _ hcx
        exact h x hx (fun h3 => h3) hcx
    · intro u hu hng hfin
      obtain ⟨t1, h1, h2, h3, h4, h5⟩ := hi.tree u hu hng hfin
      refine ⟨t1, h1, h2, h3, h4, ?_⟩
      rcases h5 with h5 | h5 | h5
      · rcases (p1 _).1 h5 with h6 | h6
        · simp only [Prod.mk.injEq] at h6
          obtain ⟨h7, h8⟩ := h6
          right; left
          rw [h8]
          apply hexc
          rw [← h8]
          exact h7
        · exact Or.inl h6
      · exact absurd h5 (fun h => h)
      · exact Or.inr (Or.inr h5)
  refine ⟨hs, hle, hk, ?_, ?_⟩
  · intro hlt
    exact hi1 (fun _ _ => False) (fun h => by omega)
  · intro hlt
    have hgs : sp.goal_distances.getD s 0 = g := by omega
    refine ⟨hi1 (fun u _ => u = s) (fun _ _ => rfl), ?_⟩
    refine ⟨by
      dsimp only
      unfold DIRTY at hk
      unfold INF_COSTS
      omega, ?_⟩
    intro ops hw hfin
    dsimp only at hfin ⊢
    rw [hi.costs] at hfin ⊢
    by_cases hcw : walk_cost64 ocs ops < g
    · exact hi.greedy hc hnd hw (by
        unfold DIRTY at hk
        unfold INF_COSTS
        omega)
        (fun k x hkx => lt_of_lt_of_le hcw (p2 _ hkx))
    · omega

theorem relax_entry_decreases {g : Nat} {sp : ShortestPaths} {t : Transition}
    (hnd : ∀ u, sp.goal_distances.getD u 0 ≠ DIRTY) :
    ∀ e ∈ relax_entry g sp t, e.2.2 < e.2.1 := by
  intro e he
  unfold relax_entry at he
  dsimp only at he
  have hb : (sp.goal_distances.getD t.target_id 0 == DIRTY) = false := by
    simpa using hnd t.target_id
  rw [hb, Bool.false_or] at he
  split_ifs at he with h
  · simp only [List.mem_singleton] at he
    rw [he]
    simpa using h
  · cases he

theorem orphan_relax_trace_decreases (a : Bool) {in_ out : List Transitions}
    {goals : List Nat} {ocs : List Nat} {bound cmax : Nat}
    (hc : OrphCtx in_ out goals ocs bound cmax) {s g : Nat} (hs : s < in_.length) :
    ∀ (rest done : List Transition) (sp : ShortestPaths),
      (∀ t ∈ rest, t ∈ in_.getD s []) →
      OrphInv in_ goals ocs (fun u x => u = s ∧ x ∉ done) sp →
      (∀ u, sp.goal_distances.getD u 0 ≠ DIRTY) →
      sp.goal_distances.getD s 0 = g → Settled in_ goals sp s →
      ∀ e ∈ orphan_relax_trace a g s sp rest, e.2.2 < e.2.1 := by
  intro rest
  induction rest with
  | nil => intro done sp _ _ _ _ _ e he; cases he
  | cons t ts ih =>
    intro done sp hmem hi hnd hgs hset e he
    obtain ⟨sp1, k0, k1, k2, k3, k4, -⟩ :=
      orphan_relax_inv a hc hi hnd hgs hset hs (hmem t (List.mem_cons_self _ _))
    simp only [orphan_relax_trace, k0] at he
    rcases List.mem_append.1 he with h | h
    · exact relax_entry_decreases hnd e h
    · exact ih (done ++ [t]) sp1 (fun x hx => hmem x (List.mem_cons_of_mem _ hx))
        k1 k2 k3 k4 e h

theorem orphan_trace_decreases (a : Bool) {in_ out : List Transitions} {goals : List Nat}
    {ocs : List Nat} {bound cmax : Nat} (hc : OrphCtx in_ out goals ocs bound cmax) :
    ∀ (fuel : Nat) (sp : ShortestPaths), OrphInv in_ goals ocs (fun _ _ => False) sp →
      (∀ u, sp.goal_distances.getD u 0 ≠ DIRTY) →
      ∀ e ∈ orphan_trace a in_ fuel sp, e.2.2 < e.2.1 := by
  intro fuel
  induction fuel with
  | zero => intro sp _ _ e he; cases he
  | succ fuel ih =>
    intro sp hi hnd e he
    unfold orphan_trace at he
    cases hpop : sp.open_queue.pop with
    | none =>
      rw [hpop] at he
      cases he
    | some xr =>
      obtain ⟨⟨g, s⟩, q⟩ := xr
      rw [hpop] at he
      dsimp only at he
      obtain ⟨hs, hle, hk, h1, h2⟩ := orphan_pop_inv hc hi hnd hpop
      by_cases hlt : g > sp.goal_distances.getD s 0
      · rw [if_pos hlt] at he
        exact ih _ (h1 hlt) hnd e he
      · rw [if_neg hlt] at he
        obtain ⟨i1, i2⟩ := h2 hlt
        have hgs : sp.goal_distances.getD s 0 = g := by omega
        obtain ⟨sp2, f0, f1, f2, -⟩ := orphan_relax_fold a hc i1 hnd hgs i2 hs
        rw [f0] at he
        rcases List.mem_append.1 he with h | h
        · refine orphan_relax_trace_decreases a hc hs (in_.getD s []) []
            { sp with open_queue := q } (fun _ h => h) ?_ hnd hgs i2 e h
          refine ⟨i1.len, i1.plen, i1.costs, i1.word, i1.sound, i1.queue, ?_, i1.goal,
            i1.inf, ?_⟩
          · intro u hu hfin
            refine (i1.closed u hu hfin).imp id ?_
            intro h3 x hx hne hcx
            exact h3 x hx (fun h4 => hne ⟨h4, by simp⟩) hcx
          · intro u hu hng hfin
            obtain ⟨t1, j1, j2, j3, j4, j5⟩ := i1.tree u hu hng hfin
            refine ⟨t1, j1, j2, j3, j4, ?_⟩
            rcases j5 with j5 | j5 | j5
            · exact Or.inl j5
            · exact Or.inr (Or.inl ⟨j5, by simp⟩)
            · exact Or.inr (Or.inr j5)
        · exact ih _ f1 f2 e h

theorem chain_marked {sp sp1 : ShortestPaths} {in_ : List Transitions} {v1 : Nat}
    (hrev : ∀ u t, u ≠ v1 → sp.shortest_path.getD u none = some t →
      (⟨t.op_id, u⟩ : Transition) ∈ in_.getD t.target_id [])
    (hv : sp1.goal_distances.getD v1 0 = DIRTY)
    (hdone : ∀ x, sp1.goal_distances.getD x 0 = DIRTY → PrevDone sp sp1 in_ x) {u : Nat}
    (h : ParentChain sp v1 u) : sp1.goal_distances.getD u 0 = DIRTY := by
  induction h with
  | root => exact hv
  | @step u t hp _ ih =>
    by_cases huv : u = v1
    · rw [huv]; exact hv
    · rcases hdone t.target_id ih ⟨t.op_id, u⟩ (hrev u t huv hp) with h1 | h1
      · exact h1
      · exact absurd rfl (h1 t hp)

theorem repair_rest_stages (a : Bool) {sp sp3 sp6 : ShortestPaths}
    {in0 in_ out : List Transitions}
    {goals : List Nat} {v v2 bound cmax : Nat} (ht : TreeOk sp in0 goals bound)
    (hs : SplitOk sp in0 in_ out goals v v2 bound cmax)
    (hr : AfterRedirect sp sp3 in_ goals v v2) (hm : AfterMark sp3 sp6 in_ goals) (fuel : Nat)
    (hfuel : repair_fuel in_.length ≤ fuel) :
    ∃ sp8 sp1,
      Run.foldl (seed_state a out) { sp6 with open_queue := [] } sp6.dirty_states = .ok sp8 ∧
      OrphInv in_ goals sp.operator_costs (fun _ _ => False) sp8 ∧
      (∀ u, sp8.goal_distances.getD u 0 ≠ DIRTY) ∧
      orphan_loop a in_ fuel sp8 = .ok sp1 ∧
      (check a (decide (sp6.dirty_states.length < in_.length)) 261 <|
        check a (dirty_states_consistent sp6 in_.length) 266 <|
        (Run.foldl (seed_state a out) { sp6 with open_queue := [] } sp6.dirty_states).bind
          fun sp8 => orphan_loop a in_ fuel sp8) = .ok sp1 ∧
      FullPost in_ goals sp1 ∧ sp1.dirty_states = sp6.dirty_states ∧
      sp1.operator_costs = sp.operator_costs := by
  have hc := split_ctx ht hs
  obtain ⟨k1, k2⟩ := after_mark_checks ht hs hr hm
  have c1 : decide (sp6.dirty_states.length < in_.length) = true := by simpa using k1
  rw [c1, check_true, k2, check_true]
  obtain ⟨sp8, s1, s2⟩ := seed_states_spec a hc (seed_start ht hs hr hm) hm.base.ds_nodup
    (fun y hy => ((hm.base.ds_iff y).1 hy).1) (le_of_lt k1)
  have hnd8 : ∀ u, sp8.goal_distances.getD u 0 ≠ DIRTY := by
    intro u hu
    have := (s2.dirty u).1 hu
    exact this.2 this.1
  have hmeas : loop_measure sp8 < fuel := by
    unfold loop_measure
    have h1 := sum_le_of_getD INF_COSTS sp8.goal_distances s2.inv.word
    rw [s2.inv.len] at h1
    have h2 := s2.qlen
    unfold repair_fuel at hfuel
    have h3 : (in_.length + 1) * (in_.length + 1) = in_.length * in_.length + 2 * in_.length + 1 := by
      ring
    have h4 : 2 * in_.length * INF_COSTS = 2 * (in_.length * INF_COSTS) := by ring
    omega
  obtain ⟨sp9, r1, r2, r3, r4, r5, -⟩ := orphan_loop_spec a hc fuel sp8 s2.inv hnd8 hmeas
  have hfr := s2.frame.trans r5
  obtain ⟨p1, -⟩ := repair_post hc r2 r3 r4 (by rw [hfr.cq]; exact hm.cq)
    (by rw [hfr.dc]; exact hm.dc)
  refine ⟨sp8, sp9, s1, s2.inv, hnd8, r1, ?_, p1, hfr.ds, r2.costs⟩
  rw [s1]
  exact r1

theorem dijkstra_from_orphans_stages (a : Bool) {sp : ShortestPaths}
    {in0 in_ out : List Transitions} {goals : List Nat} {v v2 bound cmax : Nat}
    (filter_orphans : Bool) (fuel : Nat) (ht : TreeOk sp in0 goals bound)
    (hs : SplitOk sp in0 in_ out goals v v2 bound cmax)
    (hfuel : repair_fuel in_.length ≤ fuel)
    (J : List (Nat × HeapQueue × HeapQueue) → ShortestPaths → Prop)
    (hJ : ∀ log sp5 k s q sp1, CandInv (split_start sp in_ v v2) sp5 in_ goals none →
      sp5.candidate_queue.pop = some ((k, s), q) → CandStep a in_ out sp5 s q sp1 →
      J log sp5 → J (log ++ [(s, q, sp1.candidate_queue)]) sp1)
    (hJ0 : J [] (candidate_init (split_start sp in_ v v2) in_.length v)) :
    ∃ sp6 sp8 sp1, dijkstra_from_orphans a sp in_ out v v v2 filter_orphans fuel = .ok sp1 ∧
      (filter_orphans = true →
        candidate_loop a in_ out fuel (candidate_init (split_start sp in_ v v2) in_.length v)
          = .ok sp6 ∧
        J (candidate_trace a in_ out fuel
          (candidate_init (split_start sp in_ v v2) in_.length v)) sp6 ∧
        ∀ u, sp6.goal_distances.getD u 0 = DIRTY → ParentChain (split_start sp in_ v v2) v u) ∧
      (filter_orphans = false →
        mark_orphaned_predecessors a in_ fuel (split_start sp in_ v v2) v = .ok sp6 ∧
        ∀ u, sp6.goal_distances.getD u 0 = DIRTY ↔ ParentChain (split_start sp in_ v v2) v u) ∧
      AfterMark (split_start sp in_ v v2) sp6 in_ goals ∧
      Run.foldl (seed_state a out) { sp6 with open_queue := [] } sp6.dirty_states = .ok sp8 ∧
      OrphInv in_ goals sp.operator_costs (fun _ _ => False) sp8 ∧
      (∀ u, sp8.goal_distances.getD u 0 ≠ DIRTY) ∧
      orphan_loop a in_ fuel sp8 = .ok sp1 ∧
      FullPost in_ goals sp1 ∧ sp1.dirty_states = sp6.dirty_states ∧
      sp1.operator_costs = sp.operator_costs := by
  have hv := hs.v_lt
  have hn := hs.new_len
  have hr := split_start_spec ht hs
  have h137 : (in_.length == out.length) = true := by simpa using hs.cons.len
  have hold : (split_init sp in_.length).shortest_path.getD v none
      = sp.shortest_path.getD v none := by
    unfold split_init
    dsimp only
    exact getD_resize_lt _ _ _ _ _ (by rw [ht.path_len, hs.old_len]; exact hv) (by omega)
  obtain ⟨t, t1, t2, t3⟩ := hs.inherit
  have h1s : ((out.getD v []).any fun x =>
      some x == (split_init sp in_.length).shortest_path.getD v none) = false := by
    rw [hold, t1, List.any_eq_false]
    intro x hx hc
    simp only [beq_iff_eq, Option.some.injEq] at hc
    exact t3 (hc ▸ hx)
  have h2s : ((out.getD v2 []).any fun x =>
      some x == (split_init sp in_.length).shortest_path.getD v none) = true := by
    rw [hold, t1, List.any_eq_true]
    exact ⟨t, t2, by simp⟩
  have hfuel2 : in_.length * (in_.length + 1) + 1 < fuel ∧ in_.length < fuel := by
    unfold repair_fuel at hfuel
    have h3 : (in_.length + 1) * (in_.length + 1)
        = in_.length * (in_.length + 1) + in_.length + 1 := by ring
    constructor <;> omega
  obtain ⟨hb, hnd⟩ := hr.mark_base ht
  unfold dijkstra_from_orphans
  rw [h137, check_true]
  dsimp only
  rw [h1s, h2s]
  simp only [Bool.xor_true, Bool.not_false, check_true]
  have hsp3 : redirect_arcs in_ v v v2 (split_copy (split_init sp in_.length) v v v2)
      = split_start sp in_ v v2 := rfl
  rw [hsp3]
  cases filter_orphans
  · simp only [Bool.false_eq_true, if_false]
    obtain ⟨sp6, m1, m2, m3, -, m5⟩ := dfs_mark_spec a (fun _ => hs.noloop) fuel
      (split_start sp in_ v v2) v
      (dfs_mark_start v hr.dist_len hr.path_len hr.ds hnd) (by omega) (hnd v)
      ParentChain.root (by rw [hr.ds]; simpa using hfuel2.2)
    obtain ⟨sp6', n1, n2⟩ := mark_unfiltered_spec a ht hs hr fuel hfuel2.2
    rw [m1] at n1
    cases n1
    rw [m1]
    simp only [Run.bind]
    obtain ⟨sp8, sp1, q1, q2, q3, q4, q5, q6, q7, q8⟩ := repair_rest_stages a ht hs hr n2 fuel hfuel
    refine ⟨sp6, sp8, sp1, q5, (fun h => by cases h), fun _ => ⟨rfl, ?_⟩, n2, q1, q2, q3, q4,
      q6, q7, q8⟩
    intro u
    refine ⟨m2.reach u, ?_⟩
    intro hch
    refine chain_marked ?_ m3 (fun x hx => m5 x hx (hnd x)) hch
    intro w tw hwv hp
    have hwl : w < in_.length := by
      by_contra hcon
      rw [List.getD_eq_default _ _ (by rw [hr.path_len]; omega)] at hp
      cases hp
    have hwg : w ∉ goals := by
      intro hcon
      rw [hr.goal w hcon] at hp
      cases hp
    have hwi : (split_start sp in_ v v2).goal_distances.getD w 0 ≠ INF_COSTS := by
      intro hcon
      rw [hr.inf w hwl hcon] at hp
      cases hp
    obtain ⟨t', p1, -, p3, -⟩ := hr.tree w hwl hwg hwi hwv
    rw [hp] at p1
    cases p1
    exact p3
  · simp only [if_true]
    obtain ⟨sp6, m1, m2, m3, m4, m5⟩ := mark_filtered_carries a ht hs hr fuel hfuel2.1
      (fun log sp5 => Untouched (split_start sp in_ v v2) v sp5 ∧ J log sp5)
      (fun log sp5 k s q sp1 hi hpop hstep hj =>
        ⟨untouched_step hpop hstep hj.1, hJ log sp5 k s q sp1 hi hpop hstep hj.2⟩)
      ⟨untouched_init _ _ (by rw [hr.cq]; exact ht.cq), hJ0⟩
    rw [m1]
    simp only [Run.bind]
    obtain ⟨sp8, sp1, q1, q2, q3, q4, q5, q6, q7, q8⟩ := repair_rest_stages a ht hs hr m2 fuel hfuel
    refine ⟨sp6, sp8, sp1, q5, fun _ => ⟨m3, m5, ?_⟩, (fun h => by cases h), m2, q1, q2, q3, q4,
      q6, q7, q8⟩
    intro u hu
    by_contra hch
    have := (m4 u hch).1.1
    rw [this] at hu
    exact hnd u hu

theorem no_repeat_step {a : Bool} {sp sp3 sp5 sp1 : ShortestPaths}
    {in0 in_ out : List Transitions} {goals : List Nat} {v v2 bound cmax k s : Nat}
    {q : HeapQueue} {log : List (Nat × HeapQueue × HeapQueue)}
    (ht : TreeOk sp in0 goals bound) (hs : SplitOk sp in0 in_ out goals v v2 bound cmax)
    (hr : AfterRedirect sp sp3 in_ goals v v2)
    (hi : CandInv sp3 sp5 in_ goals none) (hpop : sp5.candidate_queue.pop = some ((k, s), q))
    (hstep : CandStep a in_ out sp5 s q sp1)
    (hj : CandOrder sp3 in_ goals log sp5 ∧ NoRepeat log sp5) :
    CandOrder sp3 in_ goals (log ++ [(s, q, sp1.candidate_queue)]) sp1 ∧
    NoRepeat (log ++ [(s, q, sp1.candidate_queue)]) sp1 := by
  have hnew := cand_order_step ht hs hr hi hpop hstep hj.1
  obtain ⟨p1, -, -⟩ := HeapQueue.pop_spec hpop
  have hmem : (k, s) ∈ sp5.candidate_queue := (p1 _).2 (Or.inl rfl)
  have hk : k = sp3.goal_distances.getD s 0 := hj.1.keys _ hmem
  have hperm := HeapQueue.pop_perm hpop
  have hnd : ((k, s) :: q).map Prod.snd |>.Nodup := (hperm.map Prod.snd).nodup_iff.1 hi.q_nodup
  simp only [List.map_cons, List.nodup_cons] at hnd
  refine ⟨hnew, ?_, ?_⟩
  · rw [List.map_append, List.nodup_append]
    refine ⟨hj.2.1, by simp, ?_⟩
    intro x hx hy
    simp only [List.map_cons, List.map_nil, List.mem_singleton] at hy
    obtain ⟨e, he, rfl⟩ := List.mem_map.1 hx
    exact hj.2.2 e he _ hmem hy.symm
  · intro e he x hx
    have hpush := hnew.pushed (s, q, sp1.candidate_queue)
      (List.mem_append_right _ (List.mem_singleton.2 rfl)) x hx
    dsimp only at hpush
    rcases List.mem_append.1 he with h | h
    · rcases hpush with h1 | h1
      · exact hj.2.2 e h x ((p1 _).2 (Or.inr h1))
      · have := hj.1.above e h _ hmem
        dsimp only at this
        intro hc
        rw [hc] at h1
        omega
    · simp only [List.mem_singleton] at h
      rw [h]
      dsimp only
      rcases hpush with h1 | h1
      · intro hc
        apply hnd.1
        rw [← hc]
        exact List.mem_map.2 ⟨x, h1, rfl⟩
      · intro hc
        rw [hc] at h1
        omega

/-- C33: for every call of `dijkstra_from_orphans` made under its preconditions,
with either value of `filter_orphans`, the call returns (the fuel `repair_fuel`
bounds the iterations of all its loops): the candidate loop returns and no state
is popped twice from `candidate_queue` (`candidate_trace` lists the iterations),
the loop over `open_queue` returns, and every assignment of a distance in it
(`orphan_trace` lists them with the value before and after) stores a value that
is strictly smaller than the stored one, in the order of the 64-bit values, in
which `DIRTY` and `INF_COSTS` are above every other distance. -/
theorem repair_terminates (a : Bool) (sp : ShortestPaths) (in0 in_ out : List Transitions)
    (goals : List Nat) (v v2 bound cmax : Nat) (filter_orphans : Bool) (fuel : Nat)
    (ht : TreeOk sp in0 goals bound) (hs : SplitOk sp in0 in_ out goals v v2 bound cmax)
    (hfuel : repair_fuel in_.length ≤ fuel) :
    ∃ sp6 sp8 sp1, dijkstra_from_orphans a sp in_ out v v v2 filter_orphans fuel = .ok sp1 ∧
      (filter_orphans = true →
        candidate_loop a in_ out fuel (candidate_init (split_start sp in_ v v2) in_.length v)
          = .ok sp6 ∧
        ((candidate_trace a in_ out fuel
          (candidate_init (split_start sp in_ v v2) in_.length v)).map fun e => e.1).Nodup) ∧
      (filter_orphans = false →
        mark_orphaned_predecessors a in_ fuel (split_start sp in_ v v2) v = .ok sp6) ∧
      Run.foldl (seed_state a out) { sp6 with open_queue := [] } sp6.dirty_states = .ok sp8 ∧
      orphan_loop a in_ fuel sp8 = .ok sp1 ∧
      ∀ e ∈ orphan_trace a in_ fuel sp8, e.2.2 < e.2.1 := by
  have hr := split_start_spec ht hs
  obtain ⟨sp6, sp8, sp1, r1, r2, r3, -, r5, r6, r7, r8, -, -, -⟩ :=
    dijkstra_from_orphans_stages a filter_orphans fuel ht hs hfuel
      (fun log sp5 => CandOrder (split_start sp in_ v v2) in_ goals log sp5 ∧ NoRepeat log sp5)
      (fun log sp5 k s q sp1 hi hpop hstep hj => no_repeat_step ht hs hr hi hpop hstep hj)
      ⟨cand_order_init ht hr, (by simp), (fun e he => by cases he)⟩
  refine ⟨sp6, sp8, sp1, r1, fun h => ⟨(r2 h).1, (r2 h).2.1.2.1⟩, fun h => (r3 h).1, r5, r8,
    orphan_trace_decreases a (split_ctx ht hs) fuel sp8 r6 r7⟩

/-- Witness of C33 in scenario S3. -/
theorem repair_terminates_witness :
    ∃ sp6 sp8 sp1, dijkstra_from_orphans true (chain_state 3 4) split_in split_out 1 1 3 true
        (repair_fuel 4) = .ok sp1 ∧
      (true = true →
        candidate_loop true split_in split_out (repair_fuel 4)
          (candidate_init (split_start (chain_state 3 4) split_in 1 3) split_in.length 1)
          = .ok sp6 ∧
        ((candidate_trace true split_in split_out (repair_fuel 4)
          (candidate_init (split_start (chain_state 3 4) split_in 1 3) split_in.length 1)).map
            fun e => e.1).Nodup) ∧
      (true = false →
        mark_orphaned_predecessors true split_in (repair_fuel 4)
          (split_start (chain_state 3 4) split_in 1 3) 1 = .ok sp6) ∧
      Run.foldl (seed_state true split_out) { sp6 with open_queue := [] } sp6.dirty_states
        = .ok sp8 ∧
      orphan_loop true split_in (repair_fuel 4) sp8 = .ok sp1 ∧
      ∀ e ∈ orphan_trace true split_in (repair_fuel 4) sp8, e.2.2 < e.2.1 :=
  repair_terminates true (chain_state 3 4) chain_in split_in split_out [2] 1 3 8 4 true
    (repair_fuel 4) chain_tree_ok split_ok (le_refl _)

/-- C36: for every engine state and split that satisfy the preconditions of
`dijkstra_from_orphans`, the call with `filter_orphans = true` and the call with
`filter_orphans = false` both return, with the same `goal_distances`, every
state in `dirty_states` (the states marked dirty) after the call with filtering
is in `dirty_states` after the call without it, and both results are
shortest-path trees of the graph after the split (`TreeOk`), so the tree arcs of
a state in the two results cost the same to the goal. -/
theorem filtering_keeps_distances (a a2 : Bool) (sp : ShortestPaths)
    (in0 in_ out : List Transitions) (goals : List Nat) (v v2 bound cmax : Nat)
    (fuel fuel2 : Nat) (ht : TreeOk sp in0 goals bound)
    (hs : SplitOk sp in0 in_ out goals v v2 bound cmax)
    (hfuel : repair_fuel in_.length ≤ fuel) (hfuel2 : repair_fuel in_.length ≤ fuel2) :
    ∃ spT spF, dijkstra_from_orphans a sp in_ out v v v2 true fuel = .ok spT ∧
      dijkstra_from_orphans a2 sp in_ out v v v2 false fuel2 = .ok spF ∧
      spT.goal_distances = spF.goal_distances ∧
      (∀ u, u ∈ spT.dirty_states → u ∈ spF.dirty_states) ∧
      TreeOk spT in_ goals bound ∧ TreeOk spF in_ goals bound := by
  obtain ⟨sp6, -, spT, r1, r2, -, r4, -, -, -, -, r9, r10, r11⟩ :=
    dijkstra_from_orphans_stages a true fuel ht hs hfuel (fun _ _ => True)
      (fun _ _ _ _ _ _ _ _ _ _ => trivial) trivial
  obtain ⟨sp6', -, spF, q1, -, q3, q4, -, -, -, -, q9, q10, q11⟩ :=
    dijkstra_from_orphans_stages a2 false fuel2 ht hs hfuel2 (fun _ _ => True)
      (fun _ _ _ _ _ _ _ _ _ _ => trivial) trivial
  obtain ⟨spT1, t1, -, t3, -⟩ := dijkstra_from_orphans_spec a true fuel ht hs hfuel
  obtain ⟨spF1, f1, -, f3, -⟩ := dijkstra_from_orphans_spec a2 false fuel2 ht hs hfuel2
  rw [r1] at t1
  cases t1
  rw [q1] at f1
  cases f1
  refine ⟨spT, spF, r1, q1, r9.dist_eq q9 (r11.trans q11.symm), ?_, t3, f3⟩
  · intro u hu
    rw [r10] at hu
    rw [q10]
    obtain ⟨hul, hud⟩ := (r4.base.ds_iff u).1 hu
    exact (q4.base.ds_iff u).2 ⟨hul, ((q3 rfl).2 u).2 ((r2 rfl).2.2 u hud)⟩

/-- Witness of C36 in scenario S3. -/
theorem filtering_keeps_distances_witness :
    ∃ spT spF, dijkstra_from_orphans true (chain_state 3 4) split_in split_out 1 1 3 true
        (repair_fuel 4) = .ok spT ∧
      dijkstra_from_orphans true (chain_state 3 4) split_in split_out 1 1 3 false
        (repair_fuel 4) = .ok spF ∧
      spT.goal_distances = spF.goal_distances ∧
      (∀ u, u ∈ spT.dirty_states → u ∈ spF.dirty_states) ∧
      TreeOk spT split_in [2] 8 ∧ TreeOk spF split_in [2] 8 :=
  filtering_keeps_distances true true (chain_state 3 4) chain_in split_in split_out [2] 1 3 8 4
    (repair_fuel 4) (repair_fuel 4) chain_tree_ok split_ok (le_refl _) (le_refl _)

/-- C38: for every call of `dijkstra_from_orphans` made under its preconditions,
with either value of `filter_orphans`, the call with assertions compiled in
returns: it aborts at no assertion, so none of the assertions of lines 106, 213,
214, 215, 261, 266, 312, 315 and 316 fails (a failing assertion is the outcome
`abort` with its line). In the state `sp6` at the start of lines 256-330 no state
occurs twice in `dirty_states`, a state of the graph has the distance `DIRTY`
exactly when it occurs in `dirty_states`, where it then occurs once, and
`dirty_states` holds fewer states than the graph; `dirty_states` is the same on
return. -/
theorem repair_assertions_hold (sp : ShortestPaths) (in0 in_ out : List Transitions)
    (goals : List Nat) (v v2 bound cmax : Nat) (filter_orphans : Bool) (fuel : Nat)
    (ht : TreeOk sp in0 goals bound) (hs : SplitOk sp in0 in_ out goals v v2 bound cmax)
    (hfuel : repair_fuel in_.length ≤ fuel) :
    ∃ sp6 sp1, dijkstra_from_orphans true sp in_ out v v v2 filter_orphans fuel = .ok sp1 ∧
      (∀ line, dijkstra_from_orphans true sp in_ out v v v2 filter_orphans fuel
        ≠ .abort line) ∧
      (filter_orphans = true →
        candidate_loop true in_ out fuel
          (candidate_init (split_start sp in_ v v2) in_.length v) = .ok sp6) ∧
      (filter_orphans = false →
        mark_orphaned_predecessors true in_ fuel (split_start sp in_ v v2) v = .ok sp6) ∧
      sp6.dirty_states.Nodup ∧
      (∀ u, u < in_.length →
        (sp6.goal_distances.getD u 0 = DIRTY ↔ u ∈ sp6.dirty_states) ∧
        (sp6.goal_distances.getD u 0 = DIRTY → sp6.dirty_states.count u = 1)) ∧
      sp6.dirty_states.length < in_.length ∧
      dirty_states_consistent sp6 in_.length = true ∧
      sp1.dirty_states = sp6.dirty_states := by
  have hr := split_start_spec ht hs
  obtain ⟨sp6, -, sp1, r1, r2, r3, r4, -, -, -, -, -, r10, -⟩ :=
    dijkstra_from_orphans_stages true filter_orphans fuel ht hs hfuel (fun _ _ => True)
      (fun _ _ _ _ _ _ _ _ _ _ => trivial) trivial
  obtain ⟨k1, k2⟩ := after_mark_checks ht hs hr r4
  refine ⟨sp6, sp1, r1, ?_, fun h => (r2 h).1, fun h => (r3 h).1, r4.base.ds_nodup, ?_, k1, k2,
    r10⟩
  · intro line hc
    rw [r1] at hc
    cases hc
  · intro u hu
    have hiff : sp6.goal_distances.getD u 0 = DIRTY ↔ u ∈ sp6.dirty_states :=
      ⟨fun h => (r4.base.ds_iff u).2 ⟨hu, h⟩, fun h => ((r4.base.ds_iff u).1 h).2⟩
    refine ⟨hiff, fun h => ?_⟩
    exact List.count_eq_one_of_mem r4.base.ds_nodup (hiff.1 h)

/-- Witness of C38 in scenario S3. -/
theorem repair_assertions_hold_witness :
    ∃ sp6 sp1, dijkstra_from_orphans true (chain_state 3 4) split_in split_out 1 1 3 true
        (repair_fuel 4) = .ok sp1 ∧
      (∀ line, dijkstra_from_orphans true (chain_state 3 4) split_in split_out 1 1 3 true
        (repair_fuel 4) ≠ .abort line) ∧
      (true = true →
        candidate_loop true split_in split_out (repair_fuel 4)
          (candidate_init (split_start (chain_state 3 4) split_in 1 3) split_in.length 1)
          = .ok sp6) ∧
      (true = false →
        mark_orphaned_predecessors true split_in (repair_fuel 4)
          (split_start (chain_state 3 4) split_in 1 3) 1 = .ok sp6) ∧
      sp6.dirty_states.Nodup ∧
      (∀ u, u < split_in.length →
        (sp6.goal_distances.getD u 0 = DIRTY ↔ u ∈ sp6.dirty_states) ∧
        (sp6.goal_distances.getD u 0 = DIRTY → sp6.dirty_states.count u = 1)) ∧
      sp6.dirty_states.length < split_in.length ∧
      dirty_states_consistent sp6 split_in.length = true ∧
      sp1.dirty_states = sp6.dirty_states :=
  repair_assertions_hold (chain_state 3 4) chain_in split_in split_out [2] 1 3 8 4 true
    (repair_fuel 4) chain_tree_ok split_ok (le_refl _)

/-! ## The verifier test_distances -/

theorem run_foldl_unit {α : Type} (f : α → Run Unit) :
    ∀ (l : List α), Run.foldl (fun (_ : Unit) x => f x) () l = .ok () →
      ∀ x ∈ l, f x = .ok () := by
  intro l
  induction l with
  | nil => intro _ x hx; cases hx
  | cons y ys ih =>
    intro h x hx
    simp only [Run.foldl] at h
    obtain ⟨u, h1, h2⟩ := Run.bind_eq_ok h
    rcases List.mem_cons.1 hx with rfl | hx
    · exact h1
    · exact ih h2 x hx

/-- C35 fails for a state that is not reachable from state 0: on the graph with
the arcs `0 -> 2` and `1 -> 2` and the goal 2, in the engine state with the
distances `[3, 4, 0]` in which state 1 has no tree arc, `test_distances` returns
true with assertions compiled in, although state 1 is no goal, has a distance
other than `INF_COSTS` and an undefined `shortest_path`: the test of lines
391-393 skips every state `i` with `init_distances[i] == INF`. -/
theorem verifier_skips_unreachable :
    test_distances true fork_state fork_in fork_out [2] = .ok true ∧
    1 ∉ [2] ∧ fork_state.goal_distances.getD 1 0 ≠ INF_COSTS ∧
    fork_state.shortest_path.getD 1 none = none ∧
    (compute_distances fork_out [3, 4] [0]).getD 1 0 = INF := by
  decide

/-- C35 as amended: if `test_distances` returns with assertions compiled in, then
every state `i` of the graph that is no goal, has a distance other than
`INF_COSTS` and is reachable from state 0 (`init_distances[i] != INF`, with the
decoded cost table `costs`) has a defined `shortest_path[i]` that occurs exactly
once in `out[i]` and satisfies the cost equation in 64-bit arithmetic. -/
theorem verifier_covers_reachable (sp : ShortestPaths) (in_ out : List Transitions)
    (goals : List Nat) (r : Bool) (h : test_distances true sp in_ out goals = .ok r) :
    r = true ∧
    ∃ costs, Run.foldl (fun (acc : List Int) (cost : Nat) =>
        (convert_to_32_bit_cost true sp.task_has_zero_costs cost).bind
          (fun c => .ok (acc ++ [c]))) [] sp.operator_costs = .ok costs ∧
      ∀ i, i < in_.length → i ∉ goals → sp.goal_distances.getD i 0 ≠ INF_COSTS →
        (compute_distances out costs [0]).getD i 0 ≠ INF →
        ∃ t, sp.shortest_path.getD i none = some t ∧ (out.getD i []).count t = 1 ∧
          sp.goal_distances.getD i 0
            = add64 (sp.operator_costs.getD t.op_id 0) (sp.goal_distances.getD t.target_id 0) := by
  unfold test_distances at h
  obtain ⟨-, h⟩ := check_eq_ok h
  obtain ⟨costs, h1, h⟩ := Run.bind_eq_ok h
  dsimp only at h
  obtain ⟨u, h2, h⟩ := Run.bind_eq_ok h
  obtain ⟨rounded, -, h⟩ := Run.bind_eq_ok h
  obtain ⟨u2, -, h⟩ := Run.bind_eq_ok h
  simp only [Run.ok.injEq] at h
  refine ⟨h.symm, costs, h1, ?_⟩
  intro i hi hg hfin hreach
  have hstep := run_foldl_unit
    (fun i => distance_checks true sp out goals (compute_distances out costs [0]) i)
    (List.range in_.length) h2 i (List.mem_range.2 hi)
  dsimp only at hstep
  unfold distance_checks at hstep
  have c1 : (sp.goal_distances.getD i 0 != INF_COSTS) = true := by simpa using hfin
  have c2 : ((compute_distances out costs [0]).getD i 0 != INF) = true := by simpa using hreach
  have c3 : (!goals.contains i) = true := by simpa using hg
  rw [c1, c2, c3] at hstep
  simp only [Bool.and_self, if_true] at hstep
  cases hp : sp.shortest_path.getD i none with
  | none =>
    rw [hp] at hstep
    dsimp only at hstep
    rw [check_on_false] at hstep
    cases hstep
  | some t =>
    rw [hp] at hstep
    dsimp only at hstep
    obtain ⟨k1, hstep⟩ := check_eq_ok hstep
    obtain ⟨k2, -⟩ := check_eq_ok hstep
    refine ⟨t, rfl, ?_, ?_⟩
    · simpa using k1 rfl
    · simpa using k2 rfl

/-- Witness of the amended C35 on the chain `0 -> 1 -> 2` with the goal 2. -/
theorem verifier_covers_reachable_witness :
    true = true ∧
    ∃ costs, Run.foldl (fun (acc : List Int) (cost : Nat) =>
        (convert_to_32_bit_cost true (chain_state 3 4).task_has_zero_costs cost).bind
          (fun c => .ok (acc ++ [c]))) [] (chain_state 3 4).operator_costs = .ok costs ∧
      ∀ i, i < chain_in.length → i ∉ [2] →
        (chain_state 3 4).goal_distances.getD i 0 ≠ INF_COSTS →
        (compute_distances chain_out costs [0]).getD i 0 ≠ INF →
        ∃ t, (chain_state 3 4).shortest_path.getD i none = some t ∧
          (chain_out.getD i []).count t = 1 ∧
          (chain_state 3 4).goal_distances.getD i 0
            = add64 ((chain_state 3 4).operator_costs.getD t.op_id 0)
                ((chain_state 3 4).goal_distances.getD t.target_id 0) :=
  verifier_covers_reachable (chain_state 3 4) chain_in chain_out [2] true (by decide)

/-! ## The sum of heuristic values of the cost saturation -/

theorem getD_toNat_mem {h : List Int} {id : Int} (h0 : 0 ≤ id) (h1 : id < h.length) :
    h.getD id.toNat 0 ∈ h := by
  apply getD_mem_of_lt
  omega

theorem looked_up_pruned (ids : List Int) (h : List Int) (tables : List (List Int)) :
    looked_up (-1 :: ids) (h :: tables) = none :: looked_up ids tables := by
  unfold looked_up
  rw [List.zipWith_cons_cons, if_pos rfl]

theorem looked_up_value {id : Int} (hm : id ≠ -1) (ids : List Int) (h : List Int)
    (tables : List (List Int)) :
    looked_up (id :: ids) (h :: tables) = some (h.getD id.toNat 0) :: looked_up ids tables := by
  unfold looked_up
  rw [List.zipWith_cons_cons, if_neg hm]

theorem scanned_stop {x : Option Int} (hx : is_infinite x = true) (l : List (Option Int)) :
    (((x :: l).takeWhile fun x => !is_infinite x).map fun x => x.getD 0) = [] := by
  rw [List.takeWhile_cons, hx]
  rfl

theorem scanned_go {value : Int} (hx : is_infinite (some value) = false)
    (l : List (Option Int)) :
    (((some value :: l).takeWhile fun x => !is_infinite x).map fun x => x.getD 0)
      = value :: ((l.takeWhile fun x => !is_infinite x).map fun x => x.getD 0) := by
  rw [List.takeWhile_cons, hx]
  rfl

theorem is_infinite_some (value : Int) : is_infinite (some value) = (value == INF) := by
  unfold is_infinite
  by_cases h : value = INF
  · subst h; rfl
  · have h1 : (value == INF) = false := by simpa using h
    have h2 : (some value == some INF) = false := by simpa using h
    rw [h1, h2]
    rfl

theorem scanned_nonneg {ids : List Int} {tables : List (List Int)}
    (hb : IdsInBounds ids tables) (hv : ∀ h ∈ tables, ∀ x ∈ h, 0 ≤ x) :
    0 ≤ (scanned_values ids tables).sum := by
  unfold IdsInBounds at hb
  induction hb with
  | nil => exact le_refl _
  | @cons id h ids tables hid _ ih =>
    have ih2 := ih (fun h1 hh1 => hv h1 (List.mem_cons_of_mem _ hh1))
    unfold scanned_values at ih2 ⊢
    by_cases hm : id = -1
    · subst hm
      rw [looked_up_pruned, @scanned_stop none rfl]
      exact le_refl _
    · rcases hid with hid | ⟨h0, h1⟩
      · exact absurd hid hm
      · have hval := hv h (List.mem_cons_self _ _) _ (getD_toNat_mem h0 h1)
        rw [looked_up_value hm]
        generalize h.getD id.toNat 0 = value at hval ⊢
        by_cases hinf : value = INF
        · rw [scanned_stop (by rw [is_infinite_some]; simpa using hinf)]
          exact le_refl _
        · rw [scanned_go (by rw [is_infinite_some]; simpa using hinf), List.sum_cons]
          omega

theorem sum_h_loop_spec (a : Bool) {ids : List Int} {tables : List (List Int)}
    (hb : IdsInBounds ids tables) (hv : ∀ h ∈ tables, ∀ x ∈ h, 0 ≤ x) :
    ∀ sum_h : Int, 0 ≤ sum_h → sum_h + (scanned_values ids tables).sum ≤ INF →
      sum_h_loop a ids tables sum_h
        = .ok (if (looked_up ids tables).any is_infinite then INF
            else sum_h + ((looked_up ids tables).map fun x => x.getD 0).sum) := by
  unfold IdsInBounds at hb
  induction hb with
  | nil =>
    intro sum_h h0 _
    have c : decide (sum_h ≥ 0) = true := by simpa using h0
    unfold sum_h_loop
    rw [c, check_true]
    simp [looked_up]
  | @cons id h ids tables hid hrest ih =>
    intro sum_h h0 hfit
    have hv2 : ∀ h1 ∈ tables, ∀ x ∈ h1, 0 ≤ x := fun h1 hh1 => hv h1 (List.mem_cons_of_mem _ hh1)
    have ih2 := ih hv2
    have hnn := scanned_nonneg hrest hv2
    unfold sum_h_loop
    by_cases hm : id = -1
    · subst hm
      rw [looked_up_pruned]
      rfl
    · rcases hid with hid | ⟨h1, h2⟩
      · exact absurd hid hm
      · have hval := hv h (List.mem_cons_self _ _) _ (getD_toNat_mem h1 h2)
        have c0 : (id == -1) = false := by simpa using hm
        have c1 : (decide (0 ≤ id) && decide (id < (h.length : Int))) = true := by
          simp [h1, h2]
        unfold scanned_values at hfit
        rw [looked_up_value hm] at hfit ⊢
        rw [c0, if_neg Bool.false_ne_true]
        dsimp only
        rw [c1, if_pos rfl]
        generalize h.getD id.toNat 0 = value at hval hfit ⊢
        have c2 : decide (value ≥ 0) = true := by simpa using hval
        rw [c2, check_true, List.any_cons, is_infinite_some]
        by_cases hinf : value = INF
        · have c3 : (value == INF) = true := by simpa using hinf
          rw [c3, if_pos rfl, Bool.true_or, if_pos rfl]
        · have c3 : (value == INF) = false := by simpa using hinf
          rw [scanned_go (by rw [is_infinite_some]; exact c3), List.sum_cons] at hfit
          unfold scanned_values at hnn ih2
          have hINF : INF = 2147483647 := by norm_num [INF]
          have c4 : (decide (sum_h + value > INF) ||
              decide (sum_h + value < -(2 ^ 31))) = false := by
            simp only [Bool.or_eq_false_iff, decide_eq_false_iff_not]
            constructor <;> omega
          rw [c3, if_neg Bool.false_ne_true, c4, if_neg Bool.false_ne_true, Bool.false_or,
            ih2 (sum_h + value) (by omega) (by omega), List.map_cons, List.sum_cons,
            Option.getD_some]
          split_ifs
          · rfl
          · congr 1
            ring

/-- C39 fails when the sum does not fit the type `int`: for two tables with
the single h value `2 ^ 30` (below `INF`) and the ids `[0, 0]`, no id is `-1`, no
value is `INF`, the sum of the values is `2 ^ 31`, above the largest `int`, and
the addition of line 33 overflows; `compute_sum_h` does not return the sum. -/
theorem sum_h_overflows :
    compute_sum_h true [0, 0] [[1073741824], [1073741824]] = .ub ∧
    compute_sum_h false [0, 0] [[1073741824], [1073741824]] = .ub ∧
    (looked_up [0, 0] [[1073741824], [1073741824]]).any is_infinite = false ∧
    ((looked_up [0, 0] [[1073741824], [1073741824]]).map fun x => x.getD 0).sum = 2147483648 ∧
    (2147483648 : Int) > INF := by
  decide

/-- C39 as amended: for every list of local state ids and equally long list of
tables of h values in which every id is `-1` or an index of its table and every h
value is at least 0, provided the sum of the values that the loop adds up (those
looked up before the first id `-1` or value `INF`) is at most `INF`, the largest
`int`, `compute_sum_h` returns `INF` if some id is `-1` or some looked-up value is
`INF`, and the sum of the looked-up values otherwise; no assertion fails. -/
theorem compute_sum_h_spec (a : Bool) (ids : List Int) (tables : List (List Int))
    (hb : IdsInBounds ids tables) (hv : ∀ h ∈ tables, ∀ x ∈ h, 0 ≤ x)
    (hfit : (scanned_values ids tables).sum ≤ INF) :
    compute_sum_h a ids tables
      = .ok (if (looked_up ids tables).any is_infinite then INF
          else ((looked_up ids tables).map fun x => x.getD 0).sum) := by
  unfold compute_sum_h
  have hlen : (ids.length == tables.length) = true := by
    simpa using List.Forall₂.length_eq hb
  rw [hlen, check_true, sum_h_loop_spec a hb hv 0 (le_refl _) (by omega)]
  simp

/-- Witness of the amended C39: the ids `[1, 0]` select the values 3 and 4. -/
theorem compute_sum_h_spec_witness :
    compute_sum_h true [1, 0] [[5, 3], [4]]
      = .ok (if (looked_up [1, 0] [[5, 3], [4]]).any is_infinite then INF
          else ((looked_up [1, 0] [[5, 3], [4]]).map fun x => x.getD 0).sum) :=
  compute_sum_h_spec true [1, 0] [[5, 3], [4]]
    (List.Forall₂.cons (Or.inr ⟨by norm_num, by norm_num⟩)
      (List.Forall₂.cons (Or.inr ⟨by norm_num, by norm_num⟩) List.Forall₂.nil))
    (by
      intro h hh x hx
      simp only [List.mem_cons, List.mem_singleton, List.not_mem_nil, or_false] at hh
      rcases hh with rfl | rfl <;> simp only [List.mem_cons, List.mem_singleton,
        List.not_mem_nil, or_false] at hx <;> omega)
    (by decide)

/-! ## The naive systematic pattern generation -/

theorem mem_extend_pattern {n i : Nat} {q p : List Nat} (hq : IsPattern n i q) :
    p ∈ extend_pattern n i q ↔ ∃ var, p = q ++ [var] ∧ var < n ∧ ∀ x ∈ q, x < var := by
  obtain ⟨hl, hs, -⟩ := hq
  unfold extend_pattern
  dsimp only
  rw [List.mem_map]
  by_cases hi : i > 0
  · rw [if_pos hi]
    rcases List.eq_nil_or_concat q with h | ⟨q1, a, h⟩
    · rw [h] at hl
      simp at hl
      omega
    · rw [List.concat_eq_append] at h
      subst h
      rw [List.getLastD_concat]
      rw [List.pairwise_append] at hs
      obtain ⟨-, -, h3⟩ := hs
      have hall : ∀ var, (∀ x ∈ q1 ++ [a], x < var) ↔ a < var := by
        intro var
        constructor
        · intro h
          exact h a (by simp)
        · intro h x hx
          rcases List.mem_append.1 hx with h4 | h4
          · exact lt_trans (h3 x h4 a (by simp)) h
          · simp only [List.mem_singleton] at h4
            rw [h4]; exact h
      constructor
      · rintro ⟨var, hv, rfl⟩
        rw [List.mem_range'_1] at hv
        exact ⟨var, rfl, by omega, (hall var).2 (by omega)⟩
      · rintro ⟨var, rfl, h1, h2⟩
        have := (hall var).1 h2
        exact ⟨var, by rw [List.mem_range'_1]; omega, rfl⟩
  · rw [if_neg hi]
    have h0 : q = [] := by
      apply List.length_eq_zero.1
      omega
    subst h0
    constructor
    · rintro ⟨var, hv, rfl⟩
      rw [List.mem_range'_1] at hv
      exact ⟨var, rfl, by omega, fun x hx => by cases hx⟩
    · rintro ⟨var, rfl, h1, -⟩
      exact ⟨var, by rw [List.mem_range'_1]; omega, rfl⟩

theorem mem_next_patterns {n i : Nat} {current : List (List Nat)}
    (hc : ∀ q, q ∈ current ↔ IsPattern n i q) (p : List Nat) :
    p ∈ current.flatMap (extend_pattern n i) ↔ IsPattern n (i + 1) p := by
  rw [List.mem_flatMap]
  constructor
  · rintro ⟨q, hq, hp⟩
    have hq2 := (hc q).1 hq
    obtain ⟨var, rfl, h1, h2⟩ := (mem_extend_pattern hq2).1 hp
    obtain ⟨hl, hs, hb⟩ := hq2
    refine ⟨by simp [hl], ?_, ?_⟩
    · rw [List.pairwise_append]
      refine ⟨hs, by simp, ?_⟩
      intro x hx y hy
      simp only [List.mem_singleton] at hy
      rw [hy]
      exact h2 x hx
    · intro x hx
      rcases List.mem_append.1 hx with h | h
      · exact hb x h
      · simp only [List.mem_singleton] at h
        rw [h]; exact h1
  · rintro ⟨hl, hs, hb⟩
    rcases List.eq_nil_or_concat p with h | ⟨q, a, h⟩
    · rw [h] at hl
      simp at hl
    · rw [List.concat_eq_append] at h
      subst h
      rw [List.pairwise_append] at hs
      obtain ⟨h1, -, h3⟩ := hs
      have hq : IsPattern n i q := by
        refine ⟨?_, h1, fun x hx => hb x (List.mem_append_left _ hx)⟩
        simp at hl
        exact hl
      refine ⟨q, (hc q).2 hq, (mem_extend_pattern hq).2 ⟨a, rfl, hb a (by simp), ?_⟩⟩
      intro x hx
      exact h3 x hx a (by simp)

theorem nodup_next_patterns (n i : Nat) {current : List (List Nat)} (hnd : current.Nodup) :
    (current.flatMap (extend_pattern n i)).Nodup := by
  rw [List.nodup_flatMap]
  constructor
  · intro q _
    unfold extend_pattern
    dsimp only
    refine List.Nodup.map ?_ (List.nodup_range' _ _)
    intro x y hxy
    dsimp only at hxy
    have := List.append_cancel_left hxy
    simpa using this
  · refine List.Pairwise.imp ?_ hnd
    intro q q1 hne
    unfold Function.onFun
    intro p hp hp1
    unfold extend_pattern at hp hp1
    dsimp only at hp hp1
    obtain ⟨x, -, rfl⟩ := List.mem_map.1 hp
    obtain ⟨y, -, hy⟩ := List.mem_map.1 hp1
    exact hne (List.append_inj' hy rfl).1.symm

theorem naive_rounds_spec (n : Nat) :
    ∀ (rounds i : Nat) (current patterns : List (List Nat)), current.Nodup →
      (∀ q, q ∈ current ↔ IsPattern n i q) →
      ∃ new, naive_rounds n rounds i current patterns = patterns ++ new ∧ new.Nodup ∧
        (∀ p, p ∈ new ↔ ∃ j, i < j ∧ j ≤ i + rounds ∧ IsPattern n j p) ∧
        (new.map List.length).Pairwise (· ≤ ·) := by
  intro rounds
  induction rounds with
  | zero =>
    intro i current patterns _ _
    refine ⟨[], by simp [naive_rounds], List.nodup_nil, ?_, by simp⟩
    intro p
    constructor
    · intro h; cases h
    · rintro ⟨j, h1, h2, -⟩
      omega
  | succ rounds ih =>
    intro i current patterns hnd hc
    have hmem := mem_next_patterns hc
    have hnd1 := nodup_next_patterns n i hnd
    obtain ⟨new, e1, e2, e3, e4⟩ := ih (i + 1) (current.flatMap (extend_pattern n i))
      (patterns ++ current.flatMap (extend_pattern n i)) hnd1 hmem
    refine ⟨current.flatMap (extend_pattern n i) ++ new, ?_, ?_, ?_, ?_⟩
    · unfold naive_rounds
      dsimp only
      rw [e1, List.append_assoc]
    · rw [List.nodup_append]
      refine ⟨hnd1, e2, ?_⟩
      intro p hp hp1
      have h1 := ((hmem p).1 hp).1
      obtain ⟨j, h2, -, h3, -⟩ := (e3 p).1 hp1
      omega
    · intro p
      rw [List.mem_append]
      constructor
      · rintro (h | h)
        · exact ⟨i + 1, by omega, by omega, (hmem p).1 h⟩
        · obtain ⟨j, h1, h2, h3⟩ := (e3 p).1 h
          exact ⟨j, by omega, by omega, h3⟩
      · rintro ⟨j, h1, h2, h3⟩
        by_cases hj : j = i + 1
        · left
          rw [hj] at h3
          exact (hmem p).2 h3
        · right
          exact (e3 p).2 ⟨j, by omega, by omega, h3⟩
    · rw [List.map_append, List.pairwise_append]
      refine ⟨?_, e4, ?_⟩
      · apply List.pairwise_of_forall_mem_list
        intro x hx y hy
        obtain ⟨p, hp, rfl⟩ := List.mem_map.1 hx
        obtain ⟨p1, hp1, rfl⟩ := List.mem_map.1 hy
        rw [((hmem p).1 hp).1, ((hmem p1).1 hp1).1]
      · intro x hx y hy
        obtain ⟨p, hp, rfl⟩ := List.mem_map.1 hx
        obtain ⟨p1, hp1, rfl⟩ := List.mem_map.1 hy
        obtain ⟨j, h2, -, h3, -⟩ := (e3 p1).1 hp1
        rw [((hmem p).1 hp).1, h3]
        omega

/-- C40: for every number of variables `n`, every `max_pattern_size` `k` and
every content of `patterns` on entry, `build_patterns_naive` without a handler
appends to `patterns` a list `new` that holds every strictly increasing sequence
over `{0..n-1}` of length between 1 and `min(k, n)`, nothing else, each one once,
in order of non-decreasing length. -/
theorem naive_patterns_enumerated (n k : Nat) (patterns : List (List Nat)) :
    ∃ new, build_patterns_naive n k patterns = patterns ++ new ∧ new.Nodup ∧
      (∀ p, p ∈ new ↔
        (p.Pairwise (· < ·) ∧ (∀ x ∈ p, x < n) ∧ 1 ≤ p.length ∧ p.length ≤ min k n)) ∧
      (new.map List.length).Pairwise (· ≤ ·) := by
  obtain ⟨new, e1, e2, e3, e4⟩ := naive_rounds_spec n k 0 [[]] patterns (by simp) (by
    intro q
    simp only [List.mem_singleton]
    constructor
    · rintro rfl
      exact ⟨rfl, List.Pairwise.nil, fun x hx => by cases hx⟩
    · rintro ⟨hl, -, -⟩
      exact List.length_eq_zero.1 hl)
  refine ⟨new, e1, e2, ?_, e4⟩
  intro p
  rw [e3 p]
  constructor
  · rintro ⟨j, h1, h2, h3, h4, h5⟩
    have hn : p.length ≤ n :=
      nodup_length_le p n (h4.imp (fun h => ne_of_lt h)) h5
    refine ⟨h4, h5, by omega, ?_⟩
    rw [Nat.le_min]
    omega
  · rintro ⟨h1, h2, h3, h4⟩
    rw [Nat.le_min] at h4
    exact ⟨p.length, by omega, by omega, rfl, h1, h2⟩

/-- The run for three variables and `max_pattern_size = 2` from an empty
collection. -/
theorem naive_patterns_scenario :
    build_patterns_naive 3 2 [] = [[0], [1], [2], [0, 1], [0, 2], [1, 2]] := by
  decide

end cegar
